import Mathlib

/-!
Markov-random-field relaxation step (`spm_mrf.c`).

A shallow embedding of `mrf1` from `src/lib/spm8/toolbox/Seg/spm_mrf.c`.

Conventions of the embedding.

* `mwSize` (an `int` in this file) is embedded as `Nat`; index arithmetic is exact, which agrees
  with the C code on every run without signed overflow (overflow is undefined in C).
* `float`/`double` values are embedded twice.  For the properties that do not depend on
  rounding (which cells are read and written, in which order, from which operands) they are
  elements of a linearly ordered field `α` with a floor function (the reals, or the rationals
  for evaluation), with exact operations.  For the stored bytes on a single voxel and for the
  range of the quantised value they are IEEE 754 values (`Fv`): every operation is rounded to
  `float` or `double` as C types it (section "Rounded arithmetic").  The library function
  `exp` is the parameter `ex` in both.
* Arrays are total maps from offsets; pointers are offsets.  The interaction argument `G` is
  accessed by the code both as `float *` and as `unsigned char *`, so it is embedded as a pair
  of views.
* The local buffers `a`, `e` and the local `se` start as zero where C leaves them
  uninitialised; they are written before they are read whenever `1 ≤ code ≤ 5`.
-/

namespace SpmMrf

/-! ## Loops -/

/-- The loop `for (i = i; i < stop; i += step) s = body i s`, run for at most `fuel` rounds. -/
def forFuel {σ : Type} (step stop : Nat) (body : Nat → σ → σ) : Nat → Nat → σ → σ
  | 0, _, s => s
  | fuel + 1, i, s =>
      if i < stop then forFuel step stop body fuel (i + step) (body i s) else s

/-- The loop `for (i = start; i < stop; i += step) s = body i s`; `stop` rounds always suffice
when `step ≥ 1`. -/
def forUp {σ : Type} (start stop step : Nat) (body : Nat → σ → σ) (s : σ) : σ :=
  forFuel step stop body stop start s

/-! ## Data -/

/-- The array `dm[4]`: three spatial extents and the number of classes. -/
structure Dims where
  d0 : Nat
  d1 : Nat
  d2 : Nat
  d3 : Nat
deriving DecidableEq, Repr

/-- The constant `MAXCLASSES`. -/
def MAXCLASSES : Nat := 1024

/-- The memory behind the argument `G`, as seen through `float *` and through
`unsigned char *`. -/
structure GMem (α : Type) where
  asFloat : Nat → α
  asUChar : Nat → Nat

/-- The conversion `(unsigned char)(x)` of a floating value: truncation towards zero.  C
leaves the conversion undefined when the truncated value is outside `[0, 255]`; here such a
value is reduced modulo 256. -/
def ucharCast {α : Type} [LinearOrderedField α] [FloorRing α] (x : α) : Nat :=
  Int.toNat ((if 0 ≤ x then Int.floor x else Int.ceil x) % 256)

/-- The number `m = dm[0]*dm[1]*dm[2]` of voxels. -/
def nvox (dm : Dims) : Nat := dm.d0 * dm.d1 * dm.d2

/-- The offset `i0 + dm[0]*(i1 + dm[1]*i2)` of a voxel in the first volume. -/
def voxOff (dm : Dims) (i0 i1 i2 : Nat) : Nat := i0 + dm.d0 * (i1 + dm.d1 * i2)

section Engine

variable {α : Type} [LinearOrderedField α]

/-! ## Neighbour accumulation (lines 85-131) -/

/-- The loop `for(k=0; k<dm[3]; k++) a[k] += qq[k*m]*wt`. -/
def addNeighbour (K m : Nat) (q : Nat → Nat) (qq : Nat) (wt : α) (a : Nat → α) : Nat → α :=
  forUp 0 K 1 (fun k a => Function.update a k (a k + (q (qq + k * m) : α) * wt)) a

/-- The vector `a` after lines 85-131 at voxel `(i0, i1, i2)`. -/
def influence (dm : Dims) (q : Nat → Nat) (w : Nat → α) (i0 i1 i2 : Nat) : Nat → α :=
  let m := nvox dm
  let q0 := voxOff dm i0 i1 i2
  let a : Nat → α := forUp 0 dm.d3 1 (fun k a => Function.update a k 0) (fun _ => 0)
  let a := if i2 > 0 then addNeighbour dm.d3 m q (q0 - dm.d0 * dm.d1) (w 2) a else a
  let a := if i2 < dm.d2 - 1 then addNeighbour dm.d3 m q (q0 + dm.d0 * dm.d1) (w 2) a else a
  let a := if i1 > 0 then addNeighbour dm.d3 m q (q0 - dm.d0) (w 1) a else a
  let a := if i1 < dm.d1 - 1 then addNeighbour dm.d3 m q (q0 + dm.d0) (w 1) a else a
  let a := if i0 > 0 then addNeighbour dm.d3 m q (q0 - 1) (w 0) a else a
  let a := if i0 < dm.d0 - 1 then addNeighbour dm.d3 m q (q0 + 1) (w 0) a else a
  forUp 0 dm.d3 1 (fun k a => Function.update a k (a k / (255 * 6))) a

/-! ## Interaction models (lines 133-238) -/

/-- The working state of a dense branch: the buffer `e`, the sum `se`, the pointer `g`. -/
structure DenseSt (α : Type) where
  e : Nat → α
  se : α
  g : Nat

/-- The loop `for(n=0; n<dm[3]; n++, g+=stride) e[k] += (*g)*a[n]` of the dense branches. -/
def denseRow (K stride : Nat) (G : Nat → α) (a : Nat → α) (k : Nat)
    (eg : (Nat → α) × Nat) : (Nat → α) × Nat :=
  forUp 0 K 1
    (fun n eg => (Function.update eg.1 k (eg.1 k + G eg.2 * a n), eg.2 + stride)) eg

/-- The branches `code == 1` (with `g0 = 0`, `stride = 1`) and `code == 3` (with `g0` the
voxel offset and `stride = m`): the result is the buffer `e` and the sum `se`. -/
def denseBranch (ex : α → α) (K m : Nat) (G p : Nat → α) (p0 g0 stride : Nat)
    (a : Nat → α) : (Nat → α) × α :=
  let st := forUp 0 K 1 (fun k (st : DenseSt α) =>
    let e := Function.update st.e k 0
    let eg := denseRow K stride G a k (e, st.g)
    let e := Function.update eg.1 k (ex (eg.1 k) * p (p0 + k * m))
    DenseSt.mk e (st.se + e k) eg.2) (DenseSt.mk (fun _ => 0) 0 g0)
  (st.e, st.se)

/-- The branch `code == 2`. -/
def diagBranch (ex : α → α) (K m : Nat) (G p : Nat → α) (p0 : Nat)
    (a : Nat → α) : (Nat → α) × α :=
  forUp 0 K 1 (fun k (st : (Nat → α) × α) =>
    let e := Function.update st.1 k (ex (G k * a k) * p (p0 + k * m))
    (e, st.2 + e k)) (fun _ => 0, 0)

/-- The zeroing loop and the double loop shared by the branches `code == 4` and `code == 5`:
`for k, for n = k+1.., g += m`, with `e[k] += (*g)*a[n]; e[n] += (*g)*a[k]`.  The map `rd`
reads an entry of the packed structure as a floating value. -/
def packedAccum (K m : Nat) (rd : Nat → α) (g0 : Nat) (a : Nat → α) : (Nat → α) × Nat :=
  let e : Nat → α := forUp 0 K 1 (fun k e => Function.update e k 0) (fun _ => 0)
  forUp 0 K 1 (fun k eg =>
    forUp (k + 1) K 1 (fun n (eg : (Nat → α) × Nat) =>
      let e := Function.update eg.1 k (eg.1 k + rd eg.2 * a n)
      let e := Function.update e n (e n + rd eg.2 * a k)
      (e, eg.2 + m)) eg) (e, g0)

/-- The closing loop of the branches `code == 4` and `code == 5`:
`e[k] = exp(arg(e[k]))*p0[k*m]; se += e[k]`, where `arg(x)` is `(double)x` in the branch
`code == 4` and `-0.0625*x` in the branch `code == 5`. -/
def expLoop (ex : α → α) (K m : Nat) (arg : α → α) (p : Nat → α) (p0 : Nat)
    (e : Nat → α) : (Nat → α) × α :=
  forUp 0 K 1 (fun k (st : (Nat → α) × α) =>
    let e := Function.update st.1 k (ex (arg (st.1 k)) * p (p0 + k * m))
    (e, st.2 + e k)) (e, 0)

/-- The `if (code == 1) ... else if (code == 5)` chain: the buffer `e` and the sum `se`. -/
def interaction (ex : α → α) (dm : Dims) (p : Nat → α) (G : GMem α) (code : Nat)
    (v : Nat) (a : Nat → α) : (Nat → α) × α :=
  let m := nvox dm
  if code = 1 then denseBranch ex dm.d3 m G.asFloat p v 0 1 a
  else if code = 2 then diagBranch ex dm.d3 m G.asFloat p v a
  else if code = 3 then denseBranch ex dm.d3 m G.asFloat p v v m a
  else if code = 4 then
    expLoop ex dm.d3 m (fun x => x) p v (packedAccum dm.d3 m G.asFloat v a).1
  else if code = 5 then
    expLoop ex dm.d3 m (fun x => -(1 / 16) * x) p v
      (packedAccum dm.d3 m (fun i => ((G.asUChar i : Nat) : α)) v a).1
  else (fun _ => 0, 0)

/-! ## Normalisation and write-back (lines 241-245) -/

/-- The loop `for(k=0; k<dm[3]; k++) q0[k*m] = (unsigned char)(e[k]*se+0.5)`, after
`se = 255.0/se`. -/
def writeBack [FloorRing α] (K m : Nat) (v : Nat) (e : Nat → α) (se : α)
    (q : Nat → Nat) : Nat → Nat :=
  let se := 255 / se
  forUp 0 K 1 (fun k q => Function.update q (v + k * m) (ucharCast (e k * se + 1 / 2))) q

/-- The body of the innermost loop (lines 77-245): the update of voxel `(i0, i1, i2)`. -/
def voxel [FloorRing α] (ex : α → α) (dm : Dims) (p : Nat → α) (G : GMem α)
    (w : Nat → α) (code : Nat) (i0 i1 i2 : Nat) (q : Nat → Nat) : Nat → Nat :=
  let v := voxOff dm i0 i1 i2
  let a := influence dm q w i0 i1 i2
  let r := interaction ex dm p G code v a
  writeBack dm.d3 (nvox dm) v r.1 r.2 q

end Engine

/-! ## The checkerboard sweep (lines 41-75) -/

/-- One round of the loop over `it`: the three nested spatial loops with their start
offsets `i2start`, `i1start`, `i0start`, for an arbitrary loop body. -/
def halfSweep {σ : Type} (dm : Dims) (it : Nat) (body : Nat → Nat → Nat → σ → σ)
    (s : σ) : σ :=
  let i2start := it % 2
  forUp 0 dm.d2 1 (fun i2 s =>
    let i1start := if i2start = i2 % 2 then 1 else 0
    forUp 0 dm.d1 1 (fun i1 s =>
      let i0start := if i1start = i1 % 2 then 1 else 0
      forUp i0start dm.d0 2 (fun i0 s => body i0 i1 i2 s) s) s) s

/-- The function `mrf1`: two half-sweeps over the grid. -/
def mrf1 {α : Type} [LinearOrderedField α] [FloorRing α] (ex : α → α) (dm : Dims)
    (q : Nat → Nat) (p : Nat → α) (G : GMem α) (w : Nat → α) (code : Nat) : Nat → Nat :=
  forUp 0 2 1 (fun it q => halfSweep dm it (voxel ex dm p G w code) q) q

/-- The voxels visited in half-sweep `it`, in order: the loops of `mrf1` with a body that
records its indices. -/
def visits (dm : Dims) (it : Nat) : List (Nat × Nat × Nat) :=
  halfSweep dm it (fun i0 i1 i2 l => l ++ [(i0, i1, i2)]) []

/-! ## Closed forms used in the statements -/

section ClosedForms

variable {α : Type} [LinearOrderedField α]

/-- The contribution of one guarded neighbour read to `a[k]`. -/
def nbTerm (c : Bool) (q : Nat → Nat) (qq : Nat) (wt : α) : α :=
  if c then (q qq : α) * wt else 0

/-- The position, among the packed entries of one voxel, of the entry for row `r` and
column `c > r`: `r*K - r*(r+1)/2 + (c - r - 1)`. -/
def packedIdx (K r c : Nat) : Nat := r * K - r * (r + 1) / 2 + (c - r - 1)

/-- The symmetric, zero-diagonal matrix `S_v` whose strictly upper entries are the packed
entries read (through `rd`) at offsets `g0 + m * packedIdx K r c`. -/
def symPacked (K m : Nat) (rd : Nat → α) (g0 : Nat) (k n : Nat) : α :=
  if k < n then rd (g0 + m * packedIdx K k n)
  else if n < k then rd (g0 + m * packedIdx K n k)
  else 0

/-- The exponent of class `k` in each mode, in closed form: the argument of `exp` in
`e[k] = exp(...)*p0[k*m]`. -/
def effective (dm : Dims) (G : GMem α) (code : Nat) (v : Nat) (a : Nat → α) (k : Nat) : α :=
  if code = 1 then ∑ n in Finset.range dm.d3, G.asFloat (k * dm.d3 + n) * a n
  else if code = 2 then G.asFloat k * a k
  else if code = 3 then ∑ n in Finset.range dm.d3, G.asFloat (v + (k * dm.d3 + n) * nvox dm) * a n
  else if code = 4 then
    ∑ n in Finset.range dm.d3, symPacked dm.d3 (nvox dm) G.asFloat v k n * a n
  else if code = 5 then
    -(1 / 16) * ∑ n in Finset.range dm.d3,
      symPacked dm.d3 (nvox dm) (fun i => ((G.asUChar i : Nat) : α)) v k n * a n
  else 0

/-- The entries of `S_v` already accumulated into `e[j]` when the double loop of the packed
branches stands at row `r`, column `c`: those pairs, taken with the smaller index first, that
come before `(r, c)` in lexicographic order. -/
def packedDone (K r c j n : Nat) : Prop :=
  j < K ∧ ((j < n ∧ (j < r ∨ (j = r ∧ n < c))) ∨ (n < j ∧ (n < r ∨ (n = r ∧ j < c))))

instance (K r c j n : Nat) : Decidable (packedDone K r c j n) := by
  unfold packedDone
  infer_instance

end ClosedForms

/-! ## Grid geometry used in the statements -/

/-- The voxel `x` lies inside the grid. -/
def inGrid (dm : Dims) (x : Nat × Nat × Nat) : Prop :=
  x.1 < dm.d0 ∧ x.2.1 < dm.d1 ∧ x.2.2 < dm.d2

instance (dm : Dims) (x : Nat × Nat × Nat) : Decidable (inGrid dm x) := by
  unfold inGrid
  infer_instance

/-- The colour of a voxel: the parity of the sum of its coordinates. -/
def colour (x : Nat × Nat × Nat) : Nat := (x.1 + x.2.1 + x.2.2) % 2

/-- Two voxels are face-adjacent: their coordinates differ by one along exactly one axis. -/
def faceAdj (x y : Nat × Nat × Nat) : Prop :=
  (x.1 - y.1 + (y.1 - x.1)) + (x.2.1 - y.2.1 + (y.2.1 - x.2.1))
    + (x.2.2 - y.2.2 + (y.2.2 - x.2.2)) = 1

instance (x y : Nat × Nat × Nat) : Decidable (faceAdj x y) := by
  unfold faceAdj
  infer_instance

/-- The axis along which two face-adjacent voxels differ. -/
def axisOf (x y : Nat × Nat × Nat) : Nat :=
  if x.1 ≠ y.1 then 0 else if x.2.1 ≠ y.2.1 then 1 else 2

/-- The voxel to which offset `o` of the responsibility volume belongs. -/
def voxelOf (dm : Dims) (o : Nat) : Nat × Nat × Nat :=
  (o % nvox dm % dm.d0, o % nvox dm / dm.d0 % dm.d1, o % nvox dm / (dm.d0 * dm.d1))

/-- The synchronous update of one colour, in the words of the specification: every voxel of
colour `it` receives the voxel update computed from the state `q` before the half-sweep, and
every other byte is unchanged. -/
def syncHalf {α : Type} [LinearOrderedField α] [FloorRing α] (ex : α → α) (dm : Dims)
    (p : Nat → α) (G : GMem α) (w : Nat → α) (code : Nat) (it : Nat) (q : Nat → Nat) :
    Nat → Nat :=
  fun o =>
    if o < nvox dm * dm.d3 ∧ colour (voxelOf dm o) = it % 2 then
      voxel ex dm p G w code (voxelOf dm o).1 (voxelOf dm o).2.1 (voxelOf dm o).2.2 q o
    else q o

/-- The sum, over the voxels of the grid that are face-adjacent to `x`, of `w[axis]` times
the byte of class `k` of that voxel. -/
def neighbourSum {α : Type} [LinearOrderedField α] (dm : Dims) (q : Nat → Nat) (w : Nat → α)
    (x : Nat × Nat × Nat) (k : Nat) : α :=
  ∑ j2 in Finset.range dm.d2, ∑ j1 in Finset.range dm.d1, ∑ j0 in Finset.range dm.d0,
    if faceAdj x (j0, j1, j2) then
      w (axisOf x (j0, j1, j2)) * (q (voxOff dm j0 j1 j2 + k * nvox dm) : α)
    else 0

/-- The number of the six positions `i0±1`, `i1±1`, `i2±1` next to voxel `x` that lie inside
the grid. -/
def nbCount (dm : Dims) (x : Nat × Nat × Nat) : Nat :=
  (if x.2.2 > 0 then 1 else 0) + (if x.2.2 + 1 < dm.d2 then 1 else 0)
    + (if x.2.1 > 0 then 1 else 0) + (if x.2.1 + 1 < dm.d1 then 1 else 0)
    + (if x.1 > 0 then 1 else 0) + (if x.1 + 1 < dm.d0 then 1 else 0)

/-- The storage of a `K × K` matrix as the host passes it (column-major): the element of
row `r` and column `c` stands at offset `r + K * c`. -/
def colMajor {α : Type} (K : Nat) (M : Nat → Nat → α) : Nat → α :=
  fun o => M (o % K) (o / K)

/-- A matrix that is not symmetric: its only non-zero entry is `6`, in row 0 and column 1. -/
def asymM {α : Type} [LinearOrderedField α] : Nat → Nat → α :=
  fun r c => if r = 0 ∧ c = 1 then 6 else 0

/-! ## The entry point `mexFunction` (lines 253-373) -/

/-- The element class of a host array, as far as `mexFunction` distinguishes it. -/
inductive MxClass
  | mxUINT8
  | mxSINGLE
  | mxDOUBLE
  | mxINT16
  | mxOTHER
deriving DecidableEq

/-- What `mexFunction` reads of the header of an argument: the answers of `mxIsNumeric`,
`mxIsComplex`, `mxIsSparse`, the element class, and the dimension vector
(`mxGetDimensions`, of length `mxGetNumberOfDimensions`). -/
structure MxArray where
  isNumeric : Bool
  isComplex : Bool
  isSparse : Bool
  cls : MxClass
  dims : List Nat

/-- The ways `mexFunction` stops before calling `mrf1`: `mexErrMsgTxt` with a message, or a
read of the dimension vector at an index that the array does not have (undefined in C). -/
inductive MexStop
  | err (msg : String)
  | badRead
deriving DecidableEq

/-- The read `mxGetDimensions(a)[i]`. -/
def dimAt (a : MxArray) (i : Nat) : Except MexStop Nat :=
  match a.dims[i]? with
  | some d => Except.ok d
  | none => Except.error MexStop.badRead

/-- A loop `for(i=i0; ...; i++) if (mxGetDimensions(a)[i] != dm[i]) mexErrMsgTxt(msg)` over
the expected extents `ds`. -/
def checkDimsFrom (a : MxArray) (msg : String) : Nat → List Nat → Except MexStop Unit
  | _, [] => Except.ok ()
  | i, d :: ds =>
    match dimAt a i with
    | Except.error e => Except.error e
    | Except.ok v =>
      if v ≠ d then Except.error (MexStop.err msg) else checkDimsFrom a msg (i + 1) ds

/-- The array `dm` after lines 278-282: the extents of the first argument, filled with 1. -/
def dmOf (a : MxArray) : Dims :=
  ⟨a.dims.getD 0 1, a.dims.getD 1 1, a.dims.getD 2 1, a.dims.getD 3 1⟩

/-- The selection of `code` from the third argument (lines 290-335). -/
def selectCode (a0 a2 : MxArray) (dm : Dims) : Except MexStop Nat :=
  match dimAt a2 1 with
  | Except.error e => Except.error e
  | Except.ok d1 =>
    if d1 = 1 then
      match dimAt a2 0 with
      | Except.error e => Except.error e
      | Except.ok d0 =>
        if d0 ≠ dm.d3 then Except.error (MexStop.err "Third arg has incompatible dimensions.")
        else if a2.cls ≠ MxClass.mxSINGLE then
          Except.error (MexStop.err "Third arg must be single.")
        else Except.ok 2
    else if a2.dims.length = 2 then
      match dimAt a2 0 with
      | Except.error e => Except.error e
      | Except.ok d0 =>
        if d0 ≠ dm.d3 ∨ d1 ≠ dm.d3 then
          Except.error (MexStop.err "Third arg has incompatible dimensions.")
        else if a2.cls ≠ MxClass.mxSINGLE then
          Except.error (MexStop.err "Third arg must be single.")
        else Except.ok 1
    else if a2.dims.length = 5 then
      match checkDimsFrom a2 "Third arg has incompatible dimensions." 0
          [dm.d0, dm.d1, dm.d2, dm.d3] with
      | Except.error e => Except.error e
      | Except.ok _ =>
        match dimAt a2 4 with
        | Except.error e => Except.error e
        | Except.ok d4 =>
          if d4 ≠ dm.d3 then
            Except.error (MexStop.err "Third arg has incompatible dimensions.")
          else if a2.cls ≠ MxClass.mxSINGLE then
            Except.error (MexStop.err "Third arg must be single.")
          else Except.ok 3
    else if a2.dims.length = 4 then
      match checkDimsFrom a2 "Third arg has incompatible dimensions." 0
          [dm.d0, dm.d1, dm.d2] with
      | Except.error e => Except.error e
      | Except.ok _ =>
        match dimAt a2 3 with
        | Except.error e => Except.error e
        | Except.ok d3 =>
          if d3 ≠ (dm.d3 * (dm.d3 - 1)) / 2 then
            Except.error (MexStop.err "Third arg has incompatible dimensions.")
          else if a2.cls = MxClass.mxSINGLE then Except.ok 4
          else if a0.cls = MxClass.mxUINT8 then Except.ok 5
          else Except.error (MexStop.err "Third arg must be either single or uint8.")
    else Except.error (MexStop.err "Third arg has incompatible dimensions.")

/-- The checks of the fourth argument (lines 341-352); `mxGetNumberOfElements` is the
product of the extents. -/
def checkFourth (nrhs : Nat) (a3 : MxArray) : Except MexStop Unit :=
  if nrhs ≥ 4 then
    if ¬ a3.isNumeric ∨ a3.isComplex ∨ a3.isSparse ∨ a3.cls ≠ MxClass.mxSINGLE then
      Except.error (MexStop.err "Fourth arg must be numeric, real, full and single.")
    else if a3.dims.prod ≠ 3 then
      Except.error (MexStop.err "Fourth arg must contain three elements.")
    else Except.ok ()
  else Except.ok ()

/-- The part of `mexFunction` before the output is created (lines 262-356): all the checks,
the array `dm` and the selected `code`. -/
def mexSetup (nlhs nrhs : Nat) (prhs : Nat → MxArray) : Except MexStop (Dims × Nat) :=
  if nrhs < 3 ∨ nrhs > 4 ∨ nlhs > 1 then Except.error (MexStop.err "Incorrect usage")
  else if ¬ (prhs 0).isNumeric ∨ (prhs 0).isComplex ∨ (prhs 0).isSparse
      ∨ (prhs 0).cls ≠ MxClass.mxUINT8 then
    Except.error (MexStop.err "First arg must be numeric, real, full and uint8.")
  else if ¬ (prhs 1).isNumeric ∨ (prhs 1).isComplex ∨ (prhs 1).isSparse
      ∨ (prhs 1).cls ≠ MxClass.mxSINGLE then
    Except.error (MexStop.err "Second arg must be numeric, real, full and single.")
  else if ¬ (prhs 2).isNumeric ∨ (prhs 2).isComplex ∨ (prhs 2).isSparse then
    Except.error (MexStop.err "Third arg must be numeric, real and full.")
  else if (prhs 0).dims.length ≠ (prhs 1).dims.length ∨ (prhs 0).dims.length > 4 then
    Except.error (MexStop.err "First or second args have wrong number of dimensions.")
  else if (dmOf (prhs 0)).d3 > MAXCLASSES then Except.error (MexStop.err "Too many classes.")
  else
    match checkDimsFrom (prhs 1) "First and second args have incompatible dimensions." 0
        [(dmOf (prhs 0)).d0, (dmOf (prhs 0)).d1, (dmOf (prhs 0)).d2, (dmOf (prhs 0)).d3] with
    | Except.error e => Except.error e
    | Except.ok _ =>
      match selectCode (prhs 0) (prhs 2) (dmOf (prhs 0)) with
      | Except.error e => Except.error e
      | Except.ok code =>
        match checkFourth nrhs (prhs 3) with
        | Except.error e => Except.error e
        | Except.ok _ => Except.ok (dmOf (prhs 0), code)

/-- The state in which `mexFunction` leaves: how it stopped (`none` for a normal return),
whether `mrf1` was entered, the data of the caller's first argument, and the data of the
output `plhs[0]` when it was created. -/
structure MexResult where
  stop : Option MexStop
  entered : Bool
  caller : Nat → Nat
  plhs0 : Option (Nat → Nat)

/-- The function `mexFunction`: `q`, `p`, `G`, `wdat` are the data of the four arguments.
With `nlhs > 0` the input is copied into a fresh (zero-filled) output on which `mrf1` works;
otherwise `mrf1` works on the caller's array. -/
def mexFunction {α : Type} [LinearOrderedField α] [FloorRing α] (ex : α → α)
    (nlhs nrhs : Nat) (prhs : Nat → MxArray) (q : Nat → Nat) (p : Nat → α) (G : GMem α)
    (wdat : Nat → α) : MexResult :=
  match mexSetup nlhs nrhs prhs with
  | Except.error e => ⟨some e, false, q, none⟩
  | Except.ok (dm, code) =>
    let w : Nat → α := if nrhs ≥ 4 then wdat else fun _ => 1
    if nlhs > 0 then
      ⟨none, true, q,
        some (mrf1 ex dm (fun i => if i < dm.d0 * dm.d1 * dm.d2 * dm.d3 then q i else 0)
          p G w code)⟩
    else ⟨none, true, mrf1 ex dm q p G w code, none⟩

/-- An argument vector whose first two arguments are well-formed for the grid `X x Y x Z`
with `K` classes (a full real `uint8` array and a full real `single` array of extents
`[X, Y, Z, K]`) and whose third argument is `third`. -/
def validArgs (X Y Z K : Nat) (third : MxArray) : Nat → MxArray :=
  fun i =>
    if i = 0 then ⟨true, false, false, MxClass.mxUINT8, [X, Y, Z, K]⟩
    else if i = 1 then ⟨true, false, false, MxClass.mxSINGLE, [X, Y, Z, K]⟩
    else third

/-! ## The array accesses of `mrf1`, with `int` index arithmetic

The index expressions of `mrf1` are computed in the type `mwSize`, which line 8 defines as
`int`.  The definitions below follow the loops of `mrf1` once more and record every array
access with its element index.  An `int` expression is evaluated with `wrap32`; adding an
`int` to a pointer is exact.  No access index depends on the data, so the record is a
function of `dm` and `code` alone. -/

/-- The value of an `int` expression whose mathematical value is `z`: 32 bits, two's
complement; signed overflow (undefined in C) is modelled as wrap-around. -/
def wrap32 (z : Int) : Int := (z + 2147483648) % 4294967296 - 2147483648

/-- The arrays that `mrf1` reads or writes: the arguments `q`, `p`, `G`, `w` and the local
buffers `a`, `e`. -/
inductive Arr
  | q
  | p
  | G
  | w
  | a
  | e
deriving DecidableEq

/-- One array access: the array, the element index (relative to the start of the array), and
whether it is a write. -/
structure Access where
  arr : Arr
  idx : Int
  isWrite : Bool
deriving DecidableEq

/-- A loop `for (i = start; i < stop; i += step) body` over an `int` counter, run for at most
`fuel` iterations. -/
def forInt {σ : Type} (fuel : Nat) (stop step : Int) (body : Int → σ → σ) (i : Int) (s : σ) :
    σ :=
  match fuel with
  | 0 => s
  | f + 1 => if i < stop then forInt f stop step body (wrap32 (i + step)) (body i s) else s

/-- Line 83: `for(k=0; k<dm[3]; k++) a[k] = 0.0`. -/
def clearAcc (K : Int) (t : List Access) : List Access :=
  forInt K.toNat K 1 (fun k t => t ++ [⟨Arr.a, k, true⟩]) 0 t

/-- One neighbour loop `for(k=0; k<dm[3]; k++) a[k] += qq[k*m]*w[c]` (lines 92-125); `qq` is
the offset of the pointer `qq` from `q`. -/
def neighbourAcc (K m qq c : Int) (t : List Access) : List Access :=
  forInt K.toNat K 1
    (fun k t => t ++ [⟨Arr.a, k, false⟩, ⟨Arr.q, qq + wrap32 (k * m), false⟩,
      ⟨Arr.w, c, false⟩, ⟨Arr.a, k, true⟩]) 0 t

/-- Lines 83-131 at the voxel `(i0, i1, i2)` whose pointers `q0`, `p0` have the offset `v0`:
the clearing of `a`, the six guarded neighbour loops, and the scaling loop. -/
def influenceAcc (dm : Dims) (m i0 i1 i2 v0 : Int) (t : List Access) : List Access :=
  let t := clearAcc dm.d3 t
  let t := if i2 > 0 then neighbourAcc dm.d3 m (v0 - wrap32 (dm.d0 * dm.d1)) 2 t else t
  let t := if i2 < wrap32 (dm.d2 - 1) then
    neighbourAcc dm.d3 m (v0 + wrap32 (dm.d0 * dm.d1)) 2 t else t
  let t := if i1 > 0 then neighbourAcc dm.d3 m (v0 - dm.d0) 1 t else t
  let t := if i1 < wrap32 (dm.d1 - 1) then neighbourAcc dm.d3 m (v0 + dm.d0) 1 t else t
  let t := if i0 > 0 then neighbourAcc dm.d3 m (v0 - 1) 0 t else t
  let t := if i0 < wrap32 (dm.d0 - 1) then neighbourAcc dm.d3 m (v0 + 1) 0 t else t
  forInt (Int.toNat dm.d3) dm.d3 1 (fun k t => t ++ [⟨Arr.a, k, false⟩, ⟨Arr.a, k, true⟩]) 0 t

/-- The loops of the dense modes (code 1, lines 138-151, with `g = G` and `g++`; code 3,
lines 168-181, with `g = G + i0+dm[0]*(i1+dm[1]*i2)` and `g += m`): the state is the offset
of the pointer `g` from `G` and the record. -/
def denseAcc (K m v0 g0 stride : Int) (t : List Access) : List Access :=
  (forInt K.toNat K 1
    (fun k s =>
      let s1 := forInt K.toNat K 1
        (fun n s => (s.1 + stride,
          s.2 ++ [⟨Arr.G, s.1, false⟩, ⟨Arr.a, n, false⟩, ⟨Arr.e, k, false⟩,
            ⟨Arr.e, k, true⟩]))
        0 (s.1, s.2 ++ [⟨Arr.e, k, true⟩])
      (s1.1, s1.2 ++ [⟨Arr.e, k, false⟩, ⟨Arr.p, v0 + wrap32 (k * m), false⟩,
        ⟨Arr.e, k, true⟩, ⟨Arr.e, k, false⟩]))
    0 (g0, t)).2

/-- The loop of the diagonal mode (code 2, lines 157-161). -/
def diagAcc (K m v0 : Int) (t : List Access) : List Access :=
  forInt K.toNat K 1
    (fun k t => t ++ [⟨Arr.G, k, false⟩, ⟨Arr.a, k, false⟩,
      ⟨Arr.p, v0 + wrap32 (k * m), false⟩, ⟨Arr.e, k, true⟩, ⟨Arr.e, k, false⟩]) 0 t

/-- The loops of the packed modes (code 4, lines 192-208; code 5, lines 223-239; in code 5
the elements of `G` are bytes): clearing of `e`, the pair loop with `g += m`, and the
exponential loop. -/
def packedAcc (K m v0 g0 : Int) (t : List Access) : List Access :=
  let t1 := forInt K.toNat K 1 (fun k t => t ++ [⟨Arr.e, k, true⟩]) 0 t
  let s2 := forInt K.toNat K 1
    (fun k s =>
      forInt K.toNat K 1
        (fun n s => (s.1 + m,
          s.2 ++ [⟨Arr.G, s.1, false⟩, ⟨Arr.a, n, false⟩, ⟨Arr.e, k, false⟩,
            ⟨Arr.e, k, true⟩, ⟨Arr.a, k, false⟩, ⟨Arr.e, n, false⟩, ⟨Arr.e, n, true⟩]))
        (wrap32 (k + 1)) s)
    0 (g0, t1)
  forInt K.toNat K 1
    (fun k t => t ++ [⟨Arr.e, k, false⟩, ⟨Arr.p, v0 + wrap32 (k * m), false⟩,
      ⟨Arr.e, k, true⟩, ⟨Arr.e, k, false⟩]) 0 s2.2

/-- The five branches on `code` (lines 133-240). -/
def interactionAcc (dm : Dims) (code : Nat) (m i0 i1 i2 v0 : Int) (t : List Access) :
    List Access :=
  if code = 1 then denseAcc dm.d3 m v0 0 1 t
  else if code = 2 then diagAcc dm.d3 m v0 t
  else if code = 3 then
    denseAcc dm.d3 m v0 (i0 + wrap32 (dm.d0 * wrap32 (i1 + wrap32 (dm.d1 * i2)))) m t
  else if code = 4 ∨ code = 5 then
    packedAcc dm.d3 m v0 (i0 + wrap32 (dm.d0 * wrap32 (i1 + wrap32 (dm.d1 * i2)))) t
  else t

/-- Lines 245-246: `for(k=0; k<dm[3]; k++) q0[k*m] = (unsigned char)(e[k]*se+0.5)`. -/
def writeBackAcc (K m v0 : Int) (t : List Access) : List Access :=
  forInt K.toNat K 1
    (fun k t => t ++ [⟨Arr.e, k, false⟩, ⟨Arr.q, v0 + wrap32 (k * m), true⟩]) 0 t

/-- The body of the innermost voxel loop (lines 76-247); `v1` is the offset of `p1`, `q1`. -/
def voxelAcc (dm : Dims) (code : Nat) (m i0 i1 i2 v1 : Int) (t : List Access) : List Access :=
  writeBackAcc dm.d3 m (v1 + i0)
    (interactionAcc dm code m i0 i1 i2 (v1 + i0) (influenceAcc dm m i0 i1 i2 (v1 + i0) t))

/-- Every array access of one call `mrf1(dm, q, p, G, w, code)`, in program order.  Each
loop is given as many iterations of fuel as its bound. -/
def mrf1Accesses (dm : Dims) (code : Nat) : List Access :=
  let m := wrap32 (wrap32 (dm.d0 * dm.d1) * dm.d2)
  forInt 2 2 1
    (fun it t =>
      let i2start := Int.tmod it 2
      forInt (Int.toNat dm.d2) dm.d2 1
        (fun i2 t =>
          let i1start : Int := if i2start = Int.tmod i2 2 then 1 else 0
          forInt (Int.toNat dm.d1) dm.d1 1
            (fun i1 t =>
              let i0start : Int := if i1start = Int.tmod i1 2 then 1 else 0
              let v1 := wrap32 (dm.d0 * wrap32 (i1 + wrap32 (dm.d1 * i2)))
              forInt (Int.toNat dm.d0) dm.d0 2
                (fun i0 t => voxelAcc dm code m i0 i1 i2 v1 t) i0start t)
            0 t)
        0 t)
    0 []

/-- The number of elements of each array, as the caller of `mrf1` provides them: `q` and
`p` hold `m*K` elements (`m = X*Y*Z`), `w` three, the buffers `a` and `e` `MAXCLASSES`
each, and `G` holds `K*K` (code 1), `K` (code 2), `m*K*K` (code 3) or `m*K*(K-1)/2`
(codes 4 and 5) elements. -/
def arrLen (dm : Dims) (code : Nat) : Arr → Nat
  | Arr.q => dm.d0 * dm.d1 * dm.d2 * dm.d3
  | Arr.p => dm.d0 * dm.d1 * dm.d2 * dm.d3
  | Arr.w => 3
  | Arr.a => MAXCLASSES
  | Arr.e => MAXCLASSES
  | Arr.G =>
    if code = 1 then dm.d3 * dm.d3
    else if code = 2 then dm.d3
    else if code = 3 then dm.d0 * dm.d1 * dm.d2 * dm.d3 * dm.d3
    else if code = 4 ∨ code = 5 then dm.d0 * dm.d1 * dm.d2 * dm.d3 * (dm.d3 - 1) / 2
    else 0

/-- An access is inside the bounds of its array. -/
def inBounds (dm : Dims) (code : Nat) (acc : Access) : Prop :=
  0 ≤ acc.idx ∧ acc.idx < (arrLen dm code acc.arr : Int)

instance (dm : Dims) (code : Nat) (acc : Access) : Decidable (inBounds dm code acc) := by
  unfold inBounds; infer_instance

/-- The part of each array that the claim lets `mrf1` use: of the buffers `a` and `e` only the
first `K` elements; the other arrays entirely. -/
def usedLen (dm : Dims) (code : Nat) : Arr → Nat
  | Arr.a => dm.d3
  | Arr.e => dm.d3
  | x => arrLen dm code x

/-- An access is inside the used part of its array. -/
def inUse (dm : Dims) (code : Nat) (acc : Access) : Prop :=
  0 ≤ acc.idx ∧ acc.idx < (usedLen dm code acc.arr : Int)

/-! ## Rounded arithmetic

The definitions above take the arithmetic of `float` and `double` as exact.  The stored byte
`(unsigned char)(e[k]*se+0.5)` depends on how the operations of lines 241-245 round, so the
definitions below follow `mrf1` once more with IEEE 754 arithmetic: `float` is binary32,
`double` is binary64, every operation is rounded to nearest (ties to even) in the type that C
gives it (`FLT_EVAL_METHOD` 0), and a conversion to `unsigned char` of a value outside the
range is undefined (`none`).  The library function `exp` on finite doubles is the parameter
`ex`. -/

/-- A value of a binary floating-point format: a finite number, an infinity, or a NaN.  The
sign of a zero is not kept: it could only show in the division `255.0/se`, and `se`, which
starts at `0.0` and only has values added to it, is never a negative zero. -/
inductive Fv (α : Type)
  | fin (x : α)
  | pinf
  | ninf
  | nan

section Rounded

variable {α : Type} [LinearOrderedField α] [FloorRing α]

/-- Rounding of a non-negative number to the nearest integer, ties to even. -/
def rne (y : α) : Int :=
  if y - Int.floor y < 1 / 2 then Int.floor y
  else if 1 / 2 < y - Int.floor y then Int.floor y + 1
  else if Int.floor y % 2 = 0 then Int.floor y
  else Int.floor y + 1

/-- Rounding of `x` to the binary format with `p` significant bits and exponents between
`1 - emax` and `emax` (subnormals included): to nearest, ties to even; a result of magnitude
`2^(emax+1)` or more is an infinity. -/
def roundTo (p : Nat) (emax : Int) (x : α) : Fv α :=
  if x = 0 then Fv.fin 0
  else
    let e := max (Int.log 2 |x|) (1 - emax)
    let ulp : α := (2 : α) ^ (e - ((p : Int) - 1))
    let r : α := ((rne (|x| / ulp) : Int) : α) * ulp
    if (2 : α) ^ (emax + 1) ≤ r then (if 0 < x then Fv.pinf else Fv.ninf)
    else Fv.fin (if 0 < x then r else -r)

/-- Rounding to `float` (binary32). -/
def roundF (x : α) : Fv α := roundTo 24 127 x

/-- Rounding to `double` (binary64). -/
def roundD (x : α) : Fv α := roundTo 53 1023 x

/-- Addition, rounded by `r`. -/
def Fv.add (r : α → Fv α) : Fv α → Fv α → Fv α
  | Fv.fin x, Fv.fin y => r (x + y)
  | Fv.fin _, Fv.pinf => Fv.pinf
  | Fv.fin _, Fv.ninf => Fv.ninf
  | Fv.pinf, Fv.fin _ => Fv.pinf
  | Fv.pinf, Fv.pinf => Fv.pinf
  | Fv.ninf, Fv.fin _ => Fv.ninf
  | Fv.ninf, Fv.ninf => Fv.ninf
  | _, _ => Fv.nan

/-- The infinity with the sign of `x`, or NaN for `x = 0` (a product of zero and
infinity). -/
def Fv.infTimes (x : α) (positive : Bool) : Fv α :=
  if x = 0 then Fv.nan
  else if (0 < x) = (positive = true) then Fv.pinf else Fv.ninf

/-- Multiplication, rounded by `r`. -/
def Fv.mul (r : α → Fv α) : Fv α → Fv α → Fv α
  | Fv.fin x, Fv.fin y => r (x * y)
  | Fv.fin x, Fv.pinf => Fv.infTimes x true
  | Fv.fin x, Fv.ninf => Fv.infTimes x false
  | Fv.pinf, Fv.fin y => Fv.infTimes y true
  | Fv.ninf, Fv.fin y => Fv.infTimes y false
  | Fv.pinf, Fv.pinf => Fv.pinf
  | Fv.pinf, Fv.ninf => Fv.ninf
  | Fv.ninf, Fv.pinf => Fv.ninf
  | Fv.ninf, Fv.ninf => Fv.pinf
  | _, _ => Fv.nan

/-- Division, rounded by `r`; a zero divisor is a positive zero. -/
def Fv.div (r : α → Fv α) : Fv α → Fv α → Fv α
  | Fv.fin x, Fv.fin y =>
    if y = 0 then (if x = 0 then Fv.nan else if 0 < x then Fv.pinf else Fv.ninf)
    else r (x / y)
  | Fv.fin _, Fv.pinf => Fv.fin 0
  | Fv.fin _, Fv.ninf => Fv.fin 0
  | Fv.pinf, Fv.fin y => if 0 ≤ y then Fv.pinf else Fv.ninf
  | Fv.ninf, Fv.fin y => if 0 ≤ y then Fv.ninf else Fv.pinf
  | _, _ => Fv.nan

/-- The sum `x + y` in `float`. -/
def addF (x y : Fv α) : Fv α := Fv.add roundF x y

/-- The product `x * y` in `float`. -/
def mulF (x y : Fv α) : Fv α := Fv.mul roundF x y

/-- The sum `x + y` in `double`. -/
def addD (x y : Fv α) : Fv α := Fv.add roundD x y

/-- The product `x * y` in `double`. -/
def mulD (x y : Fv α) : Fv α := Fv.mul roundD x y

/-- The quotient `x / y` in `double`. -/
def divD (x y : Fv α) : Fv α := Fv.div roundD x y

/-- The conversion of a `double` to `float` (a store into a `float` object). -/
def toF : Fv α → Fv α
  | Fv.fin x => roundF x
  | v => v

/-- The call `exp(x)` on a `double`: `ex` on finite arguments, and the values that C (Annex F)
fixes at the infinities and at NaN. -/
def expD (ex : α → Fv α) : Fv α → Fv α
  | Fv.fin x => ex x
  | Fv.pinf => Fv.pinf
  | Fv.ninf => Fv.fin 0
  | Fv.nan => Fv.nan

/-- The conversion `(unsigned char)(x)` of a `double`: truncation towards zero, undefined
(`none`) when the truncated value is outside `[0, 255]` or `x` is not finite. -/
def castU8 : Fv α → Option Nat
  | Fv.fin x => if -1 < x ∧ x < 256 then some (Int.toNat (Int.floor x)) else none
  | _ => none

/-- The loop `for(k=0; k<dm[3]; k++) a[k] += qq[k*m]*wt` in `float`. -/
def addNeighbourF (K m : Nat) (q : Nat → Nat) (qq : Nat) (wt : Fv α) (a : Nat → Fv α) :
    Nat → Fv α :=
  forUp 0 K 1
    (fun k a => Function.update a k (addF (a k) (mulF (Fv.fin (q (qq + k * m) : α)) wt))) a

/-- The vector `a` after lines 85-131 at voxel `(i0, i1, i2)`; the division
`a[k] /= (255.0*6.0)` is a `double` division stored into a `float`. -/
def influenceF (dm : Dims) (q : Nat → Nat) (w : Nat → Fv α) (i0 i1 i2 : Nat) : Nat → Fv α :=
  let m := nvox dm
  let q0 := voxOff dm i0 i1 i2
  let a : Nat → Fv α :=
    forUp 0 dm.d3 1 (fun k a => Function.update a k (Fv.fin 0)) (fun _ => Fv.fin 0)
  let a := if i2 > 0 then addNeighbourF dm.d3 m q (q0 - dm.d0 * dm.d1) (w 2) a else a
  let a := if i2 < dm.d2 - 1 then addNeighbourF dm.d3 m q (q0 + dm.d0 * dm.d1) (w 2) a else a
  let a := if i1 > 0 then addNeighbourF dm.d3 m q (q0 - dm.d0) (w 1) a else a
  let a := if i1 < dm.d1 - 1 then addNeighbourF dm.d3 m q (q0 + dm.d0) (w 1) a else a
  let a := if i0 > 0 then addNeighbourF dm.d3 m q (q0 - 1) (w 0) a else a
  let a := if i0 < dm.d0 - 1 then addNeighbourF dm.d3 m q (q0 + 1) (w 0) a else a
  forUp 0 dm.d3 1 (fun k a => Function.update a k (toF (divD (a k) (Fv.fin (255 * 6))))) a

/-- The working state of a dense branch: the buffer `e`, the sum `se`, the pointer `g`. -/
structure DenseStF (α : Type) where
  e : Nat → Fv α
  se : Fv α
  g : Nat

/-- The loop `for(n=0; n<dm[3]; n++, g+=stride) e[k] += (*g)*a[n]` in `float`. -/
def denseRowF (K stride : Nat) (G : Nat → Fv α) (a : Nat → Fv α) (k : Nat)
    (eg : (Nat → Fv α) × Nat) : (Nat → Fv α) × Nat :=
  forUp 0 K 1
    (fun n eg => (Function.update eg.1 k (addF (eg.1 k) (mulF (G eg.2) (a n))), eg.2 + stride))
    eg

/-- The branches `code == 1` and `code == 3`; `e[k] = exp((double)e[k])*p0[k*m]` is a
`double` product stored into a `float`, `se += e[k]` a `float` sum. -/
def denseBranchF (ex : α → Fv α) (K m : Nat) (G p : Nat → Fv α) (p0 g0 stride : Nat)
    (a : Nat → Fv α) : (Nat → Fv α) × Fv α :=
  let st := forUp 0 K 1 (fun k (st : DenseStF α) =>
    let e := Function.update st.e k (Fv.fin 0)
    let eg := denseRowF K stride G a k (e, st.g)
    let e := Function.update eg.1 k (toF (mulD (expD ex (eg.1 k)) (p (p0 + k * m))))
    DenseStF.mk e (addF st.se (e k)) eg.2) (DenseStF.mk (fun _ => Fv.fin 0) (Fv.fin 0) g0)
  (st.e, st.se)

/-- The branch `code == 2`: `e[k] = exp((double)(G[k]*a[k]))*p0[k*m]`. -/
def diagBranchF (ex : α → Fv α) (K m : Nat) (G p : Nat → Fv α) (p0 : Nat)
    (a : Nat → Fv α) : (Nat → Fv α) × Fv α :=
  forUp 0 K 1 (fun k (st : (Nat → Fv α) × Fv α) =>
    let e := Function.update st.1 k
      (toF (mulD (expD ex (mulF (G k) (a k))) (p (p0 + k * m))))
    (e, addF st.2 (e k))) (fun _ => Fv.fin 0, Fv.fin 0)

/-- The zeroing loop and the double loop shared by the branches `code == 4` and
`code == 5`, in `float`; `rd` reads an entry of the packed structure as a `float`. -/
def packedAccumF (K m : Nat) (rd : Nat → Fv α) (g0 : Nat) (a : Nat → Fv α) :
    (Nat → Fv α) × Nat :=
  let e : Nat → Fv α :=
    forUp 0 K 1 (fun k e => Function.update e k (Fv.fin 0)) (fun _ => Fv.fin 0)
  forUp 0 K 1 (fun k eg =>
    forUp (k + 1) K 1 (fun n (eg : (Nat → Fv α) × Nat) =>
      let e := Function.update eg.1 k (addF (eg.1 k) (mulF (rd eg.2) (a n)))
      let e := Function.update e n (addF (e n) (mulF (rd eg.2) (a k)))
      (e, eg.2 + m)) eg) (e, g0)

/-- The closing loop of the branches `code == 4` and `code == 5`:
`e[k] = exp(arg(e[k]))*p0[k*m]; se += e[k]`, where `arg(x)` is `(double)x` in the branch
`code == 4` and the `double` product `-0.0625*x` in the branch `code == 5`. -/
def expLoopF (ex : α → Fv α) (K m : Nat) (arg : Fv α → Fv α) (p : Nat → Fv α) (p0 : Nat)
    (e : Nat → Fv α) : (Nat → Fv α) × Fv α :=
  forUp 0 K 1 (fun k (st : (Nat → Fv α) × Fv α) =>
    let e := Function.update st.1 k (toF (mulD (expD ex (arg (st.1 k))) (p (p0 + k * m))))
    (e, addF st.2 (e k))) (e, Fv.fin 0)

/-- The `if (code == 1) ... else if (code == 5)` chain in rounded arithmetic: the buffer `e`
and the sum `se`. -/
def interactionF (ex : α → Fv α) (dm : Dims) (p : Nat → Fv α) (G : GMem (Fv α)) (code : Nat)
    (v : Nat) (a : Nat → Fv α) : (Nat → Fv α) × Fv α :=
  let m := nvox dm
  if code = 1 then denseBranchF ex dm.d3 m G.asFloat p v 0 1 a
  else if code = 2 then diagBranchF ex dm.d3 m G.asFloat p v a
  else if code = 3 then denseBranchF ex dm.d3 m G.asFloat p v v m a
  else if code = 4 then
    expLoopF ex dm.d3 m (fun x => x) p v (packedAccumF dm.d3 m G.asFloat v a).1
  else if code = 5 then
    expLoopF ex dm.d3 m (fun x => mulD (Fv.fin (-(1 / 16))) x) p v
      (packedAccumF dm.d3 m (fun i => Fv.fin ((G.asUChar i : Nat) : α)) v a).1
  else (fun _ => Fv.fin 0, Fv.fin 0)

/-- Lines 243-245 in rounded arithmetic: `se = 255.0/se` is a `double` quotient stored into
the `float` `se`; `e[k]*se` is a `float` product, `+0.5` a `double` sum, and the conversion
to `unsigned char` is undefined outside the range. -/
def writeBackF (K m : Nat) (v : Nat) (e : Nat → Fv α) (se : Fv α) (q : Nat → Nat) :
    Option (Nat → Nat) :=
  let se := toF (divD (Fv.fin 255) se)
  forUp 0 K 1 (fun k (s : Option (Nat → Nat)) =>
    match s, castU8 (addD (mulF (e k) se) (Fv.fin (1 / 2))) with
    | some q, some b => some (Function.update q (v + k * m) b)
    | _, _ => none) (some q)

/-- The update of voxel `(i0, i1, i2)` (lines 77-245) in rounded arithmetic. -/
def voxelF (ex : α → Fv α) (dm : Dims) (p : Nat → Fv α) (G : GMem (Fv α))
    (w : Nat → Fv α) (code : Nat) (i0 i1 i2 : Nat) (q : Nat → Nat) : Option (Nat → Nat) :=
  let v := voxOff dm i0 i1 i2
  let a := influenceF dm q w i0 i1 i2
  let r := interactionF ex dm p G code v a
  writeBackF dm.d3 (nvox dm) v r.1 r.2 q

/-- The function `mrf1` in rounded arithmetic: `none` when a conversion was undefined. -/
def mrf1F (ex : α → Fv α) (dm : Dims) (q : Nat → Nat) (p : Nat → Fv α) (G : GMem (Fv α))
    (w : Nat → Fv α) (code : Nat) : Option (Nat → Nat) :=
  forUp 0 2 1
    (fun it s => halfSweep dm it
      (fun i0 i1 i2 (s : Option (Nat → Nat)) => s.bind (voxelF ex dm p G w code i0 i1 i2)) s)
    (some q)

/-- The `float` sum `((0 + e[0]) + e[1]) + ...` of the first `n` entries, in the order in
which `se += e[k]` forms it. -/
def fsumF (e : Nat → Fv α) : Nat → Fv α
  | 0 => Fv.fin 0
  | n + 1 => addF (fsumF e n) (e n)

/-- A finite value that is representable in `float`, and so in `double`. -/
def IsFiniteFloat (v : Fv α) : Prop :=
  ∃ x, v = Fv.fin x ∧ roundF x = Fv.fin x ∧ roundD x = Fv.fin x

/-- The value that lines 243-245 convert for class `k`: `e[k]*se + 0.5` with
`se = 255.0/se` stored in `float`. -/
def castValue (e : Nat → Fv α) (se : Fv α) (k : Nat) : Fv α :=
  addD (mulF (e k) (toF (divD (Fv.fin 255) se))) (Fv.fin (1 / 2))

end Rounded


/-! ## Loop lemmas -/

theorem forFuel_inv {σ : Type} (step stop : Nat) (body : Nat → σ → σ) (P : Nat → σ → Prop)
    (hs : 1 ≤ step) (hstep : ∀ i s, i < stop → P i s → P (i + step) (body i s)) :
    ∀ fuel i s, stop ≤ i + fuel → P i s →
      ∃ j, stop ≤ j ∧ P j (forFuel step stop body fuel i s) := by
  intro fuel
  induction fuel with
  | zero =>
    intro i s h hP
    exact ⟨i, by omega, by simpa [forFuel] using hP⟩
  | succ n ih =>
    intro i s h hP
    by_cases hi : i < stop
    · simp only [forFuel, hi, if_true]
      exact ih (i + step) (body i s) (by omega) (hstep i s hi hP)
    · simp only [forFuel, hi, if_false]
      exact ⟨i, by omega, hP⟩

theorem forUp_inv {σ : Type} (start stop step : Nat) (body : Nat → σ → σ) (s : σ)
    (P : Nat → σ → Prop) (hs : 1 ≤ step) (h0 : P start s)
    (hstep : ∀ i s, i < stop → P i s → P (i + step) (body i s)) :
    ∃ j, stop ≤ j ∧ P j (forUp start stop step body s) :=
  forFuel_inv step stop body P hs hstep stop start s (by omega) h0

theorem forUp_inv1 {σ : Type} (start stop : Nat) (body : Nat → σ → σ) (s : σ)
    (P : Nat → σ → Prop) (h : start ≤ stop) (h0 : P start s)
    (hstep : ∀ i s, start ≤ i → i < stop → P i s → P (i + 1) (body i s)) :
    P stop (forUp start stop 1 body s) := by
  obtain ⟨j, hj, h1, h2, h3⟩ := forUp_inv start stop 1 body s
    (fun i s => start ≤ i ∧ i ≤ stop ∧ P i s) (le_refl 1) ⟨le_refl _, h, h0⟩
    (fun i s hi hP => ⟨by omega, by omega, hstep i s hP.1 hi hP.2.2⟩)
  have : j = stop := by omega
  subst this
  exact h3

theorem forFuel_rel {σ τ : Type} (step stop : Nat) (f : Nat → σ → σ) (g : Nat → τ → τ)
    (R : σ → τ → Prop) (h : ∀ i s t, i < stop → R s t → R (f i s) (g i t)) :
    ∀ fuel i s t, R s t → R (forFuel step stop f fuel i s) (forFuel step stop g fuel i t) := by
  intro fuel
  induction fuel with
  | zero => intro i s t hR; simpa [forFuel] using hR
  | succ n ih =>
    intro i s t hR
    by_cases hi : i < stop
    · simp only [forFuel, hi, if_true]
      exact ih _ _ _ (h i s t hi hR)
    · simpa [forFuel, hi] using hR

theorem forUp_rel {σ τ : Type} (start stop step : Nat) (f : Nat → σ → σ) (g : Nat → τ → τ)
    (R : σ → τ → Prop) (h : ∀ i s t, i < stop → R s t → R (f i s) (g i t))
    (s : σ) (t : τ) (hR : R s t) :
    R (forUp start stop step f s) (forUp start stop step g t) :=
  forFuel_rel step stop f g R h stop start s t hR

/-- A loop that rewrites slot `k` of a buffer in round `k`, from the old content of that
slot alone. -/
theorem forUp_update {β : Type} (n : Nat) (F : Nat → β → β) (a : Nat → β) (k : Nat) :
    forUp 0 n 1 (fun k a => Function.update a k (F k (a k))) a k
      = if k < n then F k (a k) else a k := by
  have := forUp_inv1 0 n (fun k a => Function.update a k (F k (a k))) a
    (fun i b => ∀ k, b k = if k < i then F k (a k) else a k) (Nat.zero_le _)
    (by intro k; simp)
    (by
      intro i s _ _ hP k
      show Function.update s i (F i (s i)) k = _
      by_cases hk : k = i
      · subst hk; simp [hP k]
      · rw [Function.update_noteq hk, hP k]
        by_cases hlt : k < i
        · simp [hlt, Nat.lt_succ_of_lt hlt]
        · have : ¬ k < i + 1 := by omega
          simp [hlt, this])
  exact this k

section Engine

variable {α : Type} [LinearOrderedField α]

theorem addNeighbour_apply (K m : Nat) (q : Nat → Nat) (qq : Nat) (wt : α) (a : Nat → α)
    (k : Nat) :
    addNeighbour K m q qq wt a k = if k < K then a k + (q (qq + k * m) : α) * wt else a k :=
  forUp_update K (fun k x => x + (q (qq + k * m) : α) * wt) a k

theorem ite_addNeighbour_apply (c : Prop) [Decidable c] (K m : Nat) (q : Nat → Nat)
    (qq : Nat) (wt : α) (a : Nat → α) (k : Nat) :
    (if c then addNeighbour K m q qq wt a else a) k
      = if k < K then a k + nbTerm (decide c) q (qq + k * m) wt else a k := by
  by_cases hc : c
  · simp [hc, addNeighbour_apply, nbTerm]
  · simp [hc, nbTerm]

theorem influence_apply (dm : Dims) (q : Nat → Nat) (w : Nat → α) (i0 i1 i2 k : Nat) :
    influence dm q w i0 i1 i2 k =
      if k < dm.d3 then
        (nbTerm (decide (i2 > 0)) q (voxOff dm i0 i1 i2 - dm.d0 * dm.d1 + k * nvox dm) (w 2)
          + nbTerm (decide (i2 < dm.d2 - 1)) q
              (voxOff dm i0 i1 i2 + dm.d0 * dm.d1 + k * nvox dm) (w 2)
          + nbTerm (decide (i1 > 0)) q (voxOff dm i0 i1 i2 - dm.d0 + k * nvox dm) (w 1)
          + nbTerm (decide (i1 < dm.d1 - 1)) q (voxOff dm i0 i1 i2 + dm.d0 + k * nvox dm) (w 1)
          + nbTerm (decide (i0 > 0)) q (voxOff dm i0 i1 i2 - 1 + k * nvox dm) (w 0)
          + nbTerm (decide (i0 < dm.d0 - 1)) q (voxOff dm i0 i1 i2 + 1 + k * nvox dm) (w 0))
          / (255 * 6)
      else 0 := by
  have hz : ∀ j, forUp 0 dm.d3 1 (fun k (a : Nat → α) => Function.update a k 0)
      (fun _ => 0) j = 0 := by
    intro j
    rw [forUp_update dm.d3 (fun _ _ => (0 : α))]
    simp
  unfold influence
  rw [forUp_update dm.d3 (fun _ x => x / (255 * 6))]
  simp only [ite_addNeighbour_apply, hz]
  by_cases hk : k < dm.d3
  · simp only [hk, if_true, zero_add]
  · simp only [hk, if_false]

end Engine

/-! ## Closed forms of the interaction branches -/

section Branches

variable {α : Type} [LinearOrderedField α]

/-- A loop that maps slot `k` of the buffer and adds the new value to a running sum. -/
theorem forUp_mapSum (n : Nat) (F : Nat → α → α) (e0 : Nat → α) (s0 : α) :
    forUp 0 n 1 (fun k (st : (Nat → α) × α) =>
        let e := Function.update st.1 k (F k (st.1 k))
        (e, st.2 + e k)) (e0, s0)
      = (fun k => if k < n then F k (e0 k) else e0 k,
          s0 + ∑ k in Finset.range n, F k (e0 k)) := by
  refine forUp_inv1 0 n _ (e0, s0)
    (fun i st => st = (fun k => if k < i then F k (e0 k) else e0 k,
          s0 + ∑ k in Finset.range i, F k (e0 k))) (Nat.zero_le _) (by simp) ?_
  intro i st _ _ hP
  subst hP
  refine Prod.ext ?_ ?_
  · funext k
    by_cases hk : k = i
    · subst hk; simp
    · simp only [Function.update_noteq hk]
      by_cases hlt : k < i
      · simp [hlt, Nat.lt_succ_of_lt hlt]
      · have : ¬ k < i + 1 := by omega
        simp [hlt, this]
  · simp [Finset.sum_range_succ, add_assoc]

theorem diagBranch_eq (ex : α → α) (K m : Nat) (G p : Nat → α) (p0 : Nat) (a : Nat → α) :
    diagBranch ex K m G p p0 a
      = (fun k => if k < K then ex (G k * a k) * p (p0 + k * m) else 0,
          ∑ k in Finset.range K, ex (G k * a k) * p (p0 + k * m)) := by
  have := forUp_mapSum K (fun k _ => ex (G k * a k) * p (p0 + k * m)) (fun _ => (0 : α)) 0
  simpa [diagBranch] using this

theorem expLoop_eq (ex : α → α) (K m : Nat) (arg : α → α) (p : Nat → α) (p0 : Nat)
    (e : Nat → α) :
    expLoop ex K m arg p p0 e
      = (fun k => if k < K then ex (arg (e k)) * p (p0 + k * m) else e k,
          ∑ k in Finset.range K, ex (arg (e k)) * p (p0 + k * m)) := by
  have := forUp_mapSum K (fun k x => ex (arg x) * p (p0 + k * m)) e 0
  simpa [expLoop] using this

theorem denseRow_eq (K stride : Nat) (G a : Nat → α) (k : Nat) (e : Nat → α) (g : Nat) :
    denseRow K stride G a k (e, g)
      = (Function.update e k (e k + ∑ n in Finset.range K, G (g + n * stride) * a n),
          g + K * stride) := by
  refine forUp_inv1 0 K _ (e, g)
    (fun i eg => eg = (Function.update e k
        (e k + ∑ n in Finset.range i, G (g + n * stride) * a n), g + i * stride))
    (Nat.zero_le _) (by simp) ?_
  intro i eg _ _ hP
  subst hP
  refine Prod.ext ?_ ?_
  · simp [Finset.sum_range_succ, add_assoc]
  · simp [Nat.succ_mul, add_assoc]

theorem denseBranch_eq (ex : α → α) (K m : Nat) (G p : Nat → α) (p0 g0 stride : Nat)
    (a : Nat → α) :
    denseBranch ex K m G p p0 g0 stride a
      = (fun k => if k < K then
            ex (∑ n in Finset.range K, G (g0 + (k * K + n) * stride) * a n) * p (p0 + k * m)
          else 0,
          ∑ k in Finset.range K,
            ex (∑ n in Finset.range K, G (g0 + (k * K + n) * stride) * a n)
              * p (p0 + k * m)) := by
  have key := forUp_inv1 0 K (fun k (st : DenseSt α) =>
      let e := Function.update st.e k 0
      let eg := denseRow K stride G a k (e, st.g)
      let e := Function.update eg.1 k (ex (eg.1 k) * p (p0 + k * m))
      DenseSt.mk e (st.se + e k) eg.2) (DenseSt.mk (fun _ => 0) 0 g0)
    (fun i st => st.e = (fun k => if k < i then
            ex (∑ n in Finset.range K, G (g0 + (k * K + n) * stride) * a n) * p (p0 + k * m)
          else 0) ∧
        st.se = ∑ k in Finset.range i,
            ex (∑ n in Finset.range K, G (g0 + (k * K + n) * stride) * a n)
              * p (p0 + k * m) ∧
        st.g = g0 + i * K * stride) (Nat.zero_le _) (by simp) ?_
  · exact Prod.ext key.1 key.2.1
  · intro i st _ _ hP
    obtain ⟨h1, h2, h3⟩ := hP
    have hsum : ∀ n, G (st.g + n * stride) = G (g0 + (i * K + n) * stride) := by
      intro n; rw [h3]; congr 1; ring
    simp only [denseRow_eq, Function.update_same, Function.update_idem, zero_add, hsum]
    refine ⟨?_, ?_, ?_⟩
    · funext k
      by_cases hk : k = i
      · subst hk; simp
      · simp only [Function.update_noteq hk, h1]
        by_cases hlt : k < i
        · simp [hlt, Nat.lt_succ_of_lt hlt]
        · have : ¬ k < i + 1 := by omega
          simp [hlt, this]
    · rw [h2, Finset.sum_range_succ]
    · rw [h3]; ring

end Branches

/-! ## Closed form of the packed double loop -/

section Packed

variable {α : Type} [LinearOrderedField α]

theorem sum_ite_insert (K c : Nat) (hc : c < K) (P Q : Nat → Prop) [DecidablePred P]
    [DecidablePred Q] (f : Nat → α) (hPQ : ∀ n, Q n ↔ P n ∨ n = c) (hP : ¬ P c) :
    ∑ n in Finset.range K, (if Q n then f n else 0)
      = ∑ n in Finset.range K, (if P n then f n else 0) + f c := by
  have hf : f c = ∑ n in Finset.range K, (if n = c then f n else 0) := by
    rw [Finset.sum_ite_eq' (Finset.range K) c f]
    simp [hc]
  rw [hf, ← Finset.sum_add_distrib]
  refine Finset.sum_congr rfl ?_
  intro n _
  by_cases hn : n = c
  · subst hn
    have : Q n := (hPQ n).2 (Or.inr rfl)
    simp [this, hP]
  · by_cases hp : P n
    · have : Q n := (hPQ n).2 (Or.inl hp)
      simp [this, hp, hn]
    · have : ¬ Q n := fun h => ((hPQ n).1 h).elim hp hn
      simp [this, hp, hn]

theorem sum_ite_congr (K : Nat) (P Q : Nat → Prop) [DecidablePred P] [DecidablePred Q]
    (f : Nat → α) (hPQ : ∀ n, n < K → (Q n ↔ P n)) :
    ∑ n in Finset.range K, (if Q n then f n else 0)
      = ∑ n in Finset.range K, (if P n then f n else 0) := by
  refine Finset.sum_congr rfl ?_
  intro n hn
  have := hPQ n (Finset.mem_range.1 hn)
  by_cases hp : P n
  · simp [hp, this.2 hp]
  · have hq : ¬ Q n := fun h => hp (this.1 h)
    simp [hp, hq]

theorem packedIdx_col (K r c : Nat) :
    packedIdx K r c = packedIdx K r (r + 1) + (c - (r + 1)) := by
  unfold packedIdx
  omega

theorem packedIdx_row (K r : Nat) (h : r < K) :
    packedIdx K (r + 1) (r + 2) = packedIdx K r (r + 1) + (K - (r + 1)) := by
  unfold packedIdx
  have h1 : (r + 1) * (r + 1 + 1) = r * (r + 1) + 2 * (r + 1) := by ring
  have h2 : (r + 1) * K = r * K + K := by ring
  have h3 : r * (r + 1) ≤ r * K := Nat.mul_le_mul_left r h
  rw [h1, h2]
  generalize r * (r + 1) = x at *
  generalize r * K = y at *
  omega

theorem packedDone_iff (K r c j n : Nat) :
    packedDone K r c j n ↔
      (j < K ∧ ((j < n ∧ (j < r ∨ (j = r ∧ n < c))) ∨ (n < j ∧ (n < r ∨ (n = r ∧ j < c))))) :=
  Iff.rfl

theorem packedDone_zero (K j n : Nat) : ¬ packedDone K 0 (0 + 1) j n := by
  simp only [packedDone_iff]
  omega

theorem packedDone_final (K j n : Nat) (hj : j < K) (hne : j ≠ n) :
    packedDone K K (K + 1) j n := by
  simp only [packedDone_iff]
  omega

theorem packedDone_final_not (K j n : Nat) (hj : ¬ j < K) :
    ¬ packedDone K K (K + 1) j n := by
  simp only [packedDone_iff]
  omega

theorem packedDone_step_r (K r c n : Nat) (hr : r < c) (hc : c < K) :
    packedDone K r (c + 1) r n ↔ packedDone K r c r n ∨ n = c := by
  simp only [packedDone_iff, lt_self_iff_false, true_and, false_or, false_and, or_false]
  constructor <;> intro h <;> omega

theorem packedDone_step_r_not (K r c : Nat) (hr : r < c) : ¬ packedDone K r c r c := by
  simp only [packedDone_iff, lt_self_iff_false, true_and, false_or, false_and, or_false,
    and_false]
  omega

theorem packedDone_step_c (K r c n : Nat) (hr : r < c) (hc : c < K) :
    packedDone K r (c + 1) c n ↔ packedDone K r c c n ∨ n = r := by
  simp only [packedDone_iff, lt_self_iff_false, true_and, false_or, false_and, or_false]
  constructor <;> intro h <;> omega

theorem packedDone_step_c_not (K r c : Nat) (hr : r < c) : ¬ packedDone K r c c r := by
  simp only [packedDone_iff, lt_self_iff_false, true_and, false_or, false_and, or_false,
    and_false]
  omega

theorem packedDone_step_other (K r c j n : Nat) (hr : r < c) (h1 : j ≠ c) (h2 : j ≠ r) :
    packedDone K r (c + 1) j n ↔ packedDone K r c j n := by
  simp only [packedDone_iff, lt_self_iff_false, true_and, false_or, false_and, or_false]
  constructor <;> intro h <;> omega

theorem packedDone_rowEnd (K r j n : Nat) (hn : n < K) :
    packedDone K (r + 1) (r + 1 + 1) j n ↔ packedDone K r K j n := by
  simp only [packedDone_iff, lt_self_iff_false, true_and, false_or, false_and, or_false]
  constructor <;> intro h <;> omega

theorem symPacked_symm (K m : Nat) (rd : Nat → α) (g0 k n : Nat) :
    symPacked K m rd g0 k n = symPacked K m rd g0 n k := by
  unfold symPacked
  rcases Nat.lt_trichotomy k n with h | h | h
  · have : ¬ n < k := by omega
    simp [h, this]
  · subst h; rfl
  · have : ¬ k < n := by omega
    simp [h, this]

theorem symPacked_self (K m : Nat) (rd : Nat → α) (g0 k : Nat) :
    symPacked K m rd g0 k k = 0 := by
  simp [symPacked]

theorem packedAccum_inv (K m : Nat) (rd : Nat → α) (g0 : Nat) (a : Nat → α) :
    (∀ j, (packedAccum K m rd g0 a).1 j = ∑ n in Finset.range K,
        (if packedDone K K (K + 1) j n then symPacked K m rd g0 j n * a n else 0)) ∧
      (packedAccum K m rd g0 a).2 = g0 + m * packedIdx K K (K + 1) := by
  have hz : forUp 0 K 1 (fun k (e : Nat → α) => Function.update e k 0) (fun _ => 0)
      = fun _ => 0 := by
    funext i
    rw [forUp_update K (fun _ _ => (0 : α))]
    simp
  unfold packedAccum
  rw [hz]
  refine forUp_inv1 0 K (fun k eg =>
      forUp (k + 1) K 1 (fun n (eg : (Nat → α) × Nat) =>
        let e := Function.update eg.1 k (eg.1 k + rd eg.2 * a n)
        let e := Function.update e n (e n + rd eg.2 * a k)
        (e, eg.2 + m)) eg) ((fun _ => (0 : α)), g0)
    (fun r eg => (∀ j, eg.1 j = ∑ n in Finset.range K,
          (if packedDone K r (r + 1) j n then symPacked K m rd g0 j n * a n else 0)) ∧
        eg.2 = g0 + m * packedIdx K r (r + 1)) (Nat.zero_le _) ?_ ?_
  · refine ⟨?_, ?_⟩
    · intro j
      simp [packedDone_zero]
    · simp [packedIdx]
  · intro r eg _ hr hP
    have inner := forUp_inv1 (r + 1) K (fun n (eg : (Nat → α) × Nat) =>
        let e := Function.update eg.1 r (eg.1 r + rd eg.2 * a n)
        let e := Function.update e n (e n + rd eg.2 * a r)
        (e, eg.2 + m)) eg
      (fun c eg => (∀ j, eg.1 j = ∑ n in Finset.range K,
            (if packedDone K r c j n then symPacked K m rd g0 j n * a n else 0)) ∧
          eg.2 = g0 + m * (packedIdx K r (r + 1) + (c - (r + 1)))) (Nat.succ_le_of_lt hr)
      ⟨hP.1, by simpa using hP.2⟩ ?_
    · refine ⟨?_, ?_⟩
      · intro j
        rw [inner.1 j]
        exact sum_ite_congr K _ _ _ (fun n hn => (packedDone_rowEnd K r j n hn).symm)
      · rw [inner.2, packedIdx_row K r hr]
    · intro c eg hc hcK hQ
      obtain ⟨hQ1, hQ2⟩ := hQ
      have hrc : r < c := hc
      have hrd : rd eg.2 = symPacked K m rd g0 r c := by
        rw [hQ2, ← packedIdx_col K r c]
        simp [symPacked, hrc]
      have hne : c ≠ r := Nat.ne_of_gt hrc
      refine ⟨?_, ?_⟩
      · intro j
        show Function.update (Function.update eg.1 r (eg.1 r + rd eg.2 * a c)) c
            (Function.update eg.1 r (eg.1 r + rd eg.2 * a c) c + rd eg.2 * a r) j = _
        rw [Function.update_noteq hne]
        by_cases hjc : j = c
        · subst hjc
          rw [Function.update_same, hQ1 j, hrd, symPacked_symm K m rd g0 r j]
          exact (sum_ite_insert K r hr _ _ _ (fun n => packedDone_step_c K r j n hrc hcK)
            (packedDone_step_c_not K r j hrc)).symm
        · rw [Function.update_noteq hjc]
          by_cases hjr : j = r
          · subst hjr
            rw [Function.update_same, hQ1 j, hrd]
            exact (sum_ite_insert K c hcK _ _ _ (fun n => packedDone_step_r K j c n hrc hcK)
              (packedDone_step_r_not K j c hrc)).symm
          · rw [Function.update_noteq hjr, hQ1 j]
            exact (sum_ite_congr K _ _ _
              (fun n _ => packedDone_step_other K r c j n hrc hjc hjr)).symm
      · show eg.2 + m = _
        rw [hQ2]
        have : c + 1 - (r + 1) = (c - (r + 1)) + 1 := Nat.succ_sub hc
        rw [this]
        ring

theorem packedAccum_eq (K m : Nat) (rd : Nat → α) (g0 : Nat) (a : Nat → α) (j : Nat) :
    (packedAccum K m rd g0 a).1 j
      = if j < K then ∑ n in Finset.range K, symPacked K m rd g0 j n * a n else 0 := by
  rw [(packedAccum_inv K m rd g0 a).1 j]
  by_cases hj : j < K
  · simp only [hj, if_true]
    refine Finset.sum_congr rfl ?_
    intro n _
    by_cases hjn : j = n
    · subst hjn; simp [symPacked_self]
    · simp [packedDone_final K j n hj hjn]
  · simp [hj, packedDone_final_not K j _ hj]

theorem packedIdx_total (K : Nat) : packedIdx K K (K + 1) = K * (K - 1) / 2 := by
  unfold packedIdx
  rcases Nat.eq_zero_or_pos K with h | h
  · subst h; rfl
  · obtain ⟨n, rfl⟩ : ∃ n, K = n + 1 := ⟨K - 1, by omega⟩
    have h1 : (n + 1) * (n + 1) = (n + 1) * n + (n + 1) := by ring
    have h2 : (n + 1) * (n + 1 + 1) = (n + 1) * n + 2 * (n + 1) := by ring
    have h3 : (n + 1) * n % 2 = 0 := by
      rw [Nat.mul_comm]
      exact Nat.even_iff.1 (Nat.even_mul_succ_self n)
    rw [h1, h2, Nat.add_sub_cancel]
    generalize (n + 1) * n = x at *
    omega

/-- The pointer `g` has advanced by `K*(K-1)/2` entries when the double loop ends. -/
theorem packedAccum_ptr (K m : Nat) (rd : Nat → α) (g0 : Nat) (a : Nat → α) :
    (packedAccum K m rd g0 a).2 = g0 + m * (K * (K - 1) / 2) := by
  rw [(packedAccum_inv K m rd g0 a).2, packedIdx_total]

theorem packedIdx_lt (K r c : Nat) (hr : r < c) (hc : c < K) :
    packedIdx K r c < K * (K - 1) / 2 := by
  rw [← packedIdx_total]
  have key : ∀ d r, r + d = K → packedIdx K r (r + 1) ≤ packedIdx K K (K + 1) := by
    intro d
    induction d with
    | zero =>
      intro r h
      have : r = K := by omega
      subst this
      exact le_refl _
    | succ d ih =>
      intro r h
      have h1 := ih (r + 1) (by omega)
      have h2 : packedIdx K (r + 1) (r + 1 + 1) = packedIdx K r (r + 1) + (K - (r + 1)) :=
        packedIdx_row K r (by omega)
      generalize K - (r + 1) = t at h2
      omega
  have h1 := key (K - (r + 1)) (r + 1) (by omega)
  have h2 : packedIdx K (r + 1) (r + 1 + 1) = packedIdx K r (r + 1) + (K - (r + 1)) :=
    packedIdx_row K r (by omega)
  rw [packedIdx_col K r c]
  have h3 : c - (r + 1) < K - (r + 1) := by omega
  generalize K - (r + 1) = t at h2 h3
  generalize c - (r + 1) = s at h3
  omega

end Packed

/-! ## The voxel update in closed form -/

section VoxelUpdate

variable {α : Type} [LinearOrderedField α]

theorem packedBranch_eq (ex : α → α) (K m : Nat) (arg : α → α) (p rd : Nat → α) (v : Nat)
    (a : Nat → α) :
    expLoop ex K m arg p v (packedAccum K m rd v a).1
      = (fun k => if k < K then
            ex (arg (∑ n in Finset.range K, symPacked K m rd v k n * a n)) * p (v + k * m)
          else 0,
          ∑ k in Finset.range K,
            ex (arg (∑ n in Finset.range K, symPacked K m rd v k n * a n))
              * p (v + k * m)) := by
  rw [expLoop_eq]
  refine Prod.ext ?_ ?_
  · funext k
    by_cases hk : k < K <;> simp [hk, packedAccum_eq]
  · dsimp only
    refine Finset.sum_congr rfl ?_
    intro k hk
    simp [Finset.mem_range.1 hk, packedAccum_eq]

theorem interaction_eq (ex : α → α) (dm : Dims) (p : Nat → α) (G : GMem α) (code : Nat)
    (h1 : 1 ≤ code) (h5 : code ≤ 5) (v : Nat) (a : Nat → α) :
    interaction ex dm p G code v a
      = (fun k => if k < dm.d3 then
            ex (effective dm G code v a k) * p (v + k * nvox dm) else 0,
          ∑ k in Finset.range dm.d3, ex (effective dm G code v a k) * p (v + k * nvox dm)) := by
  have hc : code = 1 ∨ code = 2 ∨ code = 3 ∨ code = 4 ∨ code = 5 := by omega
  rcases hc with h | h | h | h | h <;> subst h
  · have := denseBranch_eq ex dm.d3 (nvox dm) G.asFloat p v 0 1 a
    simp only [Nat.zero_add, Nat.mul_one] at this
    exact this
  · exact diagBranch_eq ex dm.d3 (nvox dm) G.asFloat p v a
  · exact denseBranch_eq ex dm.d3 (nvox dm) G.asFloat p v v (nvox dm) a
  · exact packedBranch_eq ex dm.d3 (nvox dm) (fun x => x) p G.asFloat v a
  · exact packedBranch_eq ex dm.d3 (nvox dm) (fun x => -(1 / 16) * x) p
      (fun i => ((G.asUChar i : Nat) : α)) v a

variable [FloorRing α]

theorem ucharCast_of_range (x : α) (h0 : 0 ≤ x) (h1 : x < 256) :
    ucharCast x = Int.toNat (Int.floor x) := by
  unfold ucharCast
  have hf0 : 0 ≤ Int.floor x := Int.floor_nonneg.2 h0
  have hf1 : Int.floor x < 256 := by
    have : (Int.floor x : α) ≤ x := Int.floor_le x
    have h2 : ((Int.floor x : ℤ) : α) < ((256 : ℤ) : α) := by
      push_cast
      exact lt_of_le_of_lt this h1
    exact_mod_cast h2
  simp only [h0, if_true]
  rw [Int.emod_eq_of_lt hf0 hf1]

theorem writeBack_apply (K m v : Nat) (hv : v < m) (e : Nat → α) (se : α) (q : Nat → Nat)
    (o : Nat) :
    writeBack K m v e se q o
      = if o % m = v ∧ o / m < K then ucharCast (e (o / m) * (255 / se) + 1 / 2) else q o := by
  have hm : 0 < m := by omega
  have := forUp_inv1 0 K
    (fun k q => Function.update q (v + k * m) (ucharCast (e k * (255 / se) + 1 / 2))) q
    (fun i q1 => ∀ o, q1 o
      = if o % m = v ∧ o / m < i then ucharCast (e (o / m) * (255 / se) + 1 / 2) else q o)
    (Nat.zero_le _) (by intro o; simp) ?_
  · exact this o
  · intro i s _ _ hP o
    show Function.update s (v + i * m) _ o = _
    by_cases ho : o = v + i * m
    · subst ho
      have h1 : (v + i * m) % m = v := by
        rw [Nat.add_mul_mod_self_right]; exact Nat.mod_eq_of_lt hv
      have h2 : (v + i * m) / m = i := by
        rw [Nat.add_mul_div_right _ _ hm, Nat.div_eq_of_lt hv, Nat.zero_add]
      simp [h1, h2]
    · rw [Function.update_noteq ho, hP o]
      by_cases hmod : o % m = v
      · have hne : o / m ≠ i := by
          intro hi
          apply ho
          have := Nat.mod_add_div o m
          rw [hmod, hi] at this
          rw [← this, Nat.mul_comm]
        by_cases hlt : o / m < i
        · have : o / m < i + 1 := by omega
          simp [hmod, hlt, this]
        · have : ¬ o / m < i + 1 := by omega
          simp [hmod, hlt, this]
      · simp [hmod]

theorem voxel_apply (ex : α → α) (dm : Dims) (p : Nat → α) (G : GMem α) (w : Nat → α)
    (code i0 i1 i2 : Nat) (hv : voxOff dm i0 i1 i2 < nvox dm) (q : Nat → Nat) (o : Nat) :
    voxel ex dm p G w code i0 i1 i2 q o
      = if o % nvox dm = voxOff dm i0 i1 i2 ∧ o / nvox dm < dm.d3 then
          ucharCast
            ((interaction ex dm p G code (voxOff dm i0 i1 i2)
                (influence dm q w i0 i1 i2)).1 (o / nvox dm)
              * (255 / (interaction ex dm p G code (voxOff dm i0 i1 i2)
                (influence dm q w i0 i1 i2)).2) + 1 / 2)
        else q o := by
  unfold voxel
  exact writeBack_apply dm.d3 (nvox dm) _ hv _ _ q o

end VoxelUpdate

/-! ## The voxels visited by the checkerboard loops -/

theorem halfSweep_eq_foldl {σ : Type} (dm : Dims) (it : Nat)
    (body : Nat → Nat → Nat → σ → σ) (s : σ) :
    halfSweep dm it body s
      = (visits dm it).foldl (fun (s : σ) (v : Nat × Nat × Nat) => body v.1 v.2.1 v.2.2 s) s := by
  unfold visits halfSweep
  refine forUp_rel 0 dm.d2 1 _ _
    (fun t l => t = List.foldl (fun (s : σ) (v : Nat × Nat × Nat) => body v.1 v.2.1 v.2.2 s)
      s l) ?_ s [] rfl
  intro i2 t l _ h
  refine forUp_rel 0 dm.d1 1 _ _
    (fun t l => t = List.foldl (fun (s : σ) (v : Nat × Nat × Nat) => body v.1 v.2.1 v.2.2 s)
      s l) ?_ t l h
  intro i1 t l _ h
  refine forUp_rel _ dm.d0 2 _ _
    (fun t l => t = List.foldl (fun (s : σ) (v : Nat × Nat × Nat) => body v.1 v.2.1 v.2.2 s)
      s l) ?_ t l h
  intro i0 t l _ h
  subst h
  simp [List.foldl_append]

theorem count_inner (d0 s0 i1 i2 : Nat) (l0 : List (Nat × Nat × Nat)) (x : Nat × Nat × Nat) :
    (forUp s0 d0 2 (fun i0 l => l ++ [(i0, i1, i2)]) l0).count x
      = l0.count x +
        if x.2.1 = i1 ∧ x.2.2 = i2 ∧ s0 ≤ x.1 ∧ x.1 < d0 ∧ x.1 % 2 = s0 % 2 then 1 else 0 := by
  obtain ⟨j, hj, _, _, hP⟩ := forUp_inv s0 d0 2 (fun i0 l => l ++ [(i0, i1, i2)]) l0
    (fun i l => i % 2 = s0 % 2 ∧ s0 ≤ i ∧ ∀ x : Nat × Nat × Nat, l.count x = l0.count x +
      if x.2.1 = i1 ∧ x.2.2 = i2 ∧ s0 ≤ x.1 ∧ x.1 < d0 ∧ x.1 < i ∧ x.1 % 2 = s0 % 2
        then 1 else 0) (by decide)
    ⟨rfl, le_refl _, by
      intro x
      have : ¬ (x.2.1 = i1 ∧ x.2.2 = i2 ∧ s0 ≤ x.1 ∧ x.1 < d0 ∧ x.1 < s0 ∧
          x.1 % 2 = s0 % 2) := by omega
      simp [this]⟩
    (by
      intro i l hi hP
      obtain ⟨h1, h2, h3⟩ := hP
      refine ⟨by omega, by omega, ?_⟩
      intro x
      obtain ⟨x0, x1, x2⟩ := x
      rw [List.count_append, h3, List.count_singleton]
      simp only [beq_iff_eq, Prod.mk.injEq]
      split_ifs <;> omega)
  rw [hP x]
  split_ifs <;> omega

theorem startFlag_cases (t i : Nat) :
    ∃ s, (if t = i % 2 then 1 else 0) = s ∧ ((s = 1 ∧ t = i % 2) ∨ (s = 0 ∧ t ≠ i % 2)) := by
  by_cases h : t = i % 2
  · exact ⟨1, by simp [h], Or.inl ⟨rfl, h⟩⟩
  · exact ⟨0, by simp [h], Or.inr ⟨rfl, h⟩⟩

theorem count_mid (d0 d1 t i2 : Nat) (ht : t < 2) (l0 : List (Nat × Nat × Nat))
    (x : Nat × Nat × Nat) :
    (forUp 0 d1 1 (fun i1 l =>
        forUp (if (if t = i2 % 2 then 1 else 0) = i1 % 2 then 1 else 0) d0 2
          (fun i0 l => l ++ [(i0, i1, i2)]) l) l0).count x
      = l0.count x +
        if x.2.2 = i2 ∧ x.2.1 < d1 ∧ x.1 < d0 ∧ (x.1 + x.2.1 + x.2.2) % 2 = t then 1 else 0 := by
  have := forUp_inv1 0 d1 (fun i1 l =>
        forUp (if (if t = i2 % 2 then 1 else 0) = i1 % 2 then 1 else 0) d0 2
          (fun i0 l => l ++ [(i0, i1, i2)]) l) l0
    (fun i l => ∀ x : Nat × Nat × Nat, l.count x = l0.count x +
        if x.2.2 = i2 ∧ x.2.1 < i ∧ x.1 < d0 ∧ (x.1 + x.2.1 + x.2.2) % 2 = t then 1 else 0)
    (Nat.zero_le _)
    (by
      intro x
      have : ¬ (x.2.2 = i2 ∧ x.2.1 < 0 ∧ x.1 < d0 ∧ (x.1 + x.2.1 + x.2.2) % 2 = t) := by
        omega
      simp [this]) ?_
  · exact this x
  · intro i l _ _ hP x
    show (forUp (if (if t = i2 % 2 then 1 else 0) = i % 2 then 1 else 0) d0 2
          (fun i0 l => l ++ [(i0, i, i2)]) l).count x = _
    rw [count_inner, hP x]
    obtain ⟨s1, e1, h1⟩ := startFlag_cases t i2
    rw [e1]
    obtain ⟨s0, e0, h0⟩ := startFlag_cases s1 i
    rw [e0]
    split_ifs <;> omega

/-- Each voxel of the grid whose coordinate sum has the parity of `it` is visited exactly
once in half-sweep `it`; nothing else is visited. -/
theorem visits_count (dm : Dims) (it : Nat) (x : Nat × Nat × Nat) :
    (visits dm it).count x
      = if x.1 < dm.d0 ∧ x.2.1 < dm.d1 ∧ x.2.2 < dm.d2 ∧ (x.1 + x.2.1 + x.2.2) % 2 = it % 2
        then 1 else 0 := by
  have ht : it % 2 < 2 := Nat.mod_lt _ (by decide)
  have := forUp_inv1 0 dm.d2 (fun i2 l =>
      forUp 0 dm.d1 1 (fun i1 l =>
        forUp (if (if it % 2 = i2 % 2 then 1 else 0) = i1 % 2 then 1 else 0) dm.d0 2
          (fun i0 l => l ++ [(i0, i1, i2)]) l) l) ([] : List (Nat × Nat × Nat))
    (fun i l => ∀ x : Nat × Nat × Nat, l.count x =
        if x.1 < dm.d0 ∧ x.2.1 < dm.d1 ∧ x.2.2 < i ∧ (x.1 + x.2.1 + x.2.2) % 2 = it % 2
        then 1 else 0)
    (Nat.zero_le _)
    (by
      intro x
      have : ¬ (x.1 < dm.d0 ∧ x.2.1 < dm.d1 ∧ x.2.2 < 0 ∧
          (x.1 + x.2.1 + x.2.2) % 2 = it % 2) := by omega
      simp [this]) ?_
  · exact this x
  · intro i l _ _ hP x
    show (forUp 0 dm.d1 1 (fun i1 l =>
        forUp (if (if it % 2 = i % 2 then 1 else 0) = i1 % 2 then 1 else 0) dm.d0 2
          (fun i0 l => l ++ [(i0, i1, i)]) l) l).count x = _
    rw [count_mid dm.d0 dm.d1 (it % 2) i ht, hP x]
    split_ifs <;> omega

theorem visits_mem (dm : Dims) (it : Nat) (x : Nat × Nat × Nat) :
    x ∈ visits dm it ↔
      x.1 < dm.d0 ∧ x.2.1 < dm.d1 ∧ x.2.2 < dm.d2 ∧ (x.1 + x.2.1 + x.2.2) % 2 = it % 2 := by
  rw [← List.count_pos_iff, visits_count]
  split_ifs with h
  · simp [h]
  · simp [h]

/-! ## Offsets and voxels -/

theorem voxOff_lt (dm : Dims) (i0 i1 i2 : Nat) (h : inGrid dm (i0, i1, i2)) :
    voxOff dm i0 i1 i2 < nvox dm := by
  obtain ⟨h0, h1, h2⟩ := h
  simp only at h0 h1 h2
  unfold voxOff nvox
  have a1 : i1 + dm.d1 * i2 + 1 ≤ dm.d1 * dm.d2 := by
    have : dm.d1 * (i2 + 1) ≤ dm.d1 * dm.d2 := Nat.mul_le_mul_left _ h2
    rw [Nat.mul_add, Nat.mul_one] at this
    omega
  have a2 : dm.d0 * (i1 + dm.d1 * i2 + 1) ≤ dm.d0 * (dm.d1 * dm.d2) :=
    Nat.mul_le_mul_left _ a1
  rw [Nat.mul_add, Nat.mul_one] at a2
  rw [Nat.mul_assoc]
  omega

theorem voxelOf_voxOff (dm : Dims) (i0 i1 i2 k : Nat) (h : inGrid dm (i0, i1, i2)) :
    voxelOf dm (voxOff dm i0 i1 i2 + k * nvox dm) = (i0, i1, i2) := by
  have hlt := voxOff_lt dm i0 i1 i2 h
  obtain ⟨h0, h1, h2⟩ := h
  simp only at h0 h1 h2
  have hm : (voxOff dm i0 i1 i2 + k * nvox dm) % nvox dm = voxOff dm i0 i1 i2 := by
    rw [Nat.add_mul_mod_self_right]; exact Nat.mod_eq_of_lt hlt
  unfold voxelOf
  rw [hm]
  have e0 : voxOff dm i0 i1 i2 % dm.d0 = i0 := by
    unfold voxOff
    rw [Nat.add_mul_mod_self_left]; exact Nat.mod_eq_of_lt h0
  have e01 : voxOff dm i0 i1 i2 / dm.d0 = i1 + dm.d1 * i2 := by
    unfold voxOff
    rw [Nat.add_mul_div_left _ _ (by omega), Nat.div_eq_of_lt h0, Nat.zero_add]
  have e1 : voxOff dm i0 i1 i2 / dm.d0 % dm.d1 = i1 := by
    rw [e01, Nat.add_mul_mod_self_left]; exact Nat.mod_eq_of_lt h1
  have e2 : voxOff dm i0 i1 i2 / (dm.d0 * dm.d1) = i2 := by
    rw [← Nat.div_div_eq_div_mul, e01, Nat.add_mul_div_left _ _ (by omega),
      Nat.div_eq_of_lt h1, Nat.zero_add]
  rw [e0, e1, e2]

theorem voxelOf_inGrid (dm : Dims) (o : Nat) (hm : 0 < nvox dm) : inGrid dm (voxelOf dm o) := by
  have hd0 : 0 < dm.d0 := by
    rcases Nat.eq_zero_or_pos dm.d0 with h | h
    · simp [nvox, h] at hm
    · exact h
  have hd1 : 0 < dm.d1 := by
    rcases Nat.eq_zero_or_pos dm.d1 with h | h
    · simp [nvox, h] at hm
    · exact h
  have hv : o % nvox dm < dm.d0 * dm.d1 * dm.d2 := Nat.mod_lt _ hm
  refine ⟨Nat.mod_lt _ hd0, Nat.mod_lt _ hd1, ?_⟩
  show o % nvox dm / (dm.d0 * dm.d1) < dm.d2
  rw [Nat.div_lt_iff_lt_mul (Nat.mul_pos hd0 hd1), Nat.mul_comm]
  exact hv

theorem voxOff_voxelOf (dm : Dims) (o : Nat) :
    voxOff dm (voxelOf dm o).1 (voxelOf dm o).2.1 (voxelOf dm o).2.2 = o % nvox dm := by
  unfold voxOff voxelOf
  simp only
  rw [← Nat.div_div_eq_div_mul, Nat.mod_add_div, Nat.mod_add_div]

/-- For a voxel of the grid, the bytes written by its update are exactly the bytes that
belong to it. -/
theorem owns_iff (dm : Dims) (x : Nat × Nat × Nat) (hx : inGrid dm x) (o : Nat) :
    (o % nvox dm = voxOff dm x.1 x.2.1 x.2.2 ∧ o / nvox dm < dm.d3)
      ↔ (voxelOf dm o = x ∧ o < nvox dm * dm.d3) := by
  have hlt := voxOff_lt dm x.1 x.2.1 x.2.2 hx
  have hm : 0 < nvox dm := by omega
  have hdiv : o / nvox dm < dm.d3 ↔ o < nvox dm * dm.d3 := by
    rw [Nat.div_lt_iff_lt_mul hm, Nat.mul_comm]
  rw [hdiv]
  constructor
  · rintro ⟨h1, h2⟩
    refine ⟨?_, h2⟩
    have := voxelOf_voxOff dm x.1 x.2.1 x.2.2 (o / nvox dm) hx
    rw [← h1, Nat.mul_comm, Nat.mod_add_div] at this
    exact this
  · rintro ⟨h1, h2⟩
    refine ⟨?_, h2⟩
    rw [← h1]
    exact (voxOff_voxelOf dm o).symm

theorem colour_ne_of_faceAdj (x y : Nat × Nat × Nat) (h : faceAdj x y) :
    colour x ≠ colour y := by
  unfold faceAdj at h
  unfold colour
  omega

/-! ## The six neighbour reads -/

theorem voxOff_add2 (dm : Dims) (i0 i1 i2 : Nat) :
    voxOff dm i0 i1 i2 + dm.d0 * dm.d1 = voxOff dm i0 i1 (i2 + 1) := by
  unfold voxOff; ring

theorem voxOff_add1 (dm : Dims) (i0 i1 i2 : Nat) :
    voxOff dm i0 i1 i2 + dm.d0 = voxOff dm i0 (i1 + 1) i2 := by
  unfold voxOff; ring

theorem voxOff_add0 (dm : Dims) (i0 i1 i2 : Nat) :
    voxOff dm i0 i1 i2 + 1 = voxOff dm (i0 + 1) i1 i2 := by
  unfold voxOff; ring

theorem voxOff_sub2 (dm : Dims) (i0 i1 i2 : Nat) (h : i2 > 0) :
    voxOff dm i0 i1 i2 - dm.d0 * dm.d1 = voxOff dm i0 i1 (i2 - 1) := by
  obtain ⟨j, rfl⟩ : ∃ j, i2 = j + 1 := ⟨i2 - 1, by omega⟩
  rw [← voxOff_add2, Nat.add_sub_cancel, Nat.add_sub_cancel]

theorem voxOff_sub1 (dm : Dims) (i0 i1 i2 : Nat) (h : i1 > 0) :
    voxOff dm i0 i1 i2 - dm.d0 = voxOff dm i0 (i1 - 1) i2 := by
  obtain ⟨j, rfl⟩ : ∃ j, i1 = j + 1 := ⟨i1 - 1, by omega⟩
  rw [← voxOff_add1, Nat.add_sub_cancel, Nat.add_sub_cancel]

theorem voxOff_sub0 (dm : Dims) (i0 i1 i2 : Nat) (h : i0 > 0) :
    voxOff dm i0 i1 i2 - 1 = voxOff dm (i0 - 1) i1 i2 := by
  obtain ⟨j, rfl⟩ : ∃ j, i0 = j + 1 := ⟨i0 - 1, by omega⟩
  rw [← voxOff_add0, Nat.add_sub_cancel, Nat.add_sub_cancel]

section Neighbours

variable {α : Type} [LinearOrderedField α]

theorem nbTerm_congr (c : Prop) [Decidable c] (q q1 : Nat → Nat) (o o1 : Nat) (wt : α)
    (h : c → q o = q1 o1) : nbTerm (decide c) q o wt = nbTerm (decide c) q1 o1 wt := by
  unfold nbTerm
  by_cases hc : c
  · simp [hc, h hc]
  · simp [hc]

/-- The value of `a[k]` in terms of the neighbouring voxels. -/
theorem influence_nb (dm : Dims) (q : Nat → Nat) (w : Nat → α) (i0 i1 i2 k : Nat) :
    influence dm q w i0 i1 i2 k =
      if k < dm.d3 then
        (nbTerm (decide (i2 > 0)) q (voxOff dm i0 i1 (i2 - 1) + k * nvox dm) (w 2)
          + nbTerm (decide (i2 < dm.d2 - 1)) q (voxOff dm i0 i1 (i2 + 1) + k * nvox dm) (w 2)
          + nbTerm (decide (i1 > 0)) q (voxOff dm i0 (i1 - 1) i2 + k * nvox dm) (w 1)
          + nbTerm (decide (i1 < dm.d1 - 1)) q (voxOff dm i0 (i1 + 1) i2 + k * nvox dm) (w 1)
          + nbTerm (decide (i0 > 0)) q (voxOff dm (i0 - 1) i1 i2 + k * nvox dm) (w 0)
          + nbTerm (decide (i0 < dm.d0 - 1)) q (voxOff dm (i0 + 1) i1 i2 + k * nvox dm) (w 0))
          / (255 * 6)
      else 0 := by
  rw [influence_apply, voxOff_add2, voxOff_add1, voxOff_add0]
  rw [nbTerm_congr (i2 > 0) q q _ (voxOff dm i0 i1 (i2 - 1) + k * nvox dm) (w 2)
      (fun h => by rw [voxOff_sub2 dm i0 i1 i2 h]),
    nbTerm_congr (i1 > 0) q q _ (voxOff dm i0 (i1 - 1) i2 + k * nvox dm) (w 1)
      (fun h => by rw [voxOff_sub1 dm i0 i1 i2 h]),
    nbTerm_congr (i0 > 0) q q _ (voxOff dm (i0 - 1) i1 i2 + k * nvox dm) (w 0)
      (fun h => by rw [voxOff_sub0 dm i0 i1 i2 h])]

/-- The vector `a` depends on the responsibility volume only through the bytes of the
face-adjacent voxels inside the grid. -/
theorem influence_congr (dm : Dims) (q q1 : Nat → Nat) (w : Nat → α) (i0 i1 i2 : Nat)
    (hx : inGrid dm (i0, i1, i2))
    (h : ∀ y, inGrid dm y → faceAdj (i0, i1, i2) y → ∀ k, k < dm.d3 →
      q (voxOff dm y.1 y.2.1 y.2.2 + k * nvox dm) = q1 (voxOff dm y.1 y.2.1 y.2.2 + k * nvox dm)) :
    influence dm q w i0 i1 i2 = influence dm q1 w i0 i1 i2 := by
  obtain ⟨h0, h1, h2⟩ := hx
  simp only at h0 h1 h2
  funext k
  rw [influence_nb, influence_nb]
  by_cases hk : k < dm.d3
  · simp only [hk, if_true]
    rw [nbTerm_congr (i2 > 0) q q1 _ _ (w 2) (fun hc =>
        h (i0, i1, i2 - 1) ⟨h0, h1, by simp only; omega⟩ (by simp only [faceAdj]; omega) k hk),
      nbTerm_congr (i2 < dm.d2 - 1) q q1 _ _ (w 2) (fun hc =>
        h (i0, i1, i2 + 1) ⟨h0, h1, by simp only; omega⟩ (by simp only [faceAdj]; omega) k hk),
      nbTerm_congr (i1 > 0) q q1 _ _ (w 1) (fun hc =>
        h (i0, i1 - 1, i2) ⟨h0, by simp only; omega, h2⟩ (by simp only [faceAdj]; omega) k hk),
      nbTerm_congr (i1 < dm.d1 - 1) q q1 _ _ (w 1) (fun hc =>
        h (i0, i1 + 1, i2) ⟨h0, by simp only; omega, h2⟩ (by simp only [faceAdj]; omega) k hk),
      nbTerm_congr (i0 > 0) q q1 _ _ (w 0) (fun hc =>
        h (i0 - 1, i1, i2) ⟨by simp only; omega, h1, h2⟩ (by simp only [faceAdj]; omega) k hk),
      nbTerm_congr (i0 < dm.d0 - 1) q q1 _ _ (w 0) (fun hc =>
        h (i0 + 1, i1, i2) ⟨by simp only; omega, h1, h2⟩ (by simp only [faceAdj]; omega) k hk)]
  · simp only [hk, if_false]

end Neighbours

/-! ## A half-sweep is a synchronous update -/

section Sweep

variable {α : Type} [LinearOrderedField α] [FloorRing α]

theorem voxel_congr (ex : α → α) (dm : Dims) (p : Nat → α) (G : GMem α) (w : Nat → α)
    (code : Nat) (x : Nat × Nat × Nat) (hx : inGrid dm x) (q q1 : Nat → Nat)
    (h : ∀ y, inGrid dm y → faceAdj x y → ∀ k, k < dm.d3 →
      q (voxOff dm y.1 y.2.1 y.2.2 + k * nvox dm) = q1 (voxOff dm y.1 y.2.1 y.2.2 + k * nvox dm))
    (o : Nat) (ho : voxelOf dm o = x ∧ o < nvox dm * dm.d3) :
    voxel ex dm p G w code x.1 x.2.1 x.2.2 q o = voxel ex dm p G w code x.1 x.2.1 x.2.2 q1 o := by
  have hlt := voxOff_lt dm x.1 x.2.1 x.2.2 hx
  have hown := (owns_iff dm x hx o).2 ho
  rw [voxel_apply ex dm p G w code _ _ _ hlt, voxel_apply ex dm p G w code _ _ _ hlt,
    if_pos hown, if_pos hown, influence_congr dm q q1 w x.1 x.2.1 x.2.2 hx h]

theorem voxel_other (ex : α → α) (dm : Dims) (p : Nat → α) (G : GMem α) (w : Nat → α)
    (code : Nat) (x : Nat × Nat × Nat) (hx : inGrid dm x) (q : Nat → Nat)
    (o : Nat) (ho : ¬ (voxelOf dm o = x ∧ o < nvox dm * dm.d3)) :
    voxel ex dm p G w code x.1 x.2.1 x.2.2 q o = q o := by
  have hlt := voxOff_lt dm x.1 x.2.1 x.2.2 hx
  have hown := fun h => ho ((owns_iff dm x hx o).1 h)
  rw [voxel_apply ex dm p G w code _ _ _ hlt, if_neg hown]

/-- Updating, one after the other and in any order, a list of grid voxels of one colour
gives every byte of a listed voxel its update from the initial state. -/
theorem foldl_voxel (ex : α → α) (dm : Dims) (p : Nat → α) (G : GMem α) (w : Nat → α)
    (code c : Nat) (L : List (Nat × Nat × Nat))
    (hL : ∀ x, x ∈ L → inGrid dm x ∧ colour x = c) (q : Nat → Nat) (o : Nat) :
    L.foldl (fun q (v : Nat × Nat × Nat) => voxel ex dm p G w code v.1 v.2.1 v.2.2 q) q o
      = if voxelOf dm o ∈ L ∧ o < nvox dm * dm.d3 then
          voxel ex dm p G w code (voxelOf dm o).1 (voxelOf dm o).2.1 (voxelOf dm o).2.2 q o
        else q o := by
  induction L using List.reverseRecOn generalizing o with
  | nil => simp
  | append_singleton L x ih =>
    have ih1 := fun o => ih (fun y hy => hL y (List.mem_append_left _ hy)) o
    obtain ⟨hx, hcx⟩ := hL x (by simp)
    rw [List.foldl_append, List.foldl_cons, List.foldl_nil]
    by_cases ho : voxelOf dm o = x ∧ o < nvox dm * dm.d3
    · have hmem : voxelOf dm o ∈ L ++ [x] ∧ o < nvox dm * dm.d3 := ⟨by simp [ho.1], ho.2⟩
      rw [if_pos hmem, ho.1]
      refine (voxel_congr ex dm p G w code x hx q _ ?_ o ho).symm
      intro y hy hadj k hk
      rw [ih1]
      have hv : voxelOf dm (voxOff dm y.1 y.2.1 y.2.2 + k * nvox dm) = y :=
        voxelOf_voxOff dm y.1 y.2.1 y.2.2 k hy
      have hnot : ¬ (voxelOf dm (voxOff dm y.1 y.2.1 y.2.2 + k * nvox dm) ∈ L ∧
          voxOff dm y.1 y.2.1 y.2.2 + k * nvox dm < nvox dm * dm.d3) := by
        rintro ⟨hm, _⟩
        rw [hv] at hm
        have := (hL y (List.mem_append_left _ hm)).2
        exact colour_ne_of_faceAdj x y hadj (by rw [hcx, this])
      rw [if_neg hnot]
    · rw [voxel_other ex dm p G w code x hx _ o ho, ih1]
      by_cases hm : voxelOf dm o ∈ L ∧ o < nvox dm * dm.d3
      · have hm1 : voxelOf dm o ∈ L ++ [x] ∧ o < nvox dm * dm.d3 :=
          ⟨List.mem_append_left _ hm.1, hm.2⟩
        rw [if_pos hm, if_pos hm1]
      · have hm1 : ¬ (voxelOf dm o ∈ L ++ [x] ∧ o < nvox dm * dm.d3) := by
          rintro ⟨h1, h2⟩
          rcases List.mem_append.1 h1 with h | h
          · exact hm ⟨h, h2⟩
          · exact ho ⟨by simpa using h, h2⟩
        rw [if_neg hm, if_neg hm1]

theorem foldl_perm_sync (ex : α → α) (dm : Dims) (p : Nat → α) (G : GMem α) (w : Nat → α)
    (code it : Nat) (q : Nat → Nat) (L : List (Nat × Nat × Nat))
    (hL : ∀ x, x ∈ L ↔ x ∈ visits dm it) :
    L.foldl (fun q (v : Nat × Nat × Nat) => voxel ex dm p G w code v.1 v.2.1 v.2.2 q) q
      = syncHalf ex dm p G w code it q := by
  funext o
  have hcol : ∀ x, x ∈ L → inGrid dm x ∧ colour x = it % 2 := by
    intro x hx
    have := (visits_mem dm it x).1 ((hL x).1 hx)
    exact ⟨⟨this.1, this.2.1, this.2.2.1⟩, this.2.2.2⟩
  rw [foldl_voxel ex dm p G w code (it % 2) L hcol q o]
  unfold syncHalf
  by_cases h : o < nvox dm * dm.d3
  · have hm : 0 < nvox dm := by
      rcases Nat.eq_zero_or_pos (nvox dm) with h0 | h0
      · rw [h0, Nat.zero_mul] at h; omega
      · exact h0
    have hg := voxelOf_inGrid dm o hm
    by_cases hc : colour (voxelOf dm o) = it % 2
    · have : voxelOf dm o ∈ L :=
        (hL _).2 ((visits_mem dm it _).2 ⟨hg.1, hg.2.1, hg.2.2, hc⟩)
      simp [this, h, hc]
    · have : voxelOf dm o ∉ L := fun hm => hc (hcol _ hm).2
      simp [this, hc]
  · simp [h]

end Sweep

/-! ## The checkerboard schedule -/

section Schedule

variable {α : Type} [LinearOrderedField α] [FloorRing α]

theorem mrf1_eq_two_halfSweeps (ex : α → α) (dm : Dims) (q : Nat → Nat) (p : Nat → α)
    (G : GMem α) (w : Nat → α) (code : Nat) :
    mrf1 ex dm q p G w code
      = halfSweep dm 1 (voxel ex dm p G w code) (halfSweep dm 0 (voxel ex dm p G w code) q) := by
  simp [mrf1, forUp, forFuel]

theorem mrf1_eq_foldl (ex : α → α) (dm : Dims) (q : Nat → Nat) (p : Nat → α)
    (G : GMem α) (w : Nat → α) (code : Nat) :
    mrf1 ex dm q p G w code
      = (visits dm 0 ++ visits dm 1).foldl
          (fun q (v : Nat × Nat × Nat) => voxel ex dm p G w code v.1 v.2.1 v.2.2 q) q := by
  rw [mrf1_eq_two_halfSweeps, halfSweep_eq_foldl, halfSweep_eq_foldl, List.foldl_append]

/-- C2 as stated fails: on the grid with a single voxel, the voxel `(0,0,0)` is updated once
during a call of `mrf1`, in half-sweep `it = 0`, and not at all in half-sweep `it = 1`. -/
theorem updated_twice_counterexample :
    (visits ⟨1, 1, 1, 1⟩ 0 ++ visits ⟨1, 1, 1, 1⟩ 1).count (0, 0, 0) = 1 ∧
      (visits ⟨1, 1, 1, 1⟩ 1).count (0, 0, 0) = 0 ∧
      ¬ ((visits ⟨1, 1, 1, 1⟩ 0).count (0, 0, 0) = 1 ∧
          (visits ⟨1, 1, 1, 1⟩ 1).count (0, 0, 0) = 1) := by
  decide

/-- C2, amended: a call of `mrf1` is the sequence of voxel updates listed by the two
half-sweeps, and in that sequence every voxel of the grid is updated exactly once: once in
the half-sweep `it = (i0+i1+i2) mod 2`, never in the other one. -/
theorem updated_once (ex : α → α) (dm : Dims) (q : Nat → Nat) (p : Nat → α) (G : GMem α)
    (w : Nat → α) (code : Nat) (x : Nat × Nat × Nat) (hx : inGrid dm x) :
    mrf1 ex dm q p G w code
        = (visits dm 0 ++ visits dm 1).foldl
            (fun q (v : Nat × Nat × Nat) => voxel ex dm p G w code v.1 v.2.1 v.2.2 q) q ∧
      (visits dm 0 ++ visits dm 1).count x = 1 ∧
      (visits dm (colour x)).count x = 1 ∧
      (visits dm (1 - colour x)).count x = 0 := by
  obtain ⟨h0, h1, h2⟩ := hx
  refine ⟨mrf1_eq_foldl ex dm q p G w code, ?_, ?_, ?_⟩
  · rw [List.count_append, visits_count, visits_count]
    split_ifs <;> omega
  · rw [visits_count]
    unfold colour
    split_ifs <;> omega
  · rw [visits_count]
    unfold colour
    split_ifs <;> omega

theorem updated_once_witness :
    (visits ⟨3, 3, 3, 2⟩ 0 ++ visits ⟨3, 3, 3, 2⟩ 1).count (1, 2, 0) = 1 ∧
      (visits ⟨3, 3, 3, 2⟩ (colour (1, 2, 0))).count (1, 2, 0) = 1 ∧
      (visits ⟨3, 3, 3, 2⟩ (1 - colour (1, 2, 0))).count (1, 2, 0) = 0 :=
  (updated_once (fun x : ℚ => x) ⟨3, 3, 3, 2⟩ (fun _ => 0) (fun _ => 1)
    ⟨fun _ => 0, fun _ => 0⟩ (fun _ => 1) 2 (1, 2, 0) (by decide)).2

/-- C3: in half-sweep `it` (0 or 1) the loops of `mrf1` visit exactly the voxels of the
grid with `(i0+i1+i2) mod 2 = it`; the two half-sweeps visit disjoint sets of voxels whose
union is the whole grid, and no two voxels visited in one half-sweep are face-adjacent. -/
theorem visits_checkerboard (dm : Dims) :
    (∀ x, x ∈ visits dm 0 ↔ inGrid dm x ∧ (x.1 + x.2.1 + x.2.2) % 2 = 0) ∧
    (∀ x, x ∈ visits dm 1 ↔ inGrid dm x ∧ (x.1 + x.2.1 + x.2.2) % 2 = 1) ∧
    (∀ x, ¬ (x ∈ visits dm 0 ∧ x ∈ visits dm 1)) ∧
    (∀ x, inGrid dm x → x ∈ visits dm 0 ∨ x ∈ visits dm 1) ∧
    (∀ it x y, x ∈ visits dm it → y ∈ visits dm it → ¬ faceAdj x y) := by
  refine ⟨?_, ?_, ?_, ?_, ?_⟩
  · intro x
    rw [visits_mem]
    unfold inGrid
    constructor <;> intro h <;> omega
  · intro x
    rw [visits_mem]
    unfold inGrid
    constructor <;> intro h <;> omega
  · intro x
    rw [visits_mem, visits_mem]
    omega
  · intro x hx
    rw [visits_mem, visits_mem]
    unfold inGrid at hx
    omega
  · intro it x y hx hy hadj
    rw [visits_mem] at hx hy
    exact colour_ne_of_faceAdj x y hadj (by unfold colour; omega)

theorem visits_checkerboard_witness :
    (1, 0, 0) ∈ visits ⟨2, 2, 1, 3⟩ 1 ∧
      ((0, 1, 0) ∈ visits ⟨2, 2, 1, 3⟩ 0 ∨ (0, 1, 0) ∈ visits ⟨2, 2, 1, 3⟩ 1) :=
  ⟨((visits_checkerboard ⟨2, 2, 1, 3⟩).2.1 (1, 0, 0)).2 (by decide),
   (visits_checkerboard ⟨2, 2, 1, 3⟩).2.2.2.1 (0, 1, 0) (by decide)⟩

/-- C4: in every mode and on every grid, one sequential half-sweep of `mrf1` equals the
synchronous update `syncHalf` (every voxel of the active colour gets the voxel update
computed from the state before the half-sweep, every other byte is unchanged); hence
updating the voxels of the active colour in any other order gives the same volume. -/
theorem halfSweep_synchronous (ex : α → α) (dm : Dims) (p : Nat → α) (G : GMem α)
    (w : Nat → α) (code it : Nat) (_h1 : 1 ≤ code) (_h5 : code ≤ 5)
    (_hK : dm.d3 ≤ MAXCLASSES) (q : Nat → Nat) :
    halfSweep dm it (voxel ex dm p G w code) q = syncHalf ex dm p G w code it q ∧
    ∀ L : List (Nat × Nat × Nat), L.Perm (visits dm it) →
      L.foldl (fun q (v : Nat × Nat × Nat) => voxel ex dm p G w code v.1 v.2.1 v.2.2 q) q
        = syncHalf ex dm p G w code it q := by
  refine ⟨?_, ?_⟩
  · rw [halfSweep_eq_foldl]
    exact foldl_perm_sync ex dm p G w code it q (visits dm it) (fun _ => Iff.rfl)
  · intro L hL
    exact foldl_perm_sync ex dm p G w code it q L (fun _ => hL.mem_iff)

theorem halfSweep_synchronous_witness :
    halfSweep ⟨2, 2, 1, 2⟩ 0
        (voxel Real.exp ⟨2, 2, 1, 2⟩ (fun _ => 1) ⟨fun _ => 1, fun _ => 0⟩ (fun _ => 1) 2)
        (fun _ => 100)
      = syncHalf Real.exp ⟨2, 2, 1, 2⟩ (fun _ => 1) ⟨fun _ => 1, fun _ => 0⟩ (fun _ => 1) 2 0
        (fun _ => 100) ∧
    [((1 : Nat), (1 : Nat), (0 : Nat)), (0, 0, 0)].foldl
        (fun q (v : Nat × Nat × Nat) =>
          voxel Real.exp ⟨2, 2, 1, 2⟩ (fun _ => 1) ⟨fun _ => 1, fun _ => 0⟩ (fun _ => 1) 2
            v.1 v.2.1 v.2.2 q) (fun _ => 100)
      = syncHalf Real.exp ⟨2, 2, 1, 2⟩ (fun _ => 1) ⟨fun _ => 1, fun _ => 0⟩ (fun _ => 1) 2 0
        (fun _ => 100) := by
  have h := halfSweep_synchronous Real.exp ⟨2, 2, 1, 2⟩ (fun _ => 1)
    ⟨fun _ => 1, fun _ => 0⟩ (fun _ => 1) 2 0 (by decide) (by decide) (by decide)
    (fun _ => 100)
  refine ⟨h.1, h.2 _ ?_⟩
  have : visits ⟨2, 2, 1, 2⟩ 0 = [(0, 0, 0), (1, 1, 0)] := by decide
  rw [this]
  exact List.Perm.swap _ _ _

end Schedule

/-! ## The influence vector as a sum over neighbours -/

section Influence

variable {α : Type} [LinearOrderedField α]

theorem sum3_point (d0 d1 d2 a b c : Nat) (g : Prop) [Decidable g] (F : Nat → Nat → Nat → α) :
    (∑ j2 in Finset.range d2, ∑ j1 in Finset.range d1, ∑ j0 in Finset.range d0,
        if j0 = a ∧ j1 = b ∧ j2 = c ∧ g then F j0 j1 j2 else 0)
      = if a < d0 ∧ b < d1 ∧ c < d2 ∧ g then F a b c else 0 := by
  by_cases hall : a < d0 ∧ b < d1 ∧ c < d2 ∧ g
  · obtain ⟨ha, hb, hc, hg⟩ := hall
    rw [if_pos ⟨ha, hb, hc, hg⟩, Finset.sum_eq_single c, Finset.sum_eq_single b,
      Finset.sum_eq_single a]
    · simp [hg]
    · intro j _ hj
      simp [hj]
    · intro h
      exact absurd (Finset.mem_range.2 ha) h
    · intro j _ hj
      refine Finset.sum_eq_zero ?_
      intro j0 _
      simp [hj]
    · intro h
      exact absurd (Finset.mem_range.2 hb) h
    · intro j _ hj
      refine Finset.sum_eq_zero ?_
      intro j1 _
      refine Finset.sum_eq_zero ?_
      intro j0 _
      simp [hj]
    · intro h
      exact absurd (Finset.mem_range.2 hc) h
  · rw [if_neg hall]
    refine Finset.sum_eq_zero ?_
    intro j2 h2
    refine Finset.sum_eq_zero ?_
    intro j1 h1
    refine Finset.sum_eq_zero ?_
    intro j0 h0
    rw [if_neg]
    rintro ⟨rfl, rfl, rfl, hg⟩
    exact hall ⟨Finset.mem_range.1 h0, Finset.mem_range.1 h1, Finset.mem_range.1 h2, hg⟩

theorem faceAdj_cases (i0 i1 i2 j0 j1 j2 : Nat) (hadj : faceAdj (i0, i1, i2) (j0, j1, j2)) :
    (j0 = i0 ∧ j1 = i1 ∧ j2 = i2 - 1 ∧ i2 > 0) ∨ (j0 = i0 ∧ j1 = i1 ∧ j2 = i2 + 1 ∧ True) ∨
    (j0 = i0 ∧ j1 = i1 - 1 ∧ j2 = i2 ∧ i1 > 0) ∨ (j0 = i0 ∧ j1 = i1 + 1 ∧ j2 = i2 ∧ True) ∨
    (j0 = i0 - 1 ∧ j1 = i1 ∧ j2 = i2 ∧ i0 > 0) ∨ (j0 = i0 + 1 ∧ j1 = i1 ∧ j2 = i2 ∧ True) := by
  simp only [faceAdj] at hadj
  rcases Nat.lt_trichotomy j0 i0 with a | a | a <;>
    rcases Nat.lt_trichotomy j1 i1 with b | b | b <;>
    rcases Nat.lt_trichotomy j2 i2 with c | c | c <;>
    first
    | (exfalso; omega)
    | exact Or.inl ⟨by omega, by omega, by omega, by omega⟩
    | exact Or.inr (Or.inl ⟨by omega, by omega, by omega, trivial⟩)
    | exact Or.inr (Or.inr (Or.inl ⟨by omega, by omega, by omega, by omega⟩))
    | exact Or.inr (Or.inr (Or.inr (Or.inl ⟨by omega, by omega, by omega, trivial⟩)))
    | exact Or.inr (Or.inr (Or.inr (Or.inr (Or.inl ⟨by omega, by omega, by omega, by omega⟩))))
    | exact Or.inr (Or.inr (Or.inr (Or.inr (Or.inr ⟨by omega, by omega, by omega, trivial⟩))))

/-- The indicator of face-adjacency splits into the six guarded neighbour positions. -/
theorem faceAdj_split (i0 i1 i2 j0 j1 j2 : Nat) (w : Nat → α) (c : α) :
    (if faceAdj (i0, i1, i2) (j0, j1, j2) then w (axisOf (i0, i1, i2) (j0, j1, j2)) * c
      else 0)
      = (if j0 = i0 ∧ j1 = i1 ∧ j2 = i2 - 1 ∧ i2 > 0 then c * w 2 else 0)
        + (if j0 = i0 ∧ j1 = i1 ∧ j2 = i2 + 1 ∧ True then c * w 2 else 0)
        + (if j0 = i0 ∧ j1 = i1 - 1 ∧ j2 = i2 ∧ i1 > 0 then c * w 1 else 0)
        + (if j0 = i0 ∧ j1 = i1 + 1 ∧ j2 = i2 ∧ True then c * w 1 else 0)
        + (if j0 = i0 - 1 ∧ j1 = i1 ∧ j2 = i2 ∧ i0 > 0 then c * w 0 else 0)
        + (if j0 = i0 + 1 ∧ j1 = i1 ∧ j2 = i2 ∧ True then c * w 0 else 0) := by
  by_cases h1 : j0 = i0 ∧ j1 = i1 ∧ j2 = i2 - 1 ∧ i2 > 0
  · have hadj : faceAdj (i0, i1, i2) (j0, j1, j2) := by simp only [faceAdj]; omega
    have hax : axisOf (i0, i1, i2) (j0, j1, j2) = 2 := by
      have e0 : i0 = j0 := by omega
      have e1 : i1 = j1 := by omega
      simp [axisOf, e0, e1]
    rw [if_pos hadj, hax, if_pos h1, if_neg (by omega), if_neg (by omega), if_neg (by omega),
      if_neg (by omega), if_neg (by omega)]
    ring
  by_cases h2 : j0 = i0 ∧ j1 = i1 ∧ j2 = i2 + 1 ∧ True
  · have hadj : faceAdj (i0, i1, i2) (j0, j1, j2) := by simp only [faceAdj]; omega
    have hax : axisOf (i0, i1, i2) (j0, j1, j2) = 2 := by
      have e0 : i0 = j0 := by omega
      have e1 : i1 = j1 := by omega
      simp [axisOf, e0, e1]
    rw [if_pos hadj, hax, if_neg h1, if_pos h2, if_neg (by omega), if_neg (by omega),
      if_neg (by omega), if_neg (by omega)]
    ring
  by_cases h3 : j0 = i0 ∧ j1 = i1 - 1 ∧ j2 = i2 ∧ i1 > 0
  · have hadj : faceAdj (i0, i1, i2) (j0, j1, j2) := by simp only [faceAdj]; omega
    have hax : axisOf (i0, i1, i2) (j0, j1, j2) = 1 := by
      have e0 : i0 = j0 := by omega
      have e1 : i1 ≠ j1 := by omega
      simp [axisOf, e0, e1]
    rw [if_pos hadj, hax, if_neg h1, if_neg h2, if_pos h3, if_neg (by omega),
      if_neg (by omega), if_neg (by omega)]
    ring
  by_cases h4 : j0 = i0 ∧ j1 = i1 + 1 ∧ j2 = i2 ∧ True
  · have hadj : faceAdj (i0, i1, i2) (j0, j1, j2) := by simp only [faceAdj]; omega
    have hax : axisOf (i0, i1, i2) (j0, j1, j2) = 1 := by
      have e0 : i0 = j0 := by omega
      have e1 : i1 ≠ j1 := by omega
      simp [axisOf, e0, e1]
    rw [if_pos hadj, hax, if_neg h1, if_neg h2, if_neg h3, if_pos h4, if_neg (by omega),
      if_neg (by omega)]
    ring
  by_cases h5 : j0 = i0 - 1 ∧ j1 = i1 ∧ j2 = i2 ∧ i0 > 0
  · have hadj : faceAdj (i0, i1, i2) (j0, j1, j2) := by simp only [faceAdj]; omega
    have hax : axisOf (i0, i1, i2) (j0, j1, j2) = 0 := by
      have e0 : i0 ≠ j0 := by omega
      simp [axisOf, e0]
    rw [if_pos hadj, hax, if_neg h1, if_neg h2, if_neg h3, if_neg h4, if_pos h5,
      if_neg (by omega)]
    ring
  by_cases h6 : j0 = i0 + 1 ∧ j1 = i1 ∧ j2 = i2 ∧ True
  · have hadj : faceAdj (i0, i1, i2) (j0, j1, j2) := by simp only [faceAdj]; omega
    have hax : axisOf (i0, i1, i2) (j0, j1, j2) = 0 := by
      have e0 : i0 ≠ j0 := by omega
      simp [axisOf, e0]
    rw [if_pos hadj, hax, if_neg h1, if_neg h2, if_neg h3, if_neg h4, if_neg h5, if_pos h6]
    ring
  · have hadj : ¬ faceAdj (i0, i1, i2) (j0, j1, j2) := by
      intro h
      rcases faceAdj_cases i0 i1 i2 j0 j1 j2 h with c | c | c | c | c | c
      · exact h1 c
      · exact h2 c
      · exact h3 c
      · exact h4 c
      · exact h5 c
      · exact h6 c
    rw [if_neg hadj, if_neg h1, if_neg h2, if_neg h3, if_neg h4, if_neg h5, if_neg h6]
    ring

/-- The sum over face-adjacent grid voxels is the sum of the six guarded reads. -/
theorem neighbourSum_eq (dm : Dims) (q : Nat → Nat) (w : Nat → α) (i0 i1 i2 k : Nat)
    (hx : inGrid dm (i0, i1, i2)) :
    neighbourSum dm q w (i0, i1, i2) k
      = nbTerm (decide (i2 > 0)) q (voxOff dm i0 i1 (i2 - 1) + k * nvox dm) (w 2)
          + nbTerm (decide (i2 < dm.d2 - 1)) q (voxOff dm i0 i1 (i2 + 1) + k * nvox dm) (w 2)
          + nbTerm (decide (i1 > 0)) q (voxOff dm i0 (i1 - 1) i2 + k * nvox dm) (w 1)
          + nbTerm (decide (i1 < dm.d1 - 1)) q (voxOff dm i0 (i1 + 1) i2 + k * nvox dm) (w 1)
          + nbTerm (decide (i0 > 0)) q (voxOff dm (i0 - 1) i1 i2 + k * nvox dm) (w 0)
          + nbTerm (decide (i0 < dm.d0 - 1)) q (voxOff dm (i0 + 1) i1 i2 + k * nvox dm)
              (w 0) := by
  obtain ⟨h0, h1, h2⟩ := hx
  simp only at h0 h1 h2
  unfold neighbourSum
  simp only [faceAdj_split, Finset.sum_add_distrib]
  rw [sum3_point dm.d0 dm.d1 dm.d2 i0 i1 (i2 - 1) (i2 > 0)
      (fun j0 j1 j2 => (q (voxOff dm j0 j1 j2 + k * nvox dm) : α) * w 2),
    sum3_point dm.d0 dm.d1 dm.d2 i0 i1 (i2 + 1) True
      (fun j0 j1 j2 => (q (voxOff dm j0 j1 j2 + k * nvox dm) : α) * w 2),
    sum3_point dm.d0 dm.d1 dm.d2 i0 (i1 - 1) i2 (i1 > 0)
      (fun j0 j1 j2 => (q (voxOff dm j0 j1 j2 + k * nvox dm) : α) * w 1),
    sum3_point dm.d0 dm.d1 dm.d2 i0 (i1 + 1) i2 True
      (fun j0 j1 j2 => (q (voxOff dm j0 j1 j2 + k * nvox dm) : α) * w 1),
    sum3_point dm.d0 dm.d1 dm.d2 (i0 - 1) i1 i2 (i0 > 0)
      (fun j0 j1 j2 => (q (voxOff dm j0 j1 j2 + k * nvox dm) : α) * w 0),
    sum3_point dm.d0 dm.d1 dm.d2 (i0 + 1) i1 i2 True
      (fun j0 j1 j2 => (q (voxOff dm j0 j1 j2 + k * nvox dm) : α) * w 0)]
  have cs : ((i0 < dm.d0 ∧ i1 < dm.d1 ∧ i2 - 1 < dm.d2 ∧ i2 > 0) ↔ i2 > 0) ∧
      ((i0 < dm.d0 ∧ i1 < dm.d1 ∧ i2 + 1 < dm.d2 ∧ True) ↔ i2 < dm.d2 - 1) ∧
      ((i0 < dm.d0 ∧ i1 - 1 < dm.d1 ∧ i2 < dm.d2 ∧ i1 > 0) ↔ i1 > 0) ∧
      ((i0 < dm.d0 ∧ i1 + 1 < dm.d1 ∧ i2 < dm.d2 ∧ True) ↔ i1 < dm.d1 - 1) ∧
      ((i0 - 1 < dm.d0 ∧ i1 < dm.d1 ∧ i2 < dm.d2 ∧ i0 > 0) ↔ i0 > 0) ∧
      ((i0 + 1 < dm.d0 ∧ i1 < dm.d1 ∧ i2 < dm.d2 ∧ True) ↔ i0 < dm.d0 - 1) := by
    refine ⟨?_, ?_, ?_, ?_, ?_, ?_⟩ <;> (try simp only [and_true]) <;> constructor <;>
      intro h <;> omega
  obtain ⟨c1, c2, c3, c4, c5, c6⟩ := cs
  simp only [c1, c2, c3, c4, c5, c6, nbTerm, decide_eq_true_eq]

/-- C5: at every voxel of the grid and for every class `k`, the influence value computed by
`mrf1` is the sum, over the face-adjacent voxels that lie inside the grid, of `w[axis]` times
the neighbour's current byte of class `k`, divided by `255 * 6`; the divisor is the same at
every voxel, whatever the number of neighbours. -/
theorem influence_eq_neighbourSum (dm : Dims) (q : Nat → Nat) (w : Nat → α)
    (i0 i1 i2 k : Nat) (hx : inGrid dm (i0, i1, i2)) (hk : k < dm.d3) :
    influence dm q w i0 i1 i2 k = neighbourSum dm q w (i0, i1, i2) k / (255 * 6) := by
  rw [influence_nb, if_pos hk, neighbourSum_eq dm q w i0 i1 i2 k hx]

theorem influence_eq_neighbourSum_witness :
    influence ⟨2, 2, 1, 2⟩ (fun o => o + 1) (fun i => ((i + 1 : Nat) : ℚ)) 0 0 0 1
      = neighbourSum ⟨2, 2, 1, 2⟩ (fun o => o + 1) (fun i => ((i + 1 : Nat) : ℚ)) (0, 0, 0) 1
          / (255 * 6) :=
  influence_eq_neighbourSum ⟨2, 2, 1, 2⟩ (fun o => o + 1) (fun i => ((i + 1 : Nat) : ℚ))
    0 0 0 1 (by decide) (by decide)

end Influence

/-! ## Uniform responsibility fields -/

section Uniform

variable {α : Type} [LinearOrderedField α]

theorem influence_uniform (dm : Dims) (q : Nat → Nat) (w : Nat → α) (u : Nat → Nat)
    (hw : w 0 = 1 ∧ w 1 = 1 ∧ w 2 = 1)
    (hq : ∀ y, inGrid dm y → ∀ k, k < dm.d3 → q (voxOff dm y.1 y.2.1 y.2.2 + k * nvox dm) = u k)
    (x : Nat × Nat × Nat) (hx : inGrid dm x) (k : Nat) (hk : k < dm.d3) :
    influence dm q w x.1 x.2.1 x.2.2 k = (nbCount dm x : α) * (u k : α) / (255 * 6) := by
  obtain ⟨i0, i1, i2⟩ := x
  obtain ⟨h0, h1, h2⟩ := hx
  simp only at h0 h1 h2
  rw [influence_nb, if_pos hk]
  congr 1
  have t1 : nbTerm (decide (i2 > 0)) q (voxOff dm i0 i1 (i2 - 1) + k * nvox dm) (w 2)
      = if i2 > 0 then (u k : α) else 0 := by
    unfold nbTerm
    by_cases c : i2 > 0
    · have := hq (i0, i1, i2 - 1) ⟨h0, h1, by simp only; omega⟩ k hk
      simp only at this
      simp [c, this, hw.2.2]
    · simp [c]
  have t2 : nbTerm (decide (i2 < dm.d2 - 1)) q (voxOff dm i0 i1 (i2 + 1) + k * nvox dm) (w 2)
      = if i2 + 1 < dm.d2 then (u k : α) else 0 := by
    unfold nbTerm
    by_cases c : i2 + 1 < dm.d2
    · have c1 : i2 < dm.d2 - 1 := by omega
      have := hq (i0, i1, i2 + 1) ⟨h0, h1, c⟩ k hk
      simp only at this
      simp [c, c1, this, hw.2.2]
    · have c1 : ¬ i2 < dm.d2 - 1 := by omega
      simp [c, c1]
  have t3 : nbTerm (decide (i1 > 0)) q (voxOff dm i0 (i1 - 1) i2 + k * nvox dm) (w 1)
      = if i1 > 0 then (u k : α) else 0 := by
    unfold nbTerm
    by_cases c : i1 > 0
    · have := hq (i0, i1 - 1, i2) ⟨h0, by simp only; omega, h2⟩ k hk
      simp only at this
      simp [c, this, hw.2.1]
    · simp [c]
  have t4 : nbTerm (decide (i1 < dm.d1 - 1)) q (voxOff dm i0 (i1 + 1) i2 + k * nvox dm) (w 1)
      = if i1 + 1 < dm.d1 then (u k : α) else 0 := by
    unfold nbTerm
    by_cases c : i1 + 1 < dm.d1
    · have c1 : i1 < dm.d1 - 1 := by omega
      have := hq (i0, i1 + 1, i2) ⟨h0, c, h2⟩ k hk
      simp only at this
      simp [c, c1, this, hw.2.1]
    · have c1 : ¬ i1 < dm.d1 - 1 := by omega
      simp [c, c1]
  have t5 : nbTerm (decide (i0 > 0)) q (voxOff dm (i0 - 1) i1 i2 + k * nvox dm) (w 0)
      = if i0 > 0 then (u k : α) else 0 := by
    unfold nbTerm
    by_cases c : i0 > 0
    · have := hq (i0 - 1, i1, i2) ⟨by simp only; omega, h1, h2⟩ k hk
      simp only at this
      simp [c, this, hw.1]
    · simp [c]
  have t6 : nbTerm (decide (i0 < dm.d0 - 1)) q (voxOff dm (i0 + 1) i1 i2 + k * nvox dm) (w 0)
      = if i0 + 1 < dm.d0 then (u k : α) else 0 := by
    unfold nbTerm
    by_cases c : i0 + 1 < dm.d0
    · have c1 : i0 < dm.d0 - 1 := by omega
      have := hq (i0 + 1, i1, i2) ⟨c, h1, h2⟩ k hk
      simp only at this
      simp [c, c1, this, hw.1]
    · have c1 : ¬ i0 < dm.d0 - 1 := by omega
      simp [c, c1]
  rw [t1, t2, t3, t4, t5, t6]
  unfold nbCount
  simp only
  push_cast
  simp only [ite_mul, one_mul, zero_mul, add_mul]

end Uniform

section UniformOutputs

variable {α : Type} [LinearOrderedField α] [FloorRing α]

/-- The byte of class `k` written by the update of a grid voxel. -/
theorem voxel_own (ex : α → α) (dm : Dims) (p : Nat → α) (G : GMem α) (w : Nat → α)
    (code : Nat) (x : Nat × Nat × Nat) (hx : inGrid dm x) (q : Nat → Nat) (k : Nat)
    (hk : k < dm.d3) :
    voxel ex dm p G w code x.1 x.2.1 x.2.2 q (voxOff dm x.1 x.2.1 x.2.2 + k * nvox dm)
      = ucharCast
          ((interaction ex dm p G code (voxOff dm x.1 x.2.1 x.2.2)
              (influence dm q w x.1 x.2.1 x.2.2)).1 k
            * (255 / (interaction ex dm p G code (voxOff dm x.1 x.2.1 x.2.2)
              (influence dm q w x.1 x.2.1 x.2.2)).2) + 1 / 2) := by
  have hlt := voxOff_lt dm x.1 x.2.1 x.2.2 hx
  have hm : 0 < nvox dm := by omega
  have h1 : (voxOff dm x.1 x.2.1 x.2.2 + k * nvox dm) % nvox dm = voxOff dm x.1 x.2.1 x.2.2 := by
    rw [Nat.add_mul_mod_self_right]; exact Nat.mod_eq_of_lt hlt
  have h2 : (voxOff dm x.1 x.2.1 x.2.2 + k * nvox dm) / nvox dm = k := by
    rw [Nat.add_mul_div_right _ _ hm, Nat.div_eq_of_lt hlt, Nat.zero_add]
  rw [voxel_apply ex dm p G w code _ _ _ hlt, h1, h2, if_pos ⟨rfl, hk⟩]

omit [FloorRing α] in
theorem effective_shared (dm : Dims) (G : GMem α) (code : Nat) (hc : code = 1 ∨ code = 2)
    (v v1 : Nat) (a : Nat → α) (k : Nat) :
    effective dm G code v a k = effective dm G code v1 a k := by
  rcases hc with h | h <;> subst h <;> simp [effective]

/-- C6 as stated fails: on a 3x3x3 grid with one class and the uniform field `u = 255`, the
influence value at the corner voxel `(0,0,0)` is `1/2`, not `u/255 = 1`. -/
theorem uniform_influence_counterexample :
    influence ⟨3, 3, 3, 1⟩ (fun _ => 255) (fun _ => (1 : ℝ)) 0 0 0 0 = 1 / 2 ∧
      influence ⟨3, 3, 3, 1⟩ (fun _ => 255) (fun _ => (1 : ℝ)) 0 0 0 0
        ≠ ((255 : Nat) : ℝ) / 255 := by
  have h : influence ⟨3, 3, 3, 1⟩ (fun _ => 255) (fun _ => (1 : ℝ)) 0 0 0 0 = 1 / 2 := by
    rw [influence_apply]
    norm_num [nbTerm]
  refine ⟨h, ?_⟩
  rw [h]
  norm_num

/-- C6, amended: in shared-dense or shared-diagonal mode with anisotropy `[1,1,1]` and a
uniform responsibility field `u`, the influence vector at a voxel of the grid is
`n * u / (255 * 6)`, where `n` is the number of its face-adjacent positions inside the grid;
it equals `u / 255` at the voxels with six neighbours, and (with a uniform prior) two voxels
with the same number of neighbours receive identical outputs. -/
theorem uniform_field_influence (ex : α → α) (dm : Dims) (q : Nat → Nat) (p : Nat → α)
    (G : GMem α) (w : Nat → α) (code : Nat) (u : Nat → Nat) (pr : Nat → α)
    (hc : code = 1 ∨ code = 2) (hw : w 0 = 1 ∧ w 1 = 1 ∧ w 2 = 1)
    (hq : ∀ y, inGrid dm y → ∀ k, k < dm.d3 → q (voxOff dm y.1 y.2.1 y.2.2 + k * nvox dm) = u k)
    (x : Nat × Nat × Nat) (hx : inGrid dm x) :
    (∀ k, k < dm.d3 →
      influence dm q w x.1 x.2.1 x.2.2 k = (nbCount dm x : α) * (u k : α) / (255 * 6)) ∧
    (nbCount dm x = 6 → ∀ k, k < dm.d3 →
      influence dm q w x.1 x.2.1 x.2.2 k = (u k : α) / 255) ∧
    (∀ y, inGrid dm y → nbCount dm y = nbCount dm x →
      (∀ z, inGrid dm z → ∀ k, k < dm.d3 →
        p (voxOff dm z.1 z.2.1 z.2.2 + k * nvox dm) = pr k) →
      ∀ k, k < dm.d3 →
        voxel ex dm p G w code y.1 y.2.1 y.2.2 q (voxOff dm y.1 y.2.1 y.2.2 + k * nvox dm)
          = voxel ex dm p G w code x.1 x.2.1 x.2.2 q
              (voxOff dm x.1 x.2.1 x.2.2 + k * nvox dm)) := by
  have h1 : 1 ≤ code := by omega
  have h5 : code ≤ 5 := by omega
  refine ⟨fun k hk => influence_uniform dm q w u hw hq x hx k hk, ?_, ?_⟩
  · intro h6 k hk
    rw [influence_uniform dm q w u hw hq x hx k hk, h6]
    push_cast
    ring
  · intro y hy hn hp k hk
    have ha : influence dm q w y.1 y.2.1 y.2.2 = influence dm q w x.1 x.2.1 x.2.2 := by
      funext j
      by_cases hj : j < dm.d3
      · rw [influence_uniform dm q w u hw hq x hx j hj,
          influence_uniform dm q w u hw hq y hy j hj, hn]
      · rw [influence_apply, influence_apply, if_neg hj, if_neg hj]
    rw [voxel_own ex dm p G w code y hy q k hk, voxel_own ex dm p G w code x hx q k hk,
      interaction_eq ex dm p G code h1 h5, interaction_eq ex dm p G code h1 h5, ha]
    have hsum : ∀ z, inGrid dm z →
        (∑ j in Finset.range dm.d3,
          ex (effective dm G code 0
            (influence dm q w x.1 x.2.1 x.2.2) j) * p (voxOff dm z.1 z.2.1 z.2.2 + j * nvox dm))
        = ∑ j in Finset.range dm.d3,
          ex (effective dm G code 0 (influence dm q w x.1 x.2.1 x.2.2) j) * pr j := by
      intro z hz
      refine Finset.sum_congr rfl ?_
      intro j hj
      rw [hp z hz j (Finset.mem_range.1 hj)]
    simp only [hk, if_true, hp y hy k hk, hp x hx k hk,
      effective_shared dm G code hc (voxOff dm y.1 y.2.1 y.2.2) 0,
      effective_shared dm G code hc (voxOff dm x.1 x.2.1 x.2.2) 0]
    rw [hsum y hy, hsum x hx]

theorem uniform_field_influence_witness :
    (∀ k, k < 2 → influence ⟨3, 3, 3, 2⟩ (fun o => if o < 27 then 200 else 55)
        (fun _ => (1 : ℝ)) 1 1 1 k
      = ((if k = 0 then 200 else 55 : Nat) : ℝ) / 255) ∧
    (∀ k, k < 2 → influence ⟨3, 3, 3, 2⟩ (fun o => if o < 27 then 200 else 55)
        (fun _ => (1 : ℝ)) 0 0 0 k
      = (nbCount ⟨3, 3, 3, 2⟩ (0, 0, 0) : ℝ) * ((if k = 0 then 200 else 55 : Nat) : ℝ)
          / (255 * 6)) := by
  have hq : ∀ y, inGrid ⟨3, 3, 3, 2⟩ y → ∀ k, k < (⟨3, 3, 3, 2⟩ : Dims).d3 →
      (fun o => if o < 27 then 200 else 55)
        (voxOff ⟨3, 3, 3, 2⟩ y.1 y.2.1 y.2.2 + k * nvox ⟨3, 3, 3, 2⟩)
      = (fun k => if k = 0 then 200 else 55) k := by
    intro y hy k hk
    have hlt := voxOff_lt _ y.1 y.2.1 y.2.2 hy
    have hn : nvox ⟨3, 3, 3, 2⟩ = 27 := rfl
    rw [hn] at hlt ⊢
    have hk2 : k < 2 := hk
    by_cases h0 : k = 0
    · subst h0
      simp [hlt]
    · have : ¬ voxOff ⟨3, 3, 3, 2⟩ y.1 y.2.1 y.2.2 + k * 27 < 27 := by omega
      simp [this, h0]
  exact ⟨(uniform_field_influence Real.exp ⟨3, 3, 3, 2⟩ _ (fun _ => 1)
      ⟨fun _ => 1, fun _ => 0⟩ (fun _ => (1 : ℝ)) 1 (fun k => if k = 0 then 200 else 55)
      (fun _ => 1) (Or.inl rfl) ⟨rfl, rfl, rfl⟩ hq (1, 1, 1) (by decide)).2.1 (by decide),
    (uniform_field_influence Real.exp ⟨3, 3, 3, 2⟩ _ (fun _ => 1)
      ⟨fun _ => 1, fun _ => 0⟩ (fun _ => (1 : ℝ)) 1 (fun k => if k = 0 then 200 else 55)
      (fun _ => 1) (Or.inl rfl) ⟨rfl, rfl, rfl⟩ hq (0, 0, 0) (by decide)).1⟩

end UniformOutputs

/-! ## Output bytes of the first colour -/

section FirstColour

variable {α : Type} [LinearOrderedField α] [FloorRing α]

theorem own_offset_lt (dm : Dims) (x : Nat × Nat × Nat) (hx : inGrid dm x) (k : Nat)
    (hk : k < dm.d3) : voxOff dm x.1 x.2.1 x.2.2 + k * nvox dm < nvox dm * dm.d3 := by
  have hlt := voxOff_lt dm x.1 x.2.1 x.2.2 hx
  have h1 : (k + 1) * nvox dm ≤ dm.d3 * nvox dm := Nat.mul_le_mul_right _ hk
  rw [Nat.add_mul, Nat.one_mul] at h1
  rw [Nat.mul_comm (nvox dm) dm.d3]
  omega

theorem halfSweep_eq_sync (ex : α → α) (dm : Dims) (p : Nat → α) (G : GMem α) (w : Nat → α)
    (code it : Nat) (q : Nat → Nat) :
    halfSweep dm it (voxel ex dm p G w code) q = syncHalf ex dm p G w code it q := by
  rw [halfSweep_eq_foldl]
  exact foldl_perm_sync ex dm p G w code it q (visits dm it) (fun _ => Iff.rfl)

/-- A byte of a voxel of colour 0 is final after the first half-sweep: it is the voxel
update of the initial state. -/
theorem mrf1_colour0 (ex : α → α) (dm : Dims) (q : Nat → Nat) (p : Nat → α) (G : GMem α)
    (w : Nat → α) (code : Nat) (x : Nat × Nat × Nat) (hx : inGrid dm x) (hc : colour x = 0)
    (k : Nat) (hk : k < dm.d3) :
    mrf1 ex dm q p G w code (voxOff dm x.1 x.2.1 x.2.2 + k * nvox dm)
      = voxel ex dm p G w code x.1 x.2.1 x.2.2 q (voxOff dm x.1 x.2.1 x.2.2 + k * nvox dm) := by
  have hv := voxelOf_voxOff dm x.1 x.2.1 x.2.2 k hx
  have hlt := own_offset_lt dm x hx k hk
  rw [mrf1_eq_two_halfSweeps, halfSweep_eq_sync, halfSweep_eq_sync]
  have h1 : ¬ (voxOff dm x.1 x.2.1 x.2.2 + k * nvox dm < nvox dm * dm.d3 ∧
      colour (voxelOf dm (voxOff dm x.1 x.2.1 x.2.2 + k * nvox dm)) = 1 % 2) := by
    rw [hv, hc]
    rintro ⟨_, h⟩
    exact absurd h (by decide)
  have h0 : voxOff dm x.1 x.2.1 x.2.2 + k * nvox dm < nvox dm * dm.d3 ∧
      colour (voxelOf dm (voxOff dm x.1 x.2.1 x.2.2 + k * nvox dm)) = 0 % 2 := by
    rw [hv, hc]
    exact ⟨hlt, rfl⟩
  show (if _ then _ else _) = _
  rw [if_neg h1]
  show (if _ then _ else _) = _
  rw [if_pos h0, hv]

end FirstColour

/-! ## Shared dense mode: orientation of the matrix -/

section Dense

variable {α : Type} [LinearOrderedField α]

/-- In mode 1 the exponent of class `k` is the dot product of COLUMN `k` of the matrix
(as stored column-major by the host) with `a`. -/
theorem dense_exponent_columnwise (dm : Dims) (M : Nat → Nat → α) (Gb : Nat → Nat)
    (v : Nat) (a : Nat → α) (k : Nat) (hk : k < dm.d3) :
    effective dm ⟨colMajor dm.d3 M, Gb⟩ 1 v a k = ∑ n in Finset.range dm.d3, M n k * a n := by
  have hK : 0 < dm.d3 := by omega
  simp only [effective, if_true]
  refine Finset.sum_congr rfl ?_
  intro n hn
  have hn := Finset.mem_range.1 hn
  have h1 : (k * dm.d3 + n) % dm.d3 = n := by
    rw [Nat.add_comm, Nat.add_mul_mod_self_right]
    exact Nat.mod_eq_of_lt hn
  have h2 : (k * dm.d3 + n) / dm.d3 = k := by
    rw [Nat.add_comm, Nat.add_mul_div_right _ _ hK,
      Nat.div_eq_of_lt hn, Nat.zero_add]
  simp only [colMajor, h1, h2]

end Dense

/-- C7, at the failing input: grid 2x1x1 with two classes, `q = 0` except `q = 255` for class
1 of voxel 1, priors 1, weights 1, and the matrix with the single non-zero entry
`G[0,1] = 6` stored column-major.  At voxel 0 the exponent of class 0 used by the code is 0
(column 0 of `G` against `a`), while the row-wise dot product of the claim is 1; the byte
written for class 0 of voxel 0 is 128. -/
theorem dense_rowwise_failing_input :
    effective ⟨2, 1, 1, 2⟩ ⟨colMajor 2 asymM, fun _ => 0⟩ 1 0
        (influence ⟨2, 1, 1, 2⟩ (fun o => if o = 3 then 255 else 0) (fun _ => (1 : ℝ)) 0 0 0) 0
      = 0 ∧
    (∑ n in Finset.range 2, (asymM 0 n : ℝ) *
        influence ⟨2, 1, 1, 2⟩ (fun o => if o = 3 then 255 else 0) (fun _ => (1 : ℝ)) 0 0 0 n)
      = 1 ∧
    mrf1 Real.exp ⟨2, 1, 1, 2⟩ (fun o => if o = 3 then 255 else 0) (fun _ => (1 : ℝ))
        ⟨colMajor 2 asymM, fun _ => 0⟩ (fun _ => 1) 1 0 = 128 := by
  have a0 : influence ⟨2, 1, 1, 2⟩ (fun o => if o = 3 then 255 else 0) (fun _ => (1 : ℝ))
      0 0 0 0 = 0 := by
    rw [influence_apply]
    norm_num [nbTerm, voxOff, nvox]
  have a1 : influence ⟨2, 1, 1, 2⟩ (fun o => if o = 3 then 255 else 0) (fun _ => (1 : ℝ))
      0 0 0 1 = 1 / 6 := by
    rw [influence_apply]
    norm_num [nbTerm, voxOff, nvox]
  have e0 : effective ⟨2, 1, 1, 2⟩ ⟨colMajor 2 asymM, fun _ => 0⟩ 1 0
      (influence ⟨2, 1, 1, 2⟩ (fun o => if o = 3 then 255 else 0) (fun _ => (1 : ℝ)) 0 0 0) 0
      = 0 := by
    rw [dense_exponent_columnwise ⟨2, 1, 1, 2⟩ asymM _ 0 _ 0 (by decide)]
    simp [Finset.sum_range_succ, asymM, a0]
  have e1 : effective ⟨2, 1, 1, 2⟩ ⟨colMajor 2 asymM, fun _ => 0⟩ 1 0
      (influence ⟨2, 1, 1, 2⟩ (fun o => if o = 3 then 255 else 0) (fun _ => (1 : ℝ)) 0 0 0) 1
      = 0 := by
    rw [dense_exponent_columnwise ⟨2, 1, 1, 2⟩ asymM _ 0 _ 1 (by decide)]
    simp [Finset.sum_range_succ, asymM, a0]
  refine ⟨e0, ?_, ?_⟩
  · simp [Finset.sum_range_succ, asymM, a1]
  · have h := mrf1_colour0 Real.exp ⟨2, 1, 1, 2⟩ (fun o => if o = 3 then 255 else 0)
      (fun _ => (1 : ℝ)) ⟨colMajor 2 asymM, fun _ => 0⟩ (fun _ => 1) 1 (0, 0, 0)
      (by decide) (by decide) 0 (by decide)
    have hv : voxOff ⟨2, 1, 1, 2⟩ 0 0 0 + 0 * nvox ⟨2, 1, 1, 2⟩ = 0 := by decide
    rw [hv] at h
    rw [h]
    have h2 := voxel_own Real.exp ⟨2, 1, 1, 2⟩ (fun _ => (1 : ℝ))
      ⟨colMajor 2 asymM, fun _ => 0⟩ (fun _ => 1) 1 (0, 0, 0) (by decide)
      (fun o => if o = 3 then 255 else 0) 0 (by decide)
    rw [hv] at h2
    rw [h2, interaction_eq Real.exp _ _ _ 1 (by decide) (by decide)]
    have hcast : ucharCast ((128 : ℝ)) = 128 := by
      rw [ucharCast_of_range _ (by norm_num) (by norm_num)]
      have : Int.floor (128 : ℝ) = 128 := by
        rw [Int.floor_eq_iff]; norm_num
      rw [this]; rfl
    have hval : (fun k => if k < (⟨2, 1, 1, 2⟩ : Dims).d3 then
          Real.exp (effective ⟨2, 1, 1, 2⟩ ⟨colMajor 2 asymM, fun _ => 0⟩ 1
            (voxOff ⟨2, 1, 1, 2⟩ 0 0 0)
            (influence ⟨2, 1, 1, 2⟩ (fun o => if o = 3 then 255 else 0) (fun _ => (1 : ℝ))
              0 0 0) k) * (fun _ => (1 : ℝ)) (voxOff ⟨2, 1, 1, 2⟩ 0 0 0 + k * nvox ⟨2, 1, 1, 2⟩)
          else 0) 0 = 1 := by
      have hv0 : voxOff ⟨2, 1, 1, 2⟩ 0 0 0 = 0 := by decide
      simp only [hv0, e0]
      simp
    have hsum : (∑ k in Finset.range (⟨2, 1, 1, 2⟩ : Dims).d3,
          Real.exp (effective ⟨2, 1, 1, 2⟩ ⟨colMajor 2 asymM, fun _ => 0⟩ 1
            (voxOff ⟨2, 1, 1, 2⟩ 0 0 0)
            (influence ⟨2, 1, 1, 2⟩ (fun o => if o = 3 then 255 else 0) (fun _ => (1 : ℝ))
              0 0 0) k) * (fun _ => (1 : ℝ)) (voxOff ⟨2, 1, 1, 2⟩ 0 0 0 + k * nvox ⟨2, 1, 1, 2⟩))
        = 2 := by
      have hv0 : voxOff ⟨2, 1, 1, 2⟩ 0 0 0 = 0 := by decide
      simp only [hv0]
      rw [Finset.sum_range_succ, Finset.sum_range_succ, Finset.sum_range_zero, e0, e1]
      norm_num
    simp only [] at hval hsum ⊢
    rw [hval, hsum]
    have : (1 : ℝ) * (255 / 2) + 1 / 2 = 128 := by norm_num
    rw [this, hcast]

/-! ## The packed symmetric modes -/

section PackedModes

variable {α : Type} [LinearOrderedField α]

theorem packedIdx_rowStart_mono (K : Nat) :
    ∀ d r, r + d ≤ K → packedIdx K r (r + 1) ≤ packedIdx K (r + d) (r + d + 1) := by
  intro d
  induction d with
  | zero => intro r _; exact le_refl _
  | succ d ih =>
    intro r h
    have h1 := ih r (by omega)
    have h2 : packedIdx K (r + d + 1) (r + d + 1 + 1)
        = packedIdx K (r + d) (r + d + 1) + (K - (r + d + 1)) := packedIdx_row K (r + d) (by omega)
    have h3 : r + (d + 1) = r + d + 1 := rfl
    rw [h3, h2]
    exact le_trans h1 (Nat.le_add_right _ _)

/-- The packed position grows strictly along the lexicographic order of `(row, column)`. -/
theorem packedIdx_lex (K r c r1 c1 : Nat) (hr : r < c) (hc : c < K) (hr1 : r1 < c1)
    (hc1 : c1 < K) (hlex : r < r1 ∨ (r = r1 ∧ c < c1)) :
    packedIdx K r c < packedIdx K r1 c1 := by
  rw [packedIdx_col K r c, packedIdx_col K r1 c1]
  rcases hlex with h | ⟨h, h1⟩
  · have h2 : packedIdx K (r + 1) (r + 1 + 1) = packedIdx K r (r + 1) + (K - (r + 1)) :=
      packedIdx_row K r (by omega)
    have h3 := packedIdx_rowStart_mono K (r1 - (r + 1)) (r + 1) (by omega)
    have h4 : r + 1 + (r1 - (r + 1)) = r1 := by omega
    rw [h4] at h3
    have h5 : c - (r + 1) < K - (r + 1) := by omega
    generalize K - (r + 1) = t at h2 h5
    generalize c - (r + 1) = s at h5
    omega
  · subst h
    omega

/-- C8: in mode 4, for every `K ≥ 1`, voxel offset `v` and vector `a`, the exponent of class
`k` is `sum_{n ≠ k} S_v[k,n] * a[n]`, where `S_v` is symmetric with zero diagonal and, for
`r < c`, `S_v[r,c]` is the packed entry of position
`idx(r,c) = r*K - r*(r+1)/2 + (c - r - 1)`, read at offset `v + m * idx(r,c)`; the positions
follow the lexicographic order of `(r,c)` and the pointer advances over exactly
`K*(K-1)/2` entries per voxel. -/
theorem packed_float_exponent (ex : α → α) (dm : Dims) (p : Nat → α) (G : GMem α) (v : Nat)
    (a : Nat → α) (k : Nat) (_hK : 1 ≤ dm.d3) (hk : k < dm.d3) :
    (interaction ex dm p G 4 v a).1 k
        = ex (∑ n in (Finset.range dm.d3).erase k,
              symPacked dm.d3 (nvox dm) G.asFloat v k n * a n) * p (v + k * nvox dm) ∧
      (∀ r c, r < c → c < dm.d3 →
        symPacked dm.d3 (nvox dm) G.asFloat v r c
            = G.asFloat (v + nvox dm * (r * dm.d3 - r * (r + 1) / 2 + (c - r - 1))) ∧
          symPacked dm.d3 (nvox dm) G.asFloat v c r
            = symPacked dm.d3 (nvox dm) G.asFloat v r c ∧
          packedIdx dm.d3 r c < dm.d3 * (dm.d3 - 1) / 2) ∧
      (∀ r, symPacked dm.d3 (nvox dm) G.asFloat v r r = 0) ∧
      (∀ r c r1 c1, r < c → c < dm.d3 → r1 < c1 → c1 < dm.d3 →
        (r < r1 ∨ (r = r1 ∧ c < c1)) →
        packedIdx dm.d3 r c < packedIdx dm.d3 r1 c1) ∧
      (packedAccum dm.d3 (nvox dm) G.asFloat v a).2
        = v + nvox dm * (dm.d3 * (dm.d3 - 1) / 2) := by
  refine ⟨?_, ?_, ?_, ?_, ?_⟩
  · rw [interaction_eq ex dm p G 4 (by decide) (by decide)]
    simp only [hk, if_true]
    have he : effective dm G 4 v a k
        = ∑ n in Finset.range dm.d3, symPacked dm.d3 (nvox dm) G.asFloat v k n * a n := rfl
    rw [he, ← Finset.add_sum_erase (Finset.range dm.d3) _ (Finset.mem_range.2 hk),
      symPacked_self, zero_mul, zero_add]
  · intro r c hr hc
    refine ⟨?_, symPacked_symm _ _ _ _ _ _, packedIdx_lt dm.d3 r c hr hc⟩
    simp [symPacked, hr, packedIdx]
  · intro r
    exact symPacked_self _ _ _ _ _
  · intro r c r1 c1 hr hc hr1 hc1 hlex
    exact packedIdx_lex dm.d3 r c r1 c1 hr hc hr1 hc1 hlex
  · exact packedAccum_ptr dm.d3 (nvox dm) G.asFloat v a

theorem packed_float_exponent_witness :
    (interaction Real.exp ⟨2, 1, 1, 3⟩ (fun _ => 1) ⟨fun i => (i : ℝ), fun _ => 0⟩ 4 1
        (fun n => (n : ℝ) + 1)).1 1
      = Real.exp (∑ n in (Finset.range 3).erase 1,
          symPacked 3 2 (fun i => (i : ℝ)) 1 1 n * ((n : ℝ) + 1)) * 1 :=
  (packed_float_exponent Real.exp ⟨2, 1, 1, 3⟩ (fun _ => 1) ⟨fun i => (i : ℝ), fun _ => 0⟩ 1
    (fun n => (n : ℝ) + 1) 1 (by decide) (by decide)).1

section Quantized

variable [FloorRing α]

omit [FloorRing α] in
theorem symPacked_scale (K m : Nat) (rd : Nat → α) (c : α) (g0 k n : Nat) :
    symPacked K m (fun i => c * rd i) g0 k n = c * symPacked K m rd g0 k n := by
  unfold symPacked
  split_ifs <;> simp

omit [FloorRing α] in
theorem effective_quantized (dm : Dims) (Gf : Nat → α) (B Bb : Nat → Nat) (v : Nat)
    (a : Nat → α) (k : Nat) :
    effective dm ⟨Gf, B⟩ 5 v a k
      = effective dm ⟨fun i => -(1 / 16) * (B i : α), Bb⟩ 4 v a k := by
  have h5 : effective dm ⟨Gf, B⟩ 5 v a k
      = -(1 / 16) * ∑ n in Finset.range dm.d3,
          symPacked dm.d3 (nvox dm) (fun i => ((B i : Nat) : α)) v k n * a n := rfl
  have h4 : effective dm ⟨fun i => -(1 / 16) * (B i : α), Bb⟩ 4 v a k
      = ∑ n in Finset.range dm.d3,
          symPacked dm.d3 (nvox dm) (fun i => -(1 / 16) * (B i : α)) v k n * a n := rfl
  rw [h5, h4, Finset.mul_sum]
  refine Finset.sum_congr rfl ?_
  intro n _
  rw [symPacked_scale, mul_assoc]

theorem voxel_quantized (ex : α → α) (dm : Dims) (p : Nat → α) (w : Nat → α)
    (Gf : Nat → α) (B Bb : Nat → Nat) :
    voxel ex dm p ⟨Gf, B⟩ w 5 = voxel ex dm p ⟨fun i => -(1 / 16) * (B i : α), Bb⟩ w 4 := by
  funext i0 i1 i2 q
  unfold voxel
  simp only [interaction_eq ex dm p _ 5 (by decide) (by decide),
    interaction_eq ex dm p _ 4 (by decide) (by decide),
    effective_quantized dm Gf B Bb]

/-- C9: for every grid, priors, anisotropy, initial responsibilities and packed byte
structure `B`, `mrf1` in mode 5 on `B` gives the same output volume as `mrf1` in mode 4 on
the structure `G[i] = -0.0625 * B[i]` (exact arithmetic). -/
theorem quantized_eq_scaled_float (ex : α → α) (dm : Dims) (q : Nat → Nat) (p : Nat → α)
    (w : Nat → α) (Gf : Nat → α) (B Bb : Nat → Nat) :
    mrf1 ex dm q p ⟨Gf, B⟩ w 5
      = mrf1 ex dm q p ⟨fun i => -(1 / 16) * (B i : α), Bb⟩ w 4 := by
  unfold mrf1
  rw [voxel_quantized ex dm p w Gf B Bb]

end Quantized

end PackedModes

/-! ## Quantisation of the packed structure -/

section Quantisation

variable {α : Type} [LinearOrderedField α]

theorem nbTerm_nonneg (c : Bool) (q : Nat → Nat) (o : Nat) (wt : α) (hw : 0 ≤ wt) :
    0 ≤ nbTerm c q o wt := by
  unfold nbTerm
  split_ifs
  · exact mul_nonneg (Nat.cast_nonneg _) hw
  · exact le_refl _

theorem influence_nonneg (dm : Dims) (q : Nat → Nat) (w : Nat → α) (hw : ∀ i, 0 ≤ w i)
    (i0 i1 i2 k : Nat) : 0 ≤ influence dm q w i0 i1 i2 k := by
  rw [influence_apply]
  split_ifs
  · refine div_nonneg ?_ (by norm_num)
    have h0 := hw 0
    have h1 := hw 1
    have h2 := hw 2
    have t1 := nbTerm_nonneg (decide (i2 > 0)) q
      (voxOff dm i0 i1 i2 - dm.d0 * dm.d1 + k * nvox dm) (w 2) h2
    have t2 := nbTerm_nonneg (decide (i2 < dm.d2 - 1)) q
      (voxOff dm i0 i1 i2 + dm.d0 * dm.d1 + k * nvox dm) (w 2) h2
    have t3 := nbTerm_nonneg (decide (i1 > 0)) q
      (voxOff dm i0 i1 i2 - dm.d0 + k * nvox dm) (w 1) h1
    have t4 := nbTerm_nonneg (decide (i1 < dm.d1 - 1)) q
      (voxOff dm i0 i1 i2 + dm.d0 + k * nvox dm) (w 1) h1
    have t5 := nbTerm_nonneg (decide (i0 > 0)) q
      (voxOff dm i0 i1 i2 - 1 + k * nvox dm) (w 0) h0
    have t6 := nbTerm_nonneg (decide (i0 < dm.d0 - 1)) q
      (voxOff dm i0 i1 i2 + 1 + k * nvox dm) (w 0) h0
    linarith
  · exact le_refl _

/-- The difference of the mode-5 and mode-4 exponents is the exponent of the entrywise
difference of the two structures. -/
theorem effective_diff (dm : Dims) (G Bf : Nat → α) (B Gb : Nat → Nat) (v : Nat)
    (a : Nat → α) (k : Nat) :
    effective dm ⟨Bf, B⟩ 5 v a k - effective dm ⟨G, Gb⟩ 4 v a k
      = ∑ n in Finset.range dm.d3,
          symPacked dm.d3 (nvox dm) (fun i => -(1 / 16) * (B i : α) - G i) v k n * a n := by
  have h5 : effective dm ⟨Bf, B⟩ 5 v a k
      = -(1 / 16) * ∑ n in Finset.range dm.d3,
          symPacked dm.d3 (nvox dm) (fun i => ((B i : Nat) : α)) v k n * a n := rfl
  have h4 : effective dm ⟨G, Gb⟩ 4 v a k
      = ∑ n in Finset.range dm.d3, symPacked dm.d3 (nvox dm) G v k n * a n := rfl
  rw [h5, h4, Finset.mul_sum, ← Finset.sum_sub_distrib]
  refine Finset.sum_congr rfl ?_
  intro n _
  unfold symPacked
  split_ifs <;> ring

theorem symPacked_abs_le (K m : Nat) (rd : Nat → α) (c : α) (hc : 0 ≤ c)
    (h : ∀ i, |rd i| ≤ c) (g0 k n : Nat) : |symPacked K m rd g0 k n| ≤ c := by
  unfold symPacked
  split_ifs
  · exact h _
  · exact h _
  · simpa using hc

variable [FloorRing α]

/-- Rounding a value of `[0, 255]` to the nearest byte moves it by at most `1/2`. -/
theorem round_byte_error (x : α) (h0 : 0 ≤ x) :
    |((Int.toNat (Int.floor (x + 1 / 2)) : Nat) : α) - x| ≤ 1 / 2 := by
  have hf : 0 ≤ Int.floor (x + 1 / 2) := Int.floor_nonneg.2 (by linarith)
  have hcast : ((Int.toNat (Int.floor (x + 1 / 2)) : Nat) : α)
      = ((Int.floor (x + 1 / 2) : ℤ) : α) := by
    have := Int.toNat_of_nonneg hf
    exact_mod_cast congrArg (fun z : ℤ => (z : α)) this
  rw [hcast, abs_le]
  have h1 := Int.floor_le (x + 1 / 2)
  have h2 := Int.lt_floor_add_one (x + 1 / 2)
  constructor <;> linarith

/-- C10 as stated fails: on a 3x3x4 grid with two classes, all voxels initialised to
`q = [255, 0]`, priors 1, anisotropy weights `[4,4,4]` and the float structure `G = -1/40`
(inside `[-255/16, 0]`), the rounded structure is `B = round(0.4) = 0`; at the interior
voxel `(1,1,2)` mode 5 writes 128 for class 0 while mode 4 writes at least 130. -/
theorem quantization_step_counterexample :
    (-(255 / 16) ≤ (-(1 / 40) : ℝ) ∧ (-(1 / 40) : ℝ) ≤ 0) ∧
    Int.toNat (Int.floor (-16 * (-(1 / 40) : ℝ) + 1 / 2)) = 0 ∧
    mrf1 Real.exp ⟨3, 3, 4, 2⟩ (fun o => if o < 36 then 255 else 0) (fun _ => 1)
        ⟨fun _ => 0, fun _ => 0⟩ (fun _ => 4) 5 22 = 128 ∧
    130 ≤ mrf1 Real.exp ⟨3, 3, 4, 2⟩ (fun o => if o < 36 then 255 else 0) (fun _ => 1)
        ⟨fun _ => -(1 / 40), fun _ => 0⟩ (fun _ => 4) 4 22 := by
  have hv : voxOff ⟨3, 3, 4, 2⟩ 1 1 2 = 22 := by decide
  have hoff : voxOff ⟨3, 3, 4, 2⟩ 1 1 2 + 0 * nvox ⟨3, 3, 4, 2⟩ = 22 := by decide
  have a0 : influence ⟨3, 3, 4, 2⟩ (fun o => if o < 36 then 255 else 0) (fun _ => (4 : ℝ))
      1 1 2 0 = 4 := by
    rw [influence_apply]
    norm_num [nbTerm, voxOff, nvox]
  have a1 : influence ⟨3, 3, 4, 2⟩ (fun o => if o < 36 then 255 else 0) (fun _ => (4 : ℝ))
      1 1 2 1 = 0 := by
    rw [influence_apply]
    norm_num [nbTerm, voxOff, nvox]
  have out : ∀ (G : GMem ℝ) (code : Nat), 1 ≤ code → code ≤ 5 →
      mrf1 Real.exp ⟨3, 3, 4, 2⟩ (fun o => if o < 36 then 255 else 0) (fun _ => 1) G
        (fun _ => 4) code 22
      = ucharCast (Real.exp (effective ⟨3, 3, 4, 2⟩ G code 22
            (influence ⟨3, 3, 4, 2⟩ (fun o => if o < 36 then 255 else 0) (fun _ => (4 : ℝ))
              1 1 2) 0)
          * (255 / (Real.exp (effective ⟨3, 3, 4, 2⟩ G code 22
              (influence ⟨3, 3, 4, 2⟩ (fun o => if o < 36 then 255 else 0) (fun _ => (4 : ℝ))
                1 1 2) 0)
            + Real.exp (effective ⟨3, 3, 4, 2⟩ G code 22
              (influence ⟨3, 3, 4, 2⟩ (fun o => if o < 36 then 255 else 0) (fun _ => (4 : ℝ))
                1 1 2) 1))) + 1 / 2) := by
    intro G code h1 h5
    have h := mrf1_colour0 Real.exp ⟨3, 3, 4, 2⟩ (fun o => if o < 36 then 255 else 0)
      (fun _ => (1 : ℝ)) G (fun _ => 4) code (1, 1, 2) (by decide) (by decide) 0 (by decide)
    have h2 := voxel_own Real.exp ⟨3, 3, 4, 2⟩ (fun _ => (1 : ℝ)) G (fun _ => 4) code
      (1, 1, 2) (by decide) (fun o => if o < 36 then 255 else 0) 0 (by decide)
    rw [hoff] at h h2
    rw [h, h2, interaction_eq Real.exp _ _ _ code h1 h5, hv]
    have hK : (⟨3, 3, 4, 2⟩ : Dims).d3 = 2 := rfl
    simp only [hK, Finset.sum_range_succ, Finset.sum_range_zero, zero_add, mul_one,
      Nat.ofNat_pos, if_true]
  have e5 : ∀ k, effective ⟨3, 3, 4, 2⟩ (⟨fun _ => 0, fun _ => 0⟩ : GMem ℝ) 5 22
      (influence ⟨3, 3, 4, 2⟩ (fun o => if o < 36 then 255 else 0) (fun _ => (4 : ℝ))
        1 1 2) k = 0 := by
    intro k
    simp [effective, symPacked]
  have e40 : effective ⟨3, 3, 4, 2⟩ (⟨fun _ => -(1 / 40), fun _ => 0⟩ : GMem ℝ) 4 22
      (influence ⟨3, 3, 4, 2⟩ (fun o => if o < 36 then 255 else 0) (fun _ => (4 : ℝ))
        1 1 2) 0 = 0 := by
    simp [effective, symPacked, Finset.sum_range_succ, a1]
  have e41 : effective ⟨3, 3, 4, 2⟩ (⟨fun _ => -(1 / 40), fun _ => 0⟩ : GMem ℝ) 4 22
      (influence ⟨3, 3, 4, 2⟩ (fun o => if o < 36 then 255 else 0) (fun _ => (4 : ℝ))
        1 1 2) 1 = -(1 / 10) := by
    simp [effective, symPacked, Finset.sum_range_succ, a0]
    norm_num
  refine ⟨⟨by norm_num, by norm_num⟩, ?_, ?_, ?_⟩
  · have : Int.floor (-16 * (-(1 / 40) : ℝ) + 1 / 2) = 0 := by
      rw [Int.floor_eq_iff]; norm_num
    rw [this]; rfl
  · rw [out _ 5 (by decide) (by decide), e5, e5, Real.exp_zero]
    have : (1 : ℝ) * (255 / (1 + 1)) + 1 / 2 = 128 := by norm_num
    rw [this, ucharCast_of_range _ (by norm_num) (by norm_num)]
    have : Int.floor (128 : ℝ) = 128 := by
      rw [Int.floor_eq_iff]; norm_num
    rw [this]; rfl
  · rw [out _ 4 (by decide) (by decide), e40, e41, Real.exp_zero]
    have hpos : 0 < Real.exp (-(1 / 10)) := Real.exp_pos _
    have hle : Real.exp (-(1 / 10)) ≤ 10 / 11 := by
      rw [Real.exp_neg, inv_le_comm₀ (Real.exp_pos _) (by norm_num)]
      have := Real.add_one_le_exp (1 / 10 : ℝ)
      norm_num at this ⊢
      linarith
    have hlow : (130 : ℝ) ≤ 1 * (255 / (1 + Real.exp (-(1 / 10)))) + 1 / 2 := by
      rw [one_mul]
      have : (129.5 : ℝ) ≤ 255 / (1 + Real.exp (-(1 / 10))) := by
        rw [le_div_iff₀ (by linarith)]
        nlinarith
      linarith
    have hhigh : 1 * (255 / (1 + Real.exp (-(1 / 10)))) + 1 / 2 < (256 : ℝ) := by
      rw [one_mul]
      have : 255 / (1 + Real.exp (-(1 / 10))) ≤ (255 : ℝ) := by
        rw [div_le_iff₀ (by linarith)]
        nlinarith
      linarith
    rw [ucharCast_of_range _ (by linarith) hhigh]
    have hfl : (130 : ℤ) ≤ Int.floor (1 * (255 / (1 + Real.exp (-(1 / 10)))) + 1 / 2) := by
      rw [Int.le_floor]
      exact_mod_cast hlow
    omega

theorem packed_entry_error (G : Nat → α) (B : Nat → Nat)
    (hG : ∀ i, -(255 / 16) ≤ G i ∧ G i ≤ 0)
    (hB : ∀ i, B i = Int.toNat (Int.floor (-16 * G i + 1 / 2))) (i : Nat) :
    |-(1 / 16) * (B i : α) - G i| ≤ 1 / 32 := by
  have h := round_byte_error (-16 * G i) (by linarith [(hG i).2])
  rw [← hB i] at h
  have e : -(1 / 16) * (B i : α) - G i = -(1 / 16) * ((B i : α) - -16 * G i) := by ring
  rw [e, abs_mul, abs_neg, abs_of_pos (by norm_num : (0 : α) < 1 / 16)]
  linarith

/-- C10, amended: with `B[i] = round(-16 * G[i])` for entries of `[-255/16, 0]` and
non-negative anisotropy weights, at every voxel update from the same state the mode-5
exponent of each class `k` differs from the mode-4 exponent by at most
`(1/32) * sum_{n ≠ k} a[n]`; and when every `-16 * G[i]` is itself a byte value
(`B[i] = -16 * G[i]`), the outputs of `mrf1` in mode 5 on `B` and in mode 4 on `G` are
identical. -/
theorem quantized_exponent_error (ex : α → α) (dm : Dims) (q : Nat → Nat) (p : Nat → α)
    (w : Nat → α) (G Bf : Nat → α) (B Gb : Nat → Nat) (hw : ∀ i, 0 ≤ w i)
    (hG : ∀ i, -(255 / 16) ≤ G i ∧ G i ≤ 0)
    (hB : ∀ i, B i = Int.toNat (Int.floor (-16 * G i + 1 / 2))) :
    (∀ (x : Nat × Nat × Nat) (k : Nat), k < dm.d3 →
      |effective dm ⟨Bf, B⟩ 5 (voxOff dm x.1 x.2.1 x.2.2) (influence dm q w x.1 x.2.1 x.2.2) k
        - effective dm ⟨G, Gb⟩ 4 (voxOff dm x.1 x.2.1 x.2.2)
            (influence dm q w x.1 x.2.1 x.2.2) k|
        ≤ 1 / 32 * ∑ n in (Finset.range dm.d3).erase k, influence dm q w x.1 x.2.1 x.2.2 n) ∧
    ((∀ i, (B i : α) = -16 * G i) →
      mrf1 ex dm q p ⟨Bf, B⟩ w 5 = mrf1 ex dm q p ⟨G, Gb⟩ w 4) := by
  refine ⟨?_, ?_⟩
  · intro x k hk
    rw [effective_diff,
      ← Finset.add_sum_erase (Finset.range dm.d3) _ (Finset.mem_range.2 hk),
      symPacked_self, zero_mul, zero_add, Finset.mul_sum]
    refine le_trans (Finset.abs_sum_le_sum_abs _ _) (Finset.sum_le_sum ?_)
    intro n _
    have ha := influence_nonneg dm q w hw x.1 x.2.1 x.2.2 n
    rw [abs_mul, abs_of_nonneg ha]
    exact mul_le_mul_of_nonneg_right
      (symPacked_abs_le dm.d3 (nvox dm) _ (1 / 32) (by norm_num)
        (packed_entry_error G B hG hB) _ k n) ha
  · intro hex
    have hGe : G = fun i => -(1 / 16) * (B i : α) := by
      funext i
      rw [hex i]
      ring
    unfold mrf1
    rw [voxel_quantized ex dm p w Bf B Gb, ← hGe]

theorem quantized_exponent_error_witness :
    |effective ⟨3, 3, 4, 2⟩ (⟨fun _ => 0, fun _ => 0⟩ : GMem ℝ) 5 (voxOff ⟨3, 3, 4, 2⟩ 1 1 2)
          (influence ⟨3, 3, 4, 2⟩ (fun o => if o < 36 then 255 else 0) (fun _ => (4 : ℝ))
            1 1 2) 1
        - effective ⟨3, 3, 4, 2⟩ (⟨fun _ => -(1 / 40), fun _ => 0⟩ : GMem ℝ) 4
            (voxOff ⟨3, 3, 4, 2⟩ 1 1 2)
            (influence ⟨3, 3, 4, 2⟩ (fun o => if o < 36 then 255 else 0) (fun _ => (4 : ℝ))
              1 1 2) 1|
      ≤ 1 / 32 * ∑ n in (Finset.range 2).erase 1,
          influence ⟨3, 3, 4, 2⟩ (fun o => if o < 36 then 255 else 0) (fun _ => (4 : ℝ))
            1 1 2 n :=
  (quantized_exponent_error Real.exp ⟨3, 3, 4, 2⟩ (fun o => if o < 36 then 255 else 0)
    (fun _ => 1) (fun _ => (4 : ℝ)) (fun _ => -(1 / 40)) (fun _ => 0) (fun _ => 0)
    (fun _ => 0) (fun _ => by norm_num) (fun _ => ⟨by norm_num, by norm_num⟩)
    (fun _ => by
      have : Int.floor (-16 * (-(1 / 40) : ℝ) + 1 / 2) = 0 := by
        rw [Int.floor_eq_iff]; norm_num
      rw [this]; rfl)).1 (1, 1, 2) 1 (by decide)

end Quantisation

/-! ## Output bytes of both colours -/

section BothColours

variable {α : Type} [LinearOrderedField α] [FloorRing α]

/-- After the first half-sweep a byte of a voxel of colour 0 is its update of the initial
state, and a byte of a voxel of colour 1 is unchanged. -/
theorem halfSweep0_own (ex : α → α) (dm : Dims) (q : Nat → Nat) (p : Nat → α) (G : GMem α)
    (w : Nat → α) (code : Nat) (x : Nat × Nat × Nat) (hx : inGrid dm x) (k : Nat)
    (hk : k < dm.d3) :
    halfSweep dm 0 (voxel ex dm p G w code) q (voxOff dm x.1 x.2.1 x.2.2 + k * nvox dm)
      = if colour x = 0 then
          voxel ex dm p G w code x.1 x.2.1 x.2.2 q (voxOff dm x.1 x.2.1 x.2.2 + k * nvox dm)
        else q (voxOff dm x.1 x.2.1 x.2.2 + k * nvox dm) := by
  have hv := voxelOf_voxOff dm x.1 x.2.1 x.2.2 k hx
  have hlt := own_offset_lt dm x hx k hk
  rw [halfSweep_eq_sync]
  show (if _ then _ else _) = _
  rw [hv]
  by_cases hc : colour x = 0
  · rw [if_pos ⟨hlt, by rw [hc]⟩, if_pos hc]
  · rw [if_neg (fun h => hc (by rw [h.2])), if_neg hc]

/-- A byte of a voxel of colour 1 is, after the call, its update of the state left by the
first half-sweep. -/
theorem mrf1_colour1 (ex : α → α) (dm : Dims) (q : Nat → Nat) (p : Nat → α) (G : GMem α)
    (w : Nat → α) (code : Nat) (x : Nat × Nat × Nat) (hx : inGrid dm x) (hc : colour x = 1)
    (k : Nat) (hk : k < dm.d3) :
    mrf1 ex dm q p G w code (voxOff dm x.1 x.2.1 x.2.2 + k * nvox dm)
      = voxel ex dm p G w code x.1 x.2.1 x.2.2 (halfSweep dm 0 (voxel ex dm p G w code) q)
          (voxOff dm x.1 x.2.1 x.2.2 + k * nvox dm) := by
  have hv := voxelOf_voxOff dm x.1 x.2.1 x.2.2 k hx
  have hlt := own_offset_lt dm x hx k hk
  rw [mrf1_eq_two_halfSweeps]
  generalize halfSweep dm 0 (voxel ex dm p G w code) q = q1
  rw [halfSweep_eq_sync]
  show (if _ then _ else _) = _
  rw [hv, if_pos ⟨hlt, by rw [hc]⟩]

theorem colour_cases (x : Nat × Nat × Nat) : colour x = 0 ∨ colour x = 1 := by
  unfold colour
  omega

/-- The byte written for class `k` in closed form. -/
theorem voxel_byte (ex : α → α) (dm : Dims) (p : Nat → α) (G : GMem α) (w : Nat → α)
    (code : Nat) (h1 : 1 ≤ code) (h5 : code ≤ 5) (x : Nat × Nat × Nat) (hx : inGrid dm x)
    (q : Nat → Nat) (k : Nat) (hk : k < dm.d3) :
    voxel ex dm p G w code x.1 x.2.1 x.2.2 q (voxOff dm x.1 x.2.1 x.2.2 + k * nvox dm)
      = ucharCast
          (ex (effective dm G code (voxOff dm x.1 x.2.1 x.2.2)
                (influence dm q w x.1 x.2.1 x.2.2) k)
              * p (voxOff dm x.1 x.2.1 x.2.2 + k * nvox dm)
            * (255 / ∑ j in Finset.range dm.d3,
                ex (effective dm G code (voxOff dm x.1 x.2.1 x.2.2)
                    (influence dm q w x.1 x.2.1 x.2.2) j)
                  * p (voxOff dm x.1 x.2.1 x.2.2 + j * nvox dm)) + 1 / 2) := by
  rw [voxel_own ex dm p G w code x hx q k hk, interaction_eq ex dm p G code h1 h5]
  simp only [hk, if_true]

end BothColours

/-! ## A single class -/

section SingleClass

variable {α : Type} [LinearOrderedField α] [FloorRing α]

end SingleClass

/-! ## Integer parts -/

section IntegerPart

variable {α : Type} [LinearOrderedField α] [FloorRing α]

theorem toNat_floor_le (y : α) (n : Nat) (hy : y < (n : α) + 1) :
    Int.toNat (Int.floor y) ≤ n := by
  have h : Int.floor y < (n : ℤ) + 1 := by
    rw [Int.floor_lt]
    push_cast
    exact hy
  omega

theorem le_toNat_floor (y : α) (n : Nat) (hy : (n : α) ≤ y) :
    n ≤ Int.toNat (Int.floor y) := by
  have h : (n : ℤ) ≤ Int.floor y := by
    rw [Int.le_floor]
    push_cast
    exact hy
  omega

end IntegerPart

/-! ## The initial values of the first colour are not read -/

section NonInterference

variable {α : Type} [LinearOrderedField α] [FloorRing α]

theorem own_offset_voxelOf (dm : Dims) (x : Nat × Nat × Nat) (hx : inGrid dm x) (k : Nat)
    (hk : k < dm.d3) :
    voxelOf dm (voxOff dm x.1 x.2.1 x.2.2 + k * nvox dm) = x ∧
      voxOff dm x.1 x.2.1 x.2.2 + k * nvox dm < nvox dm * dm.d3 :=
  ⟨voxelOf_voxOff dm x.1 x.2.1 x.2.2 k hx, own_offset_lt dm x hx k hk⟩

/-- Every offset of the volume is a byte of a voxel of the grid. -/
theorem offset_decompose (dm : Dims) (o : Nat) (ho : o < nvox dm * dm.d3) :
    inGrid dm (voxelOf dm o) ∧ o / nvox dm < dm.d3 ∧
      o = voxOff dm (voxelOf dm o).1 (voxelOf dm o).2.1 (voxelOf dm o).2.2
        + o / nvox dm * nvox dm := by
  have hm : 0 < nvox dm := by
    rcases Nat.eq_zero_or_pos (nvox dm) with h0 | h0
    · rw [h0, Nat.zero_mul] at ho; omega
    · exact h0
  refine ⟨voxelOf_inGrid dm o hm, ?_, ?_⟩
  · rw [Nat.div_lt_iff_lt_mul hm, Nat.mul_comm]
    exact ho
  · rw [voxOff_voxelOf, Nat.mul_comm]
    exact (Nat.mod_add_div o (nvox dm)).symm

theorem colour_of_faceAdj_zero (x y : Nat × Nat × Nat) (h : faceAdj x y) (hx : colour x = 0) :
    colour y = 1 := by
  have := colour_ne_of_faceAdj x y h
  rcases colour_cases y with hy | hy
  · exact absurd (hx.trans hy.symm) this
  · exact hy

theorem colour_of_faceAdj_one (x y : Nat × Nat × Nat) (h : faceAdj x y) (hx : colour x = 1) :
    colour y = 0 := by
  have := colour_ne_of_faceAdj x y h
  rcases colour_cases y with hy | hy
  · exact hy
  · exact absurd (hx.trans hy.symm) this

theorem mrf1_congr_odd (ex : α → α) (dm : Dims) (p : Nat → α) (G : GMem α) (w : Nat → α)
    (code : Nat) (q q1 : Nat → Nat)
    (hagree : ∀ y, inGrid dm y → colour y = 1 → ∀ k, k < dm.d3 →
      q (voxOff dm y.1 y.2.1 y.2.2 + k * nvox dm) = q1 (voxOff dm y.1 y.2.1 y.2.2 + k * nvox dm))
    (x : Nat × Nat × Nat) (hx : inGrid dm x) (k : Nat) (hk : k < dm.d3) :
    mrf1 ex dm q p G w code (voxOff dm x.1 x.2.1 x.2.2 + k * nvox dm)
      = mrf1 ex dm q1 p G w code (voxOff dm x.1 x.2.1 x.2.2 + k * nvox dm) := by
  have first : ∀ y, inGrid dm y → colour y = 0 → ∀ j, j < dm.d3 →
      voxel ex dm p G w code y.1 y.2.1 y.2.2 q (voxOff dm y.1 y.2.1 y.2.2 + j * nvox dm)
        = voxel ex dm p G w code y.1 y.2.1 y.2.2 q1
            (voxOff dm y.1 y.2.1 y.2.2 + j * nvox dm) := by
    intro y hy hc j hj
    exact voxel_congr ex dm p G w code y hy q q1
      (fun z hz hadj i hi => hagree z hz (colour_of_faceAdj_zero y z hadj hc) i hi)
      _ (own_offset_voxelOf dm y hy j hj)
  rcases colour_cases x with hc | hc
  · rw [mrf1_colour0 ex dm q p G w code x hx hc k hk,
      mrf1_colour0 ex dm q1 p G w code x hx hc k hk]
    exact first x hx hc k hk
  · rw [mrf1_colour1 ex dm q p G w code x hx hc k hk,
      mrf1_colour1 ex dm q1 p G w code x hx hc k hk]
    refine voxel_congr ex dm p G w code x hx _ _ ?_ _ (own_offset_voxelOf dm x hx k hk)
    intro y hy hadj j hj
    have hcy := colour_of_faceAdj_one x y hadj hc
    rw [halfSweep0_own ex dm q p G w code y hy j hj,
      halfSweep0_own ex dm q1 p G w code y hy j hj, if_pos hcy, if_pos hcy]
    exact first y hy hcy j hj

/-- C19: in every mode and on every grid, if two initial responsibility volumes agree at
every voxel with `(i0+i1+i2)` odd, then one call of `mrf1` produces the same output volume
for both: the initial values of the voxels updated in the first half-sweep are never
read. -/
theorem first_colour_noninterference (ex : α → α) (dm : Dims) (p : Nat → α) (G : GMem α)
    (w : Nat → α) (code : Nat) (_h1 : 1 ≤ code) (_h5 : code ≤ 5) (q q1 : Nat → Nat)
    (hagree : ∀ y, inGrid dm y → (y.1 + y.2.1 + y.2.2) % 2 = 1 → ∀ k, k < dm.d3 →
      q (voxOff dm y.1 y.2.1 y.2.2 + k * nvox dm) = q1 (voxOff dm y.1 y.2.1 y.2.2 + k * nvox dm))
    (o : Nat) (ho : o < nvox dm * dm.d3) :
    mrf1 ex dm q p G w code o = mrf1 ex dm q1 p G w code o := by
  obtain ⟨hx, hk, he⟩ := offset_decompose dm o ho
  rw [he]
  exact mrf1_congr_odd ex dm p G w code q q1 hagree (voxelOf dm o) hx _ hk

theorem first_colour_noninterference_witness :
    mrf1 Real.exp ⟨2, 2, 1, 2⟩ (fun o => if o = 0 then 17 else 100) (fun _ => 1)
        ⟨fun _ => 1, fun _ => 0⟩ (fun _ => 1) 2 5
      = mrf1 Real.exp ⟨2, 2, 1, 2⟩ (fun _ => 100) (fun _ => 1)
        ⟨fun _ => 1, fun _ => 0⟩ (fun _ => 1) 2 5 :=
  first_colour_noninterference Real.exp ⟨2, 2, 1, 2⟩ (fun _ => 1) ⟨fun _ => 1, fun _ => 0⟩
    (fun _ => 1) 2 (by decide) (by decide) (fun o => if o = 0 then 17 else 100)
    (fun _ => 100)
    (by
      intro y hy hc k _
      have hne : voxOff ⟨2, 2, 1, 2⟩ y.1 y.2.1 y.2.2 + k * nvox ⟨2, 2, 1, 2⟩ ≠ 0 := by
        intro h0
        have h1 : voxOff ⟨2, 2, 1, 2⟩ y.1 y.2.1 y.2.2 = 0 := by omega
        unfold voxOff at h1
        simp only at h1
        omega
      simp [hne])
    5 (by decide)

end NonInterference

/-! ## Two classes in shared-diagonal mode -/

section TwoClasses

variable {α : Type} [LinearOrderedField α] [FloorRing α]

omit [FloorRing α] in
theorem effective_diag (dm : Dims) (G : GMem α) (v : Nat) (a : Nat → α) (k : Nat) :
    effective dm G 2 v a k = G.asFloat k * a k := rfl

/-- The two bytes written by a voxel update in mode 2 with two classes. -/
theorem voxel_byte_two (ex : α → α) (dm : Dims) (hK : dm.d3 = 2) (p : Nat → α) (G : GMem α)
    (w : Nat → α) (x : Nat × Nat × Nat) (hx : inGrid dm x) (q : Nat → Nat) (k : Nat)
    (hk : k < 2) :
    voxel ex dm p G w 2 x.1 x.2.1 x.2.2 q (voxOff dm x.1 x.2.1 x.2.2 + k * nvox dm)
      = ucharCast
          (ex (G.asFloat k * influence dm q w x.1 x.2.1 x.2.2 k)
              * p (voxOff dm x.1 x.2.1 x.2.2 + k * nvox dm)
            * (255 /
                (ex (G.asFloat 0 * influence dm q w x.1 x.2.1 x.2.2 0)
                    * p (voxOff dm x.1 x.2.1 x.2.2 + 0 * nvox dm)
                  + ex (G.asFloat 1 * influence dm q w x.1 x.2.1 x.2.2 1)
                    * p (voxOff dm x.1 x.2.1 x.2.2 + 1 * nvox dm))) + 1 / 2) := by
  rw [voxel_byte ex dm p G w 2 (by decide) (by decide) x hx q k (by omega), hK,
    Finset.sum_range_succ, Finset.sum_range_succ, Finset.sum_range_zero, zero_add]
  simp only [effective_diag]

/-- Two energies, the first smaller: the first byte is at most 127, the second at least
128. -/
theorem bytes_of_lt (E0 E1 : α) (h0 : 0 < E0) (h : E0 < E1) :
    ucharCast (E0 * (255 / (E0 + E1)) + 1 / 2) ≤ 127 ∧
      128 ≤ ucharCast (E1 * (255 / (E0 + E1)) + 1 / 2) := by
  have hs : 0 < E0 + E1 := by linarith
  have e0 : E0 * (255 / (E0 + E1)) = 255 * E0 / (E0 + E1) := by ring
  have e1 : E1 * (255 / (E0 + E1)) = 255 * E1 / (E0 + E1) := by ring
  have a0 : 0 ≤ 255 * E0 / (E0 + E1) := div_nonneg (by linarith) hs.le
  have a1 : 255 * E0 / (E0 + E1) < 255 / 2 := by
    rw [div_lt_iff₀ hs]
    linarith
  have b0 : 255 / 2 < 255 * E1 / (E0 + E1) := by
    rw [lt_div_iff₀ hs]
    linarith
  have b1 : 255 * E1 / (E0 + E1) ≤ 255 := by
    rw [div_le_iff₀ hs]
    linarith
  rw [e0, e1, ucharCast_of_range _ (by linarith) (by linarith),
    ucharCast_of_range _ (by linarith) (by linarith)]
  refine ⟨toNat_floor_le _ 127 ?_, le_toNat_floor _ 128 ?_⟩
  · push_cast
    linarith
  · push_cast
    linarith

/-- Two equal energies: both bytes are 128. -/
theorem bytes_of_eq (E : α) (h0 : 0 < E) :
    ucharCast (E * (255 / (E + E)) + 1 / 2) = 128 := by
  have e0 : E * (255 / (E + E)) + 1 / 2 = 128 := by
    field_simp
    ring
  rw [e0, ucharCast_of_range _ (by norm_num) (by norm_num)]
  have : Int.floor (128 : α) = 128 := by
    rw [Int.floor_eq_iff]
    constructor <;> norm_num
  rw [this]
  rfl

/-- Two energies, the first larger by a factor of at most `257/253`: the bytes are 128 and
127. -/
theorem bytes_of_close (E0 E1 : α) (h : E1 < E0) (hc : 253 * E0 < 257 * E1) :
    ucharCast (E0 * (255 / (E0 + E1)) + 1 / 2) = 128 ∧
      ucharCast (E1 * (255 / (E0 + E1)) + 1 / 2) = 127 := by
  have hs : 0 < E0 + E1 := by linarith
  have e0 : E0 * (255 / (E0 + E1)) = 255 * E0 / (E0 + E1) := by ring
  have e1 : E1 * (255 / (E0 + E1)) = 255 * E1 / (E0 + E1) := by ring
  have a0 : 255 / 2 < 255 * E0 / (E0 + E1) := by
    rw [lt_div_iff₀ hs]
    linarith
  have a1 : 255 * E0 / (E0 + E1) < 257 / 2 := by
    rw [div_lt_iff₀ hs]
    linarith
  have b0 : 253 / 2 ≤ 255 * E1 / (E0 + E1) := by
    rw [le_div_iff₀ hs]
    linarith
  have b1 : 255 * E1 / (E0 + E1) < 255 / 2 := by
    rw [div_lt_iff₀ hs]
    linarith
  rw [e0, e1, ucharCast_of_range _ (by linarith) (by linarith),
    ucharCast_of_range _ (by linarith) (by linarith)]
  have f0 : Int.floor (255 * E0 / (E0 + E1) + 1 / 2) = 128 := by
    rw [Int.floor_eq_iff]
    constructor
    · push_cast; linarith
    · push_cast; linarith
  have f1 : Int.floor (255 * E1 / (E0 + E1) + 1 / 2) = 127 := by
    rw [Int.floor_eq_iff]
    constructor
    · push_cast; linarith
    · push_cast; linarith
  rw [f0, f1]
  exact ⟨rfl, rfl⟩

omit [FloorRing α] in
theorem nbTerm_step (c : Prop) [Decidable c] (q : Nat → Nat) (o0 o1 : Nat)
    (h : c → q o0 < q o1) :
    nbTerm (decide c) q o0 (1 : α) + (if c then 1 else 0) ≤ nbTerm (decide c) q o1 (1 : α) := by
  unfold nbTerm
  by_cases hc : c
  · have : q o0 + 1 ≤ q o1 := h hc
    have h2 : ((q o0 : Nat) : α) + 1 ≤ (q o1 : α) := by exact_mod_cast this
    simpa [hc] using h2
  · simp [hc]

omit [FloorRing α] in
/-- If class 0 has the smaller byte at every neighbour, it has the smaller influence. -/
theorem influence_lt (dm : Dims) (q : Nat → Nat) (w : Nat → α)
    (hw : w 0 = 1 ∧ w 1 = 1 ∧ w 2 = 1) (hK : dm.d3 = 2) (x : Nat × Nat × Nat)
    (hx : inGrid dm x) (hn : 1 ≤ nbCount dm x)
    (h : ∀ y, inGrid dm y → faceAdj x y →
      q (voxOff dm y.1 y.2.1 y.2.2 + 0 * nvox dm) < q (voxOff dm y.1 y.2.1 y.2.2 + 1 * nvox dm)) :
    influence dm q w x.1 x.2.1 x.2.2 0 < influence dm q w x.1 x.2.1 x.2.2 1 := by
  obtain ⟨i0, i1, i2⟩ := x
  obtain ⟨h0, h1, h2⟩ := hx
  simp only at h0 h1 h2
  rw [influence_nb, influence_nb, hK, if_pos (by decide), if_pos (by decide), hw.1, hw.2.1,
    hw.2.2]
  have t1 := nbTerm_step (α := α) (i2 > 0) q (voxOff dm i0 i1 (i2 - 1) + 0 * nvox dm)
    (voxOff dm i0 i1 (i2 - 1) + 1 * nvox dm)
    (fun hc => h (i0, i1, i2 - 1) ⟨h0, h1, by simp only; omega⟩ (by simp only [faceAdj]; omega))
  have t2 := nbTerm_step (α := α) (i2 < dm.d2 - 1) q (voxOff dm i0 i1 (i2 + 1) + 0 * nvox dm)
    (voxOff dm i0 i1 (i2 + 1) + 1 * nvox dm)
    (fun hc => h (i0, i1, i2 + 1) ⟨h0, h1, by simp only; omega⟩ (by simp only [faceAdj]; omega))
  have t3 := nbTerm_step (α := α) (i1 > 0) q (voxOff dm i0 (i1 - 1) i2 + 0 * nvox dm)
    (voxOff dm i0 (i1 - 1) i2 + 1 * nvox dm)
    (fun hc => h (i0, i1 - 1, i2) ⟨h0, by simp only; omega, h2⟩ (by simp only [faceAdj]; omega))
  have t4 := nbTerm_step (α := α) (i1 < dm.d1 - 1) q (voxOff dm i0 (i1 + 1) i2 + 0 * nvox dm)
    (voxOff dm i0 (i1 + 1) i2 + 1 * nvox dm)
    (fun hc => h (i0, i1 + 1, i2) ⟨h0, by simp only; omega, h2⟩ (by simp only [faceAdj]; omega))
  have t5 := nbTerm_step (α := α) (i0 > 0) q (voxOff dm (i0 - 1) i1 i2 + 0 * nvox dm)
    (voxOff dm (i0 - 1) i1 i2 + 1 * nvox dm)
    (fun hc => h (i0 - 1, i1, i2) ⟨by simp only; omega, h1, h2⟩ (by simp only [faceAdj]; omega))
  have t6 := nbTerm_step (α := α) (i0 < dm.d0 - 1) q (voxOff dm (i0 + 1) i1 i2 + 0 * nvox dm)
    (voxOff dm (i0 + 1) i1 i2 + 1 * nvox dm)
    (fun hc => h (i0 + 1, i1, i2) ⟨by simp only; omega, h1, h2⟩ (by simp only [faceAdj]; omega))
  have hcount : (1 : α) ≤ (if i2 > 0 then 1 else 0) + (if i2 < dm.d2 - 1 then 1 else 0)
      + (if i1 > 0 then 1 else 0) + (if i1 < dm.d1 - 1 then 1 else 0)
      + (if i0 > 0 then 1 else 0) + (if i0 < dm.d0 - 1 then 1 else 0) := by
    have hn' : 1 ≤ (if i2 > 0 then 1 else 0) + (if i2 < dm.d2 - 1 then 1 else 0)
        + (if i1 > 0 then 1 else 0) + (if i1 < dm.d1 - 1 then 1 else 0)
        + (if i0 > 0 then 1 else 0) + (if i0 < dm.d0 - 1 then 1 else 0) := by
      unfold nbCount at hn
      simp only at hn
      have e2 : (i2 + 1 < dm.d2) = (i2 < dm.d2 - 1) := by
        apply propext; constructor <;> intro h <;> omega
      have e1 : (i1 + 1 < dm.d1) = (i1 < dm.d1 - 1) := by
        apply propext; constructor <;> intro h <;> omega
      have e0 : (i0 + 1 < dm.d0) = (i0 < dm.d0 - 1) := by
        apply propext; constructor <;> intro h <;> omega
      simp only [e2, e1, e0] at hn
      exact hn
    exact_mod_cast hn'
  rw [div_lt_div_iff_of_pos_right (by norm_num)]
  linarith

end TwoClasses

/-! ## The stability scenario -/

theorem nbCount_le_six (dm : Dims) (x : Nat × Nat × Nat) : nbCount dm x ≤ 6 := by
  unfold nbCount
  split_ifs <;> omega

theorem nbCount_pos_333 (K : Nat) (x : Nat × Nat × Nat) (hx : inGrid ⟨3, 3, 3, K⟩ x) :
    1 ≤ nbCount ⟨3, 3, 3, K⟩ x := by
  obtain ⟨h0, h1, h2⟩ := hx
  simp only at h0 h1 h2
  unfold nbCount
  simp only
  split_ifs <;> omega

theorem exp_small_le (t : ℝ) (ht : t ≤ 1 / 255) : Real.exp t ≤ 255 / 254 := by
  have h1 := Real.add_one_le_exp (-t)
  rw [Real.exp_neg] at h1
  have hpos := Real.exp_pos t
  have h2 : (254 : ℝ) / 255 ≤ (Real.exp t)⁻¹ := by linarith
  have h3 : Real.exp t * ((254 : ℝ) / 255) ≤ Real.exp t * (Real.exp t)⁻¹ :=
    mul_le_mul_of_nonneg_left h2 hpos.le
  rw [mul_inv_cancel₀ (ne_of_gt hpos)] at h3
  linarith

/-- In mode 2 with `G = [1,1]`, equal positive priors and unit weights, a voxel with at
least one neighbour inside the grid and the uniform field `[128,127]` around it is written
`[128,127]`. -/
theorem stable_voxel (dm : Dims) (hK : dm.d3 = 2) (p : Nat → ℝ) (G : GMem ℝ) (w : Nat → ℝ)
    (hw : w 0 = 1 ∧ w 1 = 1 ∧ w 2 = 1) (hG : G.asFloat 0 = 1 ∧ G.asFloat 1 = 1)
    (q : Nat → Nat)
    (hq : ∀ y, inGrid dm y → ∀ k, k < dm.d3 →
      q (voxOff dm y.1 y.2.1 y.2.2 + k * nvox dm) = (fun k => if k = 0 then 128 else 127) k)
    (x : Nat × Nat × Nat) (hx : inGrid dm x) (hn : 1 ≤ nbCount dm x)
    (hp0 : 0 < p (voxOff dm x.1 x.2.1 x.2.2 + 0 * nvox dm))
    (hp : p (voxOff dm x.1 x.2.1 x.2.2 + 1 * nvox dm)
      = p (voxOff dm x.1 x.2.1 x.2.2 + 0 * nvox dm)) :
    voxel Real.exp dm p G w 2 x.1 x.2.1 x.2.2 q (voxOff dm x.1 x.2.1 x.2.2 + 0 * nvox dm)
        = 128 ∧
      voxel Real.exp dm p G w 2 x.1 x.2.1 x.2.2 q (voxOff dm x.1 x.2.1 x.2.2 + 1 * nvox dm)
        = 127 := by
  have a0 := influence_uniform dm q w (fun k => if k = 0 then 128 else 127) hw hq x hx 0
    (by omega)
  have a1 := influence_uniform dm q w (fun k => if k = 0 then 128 else 127) hw hq x hx 1
    (by omega)
  simp only [if_true, one_ne_zero, if_false] at a0 a1
  have hn6 : (nbCount dm x : ℝ) ≤ 6 := by exact_mod_cast nbCount_le_six dm x
  have hn1 : (1 : ℝ) ≤ (nbCount dm x : ℝ) := by exact_mod_cast hn
  rw [voxel_byte_two Real.exp dm hK p G w x hx q 0 (by decide),
    voxel_byte_two Real.exp dm hK p G w x hx q 1 (by decide), hG.1, hG.2, hp, one_mul,
    one_mul, a0, a1]
  push_cast
  set c := p (voxOff dm x.1 x.2.1 x.2.2 + 0 * nvox dm) with hc
  set n : ℝ := (nbCount dm x : ℝ) with hnd
  have hsplit : n * 128 / (255 * 6) = n * 127 / (255 * 6) + n / (255 * 6) := by ring
  have hE : Real.exp (n * 128 / (255 * 6))
      = Real.exp (n * 127 / (255 * 6)) * Real.exp (n / (255 * 6)) := by
    rw [hsplit, Real.exp_add]
  have hpos := Real.exp_pos (n * 127 / (255 * 6))
  have ht1 : 1 < Real.exp (n / (255 * 6)) := by
    rw [Real.one_lt_exp_iff]
    positivity
  have ht2 : Real.exp (n / (255 * 6)) ≤ 255 / 254 := by
    apply exp_small_le
    rw [div_le_iff₀ (by norm_num)]
    linarith
  have hlt : Real.exp (n * 127 / (255 * 6)) * c < Real.exp (n * 128 / (255 * 6)) * c := by
    rw [hE]
    have : Real.exp (n * 127 / (255 * 6)) * 1
        < Real.exp (n * 127 / (255 * 6)) * Real.exp (n / (255 * 6)) :=
      mul_lt_mul_of_pos_left ht1 hpos
    nlinarith
  have hclose : 253 * (Real.exp (n * 128 / (255 * 6)) * c)
      < 257 * (Real.exp (n * 127 / (255 * 6)) * c) := by
    rw [hE]
    have h2 : Real.exp (n * 127 / (255 * 6)) * Real.exp (n / (255 * 6))
        ≤ Real.exp (n * 127 / (255 * 6)) * (255 / 254) :=
      mul_le_mul_of_nonneg_left ht2 hpos.le
    have hcp : 0 < Real.exp (n * 127 / (255 * 6)) * c := mul_pos hpos hp0
    nlinarith
  exact bytes_of_close _ _ hlt hclose

/-- If the voxel update maps the uniform field `u` to `u` at every voxel of the grid, so
does a call of `mrf1`. -/
theorem mrf1_uniform_fixed {α : Type} [LinearOrderedField α] [FloorRing α] (ex : α → α)
    (dm : Dims) (p : Nat → α) (G : GMem α) (w : Nat → α) (code : Nat) (u : Nat → Nat)
    (hstep : ∀ q : Nat → Nat,
      (∀ y, inGrid dm y → ∀ k, k < dm.d3 → q (voxOff dm y.1 y.2.1 y.2.2 + k * nvox dm) = u k) →
      ∀ x, inGrid dm x → ∀ k, k < dm.d3 →
        voxel ex dm p G w code x.1 x.2.1 x.2.2 q (voxOff dm x.1 x.2.1 x.2.2 + k * nvox dm)
          = u k)
    (q : Nat → Nat)
    (hq : ∀ y, inGrid dm y → ∀ k, k < dm.d3 → q (voxOff dm y.1 y.2.1 y.2.2 + k * nvox dm) = u k)
    (x : Nat × Nat × Nat) (hx : inGrid dm x) (k : Nat) (hk : k < dm.d3) :
    mrf1 ex dm q p G w code (voxOff dm x.1 x.2.1 x.2.2 + k * nvox dm) = u k := by
  rcases colour_cases x with hc | hc
  · rw [mrf1_colour0 ex dm q p G w code x hx hc k hk]
    exact hstep q hq x hx k hk
  · rw [mrf1_colour1 ex dm q p G w code x hx hc k hk]
    refine hstep _ ?_ x hx k hk
    intro y hy j hj
    rw [halfSweep0_own ex dm q p G w code y hy j hj]
    split_ifs
    · exact hstep q hq y hy j hj
    · exact hq y hy j hj

theorem stability_bytes (x : Nat × Nat × Nat) (hx : inGrid ⟨3, 3, 3, 2⟩ x) (k : Nat)
    (hk : k < 2) :
    mrf1 Real.exp ⟨3, 3, 3, 2⟩ (fun o => if o < 27 then 128 else 127) (fun _ => 1 / 2)
        ⟨fun _ => 1, fun _ => 0⟩ (fun _ => 1) 2
        (voxOff ⟨3, 3, 3, 2⟩ x.1 x.2.1 x.2.2 + k * nvox ⟨3, 3, 3, 2⟩)
      = (fun k => if k = 0 then 128 else 127) k := by
  have hm : nvox ⟨3, 3, 3, 2⟩ = 27 := rfl
  refine mrf1_uniform_fixed Real.exp ⟨3, 3, 3, 2⟩ (fun _ => 1 / 2) ⟨fun _ => 1, fun _ => 0⟩
    (fun _ => 1) 2 (fun k => if k = 0 then 128 else 127) ?_ _ ?_ x hx k hk
  · intro q hq y hy j hj
    have h := stable_voxel ⟨3, 3, 3, 2⟩ rfl (fun _ => 1 / 2) ⟨fun _ => 1, fun _ => 0⟩
      (fun _ => 1) ⟨rfl, rfl, rfl⟩ ⟨rfl, rfl⟩ q hq y hy (nbCount_pos_333 2 y hy)
      (by norm_num) rfl
    have hj2 : j < 2 := hj
    rcases Nat.lt_or_ge j 1 with h0 | h0
    · have : j = 0 := by omega
      subst this
      exact h.1
    · have : j = 1 := by omega
      subst this
      exact h.2
  · intro y hy j hj
    have hlt := voxOff_lt _ y.1 y.2.1 y.2.2 hy
    rw [hm] at hlt ⊢
    have hj2 : j < 2 := hj
    rcases Nat.lt_or_ge j 1 with h0 | h0
    · have : j = 0 := by omega
      subst this
      simp [hlt]
    · have : j = 1 := by omega
      subst this
      have : ¬ voxOff ⟨3, 3, 3, 2⟩ y.1 y.2.1 y.2.2 + 1 * 27 < 27 := by omega
      simp [this]

/-- C15: on the 3x3x3 grid with two classes, prior `[0.5, 0.5]`, shared-diagonal interaction
`G = [1,1]`, anisotropy `[1,1,1]` and every voxel initialised to `[128,127]`, one call of
`mrf1` leaves, at every voxel, each of the two bytes within 1 of `[128,127]` (the output is
`[128,127]` itself). -/
theorem stability_scenario (x : Nat × Nat × Nat) (hx : inGrid ⟨3, 3, 3, 2⟩ x) :
    (127 ≤ mrf1 Real.exp ⟨3, 3, 3, 2⟩ (fun o => if o < 27 then 128 else 127) (fun _ => 1 / 2)
        ⟨fun _ => 1, fun _ => 0⟩ (fun _ => 1) 2 (voxOff ⟨3, 3, 3, 2⟩ x.1 x.2.1 x.2.2) ∧
      mrf1 Real.exp ⟨3, 3, 3, 2⟩ (fun o => if o < 27 then 128 else 127) (fun _ => 1 / 2)
        ⟨fun _ => 1, fun _ => 0⟩ (fun _ => 1) 2 (voxOff ⟨3, 3, 3, 2⟩ x.1 x.2.1 x.2.2) ≤ 129) ∧
    (126 ≤ mrf1 Real.exp ⟨3, 3, 3, 2⟩ (fun o => if o < 27 then 128 else 127) (fun _ => 1 / 2)
        ⟨fun _ => 1, fun _ => 0⟩ (fun _ => 1) 2 (voxOff ⟨3, 3, 3, 2⟩ x.1 x.2.1 x.2.2 + 27) ∧
      mrf1 Real.exp ⟨3, 3, 3, 2⟩ (fun o => if o < 27 then 128 else 127) (fun _ => 1 / 2)
        ⟨fun _ => 1, fun _ => 0⟩ (fun _ => 1) 2 (voxOff ⟨3, 3, 3, 2⟩ x.1 x.2.1 x.2.2 + 27)
        ≤ 128) ∧
    mrf1 Real.exp ⟨3, 3, 3, 2⟩ (fun o => if o < 27 then 128 else 127) (fun _ => 1 / 2)
        ⟨fun _ => 1, fun _ => 0⟩ (fun _ => 1) 2 (voxOff ⟨3, 3, 3, 2⟩ x.1 x.2.1 x.2.2) = 128 ∧
    mrf1 Real.exp ⟨3, 3, 3, 2⟩ (fun o => if o < 27 then 128 else 127) (fun _ => 1 / 2)
        ⟨fun _ => 1, fun _ => 0⟩ (fun _ => 1) 2 (voxOff ⟨3, 3, 3, 2⟩ x.1 x.2.1 x.2.2 + 27)
      = 127 := by
  have h0 := stability_bytes x hx 0 (by decide)
  have h1 := stability_bytes x hx 1 (by decide)
  have hm : nvox ⟨3, 3, 3, 2⟩ = 27 := rfl
  rw [hm] at h0 h1
  simp only [Nat.zero_mul, Nat.add_zero, Nat.one_mul, if_true, one_ne_zero, if_false]
    at h0 h1
  rw [h0, h1]
  exact ⟨⟨by decide, by decide⟩, ⟨by decide, by decide⟩, rfl, rfl⟩

theorem stability_scenario_witness :
    mrf1 Real.exp ⟨3, 3, 3, 2⟩ (fun o => if o < 27 then 128 else 127) (fun _ => 1 / 2)
        ⟨fun _ => 1, fun _ => 0⟩ (fun _ => 1) 2 (voxOff ⟨3, 3, 3, 2⟩ 1 1 1) = 128 ∧
    mrf1 Real.exp ⟨3, 3, 3, 2⟩ (fun o => if o < 27 then 128 else 127) (fun _ => 1 / 2)
        ⟨fun _ => 1, fun _ => 0⟩ (fun _ => 1) 2 (voxOff ⟨3, 3, 3, 2⟩ 1 1 1 + 27) = 127 :=
  (stability_scenario (1, 1, 1) (by decide)).2.2

/-! ## The propagation scenario -/

/-- In mode 2 with `G = [g,g]`, `g > 0`, equal positive priors: if class 0 has the smaller
influence, its byte is at most 127 and the byte of class 1 is at least 128. -/
theorem ordered_voxel (dm : Dims) (hK : dm.d3 = 2) (p : Nat → ℝ) (G : GMem ℝ) (w : Nat → ℝ)
    (g : ℝ) (hg : 0 < g) (hG : G.asFloat 0 = g ∧ G.asFloat 1 = g) (q : Nat → Nat)
    (x : Nat × Nat × Nat) (hx : inGrid dm x)
    (ha : influence dm q w x.1 x.2.1 x.2.2 0 < influence dm q w x.1 x.2.1 x.2.2 1)
    (hp0 : 0 < p (voxOff dm x.1 x.2.1 x.2.2 + 0 * nvox dm))
    (hp : p (voxOff dm x.1 x.2.1 x.2.2 + 1 * nvox dm)
      = p (voxOff dm x.1 x.2.1 x.2.2 + 0 * nvox dm)) :
    voxel Real.exp dm p G w 2 x.1 x.2.1 x.2.2 q (voxOff dm x.1 x.2.1 x.2.2 + 0 * nvox dm)
        ≤ 127 ∧
      128 ≤ voxel Real.exp dm p G w 2 x.1 x.2.1 x.2.2 q
        (voxOff dm x.1 x.2.1 x.2.2 + 1 * nvox dm) := by
  rw [voxel_byte_two Real.exp dm hK p G w x hx q 0 (by decide),
    voxel_byte_two Real.exp dm hK p G w x hx q 1 (by decide), hG.1, hG.2, hp]
  refine bytes_of_lt _ _ (mul_pos (Real.exp_pos _) hp0) ?_
  exact mul_lt_mul_of_pos_right (Real.exp_lt_exp.2 (mul_lt_mul_of_pos_left ha hg)) hp0

/-- In mode 2 with `G = [0,0]` and equal positive priors every byte written is 128. -/
theorem control_voxel (dm : Dims) (hK : dm.d3 = 2) (p : Nat → ℝ) (G : GMem ℝ) (w : Nat → ℝ)
    (hG : G.asFloat 0 = 0 ∧ G.asFloat 1 = 0) (q : Nat → Nat)
    (x : Nat × Nat × Nat) (hx : inGrid dm x)
    (hp0 : 0 < p (voxOff dm x.1 x.2.1 x.2.2 + 0 * nvox dm))
    (hp : p (voxOff dm x.1 x.2.1 x.2.2 + 1 * nvox dm)
      = p (voxOff dm x.1 x.2.1 x.2.2 + 0 * nvox dm)) (k : Nat) (hk : k < 2) :
    voxel Real.exp dm p G w 2 x.1 x.2.1 x.2.2 q (voxOff dm x.1 x.2.1 x.2.2 + k * nvox dm)
      = 128 := by
  have hpk : p (voxOff dm x.1 x.2.1 x.2.2 + k * nvox dm)
      = p (voxOff dm x.1 x.2.1 x.2.2 + 0 * nvox dm) := by
    rcases Nat.lt_or_ge k 1 with h0 | h0
    · have : k = 0 := by omega
      subst this; rfl
    · have : k = 1 := by omega
      subst this; exact hp
  have hGk : G.asFloat k = 0 := by
    rcases Nat.lt_or_ge k 1 with h0 | h0
    · have : k = 0 := by omega
      subst this; exact hG.1
    · have : k = 1 := by omega
      subst this; exact hG.2
  rw [voxel_byte_two Real.exp dm hK p G w x hx q k hk, hG.1, hG.2, hGk, hp, hpk]
  generalize p (voxOff dm x.1 x.2.1 x.2.2 + 0 * nvox dm) = c at hp0 ⊢
  simp only [zero_mul, Real.exp_zero, one_mul]
  exact bytes_of_eq c hp0

/-- The initial state of the scenario: `[255, 0]` at the corner voxel `(0,0,0)` and
`[0, 255]` at every other voxel; at every voxel of colour 1 class 0 has the smaller byte. -/
theorem corner_init_order (y : Nat × Nat × Nat) (hy : inGrid ⟨3, 3, 3, 2⟩ y)
    (hc : colour y = 1) :
    (fun o => if o = 0 then 255 else if o < 28 then 0 else 255)
        (voxOff ⟨3, 3, 3, 2⟩ y.1 y.2.1 y.2.2 + 0 * nvox ⟨3, 3, 3, 2⟩)
      < (fun o => if o = 0 then 255 else if o < 28 then 0 else 255)
        (voxOff ⟨3, 3, 3, 2⟩ y.1 y.2.1 y.2.2 + 1 * nvox ⟨3, 3, 3, 2⟩) := by
  have hlt := voxOff_lt _ y.1 y.2.1 y.2.2 hy
  have hm : nvox ⟨3, 3, 3, 2⟩ = 27 := rfl
  rw [hm] at hlt ⊢
  have hne : voxOff ⟨3, 3, 3, 2⟩ y.1 y.2.1 y.2.2 ≠ 0 := by
    intro h0
    unfold voxOff at h0
    simp only at h0
    unfold colour at hc
    omega
  have h1 : voxOff ⟨3, 3, 3, 2⟩ y.1 y.2.1 y.2.2 + 0 * 27 ≠ 0 := by omega
  have h2 : voxOff ⟨3, 3, 3, 2⟩ y.1 y.2.1 y.2.2 + 0 * 27 < 28 := by omega
  have h3 : voxOff ⟨3, 3, 3, 2⟩ y.1 y.2.1 y.2.2 + 1 * 27 ≠ 0 := by omega
  have h4 : ¬ voxOff ⟨3, 3, 3, 2⟩ y.1 y.2.1 y.2.2 + 1 * 27 < 28 := by omega
  simp only [h1, h2, h3, h4, if_true, if_false]
  decide

/-- The two runs of the scenario at a voxel of colour 1: with `G = [2,2]` the byte of
class 0 is at most 127, with `G = [0,0]` it is 128. -/
theorem propagation_bytes (x : Nat × Nat × Nat) (hx : inGrid ⟨3, 3, 3, 2⟩ x)
    (hc : colour x = 1) :
    mrf1 Real.exp ⟨3, 3, 3, 2⟩ (fun o => if o = 0 then 255 else if o < 28 then 0 else 255)
        (fun _ => 1 / 2) ⟨fun _ => 2, fun _ => 0⟩ (fun _ => 1) 2
        (voxOff ⟨3, 3, 3, 2⟩ x.1 x.2.1 x.2.2) ≤ 127 ∧
    mrf1 Real.exp ⟨3, 3, 3, 2⟩ (fun o => if o = 0 then 255 else if o < 28 then 0 else 255)
        (fun _ => 1 / 2) ⟨fun _ => 0, fun _ => 0⟩ (fun _ => 1) 2
        (voxOff ⟨3, 3, 3, 2⟩ x.1 x.2.1 x.2.2) = 128 := by
  have hw : (fun _ : Nat => (1 : ℝ)) 0 = 1 ∧ (fun _ : Nat => (1 : ℝ)) 1 = 1 ∧
      (fun _ : Nat => (1 : ℝ)) 2 = 1 := ⟨rfl, rfl, rfl⟩
  have c1 := mrf1_colour1 Real.exp ⟨3, 3, 3, 2⟩
    (fun o => if o = 0 then 255 else if o < 28 then 0 else 255) (fun _ => 1 / 2)
    ⟨fun _ => 2, fun _ => 0⟩ (fun _ => 1) 2 x hx hc 0 (by decide)
  have c2 := mrf1_colour1 Real.exp ⟨3, 3, 3, 2⟩
    (fun o => if o = 0 then 255 else if o < 28 then 0 else 255) (fun _ => 1 / 2)
    ⟨fun _ => 0, fun _ => 0⟩ (fun _ => 1) 2 x hx hc 0 (by decide)
  have hz : voxOff ⟨3, 3, 3, 2⟩ x.1 x.2.1 x.2.2 + 0 * nvox ⟨3, 3, 3, 2⟩
      = voxOff ⟨3, 3, 3, 2⟩ x.1 x.2.1 x.2.2 := by
    rw [Nat.zero_mul, Nat.add_zero]
  rw [← hz, c1, c2]
  refine ⟨?_, ?_⟩
  · refine (ordered_voxel ⟨3, 3, 3, 2⟩ rfl (fun _ => 1 / 2) ⟨fun _ => 2, fun _ => 0⟩
      (fun _ => 1) 2 (by norm_num) ⟨rfl, rfl⟩ _ x hx ?_ (by norm_num) rfl).1
    refine influence_lt ⟨3, 3, 3, 2⟩ _ (fun _ => 1) hw rfl x hx (nbCount_pos_333 2 x hx) ?_
    intro y hy hadj
    have hcy := colour_of_faceAdj_one x y hadj hc
    rw [halfSweep0_own Real.exp ⟨3, 3, 3, 2⟩ _ _ _ _ 2 y hy 0 (by decide),
      halfSweep0_own Real.exp ⟨3, 3, 3, 2⟩ _ _ _ _ 2 y hy 1 (by decide), if_pos hcy,
      if_pos hcy]
    have hy2 := ordered_voxel ⟨3, 3, 3, 2⟩ rfl (fun _ => 1 / 2) ⟨fun _ => 2, fun _ => 0⟩
      (fun _ => 1) 2 (by norm_num) ⟨rfl, rfl⟩
      (fun o => if o = 0 then 255 else if o < 28 then 0 else 255) y hy
      (influence_lt ⟨3, 3, 3, 2⟩ _ (fun _ => 1) hw rfl y hy (nbCount_pos_333 2 y hy)
        (fun z hz hadj2 => corner_init_order z hz (colour_of_faceAdj_zero y z hadj2 hcy)))
      (by norm_num) rfl
    omega
  · exact control_voxel ⟨3, 3, 3, 2⟩ rfl (fun _ => 1 / 2) ⟨fun _ => 0, fun _ => 0⟩
      (fun _ => 1) ⟨rfl, rfl⟩ _ x hx (by norm_num) rfl 0 (by decide)

/-- C14 as stated fails: in the scenario, after one call of `mrf1` with `G = [2,2]` the
class-0 byte of the voxel `(1,0,0)` (offset 1) next to the corner is at most 127, while the
control run with `G = [0,0]` gives 128: it is not strictly greater. -/
theorem propagation_counterexample :
    mrf1 Real.exp ⟨3, 3, 3, 2⟩ (fun o => if o = 0 then 255 else if o < 28 then 0 else 255)
        (fun _ => 1 / 2) ⟨fun _ => 2, fun _ => 0⟩ (fun _ => 1) 2 1 ≤ 127 ∧
    mrf1 Real.exp ⟨3, 3, 3, 2⟩ (fun o => if o = 0 then 255 else if o < 28 then 0 else 255)
        (fun _ => 1 / 2) ⟨fun _ => 0, fun _ => 0⟩ (fun _ => 1) 2 1 = 128 ∧
    ¬ (mrf1 Real.exp ⟨3, 3, 3, 2⟩ (fun o => if o = 0 then 255 else if o < 28 then 0 else 255)
          (fun _ => 1 / 2) ⟨fun _ => 0, fun _ => 0⟩ (fun _ => 1) 2 1
        < mrf1 Real.exp ⟨3, 3, 3, 2⟩
          (fun o => if o = 0 then 255 else if o < 28 then 0 else 255)
          (fun _ => 1 / 2) ⟨fun _ => 2, fun _ => 0⟩ (fun _ => 1) 2 1) := by
  have h := propagation_bytes (1, 0, 0) (by decide) (by decide)
  have hv : voxOff ⟨3, 3, 3, 2⟩ 1 0 0 = 1 := by decide
  simp only [hv] at h
  refine ⟨h.1, h.2, ?_⟩
  have h1 := h.1
  rw [h.2]
  omega

/-- C14, amended: in the scenario (3x3x3 grid, two classes, prior `[0.5,0.5]`, anisotropy
`[1,1,1]`, shared-diagonal mode, corner `(0,0,0)` initialised to `[255,0]`, all other voxels
to `[0,255]`), after one call of `mrf1` with `G = [2,2]` each of the voxels `(1,0,0)`,
`(0,1,0)`, `(0,0,1)` next to the corner has a class-0 byte that differs from the one of the
control run with `G = [0,0]`: it is strictly smaller (at most 127 against 128). -/
theorem propagation_scenario :
    (mrf1 Real.exp ⟨3, 3, 3, 2⟩ (fun o => if o = 0 then 255 else if o < 28 then 0 else 255)
        (fun _ => 1 / 2) ⟨fun _ => 2, fun _ => 0⟩ (fun _ => 1) 2 (voxOff ⟨3, 3, 3, 2⟩ 1 0 0)
      < mrf1 Real.exp ⟨3, 3, 3, 2⟩ (fun o => if o = 0 then 255 else if o < 28 then 0 else 255)
        (fun _ => 1 / 2) ⟨fun _ => 0, fun _ => 0⟩ (fun _ => 1) 2
        (voxOff ⟨3, 3, 3, 2⟩ 1 0 0)) ∧
    (mrf1 Real.exp ⟨3, 3, 3, 2⟩ (fun o => if o = 0 then 255 else if o < 28 then 0 else 255)
        (fun _ => 1 / 2) ⟨fun _ => 2, fun _ => 0⟩ (fun _ => 1) 2 (voxOff ⟨3, 3, 3, 2⟩ 0 1 0)
      < mrf1 Real.exp ⟨3, 3, 3, 2⟩ (fun o => if o = 0 then 255 else if o < 28 then 0 else 255)
        (fun _ => 1 / 2) ⟨fun _ => 0, fun _ => 0⟩ (fun _ => 1) 2
        (voxOff ⟨3, 3, 3, 2⟩ 0 1 0)) ∧
    (mrf1 Real.exp ⟨3, 3, 3, 2⟩ (fun o => if o = 0 then 255 else if o < 28 then 0 else 255)
        (fun _ => 1 / 2) ⟨fun _ => 2, fun _ => 0⟩ (fun _ => 1) 2 (voxOff ⟨3, 3, 3, 2⟩ 0 0 1)
      < mrf1 Real.exp ⟨3, 3, 3, 2⟩ (fun o => if o = 0 then 255 else if o < 28 then 0 else 255)
        (fun _ => 1 / 2) ⟨fun _ => 0, fun _ => 0⟩ (fun _ => 1) 2
        (voxOff ⟨3, 3, 3, 2⟩ 0 0 1)) := by
  have a := propagation_bytes (1, 0, 0) (by decide) (by decide)
  have b := propagation_bytes (0, 1, 0) (by decide) (by decide)
  have c := propagation_bytes (0, 0, 1) (by decide) (by decide)
  simp only at a b c
  refine ⟨?_, ?_, ?_⟩
  · rw [a.2]; exact Nat.lt_succ_of_le a.1
  · rw [b.2]; exact Nat.lt_succ_of_le b.1
  · rw [c.2]; exact Nat.lt_succ_of_le c.1

/-! ## Mode selection and errors of `mexFunction` -/

theorem mexSetup_validArgs (X Y Z K nlhs : Nat) (hK : K ≤ 1024) (hl : nlhs ≤ 1)
    (third : MxArray) (h3 : third.isNumeric = true ∧ third.isComplex = false ∧
      third.isSparse = false) :
    mexSetup nlhs 3 (validArgs X Y Z K third)
      = match selectCode ⟨true, false, false, MxClass.mxUINT8, [X, Y, Z, K]⟩ third
          ⟨X, Y, Z, K⟩ with
        | Except.error e => Except.error e
        | Except.ok code => Except.ok (⟨X, Y, Z, K⟩, code) := by
  have hl' : ¬ nlhs > 1 := by omega
  have hK' : ¬ K > 1024 := by omega
  simp [mexSetup, validArgs, dmOf, checkDimsFrom, dimAt, checkFourth, MAXCLASSES, hl', hK',
    h3.1, h3.2.1, h3.2.2]

theorem selectCode_diag (a0 : MxArray) (dm : Dims) (K : Nat) (hK : dm.d3 = K) :
    selectCode a0 ⟨true, false, false, MxClass.mxSINGLE, [K, 1]⟩ dm = Except.ok 2 := by
  simp [selectCode, dimAt, hK]

theorem selectCode_dense (a0 : MxArray) (dm : Dims) (K : Nat) (hK : dm.d3 = K) (h2 : 2 ≤ K) :
    selectCode a0 ⟨true, false, false, MxClass.mxSINGLE, [K, K]⟩ dm = Except.ok 1 := by
  have : K ≠ 1 := by omega
  simp [selectCode, dimAt, hK, this]

theorem selectCode_voxelDense (a0 : MxArray) (X Y Z K : Nat) (hY : 2 ≤ Y) :
    selectCode a0 ⟨true, false, false, MxClass.mxSINGLE, [X, Y, Z, K, K]⟩ ⟨X, Y, Z, K⟩
      = Except.ok 3 := by
  have : Y ≠ 1 := by omega
  simp [selectCode, dimAt, checkDimsFrom, this]

theorem selectCode_packed (a0 : MxArray) (X Y Z K : Nat) (hY : 2 ≤ Y) (cls : MxClass) :
    selectCode a0 ⟨true, false, false, cls, [X, Y, Z, K * (K - 1) / 2]⟩ ⟨X, Y, Z, K⟩
      = if cls = MxClass.mxSINGLE then Except.ok 4
        else if a0.cls = MxClass.mxUINT8 then Except.ok 5
        else Except.error (MexStop.err "Third arg must be either single or uint8.") := by
  have : Y ≠ 1 := by omega
  simp [selectCode, dimAt, checkDimsFrom, this]

/-- C16 as stated fails: with `K = 1` the `K x K` single structure (extents `[1,1]`) selects
code 2, not code 1; and on a grid with `Y = 1` (here 3x1x2 with `K = 2`) the per-voxel
dense structure of extents `[3,1,2,2,2]` is rejected instead of selecting code 3, while on
the grid 2x1x2 with `K = 2` the per-voxel dense structure `[2,1,2,2,2]` selects code 2. -/
theorem mode_selection_counterexample :
    mexSetup 0 3 (validArgs 2 2 2 1 ⟨true, false, false, MxClass.mxSINGLE, [1, 1]⟩)
        = Except.ok (⟨2, 2, 2, 1⟩, 2) ∧
      mexSetup 0 3 (validArgs 3 1 2 2 ⟨true, false, false, MxClass.mxSINGLE, [3, 1, 2, 2, 2]⟩)
        = Except.error (MexStop.err "Third arg has incompatible dimensions.") ∧
      mexSetup 0 3 (validArgs 2 1 2 2 ⟨true, false, false, MxClass.mxSINGLE, [2, 1, 2, 2, 2]⟩)
        = Except.ok (⟨2, 1, 2, 2⟩, 2) :=
  ⟨rfl, rfl, rfl⟩

/-- C16, amended: for every grid with `X, Z ≥ 1`, `Y ≥ 2` and `1 ≤ K ≤ 1024`, with
well-formed first and second arguments, mode selection accepts the interaction shapes and
selects: `K x 1` single -> code 2 (this includes the `1 x 1` structure when `K = 1`);
`K x K` single with `K ≥ 2` -> code 1; `X x Y x Z x K x K` single -> code 3;
`X x Y x Z x (K(K-1)/2)` single -> code 4; `X x Y x Z x (K(K-1)/2)` uint8 -> code 5. -/
theorem mode_selection (X Y Z K nlhs : Nat) (_hX : 1 ≤ X) (hY : 2 ≤ Y) (_hZ : 1 ≤ Z)
    (_hK1 : 1 ≤ K) (hK : K ≤ 1024) (hl : nlhs ≤ 1) :
    mexSetup nlhs 3 (validArgs X Y Z K ⟨true, false, false, MxClass.mxSINGLE, [K, 1]⟩)
        = Except.ok (⟨X, Y, Z, K⟩, 2) ∧
    (2 ≤ K →
      mexSetup nlhs 3 (validArgs X Y Z K ⟨true, false, false, MxClass.mxSINGLE, [K, K]⟩)
        = Except.ok (⟨X, Y, Z, K⟩, 1)) ∧
    mexSetup nlhs 3
        (validArgs X Y Z K ⟨true, false, false, MxClass.mxSINGLE, [X, Y, Z, K, K]⟩)
      = Except.ok (⟨X, Y, Z, K⟩, 3) ∧
    mexSetup nlhs 3
        (validArgs X Y Z K ⟨true, false, false, MxClass.mxSINGLE, [X, Y, Z, K * (K - 1) / 2]⟩)
      = Except.ok (⟨X, Y, Z, K⟩, 4) ∧
    mexSetup nlhs 3
        (validArgs X Y Z K ⟨true, false, false, MxClass.mxUINT8, [X, Y, Z, K * (K - 1) / 2]⟩)
      = Except.ok (⟨X, Y, Z, K⟩, 5) := by
  refine ⟨?_, ?_, ?_, ?_, ?_⟩
  · rw [mexSetup_validArgs X Y Z K nlhs hK hl _ ⟨rfl, rfl, rfl⟩, selectCode_diag _ _ K rfl]
  · intro h2
    rw [mexSetup_validArgs X Y Z K nlhs hK hl _ ⟨rfl, rfl, rfl⟩,
      selectCode_dense _ _ K rfl h2]
  · rw [mexSetup_validArgs X Y Z K nlhs hK hl _ ⟨rfl, rfl, rfl⟩,
      selectCode_voxelDense _ X Y Z K hY]
  · rw [mexSetup_validArgs X Y Z K nlhs hK hl _ ⟨rfl, rfl, rfl⟩,
      selectCode_packed _ X Y Z K hY]
    rfl
  · rw [mexSetup_validArgs X Y Z K nlhs hK hl _ ⟨rfl, rfl, rfl⟩,
      selectCode_packed _ X Y Z K hY]
    rfl

theorem mode_selection_witness :
    mexSetup 1 3 (validArgs 4 3 2 3 ⟨true, false, false, MxClass.mxSINGLE, [3, 3]⟩)
        = Except.ok (⟨4, 3, 2, 3⟩, 1) ∧
      mexSetup 1 3 (validArgs 4 3 2 3 ⟨true, false, false, MxClass.mxUINT8, [4, 3, 2, 3]⟩)
        = Except.ok (⟨4, 3, 2, 3⟩, 5) :=
  ⟨(mode_selection 4 3 2 3 1 (by decide) (by decide) (by decide) (by decide) (by decide)
      (by decide)).2.1 (by decide),
    (mode_selection 4 3 2 3 1 (by decide) (by decide) (by decide) (by decide) (by decide)
      (by decide)).2.2.2.2⟩

/-- C18, on the code: for every grid with `Y ≥ 2` and every `K ≤ 1024`, a third argument of
extents `X x Y x Z x (K(K-1)/2)` whose class is not `single` (double, int16, ...) is not
rejected: line 329 tests the class of the FIRST argument, which is always `uint8`, so code 5
is selected. -/
theorem nonbyte_packed_selects_code5 (X Y Z K nlhs : Nat) (hY : 2 ≤ Y) (hK : K ≤ 1024)
    (hl : nlhs ≤ 1) (cls : MxClass) (hc : cls ≠ MxClass.mxSINGLE) :
    mexSetup nlhs 3
        (validArgs X Y Z K ⟨true, false, false, cls, [X, Y, Z, K * (K - 1) / 2]⟩)
      = Except.ok (⟨X, Y, Z, K⟩, 5) := by
  rw [mexSetup_validArgs X Y Z K nlhs hK hl _ ⟨rfl, rfl, rfl⟩,
    selectCode_packed _ X Y Z K hY, if_neg hc]
  rfl

theorem nonbyte_packed_selects_code5_witness :
    mexSetup 0 3 (validArgs 2 2 2 2 ⟨true, false, false, MxClass.mxDOUBLE, [2, 2, 2, 1]⟩)
        = Except.ok (⟨2, 2, 2, 2⟩, 5) :=
  nonbyte_packed_selects_code5 2 2 2 2 0 (by decide) (by decide) (by decide)
    MxClass.mxDOUBLE (by decide)

/-! ## Errors of `mexFunction` -/

theorem dimAt_error (a : MxArray) (i : Nat) (e : MexStop) (h : dimAt a i = Except.error e) :
    e = MexStop.badRead := by
  unfold dimAt at h
  split at h
  · cases h
  · cases h; rfl

theorem checkDimsFrom_error (a : MxArray) (msg : String) (l : List Nat) :
    ∀ (i : Nat) (e : MexStop), checkDimsFrom a msg i l = Except.error e →
      e = MexStop.err msg ∨ e = MexStop.badRead := by
  induction l with
  | nil => intro i e h; cases h
  | cons d ds ih =>
    intro i e h
    unfold checkDimsFrom at h
    split at h
    · rename_i e1 h1
      cases h
      exact Or.inr (dimAt_error a i _ h1)
    · split at h
      · cases h; exact Or.inl rfl
      · exact ih _ _ h

/-- The stops that the selection of `code` can produce. -/
theorem selectCode_error (a0 a2 : MxArray) (dm : Dims) (e : MexStop)
    (h : selectCode a0 a2 dm = Except.error e) :
    e = MexStop.badRead ∨ e = MexStop.err "Third arg has incompatible dimensions."
      ∨ e = MexStop.err "Third arg must be single."
      ∨ e = MexStop.err "Third arg must be either single or uint8." := by
  unfold selectCode at h
  repeat' split at h
  all_goals first
    | (cases h; done)
    | (cases h; simp)
    | (cases h; rename_i h1; exact Or.inl (dimAt_error _ _ _ h1))
    | (cases h; rename_i h1; rcases checkDimsFrom_error _ _ _ _ _ h1 with h2 | h2
       · exact Or.inr (Or.inl h2)
       · exact Or.inl h2)

theorem checkFourth_error (nrhs : Nat) (a3 : MxArray) (e : MexStop)
    (h : checkFourth nrhs a3 = Except.error e) :
    e = MexStop.err "Fourth arg must be numeric, real, full and single."
      ∨ e = MexStop.err "Fourth arg must contain three elements." := by
  unfold checkFourth at h
  repeat' split at h
  all_goals first
    | (cases h; done)
    | (cases h; simp)

/-- After the class-count check has passed, `mexSetup` never stops with "Too many
classes.". -/
theorem mexSetup_tooMany_iff (nlhs nrhs : Nat) (prhs : Nat → MxArray)
    (hn : 3 ≤ nrhs ∧ nrhs ≤ 4 ∧ nlhs ≤ 1)
    (h0 : (prhs 0).isNumeric = true ∧ (prhs 0).isComplex = false ∧ (prhs 0).isSparse = false
      ∧ (prhs 0).cls = MxClass.mxUINT8)
    (h1 : (prhs 1).isNumeric = true ∧ (prhs 1).isComplex = false ∧ (prhs 1).isSparse = false
      ∧ (prhs 1).cls = MxClass.mxSINGLE)
    (h2 : (prhs 2).isNumeric = true ∧ (prhs 2).isComplex = false ∧ (prhs 2).isSparse = false)
    (hd : (prhs 0).dims.length = (prhs 1).dims.length ∧ (prhs 0).dims.length ≤ 4) :
    mexSetup nlhs nrhs prhs = Except.error (MexStop.err "Too many classes.")
      ↔ 1024 < (dmOf (prhs 0)).d3 := by
  have hn' : ¬ (nrhs < 3 ∨ nrhs > 4 ∨ nlhs > 1) := by omega
  have hd' : ¬ ((prhs 0).dims.length ≠ (prhs 1).dims.length ∨ (prhs 0).dims.length > 4) := by
    omega
  unfold mexSetup
  rw [if_neg hn', if_neg (by simp [h0.1, h0.2.1, h0.2.2.1, h0.2.2.2]),
    if_neg (by simp [h1.1, h1.2.1, h1.2.2.1, h1.2.2.2]),
    if_neg (by simp [h2.1, h2.2.1, h2.2.2]), if_neg hd']
  by_cases hK : (dmOf (prhs 0)).d3 > MAXCLASSES
  · rw [if_pos hK]
    simp only [true_iff]
    exact hK
  · rw [if_neg hK]
    have hK' : ¬ 1024 < (dmOf (prhs 0)).d3 := hK
    simp only [hK', iff_false]
    intro h
    split at h
    · rename_i e he
      rcases checkDimsFrom_error _ _ _ _ _ he with h3 | h3
      · rw [h3] at h; exact absurd (Except.error.inj h) (by decide)
      · rw [h3] at h; cases h
    · split at h
      · rename_i e he
        rcases selectCode_error _ _ _ _ he with h3 | h3 | h3 | h3 <;>
          (rw [h3] at h; exact absurd (Except.error.inj h) (by decide))
      · split at h
        · rename_i e he
          rcases checkFourth_error _ _ _ he with h3 | h3 <;>
            (rw [h3] at h; exact absurd (Except.error.inj h) (by decide))
        · cases h

theorem mexFunction_stop {α : Type} [LinearOrderedField α] [FloorRing α] (ex : α → α)
    (nlhs nrhs : Nat) (prhs : Nat → MxArray) (q : Nat → Nat) (p : Nat → α) (G : GMem α)
    (wdat : Nat → α) :
    (∀ e, mexSetup nlhs nrhs prhs = Except.error e →
      mexFunction ex nlhs nrhs prhs q p G wdat = ⟨some e, false, q, none⟩) ∧
    (∀ r, mexSetup nlhs nrhs prhs = Except.ok r →
      (mexFunction ex nlhs nrhs prhs q p G wdat).stop = none ∧
      (mexFunction ex nlhs nrhs prhs q p G wdat).entered = true) := by
  constructor
  · intro e h
    unfold mexFunction
    rw [h]
  · intro r h
    unfold mexFunction
    rw [h]
    obtain ⟨dm, code⟩ := r
    dsimp only
    split <;> exact ⟨rfl, rfl⟩

/-- C17: whenever `mexFunction` ends in an error (any `mexErrMsgTxt`, or a read outside a
dimension vector), `mrf1` has not been entered, the caller's responsibility volume is
unchanged and no output was created; and when the argument count and the type and
dimension-count checks of the first three arguments pass, the call stops with "Too many
classes." if and only if `K > 1024`. -/
theorem errors_before_mrf1 {α : Type} [LinearOrderedField α] [FloorRing α] (ex : α → α)
    (nlhs nrhs : Nat) (prhs : Nat → MxArray) (q : Nat → Nat) (p : Nat → α) (G : GMem α)
    (wdat : Nat → α) :
    ((mexFunction ex nlhs nrhs prhs q p G wdat).stop ≠ none →
      (mexFunction ex nlhs nrhs prhs q p G wdat).entered = false ∧
      (mexFunction ex nlhs nrhs prhs q p G wdat).caller = q ∧
      (mexFunction ex nlhs nrhs prhs q p G wdat).plhs0 = none) ∧
    (3 ≤ nrhs ∧ nrhs ≤ 4 ∧ nlhs ≤ 1 →
      (prhs 0).isNumeric = true ∧ (prhs 0).isComplex = false ∧ (prhs 0).isSparse = false
        ∧ (prhs 0).cls = MxClass.mxUINT8 →
      (prhs 1).isNumeric = true ∧ (prhs 1).isComplex = false ∧ (prhs 1).isSparse = false
        ∧ (prhs 1).cls = MxClass.mxSINGLE →
      (prhs 2).isNumeric = true ∧ (prhs 2).isComplex = false ∧ (prhs 2).isSparse = false →
      (prhs 0).dims.length = (prhs 1).dims.length ∧ (prhs 0).dims.length ≤ 4 →
      ((mexFunction ex nlhs nrhs prhs q p G wdat).stop
          = some (MexStop.err "Too many classes.")
        ↔ 1024 < (dmOf (prhs 0)).d3)) := by
  have hs := mexFunction_stop ex nlhs nrhs prhs q p G wdat
  constructor
  · intro h
    cases hr : mexSetup nlhs nrhs prhs with
    | error e => rw [hs.1 e hr]; exact ⟨rfl, rfl, rfl⟩
    | ok r => exact absurd (hs.2 r hr).1 h
  · intro hn h0 h1 h2 hd
    rw [← mexSetup_tooMany_iff nlhs nrhs prhs hn h0 h1 h2 hd]
    cases hr : mexSetup nlhs nrhs prhs with
    | error e =>
      rw [hs.1 e hr]
      constructor
      · intro h
        rw [Option.some.inj h]
      · intro h
        rw [Except.error.inj h]
    | ok r =>
      rw [(hs.2 r hr).1]
      constructor
      · intro h; cases h
      · intro h; cases h

theorem errors_before_mrf1_witness :
    (mexFunction Real.exp 0 3
        (validArgs 2 2 2 1025 ⟨true, false, false, MxClass.mxSINGLE, [1025, 1]⟩)
        (fun _ => 7) (fun _ => (1 : ℝ)) ⟨fun _ => 1, fun _ => 0⟩ (fun _ => 1)).stop
        = some (MexStop.err "Too many classes.") ∧
      (mexFunction Real.exp 0 3
        (validArgs 2 2 2 1025 ⟨true, false, false, MxClass.mxSINGLE, [1025, 1]⟩)
        (fun _ => 7) (fun _ => (1 : ℝ)) ⟨fun _ => 1, fun _ => 0⟩ (fun _ => 1)).caller
        = (fun _ => 7) ∧
      ¬ (mexFunction Real.exp 0 3
        (validArgs 2 2 2 1024 ⟨true, false, false, MxClass.mxSINGLE, [1024, 1]⟩)
        (fun _ => 7) (fun _ => (1 : ℝ)) ⟨fun _ => 1, fun _ => 0⟩ (fun _ => 1)).stop
        = some (MexStop.err "Too many classes.") := by
  have h1 := errors_before_mrf1 Real.exp 0 3
    (validArgs 2 2 2 1025 ⟨true, false, false, MxClass.mxSINGLE, [1025, 1]⟩)
    (fun _ => 7) (fun _ => (1 : ℝ)) ⟨fun _ => 1, fun _ => 0⟩ (fun _ => 1)
  have h2 := errors_before_mrf1 Real.exp 0 3
    (validArgs 2 2 2 1024 ⟨true, false, false, MxClass.mxSINGLE, [1024, 1]⟩)
    (fun _ => 7) (fun _ => (1 : ℝ)) ⟨fun _ => 1, fun _ => 0⟩ (fun _ => 1)
  have e1 := (h1.2 (by decide) ⟨rfl, rfl, rfl, rfl⟩ ⟨rfl, rfl, rfl, rfl⟩ ⟨rfl, rfl, rfl⟩
    (by decide)).2 (by decide)
  refine ⟨e1, (h1.1 (by rw [e1]; exact Option.some_ne_none _)).2.1, ?_⟩
  intro h
  exact absurd ((h2.2 (by decide) ⟨rfl, rfl, rfl, rfl⟩ ⟨rfl, rfl, rfl, rfl⟩ ⟨rfl, rfl, rfl⟩
    (by decide)).1 h) (by decide)

/-! ## Loops over an `int` counter -/

theorem wrap32_eq (z : Int) (h1 : -2147483648 ≤ z) (h2 : z < 2147483648) : wrap32 z = z := by
  unfold wrap32
  omega

theorem forInt_zero {σ : Type} (stop step : Int) (body : Int → σ → σ) (i : Int) (s : σ) :
    forInt 0 stop step body i s = s := rfl

theorem forInt_succ {σ : Type} (f : Nat) (stop step : Int) (body : Int → σ → σ) (i : Int)
    (s : σ) :
    forInt (f + 1) stop step body i s
      = if i < stop then forInt f stop step body (wrap32 (i + step)) (body i s) else s := rfl

/-- An invariant of the state that every iteration with `0 ≤ i < stop` preserves holds after
the loop, provided the counter cannot overflow. -/
theorem forInt_inv {σ : Type} (I : σ → Prop) (stop step : Int) (body : Int → σ → σ)
    (hstep : 0 ≤ step) (hov : stop + step ≤ 2147483648)
    (hbody : ∀ j s, 0 ≤ j → j < stop → I s → I (body j s)) :
    ∀ (fuel : Nat) (i : Int) (s : σ), 0 ≤ i → I s → I (forInt fuel stop step body i s) := by
  intro fuel
  induction fuel with
  | zero => intro i s _ hs; exact hs
  | succ f ih =>
    intro i s hi hs
    rw [forInt_succ]
    split
    · rename_i hlt
      have hw : wrap32 (i + step) = i + step := wrap32_eq _ (by omega) (by omega)
      rw [hw]
      exact ih _ _ (by omega) (hbody i s hi hlt hs)
    · exact hs

/-- A loop with step 1 and enough fuel runs its counter exactly up to `stop`: a property
`P i s` relating counter and state that each iteration carries from `j` to `j + 1` holds at
`stop` after the loop. -/
theorem forInt_exact {σ : Type} (P : Int → σ → Prop) (stop : Int) (body : Int → σ → σ)
    (hov : stop < 2147483648) (lo : Int) (hlo : 0 ≤ lo)
    (hbody : ∀ j s, lo ≤ j → j < stop → P j s → P (j + 1) (body j s)) :
    ∀ (fuel : Nat) (i : Int) (s : σ), lo ≤ i → i ≤ stop → (stop - i).toNat ≤ fuel → P i s →
      P stop (forInt fuel stop 1 body i s) := by
  intro fuel
  induction fuel with
  | zero =>
    intro i s _ h2 h3 hs
    have : i = stop := by omega
    rw [forInt_zero, ← this]
    exact hs
  | succ f ih =>
    intro i s h1 h2 h3 hs
    rw [forInt_succ]
    split
    · rename_i hlt
      have hw : wrap32 (i + 1) = i + 1 := wrap32_eq _ (by omega) (by omega)
      rw [hw]
      exact ih _ _ (by omega) (by omega) (by omega) (hbody i s h1 hlt hs)
    · have : i = stop := by omega
      rw [← this]
      exact hs

/-- A reflexive, transitive relation that every iteration respects holds between the state
before and after the loop. -/
theorem forInt_rel {σ : Type} (R : σ → σ → Prop) (hrefl : ∀ s, R s s)
    (htrans : ∀ a b c, R a b → R b c → R a c) (stop step : Int) (body : Int → σ → σ)
    (hbody : ∀ j s, R s (body j s)) :
    ∀ (fuel : Nat) (i : Int) (s : σ), R s (forInt fuel stop step body i s) := by
  intro fuel
  induction fuel with
  | zero => intro i s; exact hrefl s
  | succ f ih =>
    intro i s
    rw [forInt_succ]
    split
    · exact htrans _ _ _ (hbody i s) (ih _ _)
    · exact hrefl s

/-! ## Index safety of `mrf1` -/

theorem inUse_a (dm : Dims) (code : Nat) (i : Int) (b : Bool) (h0 : 0 ≤ i)
    (h1 : i < dm.d3) : inUse dm code ⟨Arr.a, i, b⟩ := by
  simp only [inUse, usedLen]
  exact ⟨h0, h1⟩

theorem inUse_e (dm : Dims) (code : Nat) (i : Int) (b : Bool) (h0 : 0 ≤ i)
    (h1 : i < dm.d3) : inUse dm code ⟨Arr.e, i, b⟩ := by
  simp only [inUse, usedLen]
  exact ⟨h0, h1⟩

theorem inUse_w (dm : Dims) (code : Nat) (i : Int) (b : Bool) (h0 : 0 ≤ i) (h1 : i < 3) :
    inUse dm code ⟨Arr.w, i, b⟩ := by
  simp only [inUse, usedLen, arrLen]
  exact ⟨h0, by exact_mod_cast h1⟩

theorem inUse_q (dm : Dims) (code : Nat) (i : Int) (b : Bool) (h0 : 0 ≤ i)
    (h1 : i < (dm.d0 : Int) * dm.d1 * dm.d2 * dm.d3) : inUse dm code ⟨Arr.q, i, b⟩ := by
  simp only [inUse, usedLen, arrLen]
  exact ⟨h0, by push_cast; exact h1⟩

theorem inUse_p (dm : Dims) (code : Nat) (i : Int) (b : Bool) (h0 : 0 ≤ i)
    (h1 : i < (dm.d0 : Int) * dm.d1 * dm.d2 * dm.d3) : inUse dm code ⟨Arr.p, i, b⟩ := by
  simp only [inUse, usedLen, arrLen]
  exact ⟨h0, by push_cast; exact h1⟩

/-- With `m*K` inside the `int` range, the index expression `k*m` does not overflow and
`v + k*m` addresses class `k` of the voxel at offset `v`. -/
theorem idx_ok (m K k v : Int) (hv0 : 0 ≤ v) (hv1 : v < m) (hk0 : 0 ≤ k) (hk1 : k < K)
    (hM : m * K ≤ 2147483646) :
    wrap32 (k * m) = k * m ∧ 0 ≤ v + k * m ∧ v + k * m < m * K := by
  have hm : 0 ≤ m := by omega
  have h1 : 0 ≤ k * m := mul_nonneg hk0 hm
  have h2 : k * m ≤ (K - 1) * m := mul_le_mul_of_nonneg_right (by omega) hm
  have h3 : (K - 1) * m = m * K - m := by ring
  refine ⟨wrap32_eq _ (by omega) (by omega), by omega, by omega⟩

theorem clearAcc_safe (dm : Dims) (code : Nat) (hK : (dm.d3 : Int) ≤ 1024) (t : List Access)
    (ht : ∀ acc ∈ t, inUse dm code acc) : ∀ acc ∈ clearAcc dm.d3 t, inUse dm code acc := by
  unfold clearAcc
  refine forInt_inv (fun t => ∀ acc ∈ t, inUse dm code acc) _ 1 _ (by omega) (by omega) ?_
    _ 0 t (le_refl 0) ht
  intro k s hk0 hk1 hs acc hacc
  rw [List.mem_append] at hacc
  rcases hacc with h | h
  · exact hs acc h
  · simp only [List.mem_singleton] at h
    subst h
    exact inUse_a dm code k true hk0 hk1

theorem neighbourAcc_safe (dm : Dims) (code : Nat) (m qq c : Int) (hK : (dm.d3 : Int) ≤ 1024)
    (hm : m = (dm.d0 : Int) * dm.d1 * dm.d2)
    (hM : (dm.d0 : Int) * dm.d1 * dm.d2 * dm.d3 ≤ 2147483646)
    (hq0 : 0 ≤ qq) (hq1 : qq < m) (hc0 : 0 ≤ c) (hc1 : c < 3) (t : List Access)
    (ht : ∀ acc ∈ t, inUse dm code acc) :
    ∀ acc ∈ neighbourAcc dm.d3 m qq c t, inUse dm code acc := by
  unfold neighbourAcc
  refine forInt_inv (fun t => ∀ acc ∈ t, inUse dm code acc) _ 1 _ (by omega) (by omega) ?_
    _ 0 t (le_refl 0) ht
  intro k s hk0 hk1 hs acc hacc
  rw [List.mem_append] at hacc
  rcases hacc with h | h
  · exact hs acc h
  · have hi := idx_ok m dm.d3 k qq hq0 hq1 hk0 hk1 (by rw [hm]; exact hM)
    simp only [List.mem_cons, List.mem_singleton, List.not_mem_nil, or_false] at h
    rcases h with rfl | rfl | rfl | rfl
    · exact inUse_a dm code k false hk0 hk1
    · rw [hi.1]
      exact inUse_q dm code _ false hi.2.1 (by rw [← hm]; exact hi.2.2)
    · exact inUse_w dm code c false hc0 hc1
    · exact inUse_a dm code k true hk0 hk1

/-- A guarded neighbour loop is safe when the guard implies that the neighbour is in the
grid. -/
theorem guarded_neighbour_safe (dm : Dims) (code : Nat) (m qq c : Int) (g : Prop) [Decidable g]
    (hK : (dm.d3 : Int) ≤ 1024) (hm : m = (dm.d0 : Int) * dm.d1 * dm.d2)
    (hM : (dm.d0 : Int) * dm.d1 * dm.d2 * dm.d3 ≤ 2147483646)
    (hq : g → 0 ≤ qq ∧ qq < m) (hc0 : 0 ≤ c) (hc1 : c < 3) (t : List Access)
    (ht : ∀ acc ∈ t, inUse dm code acc) :
    ∀ acc ∈ (if g then neighbourAcc dm.d3 m qq c t else t), inUse dm code acc := by
  split
  · rename_i hg
    exact neighbourAcc_safe dm code m qq c hK hm hM (hq hg).1 (hq hg).2 hc0 hc1 t ht
  · exact ht

/-- The offset `i0 + X*(i1 + Y*i2)` of a grid voxel lies in `[0, X*Y*Z)`. -/
theorem off_bound (X Y Z i0 i1 i2 : Int) (h0 : 0 ≤ i0) (h0' : i0 < X) (h1 : 0 ≤ i1)
    (h1' : i1 < Y) (h2 : 0 ≤ i2) (h2' : i2 < Z) :
    0 ≤ i1 + Y * i2 ∧ i1 + Y * i2 < Y * Z ∧ 0 ≤ i0 + X * (i1 + Y * i2)
      ∧ i0 + X * (i1 + Y * i2) < X * Y * Z := by
  have hY : 0 ≤ Y := by omega
  have hX : 0 ≤ X := by omega
  have a1 : 0 ≤ Y * i2 := mul_nonneg hY h2
  have a2 : Y * i2 ≤ Y * (Z - 1) := mul_le_mul_of_nonneg_left (by omega) hY
  have a3 : Y * (Z - 1) = Y * Z - Y := by ring
  have b1 : 0 ≤ X * (i1 + Y * i2) := mul_nonneg hX (by omega)
  have b2 : X * (i1 + Y * i2) ≤ X * (Y * Z - 1) := mul_le_mul_of_nonneg_left (by omega) hX
  have b3 : X * (Y * Z - 1) = X * Y * Z - X := by ring
  refine ⟨by omega, by omega, by omega, by omega⟩

/-- The `int` expression `dm[0]*(i1+dm[1]*i2)` does not overflow at a grid position. -/
theorem wrap_off (X Y Z K i1 i2 : Int) (hX : 1 ≤ X) (hK1 : 1 ≤ K)
    (hM : X * Y * Z * K ≤ 2147483646) (h1 : 0 ≤ i1) (h1' : i1 < Y) (h2 : 0 ≤ i2)
    (h2' : i2 < Z) :
    wrap32 (X * wrap32 (i1 + wrap32 (Y * i2))) = X * (i1 + Y * i2) := by
  have hb := off_bound X Y Z 0 i1 i2 (le_refl 0) (by omega) h1 h1' h2 h2'
  have hXYZ : 0 ≤ X * Y * Z := by omega
  have c1 : X * Y * Z ≤ X * Y * Z * K := le_mul_of_one_le_right hXYZ hK1
  have hYZ0 : 0 ≤ Y * Z := by omega
  have c2 : Y * Z ≤ X * (Y * Z) := le_mul_of_one_le_left hYZ0 hX
  have c3 : X * (Y * Z) = X * Y * Z := by ring
  have hY : 0 ≤ Y := by omega
  have a1 : 0 ≤ Y * i2 := mul_nonneg hY h2
  have e1 : wrap32 (Y * i2) = Y * i2 := wrap32_eq _ (by omega) (by omega)
  rw [e1]
  have e2 : wrap32 (i1 + Y * i2) = i1 + Y * i2 := wrap32_eq _ (by omega) (by omega)
  rw [e2]
  exact wrap32_eq _ (by omega) (by omega)

theorem scaleAcc_safe (dm : Dims) (code : Nat) (hK : (dm.d3 : Int) ≤ 1024) (t : List Access)
    (ht : ∀ acc ∈ t, inUse dm code acc) :
    ∀ acc ∈ forInt (Int.toNat dm.d3) dm.d3 1
        (fun k t => t ++ [⟨Arr.a, k, false⟩, ⟨Arr.a, k, true⟩]) 0 t,
      inUse dm code acc := by
  refine forInt_inv (fun t => ∀ acc ∈ t, inUse dm code acc) _ 1 _ (by omega) (by omega) ?_
    _ 0 t (le_refl 0) ht
  intro k s hk0 hk1 hs acc hacc
  rw [List.mem_append] at hacc
  rcases hacc with h | h
  · exact hs acc h
  · simp only [List.mem_cons, List.mem_singleton, List.not_mem_nil, or_false] at h
    rcases h with rfl | rfl
    · exact inUse_a dm code k false hk0 hk1
    · exact inUse_a dm code k true hk0 hk1

/-- Sizes of the partial products of the extents. -/
theorem dims_bounds (X Y Z K : Int) (hX : 1 ≤ X) (hY : 1 ≤ Y) (hZ : 1 ≤ Z) (hK1 : 1 ≤ K) :
    0 ≤ X * Y ∧ X * Y ≤ X * Y * Z ∧ X * Y * Z ≤ X * Y * Z * K ∧ X ≤ X * Y ∧ Y ≤ X * Y
      ∧ Z ≤ X * Y * Z := by
  have hXY0 : 0 ≤ X * Y := mul_nonneg (by omega) (by omega)
  have hXYZ0 : 0 ≤ X * Y * Z := mul_nonneg hXY0 (by omega)
  have h11 : 1 ≤ X * Y := one_le_mul_of_one_le_of_one_le hX hY
  exact ⟨hXY0, le_mul_of_one_le_right hXY0 hZ, le_mul_of_one_le_right hXYZ0 hK1,
    le_mul_of_one_le_right (by omega) hY, le_mul_of_one_le_left (by omega) hX,
    le_mul_of_one_le_left (by omega) h11⟩

/-- The `int` expressions over the extents do not overflow when `X*Y*Z*K` is in range. -/
theorem dims_wrap (X Y Z K : Int) (hX : 1 ≤ X) (hY : 1 ≤ Y) (hZ : 1 ≤ Z) (hK1 : 1 ≤ K)
    (hM : X * Y * Z * K ≤ 2147483646) :
    wrap32 (X * Y) = X * Y ∧ wrap32 (Z - 1) = Z - 1 ∧ wrap32 (Y - 1) = Y - 1
      ∧ wrap32 (X - 1) = X - 1 ∧ wrap32 (wrap32 (X * Y) * Z) = X * Y * Z
      ∧ X + 2 ≤ 2147483648 ∧ Y + 1 ≤ 2147483648 ∧ Z + 1 ≤ 2147483648 := by
  obtain ⟨b1, b2, b3, b4, b5, b6⟩ := dims_bounds X Y Z K hX hY hZ hK1
  have e1 : wrap32 (X * Y) = X * Y := wrap32_eq _ (by omega) (by omega)
  refine ⟨e1, wrap32_eq _ (by omega) (by omega), wrap32_eq _ (by omega) (by omega),
    wrap32_eq _ (by omega) (by omega), ?_, by omega, by omega, by omega⟩
  rw [e1]
  exact wrap32_eq _ (by omega) (by omega)

/-- The six neighbour offsets of a grid voxel are offsets of grid voxels when their guards
hold. -/
theorem nb_off (X Y Z i0 i1 i2 v : Int) (h0 : 0 ≤ i0) (h0' : i0 < X) (h1 : 0 ≤ i1)
    (h1' : i1 < Y) (h2 : 0 ≤ i2) (h2' : i2 < Z) (hv : v = i0 + X * (i1 + Y * i2)) :
    (i2 > 0 → 0 ≤ v - X * Y ∧ v - X * Y < X * Y * Z) ∧
    (i2 < Z - 1 → 0 ≤ v + X * Y ∧ v + X * Y < X * Y * Z) ∧
    (i1 > 0 → 0 ≤ v - X ∧ v - X < X * Y * Z) ∧
    (i1 < Y - 1 → 0 ≤ v + X ∧ v + X < X * Y * Z) ∧
    (i0 > 0 → 0 ≤ v - 1 ∧ v - 1 < X * Y * Z) ∧
    (i0 < X - 1 → 0 ≤ v + 1 ∧ v + 1 < X * Y * Z) := by
  refine ⟨?_, ?_, ?_, ?_, ?_, ?_⟩
  · intro hg
    have hb := off_bound X Y Z i0 i1 (i2 - 1) h0 h0' h1 h1' (by omega) (by omega)
    have e : X * (i1 + Y * (i2 - 1)) = X * (i1 + Y * i2) - X * Y := by ring
    constructor <;> omega
  · intro hg
    have hb := off_bound X Y Z i0 i1 (i2 + 1) h0 h0' h1 h1' (by omega) (by omega)
    have e : X * (i1 + Y * (i2 + 1)) = X * (i1 + Y * i2) + X * Y := by ring
    constructor <;> omega
  · intro hg
    have hb := off_bound X Y Z i0 (i1 - 1) i2 h0 h0' (by omega) (by omega) h2 h2'
    have e : X * (i1 - 1 + Y * i2) = X * (i1 + Y * i2) - X := by ring
    constructor <;> omega
  · intro hg
    have hb := off_bound X Y Z i0 (i1 + 1) i2 h0 h0' (by omega) (by omega) h2 h2'
    have e : X * (i1 + 1 + Y * i2) = X * (i1 + Y * i2) + X := by ring
    constructor <;> omega
  · intro hg
    have hb := off_bound X Y Z (i0 - 1) i1 i2 (by omega) (by omega) h1 h1' h2 h2'
    constructor <;> omega
  · intro hg
    have hb := off_bound X Y Z (i0 + 1) i1 i2 (by omega) (by omega) h1 h1' h2 h2'
    constructor <;> omega

/-- The neighbour stage of a grid voxel stays inside `q`, `w` and `a`. -/
theorem influenceAcc_safe (dm : Dims) (code : Nat) (m i0 i1 i2 v0 : Int)
    (hX : 1 ≤ (dm.d0 : Int)) (hY : 1 ≤ (dm.d1 : Int)) (hZ : 1 ≤ (dm.d2 : Int))
    (hK1 : 1 ≤ (dm.d3 : Int)) (hK : (dm.d3 : Int) ≤ 1024)
    (hM : (dm.d0 : Int) * dm.d1 * dm.d2 * dm.d3 ≤ 2147483646)
    (hm : m = (dm.d0 : Int) * dm.d1 * dm.d2)
    (h0 : 0 ≤ i0) (h0' : i0 < dm.d0) (h1 : 0 ≤ i1) (h1' : i1 < dm.d1) (h2 : 0 ≤ i2)
    (h2' : i2 < dm.d2) (hv : v0 = i0 + (dm.d0 : Int) * (i1 + dm.d1 * i2))
    (t : List Access) (ht : ∀ acc ∈ t, inUse dm code acc) :
    ∀ acc ∈ influenceAcc dm m i0 i1 i2 v0 t, inUse dm code acc := by
  obtain ⟨eXY, eZ, eY, eX, -, -, -, -⟩ := dims_wrap dm.d0 dm.d1 dm.d2 dm.d3 hX hY hZ hK1 hM
  obtain ⟨n1, n2, n3, n4, n5, n6⟩ := nb_off dm.d0 dm.d1 dm.d2 i0 i1 i2 v0 h0 h0' h1 h1' h2 h2' hv
  rw [← hm] at n1 n2 n3 n4 n5 n6
  have k0 : (0 : Int) ≤ 0 := le_refl 0
  have k1 : (0 : Int) ≤ 1 := by decide
  have k2 : (0 : Int) ≤ 2 := by decide
  have k0' : (0 : Int) < 3 := by decide
  have k1' : (1 : Int) < 3 := by decide
  have k2' : (2 : Int) < 3 := by decide
  unfold influenceAcc
  lift_lets
  extract_lets t1 t2 t3 t4 t5 t6 t7
  have s1 : ∀ acc ∈ t1, inUse dm code acc := clearAcc_safe dm code hK t ht
  have s2 : ∀ acc ∈ t2, inUse dm code acc := by
    refine guarded_neighbour_safe dm code m _ 2 _ hK hm hM ?_ k2 k2' _ s1
    rw [eXY]
    exact n1
  have s3 : ∀ acc ∈ t3, inUse dm code acc := by
    refine guarded_neighbour_safe dm code m _ 2 _ hK hm hM ?_ k2 k2' _ s2
    rw [eXY, eZ]
    exact n2
  have s4 : ∀ acc ∈ t4, inUse dm code acc :=
    guarded_neighbour_safe dm code m _ 1 _ hK hm hM n3 k1 k1' _ s3
  have s5 : ∀ acc ∈ t5, inUse dm code acc := by
    refine guarded_neighbour_safe dm code m _ 1 _ hK hm hM ?_ k1 k1' _ s4
    rw [eY]
    exact n4
  have s6 : ∀ acc ∈ t6, inUse dm code acc :=
    guarded_neighbour_safe dm code m _ 0 _ hK hm hM n5 k0 k0' _ s5
  have s7 : ∀ acc ∈ t7, inUse dm code acc := by
    refine guarded_neighbour_safe dm code m _ 0 _ hK hm hM ?_ k0 k0' _ s6
    rw [eX]
    exact n6
  exact scaleAcc_safe dm code hK t7 s7

theorem writeBackAcc_safe (dm : Dims) (code : Nat) (m v0 : Int) (hK : (dm.d3 : Int) ≤ 1024)
    (hm : m = (dm.d0 : Int) * dm.d1 * dm.d2)
    (hM : (dm.d0 : Int) * dm.d1 * dm.d2 * dm.d3 ≤ 2147483646)
    (hv0 : 0 ≤ v0) (hv1 : v0 < m) (t : List Access) (ht : ∀ acc ∈ t, inUse dm code acc) :
    ∀ acc ∈ writeBackAcc dm.d3 m v0 t, inUse dm code acc := by
  unfold writeBackAcc
  refine forInt_inv (fun t => ∀ acc ∈ t, inUse dm code acc) _ 1 _ (by omega) (by omega) ?_
    _ 0 t (le_refl 0) ht
  intro k s hk0 hk1 hs acc hacc
  rw [List.mem_append] at hacc
  rcases hacc with h | h
  · exact hs acc h
  · have hi := idx_ok m dm.d3 k v0 hv0 hv1 hk0 hk1 (by rw [hm]; exact hM)
    simp only [List.mem_cons, List.mem_singleton, List.not_mem_nil, or_false] at h
    rcases h with rfl | rfl
    · exact inUse_e dm code k false hk0 hk1
    · rw [hi.1]
      exact inUse_q dm code _ true hi.2.1 (by rw [← hm]; exact hi.2.2)

/-- The exponential loop of the packed modes reads `e`, `p` and writes `e` inside their
bounds. -/
theorem expAcc_safe (dm : Dims) (code : Nat) (m v0 : Int) (hK : (dm.d3 : Int) ≤ 1024)
    (hm : m = (dm.d0 : Int) * dm.d1 * dm.d2)
    (hM : (dm.d0 : Int) * dm.d1 * dm.d2 * dm.d3 ≤ 2147483646)
    (hv0 : 0 ≤ v0) (hv1 : v0 < m) (t : List Access) (ht : ∀ acc ∈ t, inUse dm code acc) :
    ∀ acc ∈ forInt (Int.toNat dm.d3) dm.d3 1
        (fun k t => t ++ [⟨Arr.e, k, false⟩, ⟨Arr.p, v0 + wrap32 (k * m), false⟩,
          ⟨Arr.e, k, true⟩, ⟨Arr.e, k, false⟩]) 0 t,
      inUse dm code acc := by
  refine forInt_inv (fun t => ∀ acc ∈ t, inUse dm code acc) _ 1 _ (by omega) (by omega) ?_
    _ 0 t (le_refl 0) ht
  intro k s hk0 hk1 hs acc hacc
  rw [List.mem_append] at hacc
  rcases hacc with h | h
  · exact hs acc h
  · have hi := idx_ok m dm.d3 k v0 hv0 hv1 hk0 hk1 (by rw [hm]; exact hM)
    simp only [List.mem_cons, List.mem_singleton, List.not_mem_nil, or_false] at h
    rcases h with rfl | rfl | rfl | rfl
    · exact inUse_e dm code k false hk0 hk1
    · rw [hi.1]
      exact inUse_p dm code _ false hi.2.1 (by rw [← hm]; exact hi.2.2)
    · exact inUse_e dm code k true hk0 hk1
    · exact inUse_e dm code k false hk0 hk1

theorem diagAcc_safe (dm : Dims) (code : Nat) (m v0 : Int) (hK : (dm.d3 : Int) ≤ 1024)
    (hm : m = (dm.d0 : Int) * dm.d1 * dm.d2)
    (hM : (dm.d0 : Int) * dm.d1 * dm.d2 * dm.d3 ≤ 2147483646)
    (hv0 : 0 ≤ v0) (hv1 : v0 < m)
    (hG : ∀ j : Int, 0 ≤ j → j < dm.d3 → inUse dm code ⟨Arr.G, j, false⟩)
    (t : List Access) (ht : ∀ acc ∈ t, inUse dm code acc) :
    ∀ acc ∈ diagAcc dm.d3 m v0 t, inUse dm code acc := by
  unfold diagAcc
  refine forInt_inv (fun t => ∀ acc ∈ t, inUse dm code acc) _ 1 _ (by omega) (by omega) ?_
    _ 0 t (le_refl 0) ht
  intro k s hk0 hk1 hs acc hacc
  rw [List.mem_append] at hacc
  rcases hacc with h | h
  · exact hs acc h
  · have hi := idx_ok m dm.d3 k v0 hv0 hv1 hk0 hk1 (by rw [hm]; exact hM)
    simp only [List.mem_cons, List.mem_singleton, List.not_mem_nil, or_false] at h
    rcases h with rfl | rfl | rfl | rfl | rfl
    · exact hG k hk0 hk1
    · exact inUse_a dm code k false hk0 hk1
    · rw [hi.1]
      exact inUse_p dm code _ false hi.2.1 (by rw [← hm]; exact hi.2.2)
    · exact inUse_e dm code k true hk0 hk1
    · exact inUse_e dm code k false hk0 hk1

/-- The inner loop of the dense modes: it advances `g` by `K` strides and reads `G` at
`g, g + stride, ...`. -/
theorem denseInner_spec (dm : Dims) (code : Nat) (k stride g : Int) (hK : (dm.d3 : Int) ≤ 1024)
    (hk0 : 0 ≤ k) (hk1 : k < dm.d3)
    (hG : ∀ n : Int, 0 ≤ n → n < dm.d3 → inUse dm code ⟨Arr.G, g + n * stride, false⟩)
    (t : List Access) (ht : ∀ acc ∈ t, inUse dm code acc) :
    (forInt (Int.toNat dm.d3) dm.d3 1
        (fun n (s : Int × List Access) => (s.1 + stride,
          s.2 ++ [⟨Arr.G, s.1, false⟩, ⟨Arr.a, n, false⟩, ⟨Arr.e, k, false⟩,
            ⟨Arr.e, k, true⟩]))
        0 (g, t)).1 = g + dm.d3 * stride ∧
    ∀ acc ∈ (forInt (Int.toNat dm.d3) dm.d3 1
        (fun n (s : Int × List Access) => (s.1 + stride,
          s.2 ++ [⟨Arr.G, s.1, false⟩, ⟨Arr.a, n, false⟩, ⟨Arr.e, k, false⟩,
            ⟨Arr.e, k, true⟩]))
        0 (g, t)).2, inUse dm code acc := by
  refine forInt_exact
    (fun n (s : Int × List Access) =>
      s.1 = g + n * stride ∧ ∀ acc ∈ s.2, inUse dm code acc)
    dm.d3 _ (by omega) 0 (le_refl 0) ?_ (Int.toNat dm.d3) 0 (g, t) (le_refl 0) (by omega)
    (by omega) ⟨by simp, ht⟩
  intro n s hn0 hn1 hP
  obtain ⟨hg, hs⟩ := hP
  refine ⟨by dsimp only; rw [hg]; ring, ?_⟩
  intro acc hacc
  dsimp only at hacc
  rw [List.mem_append] at hacc
  rcases hacc with h | h
  · exact hs acc h
  · simp only [List.mem_cons, List.mem_singleton, List.not_mem_nil, or_false] at h
    rcases h with rfl | rfl | rfl | rfl
    · rw [hg]
      exact hG n hn0 hn1
    · exact inUse_a dm code n false hn0 hn1
    · exact inUse_e dm code k false hk0 hk1
    · exact inUse_e dm code k true hk0 hk1

theorem denseAcc_safe (dm : Dims) (code : Nat) (m v0 g0 stride : Int)
    (hK : (dm.d3 : Int) ≤ 1024) (hm : m = (dm.d0 : Int) * dm.d1 * dm.d2)
    (hM : (dm.d0 : Int) * dm.d1 * dm.d2 * dm.d3 ≤ 2147483646)
    (hv0 : 0 ≤ v0) (hv1 : v0 < m)
    (hG : ∀ j : Int, 0 ≤ j → j < (dm.d3 : Int) * dm.d3 →
      inUse dm code ⟨Arr.G, g0 + j * stride, false⟩)
    (t : List Access) (ht : ∀ acc ∈ t, inUse dm code acc) :
    ∀ acc ∈ denseAcc dm.d3 m v0 g0 stride t, inUse dm code acc := by
  unfold denseAcc
  refine (forInt_exact
    (fun k (s : Int × List Access) =>
      s.1 = g0 + (k * dm.d3) * stride ∧ ∀ acc ∈ s.2, inUse dm code acc)
    dm.d3 _ (by omega) 0 (le_refl 0) ?_ (Int.toNat dm.d3) 0 (g0, t) (le_refl 0) (by omega)
    (by omega) ⟨by simp, ht⟩).2
  intro k s hk0 hk1 hP
  obtain ⟨hg, hs⟩ := hP
  have hGk : ∀ n : Int, 0 ≤ n → n < dm.d3 →
      inUse dm code ⟨Arr.G, s.1 + n * stride, false⟩ := by
    intro n hn0 hn1
    have e : s.1 + n * stride = g0 + (k * dm.d3 + n) * stride := by rw [hg]; ring
    rw [e]
    have a1 : 0 ≤ k * (dm.d3 : Int) := mul_nonneg hk0 (by omega)
    have a2 : k * (dm.d3 : Int) ≤ ((dm.d3 : Int) - 1) * dm.d3 :=
      mul_le_mul_of_nonneg_right (by omega) (by omega)
    have a3 : ((dm.d3 : Int) - 1) * dm.d3 = (dm.d3 : Int) * dm.d3 - dm.d3 := by ring
    exact hG _ (by omega) (by omega)
  have inner := denseInner_spec dm code k stride s.1 hK hk0 hk1 hGk
    (s.2 ++ [⟨Arr.e, k, true⟩])
    (by
      intro acc hacc
      rw [List.mem_append] at hacc
      rcases hacc with h | h
      · exact hs acc h
      · simp only [List.mem_singleton] at h
        subst h
        exact inUse_e dm code k true hk0 hk1)
  dsimp only
  refine ⟨by rw [inner.1, hg]; ring, ?_⟩
  intro acc hacc
  rw [List.mem_append] at hacc
  rcases hacc with h | h
  · exact inner.2 acc h
  · have hi := idx_ok m dm.d3 k v0 hv0 hv1 hk0 hk1 (by rw [hm]; exact hM)
    simp only [List.mem_cons, List.mem_singleton, List.not_mem_nil, or_false] at h
    rcases h with rfl | rfl | rfl | rfl
    · exact inUse_e dm code k false hk0 hk1
    · rw [hi.1]
      exact inUse_p dm code _ false hi.2.1 (by rw [← hm]; exact hi.2.2)
    · exact inUse_e dm code k true hk0 hk1
    · exact inUse_e dm code k false hk0 hk1

/-- The inner loop of the packed modes, started at `n = k + 1`: it advances `g` by
`K - k - 1` strides and reads `G` at `g, g + m, ...`. -/
theorem packedInner_spec (dm : Dims) (code : Nat) (k m : Int) (hK : (dm.d3 : Int) ≤ 1024)
    (hk0 : 0 ≤ k) (hk1 : k < dm.d3) (s : Int × List Access)
    (hG : ∀ n : Int, k + 1 ≤ n → n < dm.d3 →
      inUse dm code ⟨Arr.G, s.1 + (n - k - 1) * m, false⟩)
    (ht : ∀ acc ∈ s.2, inUse dm code acc) :
    (forInt (Int.toNat dm.d3) dm.d3 1
        (fun n (s : Int × List Access) => (s.1 + m,
          s.2 ++ [⟨Arr.G, s.1, false⟩, ⟨Arr.a, n, false⟩, ⟨Arr.e, k, false⟩,
            ⟨Arr.e, k, true⟩, ⟨Arr.a, k, false⟩, ⟨Arr.e, n, false⟩, ⟨Arr.e, n, true⟩]))
        (wrap32 (k + 1)) s).1 = s.1 + ((dm.d3 : Int) - k - 1) * m ∧
    ∀ acc ∈ (forInt (Int.toNat dm.d3) dm.d3 1
        (fun n (s : Int × List Access) => (s.1 + m,
          s.2 ++ [⟨Arr.G, s.1, false⟩, ⟨Arr.a, n, false⟩, ⟨Arr.e, k, false⟩,
            ⟨Arr.e, k, true⟩, ⟨Arr.a, k, false⟩, ⟨Arr.e, n, false⟩, ⟨Arr.e, n, true⟩]))
        (wrap32 (k + 1)) s).2, inUse dm code acc := by
  have hw : wrap32 (k + 1) = k + 1 := wrap32_eq _ (by omega) (by omega)
  rw [hw]
  refine forInt_exact
    (fun n (r : Int × List Access) =>
      r.1 = s.1 + (n - k - 1) * m ∧ ∀ acc ∈ r.2, inUse dm code acc)
    dm.d3 _ (by omega) (k + 1) (by omega) ?_ (Int.toNat dm.d3) (k + 1) s (le_refl _)
    (by omega) (by omega) ⟨by ring, ht⟩
  intro n r hn0 hn1 hP
  obtain ⟨hg, hs⟩ := hP
  refine ⟨by dsimp only; rw [hg]; ring, ?_⟩
  intro acc hacc
  dsimp only at hacc
  rw [List.mem_append] at hacc
  rcases hacc with h | h
  · exact hs acc h
  · simp only [List.mem_cons, List.mem_singleton, List.not_mem_nil, or_false] at h
    rcases h with rfl | rfl | rfl | rfl | rfl | rfl | rfl
    · rw [hg]
      exact hG n hn0 hn1
    · exact inUse_a dm code n false (by omega) hn1
    · exact inUse_e dm code k false hk0 hk1
    · exact inUse_e dm code k true hk0 hk1
    · exact inUse_a dm code k false hk0 hk1
    · exact inUse_e dm code n false (by omega) hn1
    · exact inUse_e dm code n true (by omega) hn1

/-- Position of the pair `(k, n)`, `k < n < K`, in the packed order, doubled:
`2c = k(2K-k-1) + 2(n-k-1)` leaves `2c + 2 ≤ K(K-1)`. -/
theorem packed_pos_bound (K k n c : Int) (hk0 : 0 ≤ k) (hn0 : k + 1 ≤ n) (hn1 : n < K)
    (hc : 2 * c = k * (2 * K - k - 1)) :
    0 ≤ c + (n - k - 1) ∧ 2 * (c + (n - k - 1)) + 2 ≤ K * (K - 1) := by
  have h1 : 0 ≤ k * (2 * K - k - 1) := mul_nonneg hk0 (by omega)
  have h2 : 0 ≤ (K - 1 - n) * (K - 1 - n + 1 + 2 * (n - k - 1)) :=
    mul_nonneg (by omega) (by omega)
  have h3 : 0 ≤ (n - k - 1) * (n - k) := mul_nonneg (by omega) (by omega)
  constructor
  · omega
  · nlinarith

theorem packedAcc_safe (dm : Dims) (code : Nat) (m v0 g0 : Int)
    (hK : (dm.d3 : Int) ≤ 1024) (hm : m = (dm.d0 : Int) * dm.d1 * dm.d2)
    (hM : (dm.d0 : Int) * dm.d1 * dm.d2 * dm.d3 ≤ 2147483646)
    (hv0 : 0 ≤ v0) (hv1 : v0 < m)
    (hG : ∀ c : Int, 0 ≤ c → 2 * c + 2 ≤ (dm.d3 : Int) * (dm.d3 - 1) →
      inUse dm code ⟨Arr.G, g0 + c * m, false⟩)
    (t : List Access) (ht : ∀ acc ∈ t, inUse dm code acc) :
    ∀ acc ∈ packedAcc dm.d3 m v0 g0 t, inUse dm code acc := by
  unfold packedAcc
  lift_lets
  extract_lets t1 s2
  have s1 : ∀ acc ∈ t1, inUse dm code acc := by
    refine forInt_inv (fun t => ∀ acc ∈ t, inUse dm code acc) _ 1 _ (by omega) (by omega)
      ?_ _ 0 t (le_refl 0) ht
    intro k s hk0 hk1 hs acc hacc
    rw [List.mem_append] at hacc
    rcases hacc with h | h
    · exact hs acc h
    · simp only [List.mem_singleton] at h
      subst h
      exact inUse_e dm code k true hk0 hk1
  have s2safe : ∀ acc ∈ s2.2, inUse dm code acc := by
    refine (forInt_exact
      (fun k (s : Int × List Access) =>
        (∃ c : Int, s.1 = g0 + c * m ∧ 2 * c = k * (2 * dm.d3 - k - 1)) ∧
          ∀ acc ∈ s.2, inUse dm code acc)
      dm.d3 _ (by omega) 0 (le_refl 0) ?_ (Int.toNat dm.d3) 0 (g0, t1) (le_refl 0)
      (by omega) (by omega) ⟨⟨0, by simp, by simp⟩, s1⟩).2
    intro k s hk0 hk1 hP
    obtain ⟨⟨c, hg, hc⟩, hs⟩ := hP
    have hGk : ∀ n : Int, k + 1 ≤ n → n < dm.d3 →
        inUse dm code ⟨Arr.G, s.1 + (n - k - 1) * m, false⟩ := by
      intro n hn0 hn1
      have e : s.1 + (n - k - 1) * m = g0 + (c + (n - k - 1)) * m := by rw [hg]; ring
      rw [e]
      have hb := packed_pos_bound dm.d3 k n c hk0 hn0 hn1 hc
      exact hG _ hb.1 hb.2
    have inner := packedInner_spec dm code k m hK hk0 hk1 s hGk hs
    refine ⟨⟨c + ((dm.d3 : Int) - k - 1), ?_, ?_⟩, inner.2⟩
    · rw [inner.1, hg]; ring
    · linear_combination hc
  exact expAcc_safe dm code m v0 hK hm hM hv0 hv1 s2.2 s2safe

theorem inUse_G_packed (dm : Dims) (code : Nat) (hcode : code = 4 ∨ code = 5)
    (hK1 : 1 ≤ dm.d3) (i : Int) (h0 : 0 ≤ i)
    (h1 : 2 * i + 2 ≤ (dm.d0 : Int) * dm.d1 * dm.d2 * dm.d3 * ((dm.d3 : Int) - 1)) :
    inUse dm code ⟨Arr.G, i, false⟩ := by
  have hN : 2 * i + 2 ≤ ((dm.d0 * dm.d1 * dm.d2 * dm.d3 * (dm.d3 - 1) : Nat) : Int) := by
    push_cast [Nat.cast_sub hK1]
    exact h1
  have hlen : arrLen dm code Arr.G = dm.d0 * dm.d1 * dm.d2 * dm.d3 * (dm.d3 - 1) / 2 := by
    rcases hcode with rfl | rfl <;> simp [arrLen]
  simp only [inUse, usedLen, hlen]
  generalize dm.d0 * dm.d1 * dm.d2 * dm.d3 * (dm.d3 - 1) = N at hN
  omega

theorem interactionAcc_safe (dm : Dims) (code : Nat) (m i0 i1 i2 v0 : Int)
    (hX : 1 ≤ (dm.d0 : Int)) (hK1 : 1 ≤ (dm.d3 : Int)) (hK : (dm.d3 : Int) ≤ 1024)
    (hM : (dm.d0 : Int) * dm.d1 * dm.d2 * dm.d3 ≤ 2147483646)
    (hm : m = (dm.d0 : Int) * dm.d1 * dm.d2)
    (h1 : 0 ≤ i1) (h1' : i1 < dm.d1) (h2 : 0 ≤ i2) (h2' : i2 < dm.d2)
    (hv : v0 = i0 + (dm.d0 : Int) * (i1 + dm.d1 * i2)) (hv0 : 0 ≤ v0) (hv1 : v0 < m)
    (t : List Access) (ht : ∀ acc ∈ t, inUse dm code acc) :
    ∀ acc ∈ interactionAcc dm code m i0 i1 i2 v0 t, inUse dm code acc := by
  have hg0 : i0 + wrap32 ((dm.d0 : Int) * wrap32 (i1 + wrap32 ((dm.d1 : Int) * i2))) = v0 := by
    rw [wrap_off dm.d0 dm.d1 dm.d2 dm.d3 i1 i2 hX hK1 hM h1 h1' h2 h2', hv]
  have hKK : 0 ≤ (dm.d3 : Int) * dm.d3 := mul_nonneg (by omega) (by omega)
  unfold interactionAcc
  rw [hg0]
  split_ifs with c1 c2 c3 c45
  · refine denseAcc_safe dm code m v0 0 1 hK hm hM hv0 hv1 ?_ t ht
    intro j hj0 hj1
    simp only [inUse, usedLen, arrLen, c1, if_true]
    push_cast
    constructor <;> omega
  · refine diagAcc_safe dm code m v0 hK hm hM hv0 hv1 ?_ t ht
    intro j hj0 hj1
    have hlen : arrLen dm code Arr.G = dm.d3 := by simp [arrLen, c2]
    simp only [inUse, usedLen, hlen]
    constructor <;> omega
  · refine denseAcc_safe dm code m v0 v0 m hK hm hM hv0 hv1 ?_ t ht
    intro j hj0 hj1
    have hlen : arrLen dm code Arr.G = dm.d0 * dm.d1 * dm.d2 * dm.d3 * dm.d3 := by
      simp [arrLen, c3]
    simp only [inUse, usedLen, hlen]
    push_cast
    rw [← hm]
    have hm0 : 0 ≤ m := by omega
    have a1 : 0 ≤ j * m := mul_nonneg hj0 hm0
    have a2 : j * m ≤ ((dm.d3 : Int) * dm.d3 - 1) * m :=
      mul_le_mul_of_nonneg_right (by omega) hm0
    have a3 : ((dm.d3 : Int) * dm.d3 - 1) * m = m * dm.d3 * dm.d3 - m := by ring
    constructor <;> omega
  · refine packedAcc_safe dm code m v0 v0 hK hm hM hv0 hv1 ?_ t ht
    intro c hc0 hc1
    have hm0 : 0 ≤ m := by omega
    have a1 : 0 ≤ c * m := mul_nonneg hc0 hm0
    have a2 : (2 * c + 2) * m ≤ ((dm.d3 : Int) * (dm.d3 - 1)) * m :=
      mul_le_mul_of_nonneg_right hc1 hm0
    have a3 : (2 * c + 2) * m = 2 * (c * m) + 2 * m := by ring
    have a4 : ((dm.d3 : Int) * (dm.d3 - 1)) * m
        = (dm.d0 : Int) * dm.d1 * dm.d2 * dm.d3 * ((dm.d3 : Int) - 1) := by
      rw [hm]; ring
    refine inUse_G_packed dm code c45 (by omega) _ (by omega) ?_
    rw [← a4]
    omega
  · exact ht

theorem voxelAcc_safe (dm : Dims) (code : Nat) (m i0 i1 i2 v1 : Int)
    (hX : 1 ≤ (dm.d0 : Int)) (hY : 1 ≤ (dm.d1 : Int)) (hZ : 1 ≤ (dm.d2 : Int))
    (hK1 : 1 ≤ (dm.d3 : Int)) (hK : (dm.d3 : Int) ≤ 1024)
    (hM : (dm.d0 : Int) * dm.d1 * dm.d2 * dm.d3 ≤ 2147483646)
    (hm : m = (dm.d0 : Int) * dm.d1 * dm.d2)
    (h0 : 0 ≤ i0) (h0' : i0 < dm.d0) (h1 : 0 ≤ i1) (h1' : i1 < dm.d1) (h2 : 0 ≤ i2)
    (h2' : i2 < dm.d2) (hv : v1 = (dm.d0 : Int) * (i1 + dm.d1 * i2))
    (t : List Access) (ht : ∀ acc ∈ t, inUse dm code acc) :
    ∀ acc ∈ voxelAcc dm code m i0 i1 i2 v1 t, inUse dm code acc := by
  have hb := off_bound dm.d0 dm.d1 dm.d2 i0 i1 i2 h0 h0' h1 h1' h2 h2'
  have hv' : v1 + i0 = i0 + (dm.d0 : Int) * (i1 + dm.d1 * i2) := by rw [hv]; ring
  have hv0 : 0 ≤ v1 + i0 := by rw [hv']; exact hb.2.2.1
  have hv1 : v1 + i0 < m := by rw [hv', hm]; exact hb.2.2.2
  unfold voxelAcc
  exact writeBackAcc_safe dm code m _ hK hm hM hv0 hv1 _
    (interactionAcc_safe dm code m i0 i1 i2 _ hX hK1 hK hM hm h1 h1' h2 h2' hv' hv0 hv1 _
      (influenceAcc_safe dm code m i0 i1 i2 _ hX hY hZ hK1 hK hM hm h0 h0' h1 h1' h2 h2' hv'
        t ht))

/-- Index safety over the `int` extents: with `X*Y*Z*K` at most `2^31 - 2`, every access
recorded by `mrf1Accesses` is inside its array. -/
theorem mrf1Accesses_safe (dm : Dims) (code : Nat)
    (hX : 1 ≤ (dm.d0 : Int)) (hY : 1 ≤ (dm.d1 : Int)) (hZ : 1 ≤ (dm.d2 : Int))
    (hK1 : 1 ≤ (dm.d3 : Int)) (hK : (dm.d3 : Int) ≤ 1024)
    (hM : (dm.d0 : Int) * dm.d1 * dm.d2 * dm.d3 ≤ 2147483646) :
    ∀ acc ∈ mrf1Accesses dm code, inUse dm code acc := by
  obtain ⟨-, -, -, -, em, oX, oY, oZ⟩ := dims_wrap dm.d0 dm.d1 dm.d2 dm.d3 hX hY hZ hK1 hM
  unfold mrf1Accesses
  dsimp only
  rw [em]
  refine forInt_inv (fun t => ∀ acc ∈ t, inUse dm code acc) 2 1 _ (by decide) (by decide)
    ?_ 2 0 [] (le_refl 0) (by intro acc h; cases h)
  intro it t _ _ ht
  refine forInt_inv (fun t => ∀ acc ∈ t, inUse dm code acc) _ 1 _ (by decide) oZ
    ?_ _ 0 t (le_refl 0) ht
  intro i2 t h2 h2' ht
  refine forInt_inv (fun t => ∀ acc ∈ t, inUse dm code acc) _ 1 _ (by decide) oY
    ?_ _ 0 t (le_refl 0) ht
  intro i1 t h1 h1' ht
  rw [wrap_off dm.d0 dm.d1 dm.d2 dm.d3 i1 i2 hX hK1 hM h1 h1' h2 h2']
  refine forInt_inv (fun t => ∀ acc ∈ t, inUse dm code acc) _ 2 _ (by decide) oX
    ?_ _ _ t (by split_ifs <;> decide) ht
  intro i0 t h0 h0' ht
  exact voxelAcc_safe dm code _ i0 i1 i2 _ hX hY hZ hK1 hK hM rfl h0 h0' h1 h1' h2 h2' rfl t ht

/-! ## The record only grows -/

theorem forInt_sub (stop step : Int) (body : Int → List Access → List Access)
    (hbody : ∀ j t acc, acc ∈ t → acc ∈ body j t) :
    ∀ (fuel : Nat) (i : Int) (t : List Access) (acc : Access),
      acc ∈ t → acc ∈ forInt fuel stop step body i t :=
  fun fuel i t =>
    forInt_rel (fun a b : List Access => ∀ acc, acc ∈ a → acc ∈ b) (fun _ _ h => h)
      (fun _ _ _ h1 h2 acc h => h2 acc (h1 acc h)) stop step body (fun j s => hbody j s)
      fuel i t

/-- What the first iteration records stays in the record of the whole loop. -/
theorem forInt_first (stop step : Int) (body : Int → List Access → List Access)
    (hbody : ∀ j t acc, acc ∈ t → acc ∈ body j t) (fuel : Nat) (hf : 0 < fuel) (i : Int)
    (hlt : i < stop) (t : List Access) (acc : Access) (h : acc ∈ body i t) :
    acc ∈ forInt fuel stop step body i t := by
  cases fuel with
  | zero => exact absurd hf (by decide)
  | succ f =>
    rw [forInt_succ, if_pos hlt]
    exact forInt_sub stop step body hbody f _ _ acc h

theorem append_sub (l : Int → List Access) :
    ∀ (j : Int) (t : List Access) (acc : Access), acc ∈ t → acc ∈ t ++ l j :=
  fun _ _ _ h => List.mem_append_left _ h

theorem neighbourAcc_sub (K m qq c : Int) (t : List Access) (acc : Access) (h : acc ∈ t) :
    acc ∈ neighbourAcc K m qq c t :=
  forInt_sub _ _ _ (append_sub _) _ _ _ acc h

theorem guarded_sub (g : Prop) [Decidable g] (K m qq c : Int) (t : List Access) (acc : Access)
    (h : acc ∈ t) : acc ∈ (if g then neighbourAcc K m qq c t else t) := by
  split
  · exact neighbourAcc_sub K m qq c t acc h
  · exact h

theorem influenceAcc_sub (dm : Dims) (m i0 i1 i2 v0 : Int) (t : List Access) (acc : Access)
    (h : acc ∈ t) : acc ∈ influenceAcc dm m i0 i1 i2 v0 t := by
  unfold influenceAcc
  lift_lets
  extract_lets t1 t2 t3 t4 t5 t6 t7
  have s1 : acc ∈ t1 := forInt_sub _ _ _ (append_sub _) _ _ _ acc h
  have s2 : acc ∈ t2 := guarded_sub _ _ _ _ _ _ acc s1
  have s3 : acc ∈ t3 := guarded_sub _ _ _ _ _ _ acc s2
  have s4 : acc ∈ t4 := guarded_sub _ _ _ _ _ _ acc s3
  have s5 : acc ∈ t5 := guarded_sub _ _ _ _ _ _ acc s4
  have s6 : acc ∈ t6 := guarded_sub _ _ _ _ _ _ acc s5
  have s7 : acc ∈ t7 := guarded_sub _ _ _ _ _ _ acc s6
  exact forInt_sub _ _ _ (append_sub _) _ _ _ acc s7

theorem voxelAcc_sub (dm : Dims) (m i0 i1 i2 v1 : Int) (t : List Access) (acc : Access)
    (h : acc ∈ t) : acc ∈ voxelAcc dm 2 m i0 i1 i2 v1 t := by
  unfold voxelAcc writeBackAcc
  refine forInt_sub _ _ _ (append_sub _) _ _ _ acc ?_
  have e : interactionAcc dm 2 m i0 i1 i2 (v1 + i0) (influenceAcc dm m i0 i1 i2 (v1 + i0) t)
      = diagAcc dm.d3 m (v1 + i0) (influenceAcc dm m i0 i1 i2 (v1 + i0) t) := by
    simp [interactionAcc]
  rw [e]
  unfold diagAcc
  exact forInt_sub _ _ _ (append_sub _) _ _ _ acc (influenceAcc_sub dm m i0 i1 i2 _ t acc h)

/-- With two classes the write-back loop writes `q0[1*m]`. -/
theorem writeBack_mem (m v0 : Int) (t : List Access) :
    (⟨Arr.q, v0 + wrap32 (1 * m), true⟩ : Access) ∈ writeBackAcc 2 m v0 t := by
  unfold writeBackAcc
  have e : (2 : Int).toNat = 2 := rfl
  have w1 : wrap32 (0 + 1) = 1 := by decide
  rw [e, forInt_succ, if_pos (by decide), forInt_succ, w1, if_pos (by decide), forInt_zero]
  simp

/-- In diagonal mode with two classes, the first voxel visited is the voxel `(0,0,0)`, and
its write-back of class 1 is recorded at the index that the `int` expressions give. -/
theorem first_write_mem (dm : Dims) (h0 : 0 < dm.d0) (h1 : 0 < dm.d1) (h2 : 0 < dm.d2)
    (hK : dm.d3 = 2) :
    (⟨Arr.q, wrap32 ((dm.d0 : Int) * wrap32 (0 + wrap32 ((dm.d1 : Int) * 0))) + 0
        + wrap32 (1 * wrap32 (wrap32 ((dm.d0 : Int) * dm.d1) * dm.d2)), true⟩ : Access)
      ∈ mrf1Accesses dm 2 := by
  have hK' : (dm.d3 : Int) = 2 := by rw [hK]; rfl
  have hs : (if (if Int.tmod 0 2 = Int.tmod 0 2 then (1 : Int) else 0) = Int.tmod 0 2
      then (1 : Int) else 0) = 0 := by decide
  unfold mrf1Accesses
  dsimp only
  refine forInt_first _ _ _ ?_ 2 (by decide) 0 (by decide) [] _ ?_
  · intro it t acc h
    refine forInt_sub _ _ _ ?_ _ _ _ acc h
    intro i2 t acc h
    refine forInt_sub _ _ _ ?_ _ _ _ acc h
    intro i1 t acc h
    exact forInt_sub _ _ _ (fun i0 t acc h => voxelAcc_sub dm _ i0 i1 i2 _ t acc h) _ _ _ acc h
  refine forInt_first _ _ _ ?_ _ (by omega) 0 (by omega) [] _ ?_
  · intro i2 t acc h
    refine forInt_sub _ _ _ ?_ _ _ _ acc h
    intro i1 t acc h
    exact forInt_sub _ _ _ (fun i0 t acc h => voxelAcc_sub dm _ i0 i1 i2 _ t acc h) _ _ _ acc h
  refine forInt_first _ _ _ ?_ _ (by omega) 0 (by omega) [] _ ?_
  · intro i1 t acc h
    exact forInt_sub _ _ _ (fun i0 t acc h => voxelAcc_sub dm _ i0 i1 0 _ t acc h) _ _ _ acc h
  rw [hs]
  refine forInt_first _ _ _ (fun i0 t acc h => voxelAcc_sub dm _ i0 0 0 _ t acc h) _
    (by omega) 0 (by omega) [] _ ?_
  unfold voxelAcc
  rw [hK']
  exact writeBack_mem _ _ _

theorem inUse_inBounds (dm : Dims) (code : Nat) (hK : dm.d3 ≤ 1024) (acc : Access)
    (h : inUse dm code acc) :
    inBounds dm code acc ∧ ((acc.arr = Arr.a ∨ acc.arr = Arr.e) → acc.idx < dm.d3) := by
  obtain ⟨arr, idx, b⟩ := acc
  have hK' : (dm.d3 : Int) ≤ 1024 := by exact_mod_cast hK
  cases arr <;> simp only [inUse, usedLen, inBounds, arrLen, MAXCLASSES] at h ⊢ <;>
    simp only [reduceCtorEq, or_self, or_false, or_true, false_or, true_or, false_implies,
      true_implies, and_true, Nat.cast_ofNat] <;>
    first
      | exact h
      | exact ⟨⟨h.1, by omega⟩, h.2⟩

/-- C20 as stated fails: for `dm = [65536, 32768, 1, 2]` (so `K = 2`, and `q` of length
`m*K = 2^32`) in diagonal mode, the `int` product `dm[0]*dm[1]*dm[2]` overflows to `-2^31`
and the write-back `q0[k*m]` of class 1 of the first voxel is recorded at index `-2^31`,
outside `q`. -/
theorem index_safety_counterexample :
    (⟨Arr.q, -2147483648, true⟩ : Access) ∈ mrf1Accesses ⟨65536, 32768, 1, 2⟩ 2 ∧
      ¬ inBounds ⟨65536, 32768, 1, 2⟩ 2 ⟨Arr.q, -2147483648, true⟩ := by
  constructor
  · have h := first_write_mem ⟨65536, 32768, 1, 2⟩ (by decide) (by decide) (by decide) rfl
    have e : wrap32 ((((⟨65536, 32768, 1, 2⟩ : Dims).d0 : Nat) : Int)
          * wrap32 (0 + wrap32 ((((⟨65536, 32768, 1, 2⟩ : Dims).d1 : Nat) : Int) * 0))) + 0
        + wrap32 (1 * wrap32 (wrap32 ((((⟨65536, 32768, 1, 2⟩ : Dims).d0 : Nat) : Int)
          * (((⟨65536, 32768, 1, 2⟩ : Dims).d1 : Nat) : Int))
            * (((⟨65536, 32768, 1, 2⟩ : Dims).d2 : Nat) : Int)))
        = -2147483648 := by decide
    rw [e] at h
    exact h
  · intro h
    exact absurd h.1 (by decide)

/-- C20, amended: for every `dm` with `X, Y, Z ≥ 1`, `1 ≤ K ≤ 1024` and
`X*Y*Z*K ≤ 2^31 - 2` (so that no `int` expression of `mrf1` overflows), and every `code`,
with `q` and `p` of length `m*K`, `w` of length 3 and `G` of length `K*K` (code 1), `K`
(code 2), `m*K*K` (code 3) or `m*K*(K-1)/2` (codes 4 and 5): every array access of `mrf1` has
its index inside the bounds of its array, and the buffers `a`, `e` are accessed only at
indices below `K`. -/
theorem index_safety (dm : Dims) (code : Nat) (hX : 1 ≤ dm.d0) (hY : 1 ≤ dm.d1)
    (hZ : 1 ≤ dm.d2) (hK1 : 1 ≤ dm.d3) (hK : dm.d3 ≤ 1024)
    (hM : dm.d0 * dm.d1 * dm.d2 * dm.d3 ≤ 2147483646) :
    ∀ acc ∈ mrf1Accesses dm code,
      inBounds dm code acc ∧ ((acc.arr = Arr.a ∨ acc.arr = Arr.e) → acc.idx < dm.d3) := by
  intro acc hacc
  exact inUse_inBounds dm code hK acc
    (mrf1Accesses_safe dm code (by exact_mod_cast hX) (by exact_mod_cast hY)
      (by exact_mod_cast hZ) (by exact_mod_cast hK1) (by exact_mod_cast hK)
      (by exact_mod_cast hM) acc hacc)

theorem index_safety_witness :
    (∀ acc ∈ mrf1Accesses ⟨3, 3, 2, 2⟩ 2,
      inBounds ⟨3, 3, 2, 2⟩ 2 acc ∧
        ((acc.arr = Arr.a ∨ acc.arr = Arr.e) → acc.idx < (2 : Nat))) ∧
      (⟨Arr.q, 18, true⟩ : Access) ∈ mrf1Accesses ⟨3, 3, 2, 2⟩ 2 := by
  refine ⟨index_safety ⟨3, 3, 2, 2⟩ 2 (by decide) (by decide) (by decide) (by decide)
    (by decide) (by decide), ?_⟩
  have h := first_write_mem ⟨3, 3, 2, 2⟩ (by decide) (by decide) (by decide) rfl
  have e : wrap32 ((((⟨3, 3, 2, 2⟩ : Dims).d0 : Nat) : Int)
        * wrap32 (0 + wrap32 ((((⟨3, 3, 2, 2⟩ : Dims).d1 : Nat) : Int) * 0))) + 0
      + wrap32 (1 * wrap32 (wrap32 ((((⟨3, 3, 2, 2⟩ : Dims).d0 : Nat) : Int)
        * (((⟨3, 3, 2, 2⟩ : Dims).d1 : Nat) : Int))
          * (((⟨3, 3, 2, 2⟩ : Dims).d2 : Nat) : Int)))
      = 18 := by decide
  rw [e] at h
  exact h

/-! ## Rounding -/

section Rounding

variable {α : Type} [LinearOrderedField α] [FloorRing α]

theorem rne_spec (y : α) :
    ((rne y : Int) : α) - y ≤ 1 / 2 ∧ y - ((rne y : Int) : α) ≤ 1 / 2 := by
  have h1 : ((Int.floor y : Int) : α) ≤ y := Int.floor_le y
  have h2 : y < ((Int.floor y : Int) : α) + 1 := Int.lt_floor_add_one y
  unfold rne
  split_ifs with c1 c2 c3
  · constructor <;> linarith
  · push_cast
    constructor <;> linarith
  · constructor <;> linarith
  · push_cast
    constructor <;> linarith

theorem rne_nonneg (y : α) (hy : 0 ≤ y) : 0 ≤ rne y := by
  have h : 0 ≤ Int.floor y := Int.floor_nonneg.2 hy
  unfold rne
  split_ifs <;> omega

/-- A number strictly within `1/2` of the integer `n` rounds to `n`. -/
theorem rne_eq_of_near (y : α) (n : Int) (h1 : (n : α) - 1 / 2 < y) (h2 : y < (n : α) + 1 / 2) :
    rne y = n := by
  by_cases hn : (n : α) ≤ y
  · have hf : Int.floor y = n := by
      rw [Int.floor_eq_iff]
      exact ⟨hn, by linarith⟩
    unfold rne
    rw [hf, if_pos (by linarith)]
  · have hf : Int.floor y = n - 1 := by
      rw [Int.floor_eq_iff]
      push_cast
      exact ⟨by linarith, by linarith⟩
    have hc : ((n - 1 : Int) : α) = (n : α) - 1 := by push_cast; rfl
    unfold rne
    rw [hf, hc, if_neg (by linarith), if_pos (by linarith)]
    omega

/-- The result of rounding a non-negative number: a non-negative `r` within the relative error
`2^(-p)` plus the absolute error `2^(1-emax-p)` of `x`, turned into an infinity when it
reaches `2^(emax+1)`. -/
theorem roundTo_spec (p : Nat) (emax : Int) (x : α) (hx : 0 ≤ x) :
    ∃ r : α, 0 ≤ r ∧ r ≤ x + (x * (2 : α) ^ (-(p : Int)) + (2 : α) ^ (1 - emax - (p : Int))) ∧
      x - (x * (2 : α) ^ (-(p : Int)) + (2 : α) ^ (1 - emax - (p : Int))) ≤ r ∧
      roundTo p emax x = if (2 : α) ^ (emax + 1) ≤ r then Fv.pinf else Fv.fin r := by
  have h2 : (0 : α) < 2 := by norm_num
  have h2' : (2 : α) ≠ 0 := by norm_num
  by_cases h0 : x = 0
  · subst h0
    refine ⟨0, le_refl 0, ?_, ?_, ?_⟩
    · simp only [zero_mul, zero_add]
      exact (zpow_pos h2 _).le
    · simp only [zero_mul, zero_add, zero_sub]
      have := (zpow_pos h2 (1 - emax - (p : Int))).le
      linarith
    · have : ¬ (2 : α) ^ (emax + 1) ≤ 0 := not_le.2 (zpow_pos h2 _)
      simp [roundTo, this]
  · have hpos : 0 < x := lt_of_le_of_ne hx (Ne.symm h0)
    have habs : |x| = x := abs_of_pos hpos
    obtain ⟨e, he⟩ : ∃ e, e = max (Int.log 2 x) (1 - emax) := ⟨_, rfl⟩
    have hulp : (0 : α) < (2 : α) ^ (e - ((p : Int) - 1)) := zpow_pos h2 _
    have hs := rne_spec (x / (2 : α) ^ (e - ((p : Int) - 1)))
    have hn := rne_nonneg (x / (2 : α) ^ (e - ((p : Int) - 1))) (div_nonneg hx hulp.le)
    refine ⟨((rne (x / (2 : α) ^ (e - ((p : Int) - 1))) : Int) : α)
      * (2 : α) ^ (e - ((p : Int) - 1)), ?_, ?_, ?_, ?_⟩
    · exact mul_nonneg (by exact_mod_cast hn) hulp.le
    all_goals
      have hhalf : (2 : α) ^ (e - ((p : Int) - 1)) * (1 / 2) = (2 : α) ^ (e - (p : Int)) := by
        have : e - ((p : Int) - 1) = (e - (p : Int)) + 1 := by ring
        rw [this, zpow_add₀ h2', zpow_one]
        ring
      have hbound : (2 : α) ^ (e - (p : Int))
          ≤ x * (2 : α) ^ (-(p : Int)) + (2 : α) ^ (1 - emax - (p : Int)) := by
        rcases le_total (Int.log 2 x) (1 - emax) with hle | hle
        · have he' : e = 1 - emax := by rw [he]; exact max_eq_right hle
          rw [he']
          have := mul_nonneg hx (zpow_pos h2 (-(p : Int))).le
          linarith
        · have he' : e = Int.log 2 x := by rw [he]; exact max_eq_left hle
          have hlog : ((2 : Nat) : α) ^ (Int.log 2 x) ≤ x :=
            Int.zpow_log_le_self (by decide) hpos
          rw [Nat.cast_ofNat] at hlog
          have e1 : (2 : α) ^ (e - (p : Int)) = (2 : α) ^ e * (2 : α) ^ (-(p : Int)) := by
            rw [sub_eq_add_neg, zpow_add₀ h2']
          rw [e1, he']
          have := mul_le_mul_of_nonneg_right hlog (zpow_pos h2 (-(p : Int))).le
          have := (zpow_pos h2 (1 - emax - (p : Int))).le
          linarith
      have hx' : x / (2 : α) ^ (e - ((p : Int) - 1)) * (2 : α) ^ (e - ((p : Int) - 1)) = x :=
        div_mul_cancel₀ x hulp.ne'
    · have := mul_le_mul_of_nonneg_right hs.1 hulp.le
      rw [sub_mul, hx'] at this
      rw [mul_comm (1 / 2 : α), hhalf] at this
      linarith
    · have := mul_le_mul_of_nonneg_right hs.2 hulp.le
      rw [sub_mul, hx'] at this
      rw [mul_comm (1 / 2 : α), hhalf] at this
      linarith
    · unfold roundTo
      simp only [h0, if_false, habs, hpos, if_true, ← he]

theorem roundTo_fin_of_spec (p : Nat) (emax : Int) (x : α) (hx : 0 ≤ x) (v : α)
    (h : roundTo p emax x = Fv.fin v) :
    0 ≤ v ∧ v < (2 : α) ^ (emax + 1) ∧
      v ≤ x + (x * (2 : α) ^ (-(p : Int)) + (2 : α) ^ (1 - emax - (p : Int))) ∧
      x - (x * (2 : α) ^ (-(p : Int)) + (2 : α) ^ (1 - emax - (p : Int))) ≤ v := by
  obtain ⟨r, h0, h1, h2, h3⟩ := roundTo_spec p emax x hx
  rw [h3] at h
  split at h
  · cases h
  · rename_i hlt
    cases h
    exact ⟨h0, not_le.1 hlt, h1, h2⟩

/-- A finite `float` result of rounding `x ≥ 0`: relative error `2^-24`, absolute error
`2^-150`, magnitude below `2^128`. -/
theorem roundF_of_fin (x : α) (hx : 0 ≤ x) (v : α) (h : roundF x = Fv.fin v) :
    0 ≤ v ∧ v < 2 ^ 128 ∧ v ≤ x + (x / 2 ^ 24 + 1 / 2 ^ 150) ∧
      x - (x / 2 ^ 24 + 1 / 2 ^ 150) ≤ v := by
  have h := roundTo_fin_of_spec 24 127 x hx v h
  have e1 : (2 : α) ^ ((127 : Int) + 1) = 2 ^ 128 := by
    rw [show (127 : Int) + 1 = ((128 : Nat) : Int) from rfl, zpow_natCast]
  have e2 : (2 : α) ^ (-((24 : Nat) : Int)) = 1 / 2 ^ 24 := by
    rw [zpow_neg, zpow_natCast, one_div]
  have e3 : (2 : α) ^ ((1 : Int) - 127 - ((24 : Nat) : Int)) = 1 / 2 ^ 150 := by
    rw [show (1 : Int) - 127 - ((24 : Nat) : Int) = -((150 : Nat) : Int) from rfl, zpow_neg,
      zpow_natCast, one_div]
  rw [e1, e2, e3, mul_one_div] at h
  exact h

/-- Rounding `x ≥ 0` to `float` gives a finite value when the error bound stays below
`2^128`. -/
theorem roundF_fin (x : α) (hx : 0 ≤ x) (hb : x + (x / 2 ^ 24 + 1 / 2 ^ 150) < 2 ^ 128) :
    ∃ v, roundF x = Fv.fin v := by
  obtain ⟨r, h0, h1, h2, h3⟩ := roundTo_spec 24 127 x hx
  have e1 : (2 : α) ^ ((127 : Int) + 1) = 2 ^ 128 := by
    rw [show (127 : Int) + 1 = ((128 : Nat) : Int) from rfl, zpow_natCast]
  have e2 : (2 : α) ^ (-((24 : Nat) : Int)) = 1 / 2 ^ 24 := by
    rw [zpow_neg, zpow_natCast, one_div]
  have e3 : (2 : α) ^ ((1 : Int) - 127 - ((24 : Nat) : Int)) = 1 / 2 ^ 150 := by
    rw [show (1 : Int) - 127 - ((24 : Nat) : Int) = -((150 : Nat) : Int) from rfl, zpow_neg,
      zpow_natCast, one_div]
  rw [e2, e3, mul_one_div] at h1
  refine ⟨r, ?_⟩
  unfold roundF
  rw [h3, e1, if_neg (not_le.2 (lt_of_le_of_lt h1 hb))]

/-- A finite `double` result of rounding `x ≥ 0`: relative error `2^-53`, absolute error
`2^-1075`, magnitude below `2^1024`. -/
theorem roundD_of_fin (x : α) (hx : 0 ≤ x) (v : α) (h : roundD x = Fv.fin v) :
    0 ≤ v ∧ v < 2 ^ 1024 ∧ v ≤ x + (x / 2 ^ 53 + 1 / 2 ^ 1075) ∧
      x - (x / 2 ^ 53 + 1 / 2 ^ 1075) ≤ v := by
  have h := roundTo_fin_of_spec 53 1023 x hx v h
  have e1 : (2 : α) ^ ((1023 : Int) + 1) = 2 ^ 1024 := by
    rw [show (1023 : Int) + 1 = ((1024 : Nat) : Int) from rfl, zpow_natCast]
  have e2 : (2 : α) ^ (-((53 : Nat) : Int)) = 1 / 2 ^ 53 := by
    rw [zpow_neg, zpow_natCast, one_div]
  have e3 : (2 : α) ^ ((1 : Int) - 1023 - ((53 : Nat) : Int)) = 1 / 2 ^ 1075 := by
    rw [show (1 : Int) - 1023 - ((53 : Nat) : Int) = -((1075 : Nat) : Int) from rfl, zpow_neg,
      zpow_natCast, one_div]
  rw [e1, e2, e3, mul_one_div] at h
  exact h

theorem roundD_fin (x : α) (hx : 0 ≤ x) (hb : x + (x / 2 ^ 53 + 1 / 2 ^ 1075) < 2 ^ 1024) :
    ∃ v, roundD x = Fv.fin v := by
  obtain ⟨r, h0, h1, h2, h3⟩ := roundTo_spec 53 1023 x hx
  have e1 : (2 : α) ^ ((1023 : Int) + 1) = 2 ^ 1024 := by
    rw [show (1023 : Int) + 1 = ((1024 : Nat) : Int) from rfl, zpow_natCast]
  have e2 : (2 : α) ^ (-((53 : Nat) : Int)) = 1 / 2 ^ 53 := by
    rw [zpow_neg, zpow_natCast, one_div]
  have e3 : (2 : α) ^ ((1 : Int) - 1023 - ((53 : Nat) : Int)) = 1 / 2 ^ 1075 := by
    rw [show (1 : Int) - 1023 - ((53 : Nat) : Int) = -((1075 : Nat) : Int) from rfl, zpow_neg,
      zpow_natCast, one_div]
  rw [e2, e3, mul_one_div] at h1
  refine ⟨r, ?_⟩
  unfold roundD
  rw [h3, e1, if_neg (not_le.2 (lt_of_le_of_lt h1 hb))]

/-- Evaluation of a rounding: `x` in the binade `[2^e, 2^(e+1))` of the normal range, strictly
nearer to `n * ulp` than to the neighbouring multiples of `ulp = 2^(e-(p-1))`, rounds to
`n * ulp`. -/
theorem roundTo_near (p : Nat) (emax : Int) (x : α) (e n : Int) (hlo : (2 : α) ^ e ≤ x)
    (hhi : x < (2 : α) ^ (e + 1)) (hemin : 1 - emax ≤ e)
    (h1 : ((n : α) - 1 / 2) * (2 : α) ^ (e - ((p : Int) - 1)) < x)
    (h2 : x < ((n : α) + 1 / 2) * (2 : α) ^ (e - ((p : Int) - 1)))
    (hov : (n : α) * (2 : α) ^ (e - ((p : Int) - 1)) < (2 : α) ^ (emax + 1)) :
    roundTo p emax x = Fv.fin ((n : α) * (2 : α) ^ (e - ((p : Int) - 1))) := by
  have h2pos : (0 : α) < 2 := by norm_num
  have hpos : 0 < x := lt_of_lt_of_le (zpow_pos h2pos e) hlo
  have habs : |x| = x := abs_of_pos hpos
  have hlog : Int.log 2 x = e := by
    apply le_antisymm
    · have : Int.log 2 x < e + 1 := by
        rw [← Int.lt_zpow_iff_log_lt (by decide) hpos, Nat.cast_ofNat]
        exact hhi
      omega
    · rw [← Int.zpow_le_iff_le_log (by decide) hpos, Nat.cast_ofNat]
      exact hlo
  have hulp : (0 : α) < (2 : α) ^ (e - ((p : Int) - 1)) := zpow_pos h2pos _
  have hr : rne (x / (2 : α) ^ (e - ((p : Int) - 1))) = n :=
    rne_eq_of_near _ n (by rw [lt_div_iff₀ hulp]; exact h1) (by rw [div_lt_iff₀ hulp]; exact h2)
  unfold roundTo
  simp only [hpos.ne', if_false, habs, hlog, max_eq_left hemin, hr, not_le.2 hov, hpos, if_true]

end Rounding

/-! ## The voxel update in rounded arithmetic -/

section RoundedVoxel

variable {α : Type} [LinearOrderedField α] [FloorRing α]

theorem roundF_zero : roundF (0 : α) = Fv.fin 0 := by
  simp [roundF, roundTo]

theorem roundD_zero : roundD (0 : α) = Fv.fin 0 := by
  simp [roundD, roundTo]

theorem fsumF_congr (e e1 : Nat → Fv α) :
    ∀ n, (∀ k, k < n → e k = e1 k) → fsumF e n = fsumF e1 n := by
  intro n
  induction n with
  | zero => intro _; rfl
  | succ n ih =>
    intro h
    show addF (fsumF e n) (e n) = addF (fsumF e1 n) (e1 n)
    rw [ih (fun k hk => h k (Nat.lt_succ_of_lt hk)), h n (Nat.lt_succ_self n)]

/-- A loop that maps slot `k` of the buffer and adds the new value to the running `float`
sum. -/
theorem forUp_mapFsum (n : Nat) (F : Nat → Fv α → Fv α) (e0 : Nat → Fv α) :
    forUp 0 n 1 (fun k (st : (Nat → Fv α) × Fv α) =>
        let e := Function.update st.1 k (F k (st.1 k))
        (e, addF st.2 (e k))) (e0, Fv.fin 0)
      = (fun k => if k < n then F k (e0 k) else e0 k, fsumF (fun k => F k (e0 k)) n) := by
  refine forUp_inv1 0 n _ (e0, Fv.fin 0)
    (fun i st => st = (fun k => if k < i then F k (e0 k) else e0 k,
          fsumF (fun k => F k (e0 k)) i)) (Nat.zero_le _) (by simp [fsumF]) ?_
  intro i st _ _ hP
  subst hP
  refine Prod.ext ?_ ?_
  · funext k
    by_cases hk : k = i
    · subst hk; simp
    · simp only [Function.update_noteq hk]
      by_cases hlt : k < i
      · simp [hlt, Nat.lt_succ_of_lt hlt]
      · have : ¬ k < i + 1 := by omega
        simp [hlt, this]
  · simp [fsumF]

/-- The sum returned by a map-and-sum loop is the `float` sum of the buffer it returns. -/
theorem mapFsum_total (n : Nat) (F : Nat → Fv α → Fv α) (e0 : Nat → Fv α) :
    fsumF (fun k => if k < n then F k (e0 k) else e0 k) n = fsumF (fun k => F k (e0 k)) n :=
  fsumF_congr _ _ n (fun k hk => by simp [hk])

theorem diagBranchF_eq (ex : α → Fv α) (K m : Nat) (G p : Nat → Fv α) (p0 : Nat)
    (a : Nat → Fv α) :
    diagBranchF ex K m G p p0 a
      = (fun k => if k < K then toF (mulD (expD ex (mulF (G k) (a k))) (p (p0 + k * m)))
          else Fv.fin 0,
          fsumF (fun k => toF (mulD (expD ex (mulF (G k) (a k))) (p (p0 + k * m)))) K) := by
  have := forUp_mapFsum K
    (fun k _ => toF (mulD (expD ex (mulF (G k) (a k))) (p (p0 + k * m))))
    (fun _ => (Fv.fin 0 : Fv α))
  simpa [diagBranchF] using this

theorem expLoopF_eq (ex : α → Fv α) (K m : Nat) (arg : Fv α → Fv α) (p : Nat → Fv α)
    (p0 : Nat) (e : Nat → Fv α) :
    expLoopF ex K m arg p p0 e
      = (fun k => if k < K then toF (mulD (expD ex (arg (e k))) (p (p0 + k * m))) else e k,
          fsumF (fun k => toF (mulD (expD ex (arg (e k))) (p (p0 + k * m)))) K) := by
  have := forUp_mapFsum K (fun k x => toF (mulD (expD ex (arg x)) (p (p0 + k * m)))) e
  simpa [expLoopF] using this

/-- The row loop of a dense branch changes the slot `k` only. -/
theorem denseRowF_other (K stride : Nat) (G a : Nat → Fv α) (k : Nat) (e : Nat → Fv α)
    (g : Nat) (j : Nat) (hj : j ≠ k) : (denseRowF K stride G a k (e, g)).1 j = e j := by
  refine forUp_inv1 0 K _ (e, g) (fun _ eg => eg.1 j = e j) (Nat.zero_le _) rfl ?_
  intro i eg _ _ hP
  show Function.update eg.1 k _ j = e j
  rw [Function.update_noteq hj, hP]

/-- In a dense branch the sum `se` is the `float` sum of the buffer `e` that the branch
returns. -/
theorem denseBranchF_sum (ex : α → Fv α) (K m : Nat) (G p : Nat → Fv α) (p0 g0 stride : Nat)
    (a : Nat → Fv α) :
    (denseBranchF ex K m G p p0 g0 stride a).2
      = fsumF (denseBranchF ex K m G p p0 g0 stride a).1 K := by
  have key := forUp_inv1 0 K (fun k (st : DenseStF α) =>
      let e := Function.update st.e k (Fv.fin 0)
      let eg := denseRowF K stride G a k (e, st.g)
      let e := Function.update eg.1 k (toF (mulD (expD ex (eg.1 k)) (p (p0 + k * m))))
      DenseStF.mk e (addF st.se (e k)) eg.2) (DenseStF.mk (fun _ => Fv.fin 0) (Fv.fin 0) g0)
    (fun i st => st.se = fsumF st.e i) (Nat.zero_le _) rfl ?_
  · exact key
  · intro i st _ _ hP
    dsimp only
    rw [hP]
    show addF (fsumF st.e i) _ = addF (fsumF _ i) _
    congr 1
    apply fsumF_congr
    intro j hj
    have hne : j ≠ i := by omega
    rw [Function.update_noteq hne, denseRowF_other K stride G a i _ _ j hne,
      Function.update_noteq hne]

/-- In every mode the sum `se` is the `float` sum `((0 + e[0]) + e[1]) + ...` of the buffer
`e`. -/
theorem interactionF_sum (ex : α → Fv α) (dm : Dims) (p : Nat → Fv α) (G : GMem (Fv α))
    (code : Nat) (h1 : 1 ≤ code) (h5 : code ≤ 5) (v : Nat) (a : Nat → Fv α) :
    (interactionF ex dm p G code v a).2 = fsumF (interactionF ex dm p G code v a).1 dm.d3 := by
  have hc : code = 1 ∨ code = 2 ∨ code = 3 ∨ code = 4 ∨ code = 5 := by omega
  rcases hc with rfl | rfl | rfl | rfl | rfl
  · simp only [interactionF, if_true]
    exact denseBranchF_sum _ _ _ _ _ _ _ _ _
  · simp only [interactionF, if_true, OfNat.ofNat_ne_one, if_false]
    rw [diagBranchF_eq]
    exact (mapFsum_total dm.d3
      (fun k _ => toF (mulD (expD ex (mulF (G.asFloat k) (a k))) (p (v + k * nvox dm))))
      (fun _ => Fv.fin 0)).symm
  · have e1 : ¬ (3 = 1) := by decide
    have e2 : ¬ (3 = 2) := by decide
    simp only [interactionF, e1, e2, if_true, if_false]
    exact denseBranchF_sum _ _ _ _ _ _ _ _ _
  · have e1 : ¬ (4 = 1) := by decide
    have e2 : ¬ (4 = 2) := by decide
    have e3 : ¬ (4 = 3) := by decide
    simp only [interactionF, e1, e2, e3, if_true, if_false]
    rw [expLoopF_eq]
    exact (mapFsum_total _ (fun k x => toF (mulD (expD ex x) (p (v + k * nvox dm)))) _).symm
  · have e1 : ¬ (5 = 1) := by decide
    have e2 : ¬ (5 = 2) := by decide
    have e3 : ¬ (5 = 3) := by decide
    have e4 : ¬ (5 = 4) := by decide
    simp only [interactionF, e1, e2, e3, e4, if_true, if_false]
    rw [expLoopF_eq]
    exact (mapFsum_total _
      (fun k x => toF (mulD (expD ex (mulD (Fv.fin (-(1 / 16))) x)) (p (v + k * nvox dm))))
      _).symm

/-- The write-back loop when every conversion is defined: the bytes `b k` are stored at the
offsets `v + k*m`. -/
theorem writeBackF_some (K m v : Nat) (hv : v < m) (e : Nat → Fv α) (se : Fv α)
    (q : Nat → Nat) (b : Nat → Nat) (hb : ∀ k, k < K → castU8 (castValue e se k) = some (b k)) :
    writeBackF K m v e se q
      = some (fun o => if o % m = v ∧ o / m < K then b (o / m) else q o) := by
  have hm : 0 < m := by omega
  unfold writeBackF
  refine forUp_inv1 0 K _ (some q)
    (fun i s => s = some (fun o => if o % m = v ∧ o / m < i then b (o / m) else q o))
    (Nat.zero_le _) (by simp) ?_
  intro i s _ hi hP
  subst hP
  have hbi := hb i hi
  unfold castValue at hbi
  simp only [hbi]
  congr 1
  funext o
  by_cases ho : o = v + i * m
  · subst ho
    have h1 : (v + i * m) % m = v := by
      rw [Nat.add_mul_mod_self_right]; exact Nat.mod_eq_of_lt hv
    have h2 : (v + i * m) / m = i := by
      rw [Nat.add_mul_div_right _ _ hm, Nat.div_eq_of_lt hv, Nat.zero_add]
    simp [h1, h2]
  · rw [Function.update_noteq ho]
    by_cases hmod : o % m = v
    · have hne : o / m ≠ i := by
        intro hi
        apply ho
        have := Nat.mod_add_div o m
        rw [hmod, hi] at this
        rw [← this, Nat.mul_comm]
      by_cases hlt : o / m < i
      · have : o / m < i + 1 := by omega
        simp [hmod, hlt, this]
      · have : ¬ o / m < i + 1 := by omega
        simp [hmod, hlt, this]
    · simp [hmod]

/-- The write-back loop when a conversion is undefined. -/
theorem writeBackF_none (K m v : Nat) (e : Nat → Fv α) (se : Fv α) (q : Nat → Nat) (k : Nat)
    (hk : k < K) (hb : castU8 (castValue e se k) = none) : writeBackF K m v e se q = none := by
  unfold writeBackF
  have key := forUp_inv1 0 K
    (fun k (s : Option (Nat → Nat)) =>
      match s, castU8 (addD (mulF (e k) (toF (divD (Fv.fin 255) se))) (Fv.fin (1 / 2))) with
      | some q, some b => some (Function.update q (v + k * m) b)
      | _, _ => none) (some q)
    (fun i s => k < i → s = none) (Nat.zero_le _) (by intro h; omega) ?_
  · exact key hk
  · intro i s _ _ hP hlt
    by_cases hki : k = i
    · subst hki
      unfold castValue at hb
      simp only [hb]
    · have : s = none := hP (by omega)
      subst this
      rfl

theorem writeBackF_congr (K m v : Nat) (e e1 : Nat → Fv α) (se : Fv α) (q : Nat → Nat)
    (h : ∀ k, k < K → e k = e1 k) : writeBackF K m v e se q = writeBackF K m v e1 se q := by
  unfold writeBackF
  refine forUp_rel 0 K 1 _ _ (fun s t => s = t) ?_ (some q) (some q) rfl
  intro i s t hi hst
  subst hst
  rw [h i hi]

end RoundedVoxel

/-! ## Error bounds of the write-back -/

section WriteBackBounds

variable {α : Type} [LinearOrderedField α] [FloorRing α]

omit [FloorRing α] in
theorem pow_up_bound (n : Nat) (hn : n ≤ 1024) :
    ((1 : α) + 1 / 2 ^ 24) ^ n ≤ 1 + 1 / 2 ^ 13 := by
  have key : ∀ j : Nat, j ≤ 1024 → ((1 : α) + 1 / 2 ^ 24) ^ j ≤ 1 + (j : α) / 2 ^ 23 := by
    intro j
    induction j with
    | zero => intro _; simp
    | succ j ih =>
      intro hj
      have h := ih (by omega)
      have hj' : (j : α) ≤ 1024 := by exact_mod_cast (by omega : j ≤ 1024)
      have hj0 : (0 : α) ≤ j := Nat.cast_nonneg j
      rw [pow_succ]
      have h2 : ((1 : α) + 1 / 2 ^ 24) ^ j * (1 + 1 / 2 ^ 24)
          ≤ (1 + (j : α) / 2 ^ 23) * (1 + 1 / 2 ^ 24) :=
        mul_le_mul_of_nonneg_right h (by norm_num)
      refine le_trans h2 ?_
      push_cast
      have e : (1 + (j : α) / 2 ^ 23) * (1 + 1 / 2 ^ 24)
          = 1 + ((j : α) + 1) / 2 ^ 23 - (1 / 2 ^ 24 - (j : α) / 2 ^ 47) := by ring
      rw [e]
      have : (j : α) / 2 ^ 47 ≤ 1 / 2 ^ 24 := by
        rw [div_le_div_iff₀ (by positivity) (by positivity)]
        calc (j : α) * 2 ^ 24 ≤ 1024 * 2 ^ 24 := by
              exact mul_le_mul_of_nonneg_right hj' (by positivity)
          _ ≤ 1 * 2 ^ 47 := by norm_num
      linarith
  have h := key n hn
  have hn' : (n : α) ≤ 1024 := by exact_mod_cast hn
  have : (n : α) / 2 ^ 23 ≤ 1 / 2 ^ 13 := by
    rw [div_le_div_iff₀ (by positivity) (by positivity)]
    calc (n : α) * 2 ^ 13 ≤ 1024 * 2 ^ 13 := by
          exact mul_le_mul_of_nonneg_right hn' (by positivity)
      _ ≤ 1 * 2 ^ 23 := by norm_num
  linarith

omit [FloorRing α] in
theorem pow_down_bound (n : Nat) (hn : n ≤ 1024) :
    (1 : α) - 1 / 2 ^ 14 ≤ ((1 : α) - 1 / 2 ^ 24) ^ n := by
  have h := one_add_mul_le_pow (show (-2 : α) ≤ -(1 / 2 ^ 24) by norm_num) n
  have hn' : (n : α) ≤ 1024 := by exact_mod_cast hn
  have e : (1 : α) + -(1 / 2 ^ 24) = 1 - 1 / 2 ^ 24 := by ring
  rw [e] at h
  refine le_trans ?_ h
  have : (n : α) * (1 / 2 ^ 24) ≤ 1 / 2 ^ 14 := by
    calc (n : α) * (1 / 2 ^ 24) ≤ 1024 * (1 / 2 ^ 24) :=
          mul_le_mul_of_nonneg_right hn' (by positivity)
      _ = 1 / 2 ^ 14 := by norm_num
  linarith

/-- One step back in a finite `float` sum. -/
theorem fsumF_step (e : Nat → Fv α) (n : Nat) (x s1 : α) (hx : e n = Fv.fin x)
    (h : fsumF e (n + 1) = Fv.fin s1) :
    ∃ s, fsumF e n = Fv.fin s ∧ roundF (s + x) = Fv.fin s1 := by
  have h' : addF (fsumF e n) (e n) = Fv.fin s1 := h
  rw [hx] at h'
  cases hs : fsumF e n with
  | fin s =>
    rw [hs] at h'
    exact ⟨s, rfl, h'⟩
  | pinf => rw [hs] at h'; cases h'
  | ninf => rw [hs] at h'; cases h'
  | nan => rw [hs] at h'; cases h'

omit [FloorRing α] in
/-- The step of the lower bound of a rounded sum. -/
theorem sum_low_step (u η s x y D N s1 : α) (hu0 : 0 ≤ u) (hu1 : u ≤ 1) (hη : 0 ≤ η)
    (hs : 0 ≤ s) (hx : 0 ≤ x) (hD1 : D ≤ 1) (hN : 0 ≤ N)
    (hlo : (s + x) * (1 - u) - η ≤ s1) :
    (y * D - N * η ≤ s → y * (D * (1 - u)) - (N + 1) * η ≤ s1) ∧
      x * (D * (1 - u)) - (N + 1) * η ≤ s1 := by
  have hd0 : 0 ≤ 1 - u := by linarith
  constructor
  · intro h1
    have h2 : (y * D - N * η) * (1 - u) ≤ s * (1 - u) := mul_le_mul_of_nonneg_right h1 hd0
    have h3 : 0 ≤ x * (1 - u) := mul_nonneg hx hd0
    have h4 : 0 ≤ N * η * u := mul_nonneg (mul_nonneg hN hη) hu0
    nlinarith
  · have h3 : 0 ≤ s * (1 - u) := mul_nonneg hs hd0
    have h4 : x * (D * (1 - u)) ≤ x * (1 * (1 - u)) :=
      mul_le_mul_of_nonneg_left (mul_le_mul_of_nonneg_right hD1 hd0) hx
    have h5 : 0 ≤ N * η := mul_nonneg hN hη
    nlinarith

omit [FloorRing α] in
/-- The step of the upper bound of a rounded sum. -/
theorem sum_up_step (u η s x M C N s1 : α) (hu0 : 0 ≤ u) (hη : 0 ≤ η) (hM : 0 ≤ M)
    (hC : 1 ≤ C) (hx : x ≤ M) (hs : s ≤ N * (M + η) * C)
    (hhi : s1 ≤ (s + x) * (1 + u) + η) :
    s1 ≤ (N + 1) * (M + η) * (C * (1 + u)) := by
  have h2 : (s + x) * (1 + u) ≤ (N * (M + η) * C + M) * (1 + u) :=
    mul_le_mul_of_nonneg_right (by linarith) (by linarith)
  have h3 : (M + η) * (1 * (1 + u)) ≤ (M + η) * (C * (1 + u)) :=
    mul_le_mul_of_nonneg_left (mul_le_mul_of_nonneg_right hC (by linarith)) (by linarith)
  have h4 : 0 ≤ η * u := mul_nonneg hη hu0
  nlinarith

/-- Bounds for a finite `float` sum of non-negative terms: it is non-negative, not much
smaller than any of its terms, and not much larger than `n` times a bound of its terms. -/
theorem fsumF_bounds (e : Nat → Fv α) (xs : Nat → α) :
    ∀ (n : Nat) (s : α), (∀ k, k < n → e k = Fv.fin (xs k) ∧ 0 ≤ xs k) →
      fsumF e n = Fv.fin s →
      0 ≤ s ∧ (1 ≤ n → s < 2 ^ 128) ∧
      (∀ k, k < n → xs k * ((1 : α) - 1 / 2 ^ 24) ^ n - (n : α) * (1 / 2 ^ 150) ≤ s) ∧
      (∀ M : α, 0 ≤ M → (∀ k, k < n → xs k ≤ M) →
        s ≤ (n : α) * (M + 1 / 2 ^ 150) * ((1 : α) + 1 / 2 ^ 24) ^ n) := by
  intro n
  induction n with
  | zero =>
    intro s _ h
    have hs : s = 0 := by
      have : (Fv.fin 0 : Fv α) = Fv.fin s := h
      cases this
      rfl
    subst hs
    refine ⟨le_refl 0, fun h => absurd h (by decide), fun k hk => absurd hk (by omega), ?_⟩
    intro M _ _
    simp
  | succ n ih =>
    intro s1 he h
    obtain ⟨hxn, hxn0⟩ := he n (Nat.lt_succ_self n)
    obtain ⟨s, hs, hr⟩ := fsumF_step e n (xs n) s1 hxn h
    obtain ⟨hs0, -, hlow, hup⟩ := ih s (fun k hk => he k (Nat.lt_succ_of_lt hk)) hs
    obtain ⟨r0, r1, r2, r3⟩ := roundF_of_fin (s + xs n) (by linarith) s1 hr
    have hu0 : (0 : α) ≤ 1 / 2 ^ 24 := by positivity
    have hu1 : (1 : α) / 2 ^ 24 ≤ 1 := by norm_num
    have hη : (0 : α) ≤ 1 / 2 ^ 150 := by positivity
    have hd0 : (0 : α) ≤ 1 - 1 / 2 ^ 24 := by linarith
    have hd1 : (1 : α) - 1 / 2 ^ 24 ≤ 1 := by linarith
    have hD1 : ((1 : α) - 1 / 2 ^ 24) ^ n ≤ 1 := pow_le_one₀ hd0 hd1
    have hn0 : (0 : α) ≤ n := Nat.cast_nonneg n
    have hlo : (s + xs n) * (1 - 1 / 2 ^ 24) - 1 / 2 ^ 150 ≤ s1 := by
      have e1 : (s + xs n) * (1 - 1 / 2 ^ 24) - 1 / 2 ^ 150
          = s + xs n - ((s + xs n) / 2 ^ 24 + 1 / 2 ^ 150) := by ring
      rw [e1]; exact r3
    have hhi : s1 ≤ (s + xs n) * (1 + 1 / 2 ^ 24) + 1 / 2 ^ 150 := by
      have e1 : (s + xs n) * (1 + 1 / 2 ^ 24) + 1 / 2 ^ 150
          = s + xs n + ((s + xs n) / 2 ^ 24 + 1 / 2 ^ 150) := by ring
      rw [e1]; exact r2
    refine ⟨r0, fun _ => r1, ?_, ?_⟩
    · intro k hk
      push_cast
      rw [pow_succ ((1 : α) - 1 / 2 ^ 24) n]
      by_cases hkn : k < n
      · exact (sum_low_step _ _ s (xs n) (xs k) _ _ s1 hu0 hu1 hη hs0 hxn0 hD1
          hn0 hlo).1 (hlow k hkn)
      · have hk' : k = n := by omega
        subst hk'
        exact (sum_low_step _ _ s (xs k) (xs k) _ _ s1 hu0 hu1 hη hs0 hxn0 hD1
          hn0 hlo).2
    · intro M hM hk
      have h1 := hup M hM (fun k hkn => hk k (Nat.lt_succ_of_lt hkn))
      have hxM := hk n (Nat.lt_succ_self n)
      have hc1 : (1 : α) ≤ ((1 : α) + 1 / 2 ^ 24) ^ n :=
        one_le_pow₀ (by linarith)
      push_cast
      rw [pow_succ ((1 : α) + 1 / 2 ^ 24) n]
      exact sum_up_step _ _ s (xs n) M _ _ s1 hu0 hη hM hc1 hxM h1 hhi

end WriteBackBounds

section ScaleBounds

variable {α : Type} [LinearOrderedField α] [FloorRing α]

omit [FloorRing α] in
theorem lin_scale (A B E1 E2 : α) (c1 : A ≤ 255 + (255 / 2 ^ 53 + E1))
    (c2 : 255 - (255 / 2 ^ 53 + E1) ≤ A) (c3 : B ≤ A + (A / 2 ^ 24 + E2))
    (c4 : A - (A / 2 ^ 24 + E2) ≤ B) (d1 : E1 ≤ 1 / 2 ^ 30) (d2 : E2 ≤ 1 / 2 ^ 22) :
    B ≤ 255 + 1 / 2 ^ 14 ∧ 255 - 1 / 2 ^ 14 ≤ B := by
  norm_num at *
  constructor <;> linarith

omit [FloorRing α] in
theorem lin_value (P t v U1 U2 E1 E2 : α) (t2 : t ≤ P + (U1 + E1)) (t3 : P - (U1 + E1) ≤ t)
    (v2 : v ≤ t + 1 / 2 + (U2 + E2)) (v3 : t + 1 / 2 - (U2 + E2) ≤ v)
    (k1 : U1 ≤ (255 + 1 / 8) / 2 ^ 24) (k2 : U2 ≤ (256 + 1 / 2) / 2 ^ 53)
    (n2 : E1 ≤ 1 / 2 ^ 30) (n3 : E2 ≤ 1 / 2 ^ 30) :
    P + 1 / 2 - 1 / 2 ^ 14 ≤ v ∧ v ≤ P + 1 / 2 + 1 / 2 ^ 14 := by
  norm_num at *
  constructor <;> linarith

omit [FloorRing α] in
theorem small_consts :
    (1 : α) / 2 ^ 1075 ≤ 1 / 2 ^ 300 ∧ (1 : α) / 2 ^ 150 ≤ 1 / 2 ^ 30 ∧
      (1 : α) / 2 ^ 1075 ≤ 1 / 2 ^ 30 := by
  refine ⟨?_, ?_, ?_⟩ <;>
  · apply one_div_le_one_div_of_le (by positivity)
    exact pow_le_pow_right₀ (by norm_num) (by norm_num)

/-- The scale `se = 255.0/se` stored in `float`, for a total between `2^-120` and `2^128`: it
is finite, and its product with the total is `255` up to `2^-14`. -/
theorem scale_bounds (s : α) (hs0 : 1 / 2 ^ 120 ≤ s) (hs1 : s < 2 ^ 128) :
    ∃ r2, toF (divD (Fv.fin 255) (Fv.fin s)) = Fv.fin r2 ∧ 0 ≤ r2 ∧ r2 < 2 ^ 128 ∧
      r2 * s ≤ 255 + 1 / 2 ^ 14 ∧ 255 - 1 / 2 ^ 14 ≤ r2 * s := by
  have hs : 0 < s := lt_of_lt_of_le (by positivity) hs0
  have hdiv : divD (Fv.fin 255) (Fv.fin s) = roundD (255 / s) := by
    simp [divD, Fv.div, hs.ne']
  have hq0 : (0 : α) ≤ 255 / s := div_nonneg (by norm_num) hs.le
  have hqs : 255 / s * s = 255 := div_mul_cancel₀ _ hs.ne'
  have hqB : 255 / s ≤ 255 * 2 ^ 120 := by
    rw [div_le_iff₀ hs]
    have h := mul_le_mul_of_nonneg_left hs0 (show (0 : α) ≤ 255 * 2 ^ 120 by positivity)
    have e : (255 : α) * 2 ^ 120 * (1 / 2 ^ 120) = 255 := by
      field_simp
    rw [e] at h
    exact h
  have n1 : (255 : α) * 2 ^ 120 + (255 * 2 ^ 120 / 2 ^ 53 + 1 / 2 ^ 1075) < 2 ^ 1024 := by
    norm_num
  have hqB2 : 255 / s / 2 ^ 53 ≤ 255 * 2 ^ 120 / 2 ^ 53 :=
    div_le_div_of_nonneg_right hqB (by positivity)
  obtain ⟨r1, hr1⟩ := roundD_fin (255 / s) hq0
    (lt_of_le_of_lt (add_le_add hqB (add_le_add hqB2 (le_refl _))) n1)
  obtain ⟨a0, -, a2, a3⟩ := roundD_of_fin (255 / s) hq0 r1 hr1
  obtain ⟨n2, n2', n2''⟩ := small_consts (α := α)
  have hr1B : r1 ≤ 255 * 2 ^ 120 + (255 * 2 ^ 120 / 2 ^ 53 + 1 / 2 ^ 300) :=
    le_trans a2 (add_le_add hqB (add_le_add hqB2 n2))
  have n3 : (255 : α) * 2 ^ 120 + (255 * 2 ^ 120 / 2 ^ 53 + 1 / 2 ^ 300)
      + ((255 * 2 ^ 120 + (255 * 2 ^ 120 / 2 ^ 53 + 1 / 2 ^ 300)) / 2 ^ 24 + 1 / 2 ^ 150)
      < 2 ^ 128 := by
    norm_num
  have hr1B2 : r1 / 2 ^ 24
      ≤ (255 * 2 ^ 120 + (255 * 2 ^ 120 / 2 ^ 53 + 1 / 2 ^ 300)) / 2 ^ 24 :=
    div_le_div_of_nonneg_right hr1B (by positivity)
  obtain ⟨r2, hr2⟩ := roundF_fin r1 a0
    (lt_of_le_of_lt (add_le_add hr1B (add_le_add hr1B2 (le_refl _))) n3)
  obtain ⟨b0, b1, b2, b3⟩ := roundF_of_fin r1 a0 r2 hr2
  refine ⟨r2, by rw [hdiv, hr1]; exact hr2, b0, b1, ?_⟩
  have c1 : r1 * s ≤ (255 / s + (255 / s / 2 ^ 53 + 1 / 2 ^ 1075)) * s :=
    mul_le_mul_of_nonneg_right a2 hs.le
  have c2 : (255 / s - (255 / s / 2 ^ 53 + 1 / 2 ^ 1075)) * s ≤ r1 * s :=
    mul_le_mul_of_nonneg_right a3 hs.le
  have e1 : (255 / s + (255 / s / 2 ^ 53 + 1 / 2 ^ 1075)) * s
      = 255 / s * s + (255 / s * s / 2 ^ 53 + 1 / 2 ^ 1075 * s) := by ring
  have e2 : (255 / s - (255 / s / 2 ^ 53 + 1 / 2 ^ 1075)) * s
      = 255 / s * s - (255 / s * s / 2 ^ 53 + 1 / 2 ^ 1075 * s) := by ring
  rw [e1, hqs] at c1
  rw [e2, hqs] at c2
  have c3 : r2 * s ≤ (r1 + (r1 / 2 ^ 24 + 1 / 2 ^ 150)) * s :=
    mul_le_mul_of_nonneg_right b2 hs.le
  have c4 : (r1 - (r1 / 2 ^ 24 + 1 / 2 ^ 150)) * s ≤ r2 * s :=
    mul_le_mul_of_nonneg_right b3 hs.le
  have e3 : (r1 + (r1 / 2 ^ 24 + 1 / 2 ^ 150)) * s
      = r1 * s + (r1 * s / 2 ^ 24 + 1 / 2 ^ 150 * s) := by ring
  have e4 : (r1 - (r1 / 2 ^ 24 + 1 / 2 ^ 150)) * s
      = r1 * s - (r1 * s / 2 ^ 24 + 1 / 2 ^ 150 * s) := by ring
  rw [e3] at c3
  rw [e4] at c4
  have d1 : (1 : α) / 2 ^ 1075 * s ≤ 1 / 2 ^ 30 := by
    have h := mul_le_mul n2 hs1.le hs.le (show (0 : α) ≤ 1 / 2 ^ 300 by positivity)
    have e : (1 : α) / 2 ^ 300 * 2 ^ 128 ≤ 1 / 2 ^ 30 := by norm_num
    exact le_trans h e
  have d2 : (1 : α) / 2 ^ 150 * s ≤ 1 / 2 ^ 22 := by
    have h := mul_le_mul_of_nonneg_left hs1.le (show (0 : α) ≤ 1 / 2 ^ 150 by positivity)
    have e : (1 : α) / 2 ^ 150 * 2 ^ 128 = 1 / 2 ^ 22 := by norm_num
    rw [e] at h
    exact h
  exact lin_scale (r1 * s) (r2 * s) _ _ c1 c2 c3 c4 d1 d2

/-- The value converted for one class: for a product `x*r` of at most `255 + 1/8` the `float`
product and the `double` sum with `0.5` are finite and within `2^-14` of `x*r + 1/2`. -/
theorem product_value (x r : α) (hx : 0 ≤ x) (hr : 0 ≤ r) (hxr : x * r ≤ 255 + 1 / 8) :
    ∃ v, addD (mulF (Fv.fin x) (Fv.fin r)) (Fv.fin (1 / 2)) = Fv.fin v ∧
      x * r + 1 / 2 - 1 / 2 ^ 14 ≤ v ∧ v ≤ x * r + 1 / 2 + 1 / 2 ^ 14 := by
  have hP : 0 ≤ x * r := mul_nonneg hx hr
  have e0 : mulF (Fv.fin x) (Fv.fin r) = roundF (x * r) := rfl
  have k1 : x * r / 2 ^ 24 ≤ (255 + 1 / 8) / 2 ^ 24 :=
    div_le_div_of_nonneg_right hxr (by positivity)
  have n1 : (255 : α) + 1 / 8 + ((255 + 1 / 8) / 2 ^ 24 + 1 / 2 ^ 150) < 2 ^ 128 := by
    norm_num
  obtain ⟨t, ht⟩ := roundF_fin (x * r) hP
    (lt_of_le_of_lt (add_le_add hxr (add_le_add k1 (le_refl _))) n1)
  obtain ⟨t0, -, t2, t3⟩ := roundF_of_fin (x * r) hP t ht
  have e1 : addD (Fv.fin t) (Fv.fin (1 / 2)) = roundD (t + 1 / 2) := rfl
  obtain ⟨-, n2, n3⟩ := small_consts (α := α)
  have tB : t ≤ 256 := by
    have h := le_trans t2 (add_le_add hxr (add_le_add k1 n2))
    have e : (255 : α) + 1 / 8 + ((255 + 1 / 8) / 2 ^ 24 + 1 / 2 ^ 30) ≤ 256 := by norm_num
    exact le_trans h e
  have hT : 0 ≤ t + 1 / 2 := add_nonneg t0 (by norm_num)
  have hTB : t + 1 / 2 ≤ 256 + 1 / 2 := add_le_add tB (le_refl _)
  have k2 : (t + 1 / 2) / 2 ^ 53 ≤ (256 + 1 / 2) / 2 ^ 53 :=
    div_le_div_of_nonneg_right hTB (by positivity)
  have n4 : (256 : α) + 1 / 2 + ((256 + 1 / 2) / 2 ^ 53 + 1 / 2 ^ 1075) < 2 ^ 1024 := by
    norm_num
  obtain ⟨v, hv⟩ := roundD_fin (t + 1 / 2) hT
    (lt_of_le_of_lt (add_le_add hTB (add_le_add k2 (le_refl _))) n4)
  obtain ⟨-, -, v2, v3⟩ := roundD_of_fin (t + 1 / 2) hT v hv
  refine ⟨v, by rw [e0, ht, e1]; exact hv, ?_⟩
  exact lin_value (x * r) t v _ _ _ _ t2 t3 v2 v3 k1 k2 n2 n3

theorem castU8_fin (v : α) (h0 : -1 < v) (h1 : v < 256) :
    castU8 (Fv.fin v) = some (Int.toNat (Int.floor v)) ∧ Int.toNat (Int.floor v) ≤ 255 := by
  constructor
  · simp [castU8, h0, h1]
  · have hf : Int.floor v < 256 := by
      rw [Int.floor_lt]
      exact_mod_cast h1
    omega

omit [FloorRing α] in
/-- Every product `e[k]*se` of a voxel update with a finite total is at most `255 + 1/8`. -/
theorem term_scale_le (K : Nat) (hK : K ≤ 1024) (xk s r : α) (hx : 0 ≤ xk)
    (hlow : xk * ((1 : α) - 1 / 2 ^ 24) ^ K - (K : α) * (1 / 2 ^ 150) ≤ s)
    (hr0 : 0 ≤ r) (hr1 : r < 2 ^ 128) (hrs : r * s ≤ 255 + 1 / 2 ^ 14) :
    xk * r ≤ 255 + 1 / 8 := by
  have hD := pow_down_bound (α := α) K hK
  have hK' : (K : α) ≤ 1024 := by exact_mod_cast hK
  have h1 : xk * (1 - 1 / 2 ^ 14) ≤ xk * ((1 : α) - 1 / 2 ^ 24) ^ K :=
    mul_le_mul_of_nonneg_left hD hx
  have h2 : (K : α) * (1 / 2 ^ 150) ≤ 1024 * (1 / 2 ^ 150) :=
    mul_le_mul_of_nonneg_right hK' (by positivity)
  have h3 : xk * (1 - 1 / 2 ^ 14) ≤ s + 1024 * (1 / 2 ^ 150) := by
    linarith only [h1, h2, hlow]
  have h4 : xk * (1 - 1 / 2 ^ 14) * r ≤ (s + 1024 * (1 / 2 ^ 150)) * r :=
    mul_le_mul_of_nonneg_right h3 hr0
  have h5 : (1024 : α) * (1 / 2 ^ 150) * r ≤ 1024 * (1 / 2 ^ 150) * 2 ^ 128 :=
    mul_le_mul_of_nonneg_left hr1.le (by positivity)
  have e5 : (1024 : α) * (1 / 2 ^ 150) * 2 ^ 128 = 1 / 2 ^ 12 := by norm_num
  have e6 : xk * (1 - 1 / 2 ^ 14) * r = xk * r * (1 - 1 / 2 ^ 14) := by ring
  have e7 : (s + 1024 * (1 / 2 ^ 150)) * r = r * s + 1024 * (1 / 2 ^ 150) * r := by ring
  rw [e6, e7] at h4
  rw [e5] at h5
  generalize xk * r = P at h4 ⊢
  generalize (1024 : α) * (1 / 2 ^ 150) * r = E at h4 h5
  generalize r * s = Q at h4 hrs
  norm_num at h4 h5 hrs ⊢
  linarith only [h4, h5, hrs]

omit [FloorRing α] in
/-- With at most 509 classes the largest `e[k]` has a product `e[k]*se` above `1/2`. -/
theorem max_scale_ge (K : Nat) (hK : K ≤ 509) (M s r : α) (hM : 0 ≤ M)
    (hup : s ≤ (K : α) * (M + 1 / 2 ^ 150) * ((1 : α) + 1 / 2 ^ 24) ^ K)
    (hr0 : 0 ≤ r) (hr1 : r < 2 ^ 128) (hrs : 255 - 1 / 2 ^ 14 ≤ r * s) :
    1 / 2 + 1 / 2 ^ 12 ≤ M * r := by
  have hc := pow_up_bound (α := α) K (by omega)
  have hc1 : (1 : α) ≤ ((1 : α) + 1 / 2 ^ 24) ^ K := one_le_pow₀ (by norm_num)
  have hK' : (K : α) ≤ 509 := by exact_mod_cast hK
  have hK0 : (0 : α) ≤ K := Nat.cast_nonneg K
  have hQ : 0 ≤ (M + 1 / 2 ^ 150) * r := mul_nonneg (by positivity) hr0
  have h1 : r * s ≤ r * ((K : α) * (M + 1 / 2 ^ 150) * ((1 : α) + 1 / 2 ^ 24) ^ K) :=
    mul_le_mul_of_nonneg_left hup hr0
  have e1 : r * ((K : α) * (M + 1 / 2 ^ 150) * ((1 : α) + 1 / 2 ^ 24) ^ K)
      = ((K : α) * ((1 : α) + 1 / 2 ^ 24) ^ K) * ((M + 1 / 2 ^ 150) * r) := by ring
  have h2 : (K : α) * ((1 : α) + 1 / 2 ^ 24) ^ K ≤ 509 * (1 + 1 / 2 ^ 13) :=
    mul_le_mul hK' hc (le_trans zero_le_one hc1) (by norm_num)
  have h3 : ((K : α) * ((1 : α) + 1 / 2 ^ 24) ^ K) * ((M + 1 / 2 ^ 150) * r)
      ≤ 509 * (1 + 1 / 2 ^ 13) * ((M + 1 / 2 ^ 150) * r) :=
    mul_le_mul_of_nonneg_right h2 hQ
  have h4 : (1 : α) / 2 ^ 150 * r ≤ 1 / 2 ^ 150 * 2 ^ 128 :=
    mul_le_mul_of_nonneg_left hr1.le (by positivity)
  have e4 : (1 : α) / 2 ^ 150 * 2 ^ 128 = 1 / 2 ^ 22 := by norm_num
  have e5 : (M + 1 / 2 ^ 150) * r = M * r + 1 / 2 ^ 150 * r := by ring
  rw [e1] at h1
  rw [e4] at h4
  rw [e5] at h3 h1
  have h6 : 255 - 1 / 2 ^ 14 ≤ 509 * (1 + 1 / 2 ^ 13) * (M * r + 1 / 2 ^ 150 * r) :=
    le_trans hrs (le_trans h1 h3)
  generalize M * r = P at h6 ⊢
  generalize (1 : α) / 2 ^ 150 * r = E at h6 h4
  norm_num at h6 h4 ⊢
  linarith only [h6, h4]

omit [FloorRing α] in
/-- The value cast is within `2^-12` of the exact `255*x/s + 1/2`. -/
theorem close_value (xk s r v : α) (hs : 0 < s) (hx : 0 ≤ xk)
    (hlo : 255 - 1 / 2 ^ 14 ≤ r * s) (hhi : r * s ≤ 255 + 1 / 2 ^ 14)
    (hP : xk * r ≤ 255 + 1 / 8) (hv1 : xk * r + 1 / 2 - 1 / 2 ^ 14 ≤ v)
    (hv2 : v ≤ xk * r + 1 / 2 + 1 / 2 ^ 14) :
    255 * xk / s + 1 / 2 - 1 / 2 ^ 12 ≤ v ∧ v ≤ 255 * xk / s + 1 / 2 + 1 / 2 ^ 12 := by
  have hs' : s ≠ 0 := ne_of_gt hs
  have ht0 : 0 ≤ xk / s := div_nonneg hx hs.le
  have hxk : xk = xk / s * s := (div_mul_cancel₀ xk hs').symm
  have e1 : xk * r = xk / s * (r * s) := by
    rw [mul_comm r s, ← mul_assoc, ← hxk]
  have e2 : 255 * xk / s = xk / s * 255 := by
    rw [mul_div_assoc, mul_comm]
  have h254 : (254 : α) ≤ r * s := le_trans (by norm_num) hlo
  have h3 : xk / s * 254 ≤ xk / s * (r * s) := mul_le_mul_of_nonneg_left h254 ht0
  have h4 : xk / s * (255 - 1 / 2 ^ 14) ≤ xk / s * (r * s) := mul_le_mul_of_nonneg_left hlo ht0
  have h5 : xk / s * (r * s) ≤ xk / s * (255 + 1 / 2 ^ 14) := mul_le_mul_of_nonneg_left hhi ht0
  rw [e1] at hP hv1 hv2
  rw [e2]
  generalize xk / s * (r * s) = P at *
  generalize xk / s = t at *
  have ht2 : t ≤ 2 := by linarith only [h3, hP]
  constructor
  · linarith only [h4, hv1, ht2, ht0]
  · linarith only [h5, hv2, ht2, ht0]

end ScaleBounds

/-! ## Single-voxel grids in rounded arithmetic -/

section SingleVoxelRounded

variable {α : Type} [LinearOrderedField α] [FloorRing α]

theorem mrf1F_single (ex : α → Fv α) (K : Nat) (q : Nat → Nat) (p : Nat → Fv α)
    (G : GMem (Fv α)) (w : Nat → Fv α) (code : Nat) :
    mrf1F ex ⟨1, 1, 1, K⟩ q p G w code = voxelF ex ⟨1, 1, 1, K⟩ p G w code 0 0 0 q := by
  simp [mrf1F, halfSweep, forUp, forFuel]

theorem influenceF_single (K : Nat) (q : Nat → Nat) (w : Nat → Fv α) :
    influenceF ⟨1, 1, 1, K⟩ q w 0 0 0 = fun _ => Fv.fin 0 := by
  have hz : forUp 0 K 1 (fun k (a : Nat → Fv α) => Function.update a k (Fv.fin 0))
      (fun _ => Fv.fin 0) = fun _ => Fv.fin 0 := by
    funext j
    rw [forUp_update K (fun _ _ => (Fv.fin 0 : Fv α))]
    simp
  have hd : toF (divD (Fv.fin (0 : α)) (Fv.fin (255 * 6))) = Fv.fin 0 := by
    have h6 : ((255 : α) * 6) ≠ 0 := by norm_num
    simp [divD, Fv.div, h6, roundD_zero, toF, roundF_zero]
  funext j
  unfold influenceF
  simp only [lt_self_iff_false, if_false, Nat.sub_self, gt_iff_lt, hz]
  rw [forUp_update K (fun _ x => toF (divD x (Fv.fin (255 * 6))))]
  simp [hd]

/-- With `exp(0) = 1`, a finite `float` prior passes through
`e[k] = exp((double)0)*p0[k*m]` unchanged. -/
theorem prior_term (ex : α → Fv α) (hex : ex 0 = Fv.fin 1) (pv : Fv α) (hp : IsFiniteFloat pv) :
    toF (mulD (expD ex (Fv.fin 0)) pv) = pv := by
  obtain ⟨x, rfl, hF, hD⟩ := hp
  simp [expD, hex, mulD, Fv.mul, hD, toF, hF]

theorem mulF_fin_zero (g : α) : mulF (Fv.fin g) (Fv.fin 0) = Fv.fin 0 := by
  simp [mulF, Fv.mul, roundF_zero]

theorem addF_zero_zero : addF (Fv.fin (0 : α)) (Fv.fin 0) = Fv.fin 0 := by
  simp [addF, Fv.add, roundF_zero]

/-- With a zero influence vector the row loop of a dense branch leaves `e` unchanged. -/
theorem denseRowF_zero (K stride : Nat) (G : Nat → Fv α) (hG : ∀ i, ∃ g, G i = Fv.fin g)
    (k : Nat) (e : Nat → Fv α) (he : e k = Fv.fin 0) (g : Nat) :
    (denseRowF K stride G (fun _ => Fv.fin 0) k (e, g)).1 = e := by
  obtain ⟨j, -, hj⟩ := forUp_inv 0 K 1
    (fun n (eg : (Nat → Fv α) × Nat) =>
      (Function.update eg.1 k (addF (eg.1 k) (mulF (G eg.2) (Fv.fin 0))), eg.2 + stride))
    (e, g) (fun _ eg => eg.1 = e) (le_refl 1) rfl
    (by
      intro i eg _ hP
      obtain ⟨gv, hgv⟩ := hG eg.2
      show Function.update eg.1 k _ = e
      rw [hP, he, hgv, mulF_fin_zero, addF_zero_zero, ← he, Function.update_eq_self])
  exact hj

theorem denseBranchF_zero (ex : α → Fv α) (hex : ex 0 = Fv.fin 1) (K m : Nat)
    (G p : Nat → Fv α) (hG : ∀ i, ∃ g, G i = Fv.fin g) (p0 g0 stride : Nat)
    (hp : ∀ k, k < K → IsFiniteFloat (p (p0 + k * m))) (k : Nat) (hk : k < K) :
    (denseBranchF ex K m G p p0 g0 stride (fun _ => Fv.fin 0)).1 k = p (p0 + k * m) := by
  have key := forUp_inv1 0 K (fun k (st : DenseStF α) =>
      let e := Function.update st.e k (Fv.fin 0)
      let eg := denseRowF K stride G (fun _ => Fv.fin 0) k (e, st.g)
      let e := Function.update eg.1 k (toF (mulD (expD ex (eg.1 k)) (p (p0 + k * m))))
      DenseStF.mk e (addF st.se (e k)) eg.2) (DenseStF.mk (fun _ => Fv.fin 0) (Fv.fin 0) g0)
    (fun i st => ∀ j, j < i → st.e j = p (p0 + j * m)) (Nat.zero_le _)
    (by intro j hj; omega) ?_
  · exact key k hk
  · intro i st _ hi hP j hj
    dsimp only
    rw [denseRowF_zero K stride G hG i _ (by simp) st.g]
    by_cases hji : j = i
    · subst hji
      simp only [Function.update_same]
      exact prior_term ex hex _ (hp j hi)
    · rw [Function.update_noteq hji, Function.update_noteq hji]
      exact hP j (by omega)

theorem packedAccumF_zero (K m : Nat) (rd : Nat → Fv α) (hrd : ∀ i, ∃ g, rd i = Fv.fin g)
    (g0 : Nat) : (packedAccumF K m rd g0 (fun _ => Fv.fin 0)).1 = fun _ => Fv.fin 0 := by
  have hz : forUp 0 K 1 (fun k (a : Nat → Fv α) => Function.update a k (Fv.fin 0))
      (fun _ => Fv.fin 0) = fun _ => Fv.fin 0 := by
    funext j
    rw [forUp_update K (fun _ _ => (Fv.fin 0 : Fv α))]
    simp
  unfold packedAccumF
  simp only [hz]
  obtain ⟨j, -, hj⟩ := forUp_inv 0 K 1
    (fun k (eg : (Nat → Fv α) × Nat) =>
      forUp (k + 1) K 1 (fun n (eg : (Nat → Fv α) × Nat) =>
        let e := Function.update eg.1 k (addF (eg.1 k) (mulF (rd eg.2) (Fv.fin 0)))
        let e := Function.update e n (addF (e n) (mulF (rd eg.2) (Fv.fin 0)))
        (e, eg.2 + m)) eg)
    ((fun _ => Fv.fin 0), g0) (fun _ eg => eg.1 = fun _ => Fv.fin 0) (le_refl 1) rfl
    (by
      intro k eg _ hP
      obtain ⟨j, -, hj⟩ := forUp_inv (k + 1) K 1
        (fun n (eg : (Nat → Fv α) × Nat) =>
          let e := Function.update eg.1 k (addF (eg.1 k) (mulF (rd eg.2) (Fv.fin 0)))
          let e := Function.update e n (addF (e n) (mulF (rd eg.2) (Fv.fin 0)))
          (e, eg.2 + m))
        eg (fun _ eg => eg.1 = fun _ => Fv.fin 0) (le_refl 1) hP
        (by
          intro n eg _ hQ
          obtain ⟨gv, hgv⟩ := hrd eg.2
          dsimp only
          rw [hQ, hgv, mulF_fin_zero, addF_zero_zero]
          funext i
          by_cases h1 : i = n
          · subst h1; simp [addF_zero_zero]
          · rw [Function.update_noteq h1]
            by_cases h2 : i = k
            · subst h2; simp [addF_zero_zero]
            · rw [Function.update_noteq h2])
      exact hj)
  exact hj

/-- With a zero influence vector, finite interaction entries, finite `float` priors and
`exp(0) = 1`, every mode returns the priors as `e` and their `float` sum as `se`. -/
theorem interactionF_zero (ex : α → Fv α) (hex : ex 0 = Fv.fin 1) (dm : Dims)
    (p : Nat → Fv α) (G : GMem (Fv α)) (hG : ∀ i, ∃ g, G.asFloat i = Fv.fin g) (code : Nat)
    (h1 : 1 ≤ code) (h5 : code ≤ 5) (v : Nat)
    (hp : ∀ k, k < dm.d3 → IsFiniteFloat (p (v + k * nvox dm))) :
    (∀ k, k < dm.d3 →
      (interactionF ex dm p G code v (fun _ => Fv.fin 0)).1 k = p (v + k * nvox dm)) ∧
    (interactionF ex dm p G code v (fun _ => Fv.fin 0)).2
      = fsumF (fun k => p (v + k * nvox dm)) dm.d3 := by
  have hfirst : ∀ k, k < dm.d3 →
      (interactionF ex dm p G code v (fun _ => Fv.fin 0)).1 k = p (v + k * nvox dm) := by
    intro k hk
    have hc : code = 1 ∨ code = 2 ∨ code = 3 ∨ code = 4 ∨ code = 5 := by omega
    rcases hc with rfl | rfl | rfl | rfl | rfl
    · simp only [interactionF, if_true]
      exact denseBranchF_zero ex hex _ _ _ p hG v 0 1 hp k hk
    · simp only [interactionF, if_true, OfNat.ofNat_ne_one, if_false]
      rw [diagBranchF_eq]
      obtain ⟨g, hg⟩ := hG k
      simp only [hk, if_true, hg, mulF_fin_zero]
      exact prior_term ex hex _ (hp k hk)
    · have e1 : ¬ (3 = 1) := by decide
      have e2 : ¬ (3 = 2) := by decide
      simp only [interactionF, e1, e2, if_true, if_false]
      exact denseBranchF_zero ex hex _ _ _ p hG v v _ hp k hk
    · have e1 : ¬ (4 = 1) := by decide
      have e2 : ¬ (4 = 2) := by decide
      have e3 : ¬ (4 = 3) := by decide
      simp only [interactionF, e1, e2, e3, if_true, if_false]
      rw [expLoopF_eq, packedAccumF_zero _ _ _ hG]
      simp only [hk, if_true]
      exact prior_term ex hex _ (hp k hk)
    · have e1 : ¬ (5 = 1) := by decide
      have e2 : ¬ (5 = 2) := by decide
      have e3 : ¬ (5 = 3) := by decide
      have e4 : ¬ (5 = 4) := by decide
      simp only [interactionF, e1, e2, e3, e4, if_true, if_false]
      rw [expLoopF_eq, packedAccumF_zero _ _ _ (fun i => ⟨_, rfl⟩)]
      have hm : mulD (Fv.fin (-(1 / 16) : α)) (Fv.fin 0) = Fv.fin 0 := by
        simp [mulD, Fv.mul, roundD_zero]
      simp only [hk, if_true, hm]
      exact prior_term ex hex _ (hp k hk)
  refine ⟨hfirst, ?_⟩
  rw [interactionF_sum ex dm p G code h1 h5]
  exact fsumF_congr _ _ _ hfirst

/-- On a single-voxel grid `mrf1` is the write-back of the priors themselves. -/
theorem mrf1F_single_eq (ex : α → Fv α) (hex : ex 0 = Fv.fin 1) (K code : Nat)
    (h1 : 1 ≤ code) (h5 : code ≤ 5) (q : Nat → Nat) (p : Nat → Fv α) (G : GMem (Fv α))
    (w : Nat → Fv α) (hp : ∀ k, k < K → IsFiniteFloat (p k))
    (hG : ∀ i, ∃ g, G.asFloat i = Fv.fin g) :
    mrf1F ex ⟨1, 1, 1, K⟩ q p G w code = writeBackF K 1 0 p (fsumF p K) q := by
  rw [mrf1F_single]
  unfold voxelF
  rw [influenceF_single]
  have hv : voxOff ⟨1, 1, 1, K⟩ 0 0 0 = 0 := by simp [voxOff]
  have hm : nvox ⟨1, 1, 1, K⟩ = 1 := by simp [nvox]
  have hp' : ∀ k, k < (⟨1, 1, 1, K⟩ : Dims).d3 →
      IsFiniteFloat (p (voxOff ⟨1, 1, 1, K⟩ 0 0 0 + k * nvox ⟨1, 1, 1, K⟩)) := by
    intro k hk
    rw [hv, hm, Nat.zero_add, Nat.mul_one]
    exact hp k hk
  obtain ⟨ha, hb⟩ := interactionF_zero ex hex ⟨1, 1, 1, K⟩ p G hG code h1 h5 _ hp'
  dsimp only
  rw [hb, hm, hv]
  have e1 : (fun k => p (0 + k * 1)) = p := by
    funext k
    rw [Nat.zero_add, Nat.mul_one]
  rw [e1]
  apply writeBackF_congr
  intro k hk
  have := ha k hk
  rw [hv, hm, Nat.zero_add, Nat.mul_one] at this
  rw [← hv]
  exact this

/-- On a single-voxel grid the buffer `e` holds the priors and `se` is their `float` sum. -/
theorem interactionF_single (ex : α → Fv α) (hex : ex 0 = Fv.fin 1) (K code : Nat)
    (h1 : 1 ≤ code) (h5 : code ≤ 5) (q : Nat → Nat) (p : Nat → Fv α) (G : GMem (Fv α))
    (w : Nat → Fv α) (hp : ∀ k, k < K → IsFiniteFloat (p k))
    (hG : ∀ i, ∃ g, G.asFloat i = Fv.fin g) :
    (∀ k, k < K → (interactionF ex ⟨1, 1, 1, K⟩ p G code (voxOff ⟨1, 1, 1, K⟩ 0 0 0)
        (influenceF ⟨1, 1, 1, K⟩ q w 0 0 0)).1 k = p k) ∧
    (interactionF ex ⟨1, 1, 1, K⟩ p G code (voxOff ⟨1, 1, 1, K⟩ 0 0 0)
        (influenceF ⟨1, 1, 1, K⟩ q w 0 0 0)).2 = fsumF p K := by
  rw [influenceF_single]
  have hv : voxOff ⟨1, 1, 1, K⟩ 0 0 0 = 0 := by simp [voxOff]
  have hm : nvox ⟨1, 1, 1, K⟩ = 1 := by simp [nvox]
  have hp' : ∀ k, k < (⟨1, 1, 1, K⟩ : Dims).d3 →
      IsFiniteFloat (p (voxOff ⟨1, 1, 1, K⟩ 0 0 0 + k * nvox ⟨1, 1, 1, K⟩)) := by
    intro k hk
    rw [hv, hm, Nat.zero_add, Nat.mul_one]
    exact hp k hk
  obtain ⟨ha, hb⟩ := interactionF_zero ex hex ⟨1, 1, 1, K⟩ p G hG code h1 h5 _ hp'
  have e1 : (fun k => p (0 + k * 1)) = p := by
    funext k
    rw [Nat.zero_add, Nat.mul_one]
  constructor
  · intro k hk
    have := ha k hk
    rw [hv, hm, Nat.zero_add, Nat.mul_one] at this
    rw [hv]
    exact this
  · rw [hb, hv, hm, e1]

end SingleVoxelRounded

/-! ## The stored bytes of a voxel update in rounded arithmetic -/

section RoundedBytes

variable {α : Type} [LinearOrderedField α] [FloorRing α]

theorem off_mod_div (m v k : Nat) (hv : v < m) : (v + k * m) % m = v ∧ (v + k * m) / m = k := by
  have hm : 0 < m := by omega
  constructor
  · rw [Nat.add_mul_mod_self_right]; exact Nat.mod_eq_of_lt hv
  · rw [Nat.add_mul_div_right _ _ hm, Nat.div_eq_of_lt hv, Nat.zero_add]

/-- A voxel update whose buffer `e` holds finite non-negative values and whose `float` total
is at least `2^-120`, with at most 1024 classes: the scale `r` is finite with `r * total`
within `2^-14` of 255, every converted value is finite and within `2^-14` of
`e[k]*r + 1/2 ≤ 255 + 5/8`, and the bytes stored are the integer parts of these values. -/
theorem voxelF_values (ex : α → Fv α) (dm : Dims) (p : Nat → Fv α) (G : GMem (Fv α))
    (w : Nat → Fv α) (code : Nat) (h1 : 1 ≤ code) (h5 : code ≤ 5) (hK : dm.d3 ≤ 1024)
    (x : Nat × Nat × Nat) (hx : inGrid dm x) (q : Nat → Nat) (xs : Nat → α) (s : α)
    (he : ∀ k, k < dm.d3 →
      (interactionF ex dm p G code (voxOff dm x.1 x.2.1 x.2.2)
        (influenceF dm q w x.1 x.2.1 x.2.2)).1 k = Fv.fin (xs k) ∧ 0 ≤ xs k)
    (hs : (interactionF ex dm p G code (voxOff dm x.1 x.2.1 x.2.2)
        (influenceF dm q w x.1 x.2.1 x.2.2)).2 = Fv.fin s)
    (hs0 : 1 / 2 ^ 120 ≤ s) :
    ∃ (r : α) (vals : Nat → α) (q1 : Nat → Nat),
      0 ≤ r ∧ r < 2 ^ 128 ∧ 255 - 1 / 2 ^ 14 ≤ r * s ∧ r * s ≤ 255 + 1 / 2 ^ 14 ∧
      (∀ k, k < dm.d3 →
        castValue (interactionF ex dm p G code (voxOff dm x.1 x.2.1 x.2.2)
            (influenceF dm q w x.1 x.2.1 x.2.2)).1
          (interactionF ex dm p G code (voxOff dm x.1 x.2.1 x.2.2)
            (influenceF dm q w x.1 x.2.1 x.2.2)).2 k = Fv.fin (vals k) ∧
        xs k * r + 1 / 2 - 1 / 2 ^ 14 ≤ vals k ∧ vals k ≤ xs k * r + 1 / 2 + 1 / 2 ^ 14 ∧
        xs k * r ≤ 255 + 1 / 8) ∧
      voxelF ex dm p G w code x.1 x.2.1 x.2.2 q = some q1 ∧
      ∀ k, k < dm.d3 →
        q1 (voxOff dm x.1 x.2.1 x.2.2 + k * nvox dm) = Int.toNat (Int.floor (vals k)) := by
  have hv : voxOff dm x.1 x.2.1 x.2.2 < nvox dm := voxOff_lt dm _ _ _ hx
  have hsum := interactionF_sum ex dm p G code h1 h5 (voxOff dm x.1 x.2.1 x.2.2)
    (influenceF dm q w x.1 x.2.1 x.2.2)
  have hvox : voxelF ex dm p G w code x.1 x.2.1 x.2.2 q
      = writeBackF dm.d3 (nvox dm) (voxOff dm x.1 x.2.1 x.2.2)
          (interactionF ex dm p G code (voxOff dm x.1 x.2.1 x.2.2)
            (influenceF dm q w x.1 x.2.1 x.2.2)).1
          (interactionF ex dm p G code (voxOff dm x.1 x.2.1 x.2.2)
            (influenceF dm q w x.1 x.2.1 x.2.2)).2 q := rfl
  rw [hvox]
  generalize interactionF ex dm p G code (voxOff dm x.1 x.2.1 x.2.2)
    (influenceF dm q w x.1 x.2.1 x.2.2) = R at he hs hsum ⊢
  rw [hs] at hsum
  obtain ⟨hs', hlt, hlow, -⟩ := fsumF_bounds R.1 xs dm.d3 s he hsum.symm
  have hpos : (0 : α) < 1 / 2 ^ 120 := by positivity
  have hK1 : 1 ≤ dm.d3 := by
    rcases Nat.eq_zero_or_pos dm.d3 with h0 | h0
    · rw [h0] at hsum
      have : (Fv.fin s : Fv α) = Fv.fin 0 := hsum
      cases this
      exact absurd hs0 (not_le.2 hpos)
    · exact h0
  obtain ⟨r, hr, hr0, hr1, hr2, hr3⟩ := scale_bounds s hs0 (hlt hK1)
  have hterm : ∀ k, k < dm.d3 → xs k * r ≤ 255 + 1 / 8 := fun k hk =>
    term_scale_le dm.d3 hK (xs k) s r (he k hk).2 (hlow k hk) hr0 hr1 hr2
  have hval : ∀ k, ∃ v, k < dm.d3 →
      (castValue R.1 R.2 k = Fv.fin v ∧
        xs k * r + 1 / 2 - 1 / 2 ^ 14 ≤ v ∧ v ≤ xs k * r + 1 / 2 + 1 / 2 ^ 14) := by
    intro k
    by_cases hk : k < dm.d3
    · obtain ⟨v, h1, h2, h3⟩ := product_value (xs k) r (he k hk).2 hr0 (hterm k hk)
      refine ⟨v, fun _ => ⟨?_, h2, h3⟩⟩
      unfold castValue
      rw [(he k hk).1, hs, hr]
      exact h1
    · exact ⟨0, fun h => absurd h hk⟩
  choose vals hvals using hval
  have hcast : ∀ k, k < dm.d3 →
      castU8 (castValue R.1 R.2 k) = some (Int.toNat (Int.floor (vals k))) := by
    intro k hk
    obtain ⟨h1, h2, h3⟩ := hvals k hk
    rw [h1]
    have hP : 0 ≤ xs k * r := mul_nonneg (he k hk).2 hr0
    have hT := hterm k hk
    refine (castU8_fin (vals k) ?_ ?_).1
    · have : (-1 : α) < 0 + 1 / 2 - 1 / 2 ^ 14 := by norm_num
      linarith only [this, h2, hP]
    · have : (255 : α) + 1 / 8 + 1 / 2 + 1 / 2 ^ 14 < 256 := by norm_num
      linarith only [this, h3, hT]
  refine ⟨r, vals,
    (fun o => if o % nvox dm = voxOff dm x.1 x.2.1 x.2.2 ∧ o / nvox dm < dm.d3 then
      Int.toNat (Int.floor (vals (o / nvox dm))) else q o), hr0, hr1, hr3, hr2, fun k hk => ⟨(hvals k hk).1, (hvals k hk).2.1,
    (hvals k hk).2.2, hterm k hk⟩, ?_, ?_⟩
  · exact writeBackF_some dm.d3 (nvox dm) _ hv R.1 R.2 q _ hcast
  · intro k hk
    obtain ⟨e1, e2⟩ := off_mod_div (nvox dm) _ k hv
    simp only [e1, e2, hk, and_self, if_true]

/-- The values cast at a voxel update and the bytes stored. -/
theorem voxelF_range (ex : α → Fv α)
    (dm : Dims) (p : Nat → Fv α) (G : GMem (Fv α)) (w : Nat → Fv α) (code : Nat)
    (h1 : 1 ≤ code) (h5 : code ≤ 5) (hK : dm.d3 ≤ 1024)
    (x : Nat × Nat × Nat) (hx : inGrid dm x) (q : Nat → Nat) (xs : Nat → α) (s : α)
    (he : ∀ k, k < dm.d3 →
      (interactionF ex dm p G code (voxOff dm x.1 x.2.1 x.2.2)
        (influenceF dm q w x.1 x.2.1 x.2.2)).1 k = Fv.fin (xs k) ∧ 0 ≤ xs k)
    (hs : (interactionF ex dm p G code (voxOff dm x.1 x.2.1 x.2.2)
        (influenceF dm q w x.1 x.2.1 x.2.2)).2 = Fv.fin s)
    (hs0 : 1 / 2 ^ 120 ≤ s) :
    ∃ (vals : Nat → α) (q1 : Nat → Nat),
      voxelF ex dm p G w code x.1 x.2.1 x.2.2 q = some q1 ∧
      ∀ k, k < dm.d3 →
        castValue (interactionF ex dm p G code (voxOff dm x.1 x.2.1 x.2.2)
        (influenceF dm q w x.1 x.2.1 x.2.2)).1
          (interactionF ex dm p G code (voxOff dm x.1 x.2.1 x.2.2)
        (influenceF dm q w x.1 x.2.1 x.2.2)).2 k = Fv.fin (vals k) ∧
        0 ≤ vals k ∧ vals k < 256 ∧
        255 * xs k / s + 1 / 2 - 1 / 2 ^ 12 ≤ vals k ∧
        vals k ≤ 255 * xs k / s + 1 / 2 + 1 / 2 ^ 12 ∧
        q1 (voxOff dm x.1 x.2.1 x.2.2 + k * nvox dm) = Int.toNat (Int.floor (vals k)) ∧
        q1 (voxOff dm x.1 x.2.1 x.2.2 + k * nvox dm) ≤ 255 ∧
        ∀ n : Nat, (n : α) + 1 / 2 ^ 12 ≤ 255 * xs k / s + 1 / 2 →
          255 * xs k / s + 1 / 2 + 1 / 2 ^ 12 < (n : α) + 1 →
          q1 (voxOff dm x.1 x.2.1 x.2.2 + k * nvox dm) = n := by
  obtain ⟨r, vals, q1, hr0, hr1, hrs, hrs2, hvals, hq, hbytes⟩ :=
    voxelF_values ex dm p G w code h1 h5 hK x hx q xs s he hs hs0
  have hspos : 0 < s := lt_of_lt_of_le (by positivity) hs0
  refine ⟨vals, q1, hq, fun k hk => ?_⟩
  obtain ⟨hc, hlow, hupp, hP⟩ := hvals k hk
  have hP0 : 0 ≤ xs k * r := mul_nonneg (he k hk).2 hr0
  have h0 : 0 ≤ vals k := by
    have c : (0 : α) ≤ 0 + 1 / 2 - 1 / 2 ^ 14 := by norm_num
    linarith only [c, hlow, hP0]
  have h256 : vals k < 256 := by
    have c : (255 : α) + 1 / 8 + 1 / 2 + 1 / 2 ^ 14 < 256 := by norm_num
    linarith only [c, hupp, hP]
  obtain ⟨hc1, hc2⟩ := close_value (xs k) s r (vals k) hspos (he k hk).2 hrs hrs2 hP hlow hupp
  refine ⟨hc, h0, h256, hc1, hc2, hbytes k hk, ?_, ?_⟩
  · rw [hbytes k hk]
    exact (castU8_fin (vals k) (lt_of_lt_of_le (by norm_num) h0) h256).2
  · intro n hn1 hn2
    rw [hbytes k hk]
    have hf : Int.floor (vals k) = (n : Int) := by
      rw [Int.floor_eq_iff]
      push_cast
      exact ⟨by linarith only [hn1, hc1], by linarith only [hn2, hc2]⟩
    rw [hf]
    rfl

end RoundedBytes

/-! ## Evaluation of roundings -/

section Evaluation

variable {α : Type} [LinearOrderedField α] [FloorRing α]

/-- A rounding that reaches `2^(emax+1)` is an infinity. -/
theorem roundTo_near_inf (p : Nat) (emax : Int) (x : α) (e n : Int) (hlo : (2 : α) ^ e ≤ x)
    (hhi : x < (2 : α) ^ (e + 1)) (hemin : 1 - emax ≤ e)
    (h1 : ((n : α) - 1 / 2) * (2 : α) ^ (e - ((p : Int) - 1)) < x)
    (h2 : x < ((n : α) + 1 / 2) * (2 : α) ^ (e - ((p : Int) - 1)))
    (hov : (2 : α) ^ (emax + 1) ≤ (n : α) * (2 : α) ^ (e - ((p : Int) - 1))) :
    roundTo p emax x = Fv.pinf := by
  have h2pos : (0 : α) < 2 := by norm_num
  have hpos : 0 < x := lt_of_lt_of_le (zpow_pos h2pos e) hlo
  have habs : |x| = x := abs_of_pos hpos
  have hlog : Int.log 2 x = e := by
    apply le_antisymm
    · have : Int.log 2 x < e + 1 := by
        rw [← Int.lt_zpow_iff_log_lt (by decide) hpos, Nat.cast_ofNat]
        exact hhi
      omega
    · rw [← Int.zpow_le_iff_le_log (by decide) hpos, Nat.cast_ofNat]
      exact hlo
  have hulp : (0 : α) < (2 : α) ^ (e - ((p : Int) - 1)) := zpow_pos h2pos _
  have hr : rne (x / (2 : α) ^ (e - ((p : Int) - 1))) = n :=
    rne_eq_of_near _ n (by rw [lt_div_iff₀ hulp]; exact h1) (by rw [div_lt_iff₀ hulp]; exact h2)
  unfold roundTo
  simp only [hpos.ne', if_false, habs, hlog, max_eq_left hemin, hr, hov, hpos, if_true]

/-- A number `N * 2^j` with `1 ≤ N < 2^p` in the normal range of the format is representable:
rounding returns it. -/
theorem roundTo_dyadic (p : Nat) (emax : Int) (N : Nat) (j : Int) (hN1 : 1 ≤ N)
    (hN : N < 2 ^ p) (hj0 : 1 - emax ≤ j) (hj1 : j + p ≤ emax + 1) :
    roundTo p emax ((N : α) * (2 : α) ^ j) = Fv.fin ((N : α) * (2 : α) ^ j) := by
  have h2pos : (0 : α) < 2 := by norm_num
  have h2ne : (2 : α) ≠ 0 := by norm_num
  have h1lt : (1 : α) < 2 := by norm_num
  have hNpos : (0 : α) < N := by exact_mod_cast hN1
  have hxpos : 0 < (N : α) * (2 : α) ^ j := mul_pos hNpos (zpow_pos h2pos j)
  obtain ⟨e, he⟩ : ∃ e, e = Int.log 2 ((N : α) * (2 : α) ^ j) := ⟨_, rfl⟩
  have hlo : (2 : α) ^ e ≤ (N : α) * (2 : α) ^ j := by
    have := Int.zpow_log_le_self (b := 2) (by decide) hxpos
    rw [Nat.cast_ofNat, ← he] at this
    exact this
  have hhi : (N : α) * (2 : α) ^ j < (2 : α) ^ (e + 1) := by
    have := Int.lt_zpow_succ_log_self (b := 2) (by decide) ((N : α) * (2 : α) ^ j)
    rw [Nat.cast_ofNat, ← he] at this
    exact this
  have hje : j ≤ e := by
    rw [he, ← Int.zpow_le_iff_le_log (by decide) hxpos, Nat.cast_ofNat]
    have h1 : (1 : α) ≤ N := by exact_mod_cast hN1
    have := mul_le_mul_of_nonneg_right h1 (zpow_pos h2pos j).le
    rw [one_mul] at this
    exact this
  have hej : e < j + p := by
    rw [he, ← Int.lt_zpow_iff_log_lt (by decide) hxpos, Nat.cast_ofNat]
    have h1 : (N : α) < 2 ^ p := by exact_mod_cast hN
    rw [zpow_add₀ h2ne, zpow_natCast, mul_comm ((2 : α) ^ j)]
    exact mul_lt_mul_of_pos_right h1 (zpow_pos h2pos j)
  obtain ⟨d, hd⟩ : ∃ d : Nat, (d : Int) = j + p - 1 - e := ⟨Int.toNat (j + p - 1 - e), by omega⟩
  have hval : (((N * 2 ^ d : Nat) : Int) : α) * (2 : α) ^ (e - ((p : Int) - 1))
      = (N : α) * (2 : α) ^ j := by
    push_cast
    rw [mul_assoc, ← zpow_natCast (2 : α) d, ← zpow_add₀ h2ne, hd]
    congr 2
    ring
  have hulp : (0 : α) < (2 : α) ^ (e - ((p : Int) - 1)) := zpow_pos h2pos _
  have h := roundTo_near p emax ((N : α) * (2 : α) ^ j) e ((N * 2 ^ d : Nat) : Int) hlo hhi
    (by omega)
    (by
      rw [sub_mul, hval]
      have : (0 : α) < 1 / 2 * (2 : α) ^ (e - ((p : Int) - 1)) := by positivity
      linarith only [this])
    (by
      rw [add_mul, hval]
      have : (0 : α) < 1 / 2 * (2 : α) ^ (e - ((p : Int) - 1)) := by positivity
      linarith only [this])
    (by
      rw [hval]
      refine lt_of_lt_of_le hhi ?_
      exact zpow_le_zpow_right₀ h1lt.le (by omega))
  rw [h, hval]

theorem castValue_eval (e : Nat → Fv α) (k : Nat) (a s d f t v : α) (hs : s ≠ 0)
    (hek : e k = Fv.fin a) (h1 : roundD (255 / s) = Fv.fin d) (h2 : roundF d = Fv.fin f)
    (h3 : roundF (a * f) = Fv.fin t) (h4 : roundD (t + 1 / 2) = Fv.fin v) :
    castValue e (Fv.fin s) k = Fv.fin v := by
  unfold castValue
  simp only [divD, Fv.div, hs, if_false, h1, toF, h2, hek, mulF, Fv.mul, h3, addD, Fv.add, h4]

/-- A finite `float` given as `N * 2^j`. -/
theorem isFiniteFloat_dyadic (N : Nat) (j : Int) (hN1 : 1 ≤ N) (hN : N < 2 ^ 24)
    (hj0 : -126 ≤ j) (hj1 : j ≤ 104) : IsFiniteFloat (Fv.fin ((N : α) * (2 : α) ^ j)) :=
  ⟨_, rfl, roundTo_dyadic 24 127 N j hN1 hN (by omega) (by push_cast; omega),
    roundTo_dyadic 53 1023 N j hN1 (lt_trans hN (by norm_num)) (by omega)
      (by push_cast; omega)⟩

/-- The `float` sum of `n` copies of `N0 * 2^j` is exact while `n * N0 < 2^24`. -/
theorem fsumF_const (N0 : Nat) (j : Int) (hN0 : 1 ≤ N0) (hj0 : -126 ≤ j) (hj1 : j ≤ 104) :
    ∀ n : Nat, n * N0 < 2 ^ 24 →
      fsumF (fun _ => Fv.fin ((N0 : α) * (2 : α) ^ j)) n
        = Fv.fin (((n * N0 : Nat) : α) * (2 : α) ^ j) := by
  intro n
  induction n with
  | zero => intro _; simp [fsumF]
  | succ n ih =>
    intro hn
    have hn' : n * N0 < 2 ^ 24 := lt_of_le_of_lt (Nat.mul_le_mul_right _ (Nat.le_succ n)) hn
    show addF (fsumF _ n) _ = _
    rw [ih hn']
    have e1 : ((n * N0 : Nat) : α) * (2 : α) ^ j + (N0 : α) * (2 : α) ^ j
        = (((n + 1) * N0 : Nat) : α) * (2 : α) ^ j := by
      push_cast
      ring
    show roundF _ = _
    rw [e1]
    exact roundTo_dyadic 24 127 ((n + 1) * N0) j
      (Nat.one_le_iff_ne_zero.2 (Nat.mul_ne_zero (Nat.succ_ne_zero n) (by omega)))
      hn (by omega) (by push_cast; omega)

end Evaluation

/-! ## The claims about stored bytes, in rounded arithmetic -/

/-- A library `exp` that rounds the exact value to `double` returns `exp(0) = 1`. -/
theorem exp_model_zero : (fun x : ℝ => roundD (Real.exp x)) 0 = Fv.fin 1 := by
  have h := roundTo_dyadic (α := ℝ) 53 1023 1 0 (by norm_num) (by norm_num) (by norm_num)
    (by norm_num)
  simp only [Nat.cast_one, zpow_zero, mul_one] at h
  show roundD (Real.exp 0) = Fv.fin 1
  rw [Real.exp_zero]
  exact h

theorem isFiniteFloat_zero {α : Type} [LinearOrderedField α] [FloorRing α] :
    IsFiniteFloat (Fv.fin (0 : α)) :=
  ⟨0, rfl, roundF_zero, roundD_zero⟩

/-- C1 as stated fails: on the single-voxel grid with two classes and both priors equal to
the `float` nearest to 0.3 (`5033165 / 2^24`), `mrf1` stores the byte 127 for each class:
`se = 255.0/se` is rounded down to `424.99997` when stored, the `float` product `e[k]*se` is
`127.49999`, and `127.99999` is truncated.  The claimed value
`floor(255*p[k]/sum + 1/2)` is 128. -/
theorem single_voxel_counterexample :
    (∃ q1, mrf1F (fun x : ℝ => roundD (Real.exp x)) ⟨1, 1, 1, 2⟩ (fun _ => 0)
        (fun _ => Fv.fin (5033165 / 16777216)) ⟨fun _ => Fv.fin 0, fun _ => 0⟩
        (fun _ => Fv.fin 1) 2 = some q1 ∧ q1 0 = 127 ∧ q1 1 = 127) ∧
      Int.toNat (Int.floor ((255 : ℝ) * (5033165 / 16777216) / (5033165 / 16777216 + 5033165 / 16777216) + 1 / 2)) = 128 := by
  have hfl : IsFiniteFloat (Fv.fin ((5033165 / 16777216) : ℝ)) := by
    have h := isFiniteFloat_dyadic (α := ℝ) 5033165 (-24) (by norm_num) (by norm_num)
      (by norm_num) (by norm_num)
    have e : (((5033165 : Nat) : ℝ) * (2 : ℝ) ^ ((-24) : Int)) = 5033165 / 16777216 := by norm_num
    rw [e] at h
    exact h
  have hsum : fsumF (fun _ : Nat => (Fv.fin (5033165 / 16777216) : Fv ℝ)) 2 = Fv.fin (5033165 / 8388608) := by
    have h := fsumF_const (α := ℝ) 5033165 (-24) (by norm_num) (by norm_num) (by norm_num) 2
      (by norm_num)
    have e1 : (((5033165 : Nat) : ℝ) * (2 : ℝ) ^ ((-24) : Int)) = 5033165 / 16777216 := by norm_num
    have e2 : ((((2 * 5033165 : Nat) : Nat) : ℝ) * (2 : ℝ) ^ ((-24) : Int)) = 5033165 / 8388608 := by norm_num
    rw [e1, e2] at h
    exact h
  have hd : roundD ((255 / (5033165 / 8388608)) : ℝ) = Fv.fin (3738339385890139 / 8796093022208) := by
    have h := roundTo_near 53 1023 ((255 / (5033165 / 8388608)) : ℝ) 8 7476678771780278
      (by norm_num) (by norm_num) (by norm_num) (by norm_num) (by norm_num) (by norm_num)
    unfold roundD
    rw [h]
    norm_num
  have hf : roundF ((3738339385890139 / 8796093022208) : ℝ) = Fv.fin (13926399 / 32768) := by
    have h := roundTo_near 24 127 ((3738339385890139 / 8796093022208) : ℝ) 8 13926399
      (by norm_num) (by norm_num) (by norm_num) (by norm_num) (by norm_num) (by norm_num)
    unfold roundF
    rw [h]
    norm_num
  have ht : roundF ((5033165 / 16777216 * (13926399 / 32768)) : ℝ) = Fv.fin (16711679 / 131072) := by
    have h := roundTo_near 24 127 ((5033165 / 16777216 * (13926399 / 32768)) : ℝ) 6 16711679
      (by norm_num) (by norm_num) (by norm_num) (by norm_num) (by norm_num) (by norm_num)
    unfold roundF
    rw [h]
    norm_num
  have hv : roundD ((16711679 / 131072 + 1 / 2) : ℝ) = Fv.fin (16777215 / 131072) := by
    have h := roundTo_near 53 1023 ((16711679 / 131072 + 1 / 2) : ℝ) 6 9007198717870080
      (by norm_num) (by norm_num) (by norm_num) (by norm_num) (by norm_num) (by norm_num)
    unfold roundD
    rw [h]
    norm_num
  have hfloor : Int.floor ((16777215 / 131072) : ℝ) = 127 := by
    rw [Int.floor_eq_iff]
    norm_num
  have hcv : ∀ k, k < 2 →
      castU8 (castValue (fun _ : Nat => (Fv.fin (5033165 / 16777216) : Fv ℝ)) (Fv.fin (5033165 / 8388608)) k)
        = some 127 := by
    intro k _
    rw [castValue_eval (fun _ : Nat => (Fv.fin (5033165 / 16777216) : Fv ℝ)) k (5033165 / 16777216) (5033165 / 8388608) (3738339385890139 / 8796093022208)
      (13926399 / 32768) (16711679 / 131072) (16777215 / 131072) (by norm_num) rfl hd hf ht hv,
      (castU8_fin _ (by norm_num) (by norm_num)).1, hfloor]
    rfl
  have hmain : ∃ q1, mrf1F (fun x : ℝ => roundD (Real.exp x)) ⟨1, 1, 1, 2⟩ (fun _ => 0)
      (fun _ => Fv.fin (5033165 / 16777216)) ⟨fun _ => Fv.fin 0, fun _ => 0⟩
      (fun _ => Fv.fin 1) 2 = some q1 ∧ q1 0 = 127 ∧ q1 1 = 127 := by
    rw [mrf1F_single_eq _ exp_model_zero 2 2 (by norm_num) (by norm_num) _ _ _ _
      (fun _ _ => hfl) (fun i => ⟨0, rfl⟩), hsum,
      writeBackF_some 2 1 0 (by norm_num) _ _ _ (fun _ => 127) hcv]
    exact ⟨_, rfl, by simp, by simp⟩
  refine ⟨hmain, ?_⟩
  have e : (255 : ℝ) * (5033165 / 16777216) / (5033165 / 16777216 + 5033165 / 16777216) + 1 / 2 = ((128 : Int) : ℝ) := by norm_num
  rw [e, Int.floor_intCast]
  rfl

/-- C1, amended: for each of the five modes, every anisotropy vector, every interaction
structure with finite entries and a library `exp` with `exp(0) = 1`: on a single-voxel
grid with finite `float` priors, one call of `mrf1` stores for every class `k` the byte
`(unsigned char)(fl(p[k]*s) + 0.5)`, where `s = fl(255.0/S)` and `S` is the `float` sum
`((0 + p[0]) + p[1]) + ...` of the priors (`castValue p (fsumF p K) k`), whatever the
initial responsibilities, the interaction weights and the anisotropy are; the call is
undefined when one of these values is outside the range of `unsigned char`.  When moreover
`K ≤ 1024`, the priors are non-negative and `S ≥ 2^-120`, the call is defined, every byte is
at most 255, and the byte of class `k` is the round-half-up `n` of `255*p[k]/S` whenever
`255*p[k]/S + 1/2` is at least `2^-12` above `n` and more than `2^-12` below `n + 1`. -/
theorem single_voxel_rounded {α : Type} [LinearOrderedField α] [FloorRing α] (ex : α → Fv α)
    (hex : ex 0 = Fv.fin 1) (K code : Nat) (h1 : 1 ≤ code) (h5 : code ≤ 5) (q : Nat → Nat)
    (p : Nat → Fv α) (G : GMem (Fv α)) (w : Nat → Fv α)
    (hp : ∀ k, k < K → IsFiniteFloat (p k)) (hG : ∀ i, ∃ g, G.asFloat i = Fv.fin g) :
    (∀ b : Nat → Nat, (∀ k, k < K → castU8 (castValue p (fsumF p K) k) = some (b k)) →
      ∃ q1, mrf1F ex ⟨1, 1, 1, K⟩ q p G w code = some q1 ∧ (∀ k, k < K → q1 k = b k) ∧
        ∀ o, K ≤ o → q1 o = q o) ∧
    ((∃ k, k < K ∧ castU8 (castValue p (fsumF p K) k) = none) →
      mrf1F ex ⟨1, 1, 1, K⟩ q p G w code = none) ∧
    (K ≤ 1024 → ∀ (xs : Nat → α) (s : α), (∀ k, k < K → p k = Fv.fin (xs k) ∧ 0 ≤ xs k) →
      fsumF p K = Fv.fin s → 1 / 2 ^ 120 ≤ s →
      ∃ q1, mrf1F ex ⟨1, 1, 1, K⟩ q p G w code = some q1 ∧
        ∀ k, k < K → q1 k ≤ 255 ∧
          ∀ n : Nat, (n : α) + 1 / 2 ^ 12 ≤ 255 * xs k / s + 1 / 2 →
            255 * xs k / s + 1 / 2 + 1 / 2 ^ 12 < (n : α) + 1 → q1 k = n) := by
  refine ⟨?_, ?_, ?_⟩
  rotate_left 2
  · intro hK xs s hxs hsum hs0
    obtain ⟨hI1, hI2⟩ := interactionF_single ex hex K code h1 h5 q p G w hp hG
    obtain ⟨vals, q1, hq, h⟩ := voxelF_range ex ⟨1, 1, 1, K⟩ p G w code h1 h5 hK (0, 0, 0)
      ⟨Nat.one_pos, Nat.one_pos, Nat.one_pos⟩ q xs s
      (fun k hk => ⟨(hI1 k hk).trans (hxs k hk).1, (hxs k hk).2⟩) (hI2.trans hsum) hs0
    rw [mrf1F_single]
    refine ⟨q1, hq, fun k hk => ?_⟩
    have e : voxOff ⟨1, 1, 1, K⟩ 0 0 0 + k * nvox ⟨1, 1, 1, K⟩ = k := by simp [voxOff, nvox]
    have hk2 := (h k hk).2.2.2.2.2.2
    rw [show voxOff ⟨1, 1, 1, K⟩ (0, 0, 0).1 (0, 0, 0).2.1 (0, 0, 0).2.2
      + k * nvox ⟨1, 1, 1, K⟩ = k from e] at hk2
    exact hk2
  all_goals rw [mrf1F_single_eq ex hex K code h1 h5 q p G w hp hG]
  · intro b hb
    rw [writeBackF_some K 1 0 (by decide) p _ q b hb]
    refine ⟨_, rfl, ?_, ?_⟩
    · intro k hk
      simp [hk, Nat.mod_one]
    · intro o ho
      have : ¬ o < K := by omega
      simp [this]
  · rintro ⟨k, hk, hn⟩
    exact writeBackF_none K 1 0 p _ q k hk hn

theorem single_voxel_rounded_witness :
    ∃ q1, mrf1F (fun x : ℝ => roundD (Real.exp x)) ⟨1, 1, 1, 2⟩ (fun _ => 7)
        (fun _ => Fv.fin (1 / 2)) ⟨fun _ => Fv.fin 3, fun _ => 9⟩ (fun _ => Fv.fin 5) 4
          = some q1 ∧ (∀ k, k < 2 → q1 k = 128) ∧ ∀ o, 2 ≤ o → q1 o = 7 := by
  have hfl : IsFiniteFloat (Fv.fin ((1 / 2) : ℝ)) := by
    have h := isFiniteFloat_dyadic (α := ℝ) 1 (-1) (by norm_num) (by norm_num)
      (by norm_num) (by norm_num)
    have e : (((1 : Nat) : ℝ) * (2 : ℝ) ^ ((-1) : Int)) = 1 / 2 := by norm_num
    rw [e] at h
    exact h
  have hsum : fsumF (fun _ : Nat => (Fv.fin (1 / 2) : Fv ℝ)) 2 = Fv.fin 1 := by
    have h := fsumF_const (α := ℝ) 1 (-1) (by norm_num) (by norm_num) (by norm_num) 2
      (by norm_num)
    have e1 : (((1 : Nat) : ℝ) * (2 : ℝ) ^ ((-1) : Int)) = 1 / 2 := by norm_num
    have e2 : ((((2 * 1 : Nat) : Nat) : ℝ) * (2 : ℝ) ^ ((-1) : Int)) = 1 := by norm_num
    rw [e1, e2] at h
    exact h
  have hd : roundD ((255 / 1) : ℝ) = Fv.fin 255 := by
    have h := roundTo_near 53 1023 ((255 / 1) : ℝ) 7 8972014882652160
      (by norm_num) (by norm_num) (by norm_num) (by norm_num) (by norm_num) (by norm_num)
    unfold roundD
    rw [h]
    norm_num
  have hf : roundF (255 : ℝ) = Fv.fin 255 := by
    have h := roundTo_near 24 127 (255 : ℝ) 7 16711680
      (by norm_num) (by norm_num) (by norm_num) (by norm_num) (by norm_num) (by norm_num)
    unfold roundF
    rw [h]
    norm_num
  have ht : roundF ((1 / 2 * 255) : ℝ) = Fv.fin (255 / 2) := by
    have h := roundTo_near 24 127 ((1 / 2 * 255) : ℝ) 6 16711680
      (by norm_num) (by norm_num) (by norm_num) (by norm_num) (by norm_num) (by norm_num)
    unfold roundF
    rw [h]
    norm_num
  have hv : roundD ((255 / 2 + 1 / 2) : ℝ) = Fv.fin 128 := by
    have h := roundTo_near 53 1023 ((255 / 2 + 1 / 2) : ℝ) 7 4503599627370496
      (by norm_num) (by norm_num) (by norm_num) (by norm_num) (by norm_num) (by norm_num)
    unfold roundD
    rw [h]
    norm_num
  have hfloor : Int.floor (128 : ℝ) = 128 := by
    rw [Int.floor_eq_iff]
    norm_num
  have hcv : ∀ k, k < 2 →
      castU8 (castValue (fun _ : Nat => (Fv.fin (1 / 2) : Fv ℝ)) (Fv.fin 1) k)
        = some 128 := by
    intro k _
    rw [castValue_eval (fun _ : Nat => (Fv.fin (1 / 2) : Fv ℝ)) k (1 / 2) 1 255
      255 (255 / 2) 128 (by norm_num) rfl hd hf ht hv,
      (castU8_fin _ (by norm_num) (by norm_num)).1, hfloor]
    rfl
  exact (single_voxel_rounded (fun x : ℝ => roundD (Real.exp x)) exp_model_zero 2 4
    (by decide) (by decide) (fun _ => 7) (fun _ => Fv.fin (1 / 2))
    ⟨fun _ => Fv.fin 3, fun _ => 9⟩ (fun _ => Fv.fin 5) (fun _ _ => hfl)
    (fun i => ⟨3, rfl⟩)).1 (fun _ => 128) (by rw [hsum]; exact hcv)

/-- Single voxel, 511 classes, every prior 1: every byte written is 0. -/
theorem all_zero_511 :
    (∃ q1, mrf1F (fun x : ℝ => roundD (Real.exp x)) ⟨1, 1, 1, 511⟩ (fun _ => 0)
        (fun _ => Fv.fin 1) ⟨fun _ => Fv.fin 0, fun _ => 0⟩
        (fun _ => Fv.fin 1) 2 = some q1 ∧ ∀ k, k < 511 → q1 k = 0) := by
  have hfl : IsFiniteFloat (Fv.fin (1 : ℝ)) := by
    have h := isFiniteFloat_dyadic (α := ℝ) 1 0 (by norm_num) (by norm_num)
      (by norm_num) (by norm_num)
    have e : (((1 : Nat) : ℝ) * (2 : ℝ) ^ (0 : Int)) = 1 := by norm_num
    rw [e] at h
    exact h
  have hsum : fsumF (fun _ : Nat => (Fv.fin 1 : Fv ℝ)) 511 = Fv.fin 511 := by
    have h := fsumF_const (α := ℝ) 1 0 (by norm_num) (by norm_num) (by norm_num) 511
      (by norm_num)
    have e1 : (((1 : Nat) : ℝ) * (2 : ℝ) ^ (0 : Int)) = 1 := by norm_num
    have e2 : ((((511 * 1 : Nat) : Nat) : ℝ) * (2 : ℝ) ^ (0 : Int)) = 511 := by norm_num
    rw [e1, e2] at h
    exact h
  have hd : roundD ((255 / 511) : ℝ) = Fv.fin (8989572641718015 / 18014398509481984) := by
    have h := roundTo_near 53 1023 ((255 / 511) : ℝ) (-2) 8989572641718015
      (by norm_num) (by norm_num) (by norm_num) (by norm_num) (by norm_num) (by norm_num)
    unfold roundD
    rw [h]
    norm_num
  have hf : roundF ((8989572641718015 / 18014398509481984) : ℝ) = Fv.fin (261631 / 524288) := by
    have h := roundTo_near 24 127 ((8989572641718015 / 18014398509481984) : ℝ) (-2) 16744384
      (by norm_num) (by norm_num) (by norm_num) (by norm_num) (by norm_num) (by norm_num)
    unfold roundF
    rw [h]
    norm_num
  have ht : roundF ((1 * (261631 / 524288)) : ℝ) = Fv.fin (261631 / 524288) := by
    have h := roundTo_near 24 127 ((1 * (261631 / 524288)) : ℝ) (-2) 16744384
      (by norm_num) (by norm_num) (by norm_num) (by norm_num) (by norm_num) (by norm_num)
    unfold roundF
    rw [h]
    norm_num
  have hv : roundD ((261631 / 524288 + 1 / 2) : ℝ) = Fv.fin (523775 / 524288) := by
    have h := roundTo_near 53 1023 ((261631 / 524288 + 1 / 2) : ℝ) (-1) 8998385981849600
      (by norm_num) (by norm_num) (by norm_num) (by norm_num) (by norm_num) (by norm_num)
    unfold roundD
    rw [h]
    norm_num
  have hfloor : Int.floor ((523775 / 524288) : ℝ) = 0 := by
    rw [Int.floor_eq_iff]
    norm_num
  have hcv : ∀ k, k < 511 →
      castU8 (castValue (fun _ : Nat => (Fv.fin 1 : Fv ℝ)) (Fv.fin 511) k)
        = some 0 := by
    intro k _
    rw [castValue_eval (fun _ : Nat => (Fv.fin 1 : Fv ℝ)) k 1 511 (8989572641718015 / 18014398509481984)
      (261631 / 524288) (261631 / 524288) (523775 / 524288) (by norm_num) rfl hd hf ht hv,
      (castU8_fin _ (by norm_num) (by norm_num)).1, hfloor]
    rfl
  have hmain : ∃ q1, mrf1F (fun x : ℝ => roundD (Real.exp x)) ⟨1, 1, 1, 511⟩ (fun _ => 0)
      (fun _ => Fv.fin 1) ⟨fun _ => Fv.fin 0, fun _ => 0⟩
      (fun _ => Fv.fin 1) 2 = some q1 ∧ ∀ k, k < 511 → q1 k = 0 := by
    rw [mrf1F_single_eq _ exp_model_zero 511 2 (by norm_num) (by norm_num) _ _ _ _
      (fun _ _ => hfl) (fun i => ⟨0, rfl⟩), hsum,
      writeBackF_some 511 1 0 (by norm_num) _ _ _ (fun _ => 0) hcv]
    exact ⟨_, rfl, fun k hk => by simp [hk, Nat.mod_one]⟩
  exact hmain

/-- Single voxel, 510 classes, every prior 2.5625: every byte written is 0. -/
theorem all_zero_510 :
    (∃ q1, mrf1F (fun x : ℝ => roundD (Real.exp x)) ⟨1, 1, 1, 510⟩ (fun _ => 0)
        (fun _ => Fv.fin (41 / 16)) ⟨fun _ => Fv.fin 0, fun _ => 0⟩
        (fun _ => Fv.fin 1) 2 = some q1 ∧ ∀ k, k < 510 → q1 k = 0) := by
  have hfl : IsFiniteFloat (Fv.fin ((41 / 16) : ℝ)) := by
    have h := isFiniteFloat_dyadic (α := ℝ) 41 (-4) (by norm_num) (by norm_num)
      (by norm_num) (by norm_num)
    have e : (((41 : Nat) : ℝ) * (2 : ℝ) ^ ((-4) : Int)) = 41 / 16 := by norm_num
    rw [e] at h
    exact h
  have hsum : fsumF (fun _ : Nat => (Fv.fin (41 / 16) : Fv ℝ)) 510 = Fv.fin (10455 / 8) := by
    have h := fsumF_const (α := ℝ) 41 (-4) (by norm_num) (by norm_num) (by norm_num) 510
      (by norm_num)
    have e1 : (((41 : Nat) : ℝ) * (2 : ℝ) ^ ((-4) : Int)) = 41 / 16 := by norm_num
    have e2 : ((((510 * 41 : Nat) : Nat) : ℝ) * (2 : ℝ) ^ ((-4) : Int)) = 10455 / 8 := by norm_num
    rw [e1, e2] at h
    exact h
  have hd : roundD ((255 / (10455 / 8)) : ℝ) = Fv.fin (3515004587215997 / 18014398509481984) := by
    have h := roundTo_near 53 1023 ((255 / (10455 / 8)) : ℝ) (-3) 7030009174431994
      (by norm_num) (by norm_num) (by norm_num) (by norm_num) (by norm_num) (by norm_num)
    unfold roundD
    rw [h]
    norm_num
  have hf : roundF ((3515004587215997 / 18014398509481984) : ℝ) = Fv.fin (3273603 / 16777216) := by
    have h := roundTo_near 24 127 ((3515004587215997 / 18014398509481984) : ℝ) (-3) 13094412
      (by norm_num) (by norm_num) (by norm_num) (by norm_num) (by norm_num) (by norm_num)
    unfold roundF
    rw [h]
    norm_num
  have ht : roundF ((41 / 16 * (3273603 / 16777216)) : ℝ) = Fv.fin (16777215 / 33554432) := by
    have h := roundTo_near 24 127 ((41 / 16 * (3273603 / 16777216)) : ℝ) (-2) 16777215
      (by norm_num) (by norm_num) (by norm_num) (by norm_num) (by norm_num) (by norm_num)
    unfold roundF
    rw [h]
    norm_num
  have hv : roundD ((16777215 / 33554432 + 1 / 2) : ℝ) = Fv.fin (33554431 / 33554432) := by
    have h := roundTo_near 53 1023 ((16777215 / 33554432 + 1 / 2) : ℝ) (-1) 9007198986305536
      (by norm_num) (by norm_num) (by norm_num) (by norm_num) (by norm_num) (by norm_num)
    unfold roundD
    rw [h]
    norm_num
  have hfloor : Int.floor ((33554431 / 33554432) : ℝ) = 0 := by
    rw [Int.floor_eq_iff]
    norm_num
  have hcv : ∀ k, k < 510 →
      castU8 (castValue (fun _ : Nat => (Fv.fin (41 / 16) : Fv ℝ)) (Fv.fin (10455 / 8)) k)
        = some 0 := by
    intro k _
    rw [castValue_eval (fun _ : Nat => (Fv.fin (41 / 16) : Fv ℝ)) k (41 / 16) (10455 / 8) (3515004587215997 / 18014398509481984)
      (3273603 / 16777216) (16777215 / 33554432) (33554431 / 33554432) (by norm_num) rfl hd hf ht hv,
      (castU8_fin _ (by norm_num) (by norm_num)).1, hfloor]
    rfl
  have hmain : ∃ q1, mrf1F (fun x : ℝ => roundD (Real.exp x)) ⟨1, 1, 1, 510⟩ (fun _ => 0)
      (fun _ => Fv.fin (41 / 16)) ⟨fun _ => Fv.fin 0, fun _ => 0⟩
      (fun _ => Fv.fin 1) 2 = some q1 ∧ ∀ k, k < 510 → q1 k = 0 := by
    rw [mrf1F_single_eq _ exp_model_zero 510 2 (by norm_num) (by norm_num) _ _ _ _
      (fun _ _ => hfl) (fun i => ⟨0, rfl⟩), hsum,
      writeBackF_some 510 1 0 (by norm_num) _ _ _ (fun _ => 0) hcv]
    exact ⟨_, rfl, fun k hk => by simp [hk, Nat.mod_one]⟩
  exact hmain

/-- C12 as stated fails: on the single-voxel grid with 511 classes and every prior 1 (total
511 > 0), every class is written the byte 0, since `255/511 + 0.5 < 1`; and with 510 classes
and every prior 2.5625 (total 1306.875) every class is written 0 as well, because the stored
`float` scale `255.0/se` is rounded down and `e[k]*se` becomes `0.49999997`. -/
theorem nonzero_byte_counterexample :
    (∃ q1, mrf1F (fun x : ℝ => roundD (Real.exp x)) ⟨1, 1, 1, 511⟩ (fun _ => 0)
        (fun _ => Fv.fin 1) ⟨fun _ => Fv.fin 0, fun _ => 0⟩
        (fun _ => Fv.fin 1) 2 = some q1 ∧ ∀ k, k < 511 → q1 k = 0) ∧
    (∃ q1, mrf1F (fun x : ℝ => roundD (Real.exp x)) ⟨1, 1, 1, 510⟩ (fun _ => 0)
        (fun _ => Fv.fin (41 / 16)) ⟨fun _ => Fv.fin 0, fun _ => 0⟩
        (fun _ => Fv.fin 1) 2 = some q1 ∧ ∀ k, k < 510 → q1 k = 0) :=
  ⟨all_zero_511, all_zero_510⟩

/-- C12, amended: in every mode, for every class count `1 ≤ K ≤ 509` and every voxel update
in which the values `e[k]` are finite and non-negative and their `float` total `se` is finite
and at least `2^-120` (so that `255.0/se` does not overflow a `float`), the update is defined
and at least one class of the voxel is written a non-zero byte. -/
theorem nonzero_byte {α : Type} [LinearOrderedField α] [FloorRing α] (ex : α → Fv α)
    (dm : Dims) (p : Nat → Fv α) (G : GMem (Fv α)) (w : Nat → Fv α) (code : Nat)
    (h1 : 1 ≤ code) (h5 : code ≤ 5) (hK1 : 1 ≤ dm.d3) (hK : dm.d3 ≤ 509)
    (x : Nat × Nat × Nat) (hx : inGrid dm x) (q : Nat → Nat) (xs : Nat → α) (s : α)
    (he : ∀ k, k < dm.d3 →
      (interactionF ex dm p G code (voxOff dm x.1 x.2.1 x.2.2)
        (influenceF dm q w x.1 x.2.1 x.2.2)).1 k = Fv.fin (xs k) ∧ 0 ≤ xs k)
    (hs : (interactionF ex dm p G code (voxOff dm x.1 x.2.1 x.2.2)
        (influenceF dm q w x.1 x.2.1 x.2.2)).2 = Fv.fin s)
    (hs0 : 1 / 2 ^ 120 ≤ s) :
    ∃ q1, voxelF ex dm p G w code x.1 x.2.1 x.2.2 q = some q1 ∧
      ∃ k, k < dm.d3 ∧ 1 ≤ q1 (voxOff dm x.1 x.2.1 x.2.2 + k * nvox dm) := by
  obtain ⟨r, vals, q1, hr0, hr1, hrs, -, hvals, hq, hbytes⟩ :=
    voxelF_values ex dm p G w code h1 h5 (by omega) x hx q xs s he hs hs0
  have hsum := interactionF_sum ex dm p G code h1 h5 (voxOff dm x.1 x.2.1 x.2.2)
    (influenceF dm q w x.1 x.2.1 x.2.2)
  rw [hs] at hsum
  obtain ⟨-, -, -, hup⟩ := fsumF_bounds _ xs dm.d3 s he hsum.symm
  obtain ⟨k, hk, hmax⟩ := Finset.exists_max_image (Finset.range dm.d3) xs
    ⟨0, Finset.mem_range.2 (by omega)⟩
  have hk' : k < dm.d3 := Finset.mem_range.1 hk
  have hM := max_scale_ge dm.d3 hK (xs k) s r (he k hk').2
    (hup (xs k) (he k hk').2 (fun j hj => hmax j (Finset.mem_range.2 hj))) hr0 hr1 hrs
  refine ⟨q1, hq, k, hk', ?_⟩
  rw [hbytes k hk']
  obtain ⟨-, hlow, -, -⟩ := hvals k hk'
  have hone : ((1 : Int) : α) ≤ vals k := by
    have c : (1 : α) ≤ 1 / 2 + 1 / 2 ^ 12 + 1 / 2 - 1 / 2 ^ 14 := by norm_num
    push_cast
    linarith only [c, hM, hlow]
  have hfl : (1 : Int) ≤ Int.floor (vals k) := Int.le_floor.2 hone
  omega

theorem nonzero_byte_witness :
    ∃ q1, voxelF (fun x : ℝ => roundD (Real.exp x)) ⟨1, 1, 1, 2⟩ (fun _ => Fv.fin (1 / 2))
        ⟨fun _ => Fv.fin 0, fun _ => 0⟩ (fun _ => Fv.fin 1) 2 0 0 0 (fun _ => 200) = some q1 ∧
      ∃ k, k < 2 ∧ 1 ≤ q1 (voxOff ⟨1, 1, 1, 2⟩ 0 0 0 + k * nvox ⟨1, 1, 1, 2⟩) := by
  have hfl : IsFiniteFloat (Fv.fin ((1 / 2) : ℝ)) := by
    have h := isFiniteFloat_dyadic (α := ℝ) 1 (-1) (by norm_num) (by norm_num)
      (by norm_num) (by norm_num)
    have e : (((1 : Nat) : ℝ) * (2 : ℝ) ^ ((-1) : Int)) = 1 / 2 := by norm_num
    rw [e] at h
    exact h
  have hsum : fsumF (fun _ : Nat => (Fv.fin (1 / 2) : Fv ℝ)) 2 = Fv.fin 1 := by
    have h := fsumF_const (α := ℝ) 1 (-1) (by norm_num) (by norm_num) (by norm_num) 2
      (by norm_num)
    have e1 : (((1 : Nat) : ℝ) * (2 : ℝ) ^ ((-1) : Int)) = 1 / 2 := by norm_num
    have e2 : ((((2 * 1 : Nat) : Nat) : ℝ) * (2 : ℝ) ^ ((-1) : Int)) = 1 := by norm_num
    rw [e1, e2] at h
    exact h
  obtain ⟨hI1, hI2⟩ := interactionF_single (fun x : ℝ => roundD (Real.exp x)) exp_model_zero
    2 2 (by decide) (by decide) (fun _ => 200) (fun _ => Fv.fin (1 / 2))
    ⟨fun _ => Fv.fin 0, fun _ => 0⟩ (fun _ => Fv.fin 1) (fun _ _ => hfl) (fun i => ⟨0, rfl⟩)
  exact nonzero_byte (fun x : ℝ => roundD (Real.exp x)) ⟨1, 1, 1, 2⟩ (fun _ => Fv.fin (1 / 2))
    ⟨fun _ => Fv.fin 0, fun _ => 0⟩ (fun _ => Fv.fin 1) 2 (by decide) (by decide) (by decide)
    (by decide) (0, 0, 0) (by decide) (fun _ => 200) (fun _ => 1 / 2) 1
    (fun k hk => ⟨hI1 k hk, by norm_num⟩) (hI2.trans hsum) (by norm_num)

/-- Single voxel, two classes, both priors 7: both bytes written are 127. -/
theorem round_half_down_7 :
    (∃ q1, mrf1F (fun x : ℝ => roundD (Real.exp x)) ⟨1, 1, 1, 2⟩ (fun _ => 0)
        (fun _ => Fv.fin 7) ⟨fun _ => Fv.fin 0, fun _ => 0⟩
        (fun _ => Fv.fin 1) 2 = some q1 ∧ q1 0 = 127 ∧ q1 1 = 127) := by
  have hfl : IsFiniteFloat (Fv.fin (7 : ℝ)) := by
    have h := isFiniteFloat_dyadic (α := ℝ) 7 0 (by norm_num) (by norm_num)
      (by norm_num) (by norm_num)
    have e : (((7 : Nat) : ℝ) * (2 : ℝ) ^ (0 : Int)) = 7 := by norm_num
    rw [e] at h
    exact h
  have hsum : fsumF (fun _ : Nat => (Fv.fin 7 : Fv ℝ)) 2 = Fv.fin 14 := by
    have h := fsumF_const (α := ℝ) 7 0 (by norm_num) (by norm_num) (by norm_num) 2
      (by norm_num)
    have e1 : (((7 : Nat) : ℝ) * (2 : ℝ) ^ (0 : Int)) = 7 := by norm_num
    have e2 : ((((2 * 7 : Nat) : Nat) : ℝ) * (2 : ℝ) ^ (0 : Int)) = 14 := by norm_num
    rw [e1, e2] at h
    exact h
  have hd : roundD ((255 / 14) : ℝ) = Fv.fin (2563432823614903 / 140737488355328) := by
    have h := roundTo_near 53 1023 ((255 / 14) : ℝ) 4 5126865647229806
      (by norm_num) (by norm_num) (by norm_num) (by norm_num) (by norm_num) (by norm_num)
    unfold roundD
    rw [h]
    norm_num
  have hf : roundF ((2563432823614903 / 140737488355328) : ℝ) = Fv.fin (9549531 / 524288) := by
    have h := roundTo_near 24 127 ((2563432823614903 / 140737488355328) : ℝ) 4 9549531
      (by norm_num) (by norm_num) (by norm_num) (by norm_num) (by norm_num) (by norm_num)
    unfold roundF
    rw [h]
    norm_num
  have ht : roundF ((7 * (9549531 / 524288)) : ℝ) = Fv.fin (16711679 / 131072) := by
    have h := roundTo_near 24 127 ((7 * (9549531 / 524288)) : ℝ) 6 16711679
      (by norm_num) (by norm_num) (by norm_num) (by norm_num) (by norm_num) (by norm_num)
    unfold roundF
    rw [h]
    norm_num
  have hv : roundD ((16711679 / 131072 + 1 / 2) : ℝ) = Fv.fin (16777215 / 131072) := by
    have h := roundTo_near 53 1023 ((16711679 / 131072 + 1 / 2) : ℝ) 6 9007198717870080
      (by norm_num) (by norm_num) (by norm_num) (by norm_num) (by norm_num) (by norm_num)
    unfold roundD
    rw [h]
    norm_num
  have hfloor : Int.floor ((16777215 / 131072) : ℝ) = 127 := by
    rw [Int.floor_eq_iff]
    norm_num
  have hcv : ∀ k, k < 2 →
      castU8 (castValue (fun _ : Nat => (Fv.fin 7 : Fv ℝ)) (Fv.fin 14) k)
        = some 127 := by
    intro k _
    rw [castValue_eval (fun _ : Nat => (Fv.fin 7 : Fv ℝ)) k 7 14 (2563432823614903 / 140737488355328)
      (9549531 / 524288) (16711679 / 131072) (16777215 / 131072) (by norm_num) rfl hd hf ht hv,
      (castU8_fin _ (by norm_num) (by norm_num)).1, hfloor]
    rfl
  have hmain : ∃ q1, mrf1F (fun x : ℝ => roundD (Real.exp x)) ⟨1, 1, 1, 2⟩ (fun _ => 0)
      (fun _ => Fv.fin 7) ⟨fun _ => Fv.fin 0, fun _ => 0⟩
      (fun _ => Fv.fin 1) 2 = some q1 ∧ q1 0 = 127 ∧ q1 1 = 127 := by
    rw [mrf1F_single_eq _ exp_model_zero 2 2 (by norm_num) (by norm_num) _ _ _ _
      (fun _ _ => hfl) (fun i => ⟨0, rfl⟩), hsum,
      writeBackF_some 2 1 0 (by norm_num) _ _ _ (fun _ => 127) hcv]
    exact ⟨_, rfl, by simp, by simp⟩
  exact hmain

/-- Single voxel, priors `2^-125` and `0`: the scale `255.0/se` overflows in `float`. -/
theorem scale_overflow :
    (interactionF (fun x : ℝ => roundD (Real.exp x)) ⟨1, 1, 1, 2⟩
          (fun k => if k = 0 then Fv.fin (1 / 2 ^ 125) else Fv.fin 0)
          ⟨fun _ => Fv.fin 0, fun _ => 0⟩ 2 (voxOff ⟨1, 1, 1, 2⟩ 0 0 0)
          (influenceF ⟨1, 1, 1, 2⟩ (fun _ => 0) (fun _ => Fv.fin 1) 0 0 0)).2
        = Fv.fin (1 / 2 ^ 125) ∧
      castValue
        (interactionF (fun x : ℝ => roundD (Real.exp x)) ⟨1, 1, 1, 2⟩
          (fun k => if k = 0 then Fv.fin (1 / 2 ^ 125) else Fv.fin 0)
          ⟨fun _ => Fv.fin 0, fun _ => 0⟩ 2 (voxOff ⟨1, 1, 1, 2⟩ 0 0 0)
          (influenceF ⟨1, 1, 1, 2⟩ (fun _ => 0) (fun _ => Fv.fin 1) 0 0 0)).1
        (interactionF (fun x : ℝ => roundD (Real.exp x)) ⟨1, 1, 1, 2⟩
          (fun k => if k = 0 then Fv.fin (1 / 2 ^ 125) else Fv.fin 0)
          ⟨fun _ => Fv.fin 0, fun _ => 0⟩ 2 (voxOff ⟨1, 1, 1, 2⟩ 0 0 0)
          (influenceF ⟨1, 1, 1, 2⟩ (fun _ => 0) (fun _ => Fv.fin 1) 0 0 0)).2 0
        = Fv.pinf ∧
      voxelF (fun x : ℝ => roundD (Real.exp x)) ⟨1, 1, 1, 2⟩
        (fun k => if k = 0 then Fv.fin (1 / 2 ^ 125) else Fv.fin 0)
        ⟨fun _ => Fv.fin 0, fun _ => 0⟩ (fun _ => Fv.fin 1) 2 0 0 0 (fun _ => 0) = none := by
  have hx0 : ((1 : ℝ) / 2 ^ 125) ≠ 0 := by positivity
  have hxpos : (0 : ℝ) < 1 / 2 ^ 125 := by positivity
  have hfl : IsFiniteFloat (Fv.fin ((1 / 2 ^ 125) : ℝ)) := by
    have h := isFiniteFloat_dyadic (α := ℝ) 1 (-125) (by norm_num) (by norm_num)
      (by norm_num) (by norm_num)
    have e : (((1 : Nat) : ℝ) * (2 : ℝ) ^ ((-125) : Int)) = 1 / 2 ^ 125 := by norm_num
    rw [e] at h
    exact h
  have hrF : roundF ((1 / 2 ^ 125) : ℝ) = Fv.fin (1 / 2 ^ 125) := by
    obtain ⟨y, hy, hF, -⟩ := hfl
    cases hy
    exact hF
  have hp : ∀ k, k < 2 → IsFiniteFloat
      (((fun k => if k = 0 then Fv.fin (1 / 2 ^ 125) else Fv.fin 0) : Nat → Fv ℝ) k) := by
    intro k hk
    by_cases h0 : k = 0
    · simp only [h0, if_true]
      exact hfl
    · simp only [h0, if_false]
      exact isFiniteFloat_zero
  have hsum : fsumF ((fun k => if k = 0 then Fv.fin (1 / 2 ^ 125) else Fv.fin 0) : Nat → Fv ℝ) 2
      = Fv.fin (1 / 2 ^ 125) := by
    show addF (addF (Fv.fin 0) (Fv.fin (1 / 2 ^ 125))) (Fv.fin 0) = _
    have a1 : addF (Fv.fin (0 : ℝ)) (Fv.fin (1 / 2 ^ 125)) = Fv.fin (1 / 2 ^ 125) := by
      show roundF (0 + 1 / 2 ^ 125) = _
      rw [zero_add]
      exact hrF
    have a2 : addF (Fv.fin ((1 / 2 ^ 125) : ℝ)) (Fv.fin 0) = Fv.fin (1 / 2 ^ 125) := by
      show roundF (1 / 2 ^ 125 + 0) = _
      rw [add_zero]
      exact hrF
    rw [a1, a2]
  have hd : roundD ((255 / (1 / 2 ^ 125)) : ℝ) = Fv.fin (255 * 2 ^ 125) := by
    have h := roundTo_dyadic (α := ℝ) 53 1023 255 125 (by norm_num) (by norm_num)
      (by norm_num) (by norm_num)
    have e1 : ((255 : Nat) : ℝ) * (2 : ℝ) ^ (125 : Int) = 255 / (1 / 2 ^ 125) := by norm_num
    have e2 : ((255 : Nat) : ℝ) * (2 : ℝ) ^ (125 : Int) = 255 * 2 ^ 125 := by norm_num
    unfold roundD
    rw [← e1, h, e2]
  have hf : roundF ((255 * 2 ^ 125) : ℝ) = Fv.pinf := by
    unfold roundF
    exact roundTo_near_inf 24 127 ((255 * 2 ^ 125) : ℝ) 132 16711680
      (by norm_num) (by norm_num) (by norm_num) (by norm_num) (by norm_num) (by norm_num)
  have hcv : castValue ((fun k => if k = 0 then Fv.fin (1 / 2 ^ 125) else Fv.fin 0) : Nat → Fv ℝ)
      (Fv.fin (1 / 2 ^ 125)) 0 = Fv.pinf := by
    unfold castValue
    simp only [divD, Fv.div, hx0, if_false, hd, toF, hf, if_true, mulF, Fv.mul, Fv.infTimes,
      hxpos, addD, Fv.add]
  obtain ⟨hI1, hI2⟩ := interactionF_single (fun x : ℝ => roundD (Real.exp x)) exp_model_zero
    2 2 (by decide) (by decide) (fun _ => 0) (fun k => if k = 0 then Fv.fin (1 / 2 ^ 125) else Fv.fin 0)
    ⟨fun _ => Fv.fin 0, fun _ => 0⟩ (fun _ => Fv.fin 1) hp (fun i => ⟨0, rfl⟩)
  refine ⟨hI2.trans hsum, ?_, ?_⟩
  · rw [hI2, hsum]
    unfold castValue
    rw [hI1 0 (by decide)]
    exact hcv
  · rw [← mrf1F_single, mrf1F_single_eq _ exp_model_zero 2 2 (by decide) (by decide) _ _ _ _
      hp (fun i => ⟨0, rfl⟩), hsum]
    exact writeBackF_none 2 1 0 _ _ _ 0 (by decide) (by rw [hcv]; rfl)

/-- C13 as stated fails.  1 On the single-voxel grid with priors `2^-125` and `0` the total
is positive and finite, but `se = 255.0/se` overflows when it is stored into the `float`
`se`: the value cast for class 0 is `+inf`, outside `[0, 256)`, and
the conversion is undefined.  2 With both priors 7 the value cast is `127.99999` and the
stored byte is 127, while the round-half-up of `255*7/14` is 128. -/
theorem cast_value_counterexample :
    ((interactionF (fun x : ℝ => roundD (Real.exp x)) ⟨1, 1, 1, 2⟩
          (fun k => if k = 0 then Fv.fin (1 / 2 ^ 125) else Fv.fin 0)
          ⟨fun _ => Fv.fin 0, fun _ => 0⟩ 2 (voxOff ⟨1, 1, 1, 2⟩ 0 0 0)
          (influenceF ⟨1, 1, 1, 2⟩ (fun _ => 0) (fun _ => Fv.fin 1) 0 0 0)).2
        = Fv.fin (1 / 2 ^ 125) ∧
      castValue
        (interactionF (fun x : ℝ => roundD (Real.exp x)) ⟨1, 1, 1, 2⟩
          (fun k => if k = 0 then Fv.fin (1 / 2 ^ 125) else Fv.fin 0)
          ⟨fun _ => Fv.fin 0, fun _ => 0⟩ 2 (voxOff ⟨1, 1, 1, 2⟩ 0 0 0)
          (influenceF ⟨1, 1, 1, 2⟩ (fun _ => 0) (fun _ => Fv.fin 1) 0 0 0)).1
        (interactionF (fun x : ℝ => roundD (Real.exp x)) ⟨1, 1, 1, 2⟩
          (fun k => if k = 0 then Fv.fin (1 / 2 ^ 125) else Fv.fin 0)
          ⟨fun _ => Fv.fin 0, fun _ => 0⟩ 2 (voxOff ⟨1, 1, 1, 2⟩ 0 0 0)
          (influenceF ⟨1, 1, 1, 2⟩ (fun _ => 0) (fun _ => Fv.fin 1) 0 0 0)).2 0
        = Fv.pinf ∧
      voxelF (fun x : ℝ => roundD (Real.exp x)) ⟨1, 1, 1, 2⟩
        (fun k => if k = 0 then Fv.fin (1 / 2 ^ 125) else Fv.fin 0)
        ⟨fun _ => Fv.fin 0, fun _ => 0⟩ (fun _ => Fv.fin 1) 2 0 0 0 (fun _ => 0) = none) ∧
    (∃ q1, mrf1F (fun x : ℝ => roundD (Real.exp x)) ⟨1, 1, 1, 2⟩ (fun _ => 0)
        (fun _ => Fv.fin 7) ⟨fun _ => Fv.fin 0, fun _ => 0⟩
        (fun _ => Fv.fin 1) 2 = some q1 ∧ q1 0 = 127 ∧ q1 1 = 127) ∧
      Int.toNat (Int.floor ((255 : ℝ) * 7 / (7 + 7) + 1 / 2)) = 128 := by
  refine ⟨scale_overflow, round_half_down_7, ?_⟩
  have e : (255 : ℝ) * 7 / (7 + 7) + 1 / 2 = ((128 : Int) : ℝ) := by norm_num
  rw [e, Int.floor_intCast]
  rfl

/-- C13, amended: in every mode, for `K ≤ 1024`, at every voxel update in which the values
`e[k]` are finite and non-negative and their `float` total `se` is finite and at least
`2^-120`: for every class `k` the value that is cast to `unsigned char` is finite, lies in
`[0, 256)` and is within `2^-12` of `255*e[k]/se + 1/2`; the update is defined, and the
stored byte is the integer part of that value and at most 255.  It is the round-half-up `n`
of `255*e[k]/se` whenever `255*e[k]/se + 1/2` is at least `2^-12` above `n` and more than
`2^-12` below `n + 1`. -/
theorem cast_value_in_range {α : Type} [LinearOrderedField α] [FloorRing α] (ex : α → Fv α)
    (dm : Dims) (p : Nat → Fv α) (G : GMem (Fv α)) (w : Nat → Fv α) (code : Nat)
    (h1 : 1 ≤ code) (h5 : code ≤ 5) (hK : dm.d3 ≤ 1024)
    (x : Nat × Nat × Nat) (hx : inGrid dm x) (q : Nat → Nat) (xs : Nat → α) (s : α)
    (he : ∀ k, k < dm.d3 →
      (interactionF ex dm p G code (voxOff dm x.1 x.2.1 x.2.2)
        (influenceF dm q w x.1 x.2.1 x.2.2)).1 k = Fv.fin (xs k) ∧ 0 ≤ xs k)
    (hs : (interactionF ex dm p G code (voxOff dm x.1 x.2.1 x.2.2)
        (influenceF dm q w x.1 x.2.1 x.2.2)).2 = Fv.fin s)
    (hs0 : 1 / 2 ^ 120 ≤ s) :
    ∃ (vals : Nat → α) (q1 : Nat → Nat),
      voxelF ex dm p G w code x.1 x.2.1 x.2.2 q = some q1 ∧
      ∀ k, k < dm.d3 →
        castValue (interactionF ex dm p G code (voxOff dm x.1 x.2.1 x.2.2)
        (influenceF dm q w x.1 x.2.1 x.2.2)).1
          (interactionF ex dm p G code (voxOff dm x.1 x.2.1 x.2.2)
        (influenceF dm q w x.1 x.2.1 x.2.2)).2 k = Fv.fin (vals k) ∧
        0 ≤ vals k ∧ vals k < 256 ∧
        255 * xs k / s + 1 / 2 - 1 / 2 ^ 12 ≤ vals k ∧
        vals k ≤ 255 * xs k / s + 1 / 2 + 1 / 2 ^ 12 ∧
        q1 (voxOff dm x.1 x.2.1 x.2.2 + k * nvox dm) = Int.toNat (Int.floor (vals k)) ∧
        q1 (voxOff dm x.1 x.2.1 x.2.2 + k * nvox dm) ≤ 255 ∧
        ∀ n : Nat, (n : α) + 1 / 2 ^ 12 ≤ 255 * xs k / s + 1 / 2 →
          255 * xs k / s + 1 / 2 + 1 / 2 ^ 12 < (n : α) + 1 →
          q1 (voxOff dm x.1 x.2.1 x.2.2 + k * nvox dm) = n :=
  voxelF_range ex dm p G w code h1 h5 hK x hx q xs s he hs hs0

theorem cast_value_in_range_witness :
    ∃ q1, voxelF (fun x : ℝ => roundD (Real.exp x)) ⟨1, 1, 1, 2⟩ (fun _ => Fv.fin (1 / 2))
        ⟨fun _ => Fv.fin 0, fun _ => 0⟩ (fun _ => Fv.fin 1) 3 0 0 0 (fun _ => 200) = some q1 ∧
      q1 (voxOff ⟨1, 1, 1, 2⟩ 0 0 0 + 1 * nvox ⟨1, 1, 1, 2⟩) ≤ 255 := by
  have hfl : IsFiniteFloat (Fv.fin ((1 / 2) : ℝ)) := by
    have h := isFiniteFloat_dyadic (α := ℝ) 1 (-1) (by norm_num) (by norm_num)
      (by norm_num) (by norm_num)
    have e : (((1 : Nat) : ℝ) * (2 : ℝ) ^ ((-1) : Int)) = 1 / 2 := by norm_num
    rw [e] at h
    exact h
  have hsum : fsumF (fun _ : Nat => (Fv.fin (1 / 2) : Fv ℝ)) 2 = Fv.fin 1 := by
    have h := fsumF_const (α := ℝ) 1 (-1) (by norm_num) (by norm_num) (by norm_num) 2
      (by norm_num)
    have e1 : (((1 : Nat) : ℝ) * (2 : ℝ) ^ ((-1) : Int)) = 1 / 2 := by norm_num
    have e2 : ((((2 * 1 : Nat) : Nat) : ℝ) * (2 : ℝ) ^ ((-1) : Int)) = 1 := by norm_num
    rw [e1, e2] at h
    exact h
  obtain ⟨hI1, hI2⟩ := interactionF_single (fun x : ℝ => roundD (Real.exp x)) exp_model_zero
    2 3 (by decide) (by decide) (fun _ => 200) (fun _ => Fv.fin (1 / 2))
    ⟨fun _ => Fv.fin 0, fun _ => 0⟩ (fun _ => Fv.fin 1) (fun _ _ => hfl) (fun i => ⟨0, rfl⟩)
  obtain ⟨vals, q1, hq, h⟩ := cast_value_in_range (fun x : ℝ => roundD (Real.exp x))
    ⟨1, 1, 1, 2⟩ (fun _ => Fv.fin (1 / 2)) ⟨fun _ => Fv.fin 0, fun _ => 0⟩
    (fun _ => Fv.fin 1) 3 (by decide) (by decide) (by decide) (0, 0, 0) (by decide)
    (fun _ => 200) (fun _ => 1 / 2) 1
    (fun k hk => ⟨hI1 k hk, by norm_num⟩) (hI2.trans hsum) (by norm_num)
  exact ⟨q1, hq, (h 1 (by decide)).2.2.2.2.2.2.1⟩

end SpmMrf
